import Mathlib

/-!
# SLR(1) table construction and table-driven translation

A shallow embedding of `grammar.cpp`, `lexer.cpp`, `parser.cpp` and `main.cpp`.

Conventions of the embedding.

* `std::set<T>` is the strictly increasing list of its elements (the order in
  which the C++ container is iterated); `std::set::insert` is `setInsert`.
* `std::map<K, V>` is the list of its key/value pairs in increasing key order;
  `m[k] = v` is `mapSet`, the default-inserting read `m[k]` is `mapTouch`
  followed by `mapGet`, and `m.find(k)` / `m.count(k)` is `mapFind`.
* `int` and `size_t` values are natural numbers: every counter of the program
  starts at zero and only grows, and the sizes involved are far below `2^31`.
* A `while` loop whose number of iterations is not bounded by the length of a
  list takes a fuel argument and returns `none` when the fuel is used up. The
  same `none` stands for a read outside a vector or from an empty stack, which
  the C++ program leaves undefined. A result obtained with some fuel is the
  result with every larger fuel (`build_mono`, `parse_mono`), so it is the
  result of the program.
* A `char` is a character of the ASCII range, which is all the grammar files
  and source lines of the program contain.
* Console and file output is not part of the state; what a run prints is read
  off the value the embedding returns.
-/

set_option maxRecDepth 100000

namespace SLR

/-! ## common.h -/

/-- Quadruple `(op, arg1, arg2, result)`. -/
structure Quad where
  op : String
  arg1 : String
  arg2 : String
  result : String
deriving DecidableEq, Repr

/-- Grammar rule `lhs -> rhs`. -/
structure Production where
  id : Nat
  lhs : String
  rhs : List String
deriving DecidableEq, Repr

/-- LR(0) item: a production index and a dot position. -/
structure Item where
  prodIndex : Nat
  dotPos : Nat
deriving DecidableEq, Repr

/-- `Item::operator<`. -/
def Item.lt (a b : Item) : Bool :=
  if a.prodIndex ≠ b.prodIndex then decide (a.prodIndex < b.prodIndex)
  else decide (a.dotPos < b.dotPos)

/-- Semantic attribute kept on the symbol stack. -/
structure Attribute where
  place : String
  code : List Quad
deriving DecidableEq, Repr

/-- Entry of the ACTION table: `type` is one of `'s'`, `'r'`, `'a'`. -/
structure Action where
  type : Char
  val : Nat
deriving DecidableEq, Repr

/-- Output unit of the lexer. -/
structure Token where
  type : String
  value : String
deriving DecidableEq, Repr

/-! ## Ordered containers -/

/-- Lexicographic comparison of character sequences, a proper prefix being
smaller. -/
def charsLt : List Char → List Char → Bool
  | _, [] => false
  | [], _ :: _ => true
  | a :: as, b :: bs =>
    if a.toNat < b.toNat then true
    else if b.toNat < a.toNat then false
    else charsLt as bs

/-- `std::less<std::string>`: lexicographic comparison. -/
def strLt (a b : String) : Bool := charsLt a.data b.data

/-- `std::less<int>` on the non-negative values that occur. -/
def natLt (a b : Nat) : Bool := decide (a < b)

/-- `std::set::insert`: the element is put at its place in the order unless it
is already there. -/
def setInsert {α : Type} [DecidableEq α] (lt : α → α → Bool) (x : α) : List α → List α
  | [] => [x]
  | y :: ys =>
    if lt x y then x :: y :: ys
    else if x = y then y :: ys
    else y :: setInsert lt x ys

/-- Insert every element of `xs`, left to right. -/
def setInsertAll {α : Type} [DecidableEq α] (lt : α → α → Bool) (xs : List α) (s : List α) :
    List α :=
  xs.foldl (fun acc x => setInsert lt x acc) s

/-- `std::map::find`. -/
def mapFind {κ ν : Type} [DecidableEq κ] (k : κ) : List (κ × ν) → Option ν
  | [] => none
  | (k', v) :: m => if k = k' then some v else mapFind k m

/-- Assignment `m[k] = v`. -/
def mapSet {κ ν : Type} [DecidableEq κ] (lt : κ → κ → Bool) (k : κ) (v : ν) :
    List (κ × ν) → List (κ × ν)
  | [] => [(k, v)]
  | (k', v') :: m =>
    if lt k k' then (k, v) :: (k', v') :: m
    else if k = k' then (k, v) :: m
    else (k', v') :: mapSet lt k v m

/-- The side effect of evaluating `m[k]`: a missing key is added with the
value-initialised `dflt`. -/
def mapTouch {κ ν : Type} [DecidableEq κ] (lt : κ → κ → Bool) (k : κ) (dflt : ν)
    (m : List (κ × ν)) : List (κ × ν) :=
  match mapFind k m with
  | some _ => m
  | none => mapSet lt k dflt m

/-- The value read by `m[k]`. -/
def mapGet {κ ν : Type} [DecidableEq κ] (k : κ) (dflt : ν) (m : List (κ × ν)) : ν :=
  match mapFind k m with
  | some v => v
  | none => dflt

/-! ## grammar.h -/

/-- State of the LR(0) automaton. -/
structure State where
  id : Nat
  items : List Item
  transitions : List (String × Nat)
deriving DecidableEq, Repr

/-- Data members of `GrammarAnalyzer`. -/
structure GrammarAnalyzer where
  grammar : List Production
  terminals : List String
  nonTerminals : List String
  startSymbol : String
  firstSets : List (String × List String)
  followSets : List (String × List String)
  states : List State
  actionTable : List (Nat × List (String × Action))
  gotoTable : List (Nat × List (String × Nat))
deriving DecidableEq, Repr

/-- A default-constructed analyzer. -/
def GrammarAnalyzer.fresh : GrammarAnalyzer :=
  { grammar := [], terminals := [], nonTerminals := [], startSymbol := "",
    firstSets := [], followSets := [], states := [], actionTable := [], gotoTable := [] }

/-- `GrammarAnalyzer::isTerminal`. -/
def GrammarAnalyzer.isTerminal (G : GrammarAnalyzer) (s : String) : Bool :=
  decide (s ∈ G.terminals)

/-! ## grammar.cpp: loadGrammar -/

/-- `isspace` in the C locale. -/
def isspace (c : Char) : Bool :=
  c.toNat = 32 || (9 ≤ c.toNat && c.toNat ≤ 13)

/-- The words that repeated `ss >> word` extracts: maximal runs of
non-whitespace characters. `cur` is the word being read. -/
def extractWords : List Char → List Char → List String
  | [], cur => if cur = [] then [] else [String.mk cur]
  | c :: cs, cur =>
    if isspace c then
      (if cur = [] then extractWords cs [] else String.mk cur :: extractWords cs [])
    else extractWords cs (cur ++ [c])

/-- One grammar line: `ss >> lhs >> arrow`, then every further word is a
right-hand-side symbol. A failed extraction leaves the string empty. -/
def parseLine (line : String) : String × List String :=
  match extractWords line.data [] with
  | [] => ("", [])
  | [l] => (l, [])
  | l :: _ :: r => (l, r)

/-- First loop of `loadGrammar`: `id` is the local counter. -/
def loadLines : List String → Nat → GrammarAnalyzer → GrammarAnalyzer
  | [], _, G => G
  | line :: rest, id, G =>
    if line = "" then loadLines rest id G
    else
      let lhs := (parseLine line).1
      let rhs := (parseLine line).2
      let G1 := if id = 0 then { G with startSymbol := lhs } else G
      let G2 := { G1 with nonTerminals := setInsert strLt lhs G1.nonTerminals }
      let G3 := { G2 with grammar := G2.grammar ++ [{ id := id, lhs := lhs, rhs := rhs }] }
      loadLines rest (id + 1) G3

/-- Second loop of `loadGrammar`, for one right-hand side. -/
def collectTerminals (nonTerminals : List String) (rhs : List String) (terminals : List String) :
    List String :=
  rhs.foldl (fun acc sym => if sym ∈ nonTerminals then acc else setInsert strLt sym acc) terminals

/-- `GrammarAnalyzer::loadGrammar`; `lines` is what `getline` reads from the file. -/
def loadGrammar (G : GrammarAnalyzer) (lines : List String) : GrammarAnalyzer :=
  let G1 := loadLines lines 0 G
  let ts := G1.grammar.foldl (fun acc prod => collectTerminals G1.nonTerminals prod.rhs acc)
    G1.terminals
  { G1 with terminals := setInsert strLt "#" ts }

/-! ## grammar.cpp: First and Follow -/

/-- Body of the `for` loop of `computeFirst` for one production; the flag is
`changed`. -/
def computeFirstStep (st : GrammarAnalyzer × Bool) (prod : Production) : GrammarAnalyzer × Bool :=
  let G := st.1
  let X := prod.lhs
  let fs0 := mapTouch strLt X [] G.firstSets
  let oldSize := (mapGet X [] fs0).length
  match prod.rhs with
  | [] => ({ G with firstSets := fs0 }, st.2)
  | Y :: _ =>
    let fs1 :=
      if G.isTerminal Y then mapSet strLt X (setInsert strLt Y (mapGet X [] fs0)) fs0
      else
        let fsY := mapTouch strLt Y [] fs0
        mapSet strLt X (setInsertAll strLt (mapGet Y [] fsY) (mapGet X [] fsY)) fsY
    ({ G with firstSets := fs1 }, if (mapGet X [] fs1).length > oldSize then true else st.2)

/-- One execution of the body of `while (changed)` in `computeFirst`. -/
def computeFirstPass (G : GrammarAnalyzer) : GrammarAnalyzer × Bool :=
  G.grammar.foldl computeFirstStep (G, false)

/-- The `while (changed)` loop of `computeFirst`. -/
def computeFirstLoop : Nat → GrammarAnalyzer → Option GrammarAnalyzer
  | 0, _ => none
  | fuel + 1, G =>
    let r := computeFirstPass G
    if r.2 then computeFirstLoop fuel r.1 else some r.1

/-- `GrammarAnalyzer::computeFirst`. -/
def computeFirst (fuel : Nat) (G : GrammarAnalyzer) : Option GrammarAnalyzer :=
  computeFirstLoop fuel G

/-- Inner `for` loop of `computeFollow` over the positions of one right-hand
side: `B :: rest` is the part of the right-hand side from position `i` on. -/
def computeFollowRhs (A : String) : List String → GrammarAnalyzer × Bool → GrammarAnalyzer × Bool
  | [], st => st
  | B :: rest, st =>
    let G := st.1
    if G.isTerminal B then computeFollowRhs A rest st
    else
      let fo0 := mapTouch strLt B [] G.followSets
      let oldSize := (mapGet B [] fo0).length
      let G1 : GrammarAnalyzer :=
        match rest with
        | beta :: _ =>
          if G.isTerminal beta then
            { G with followSets := mapSet strLt B (setInsert strLt beta (mapGet B [] fo0)) fo0 }
          else
            let fi := mapTouch strLt beta [] G.firstSets
            { G with
              firstSets := fi
              followSets := mapSet strLt B (setInsertAll strLt (mapGet beta [] fi) (mapGet B [] fo0)) fo0 }
        | [] =>
          let foA := mapTouch strLt A [] fo0
          { G with
            followSets := mapSet strLt B (setInsertAll strLt (mapGet A [] foA) (mapGet B [] foA)) foA }
      computeFollowRhs A rest
        (G1, if (mapGet B [] G1.followSets).length > oldSize then true else st.2)

/-- One execution of the body of `while (changed)` in `computeFollow`. -/
def computeFollowPass (G : GrammarAnalyzer) : GrammarAnalyzer × Bool :=
  G.grammar.foldl (fun st prod => computeFollowRhs prod.lhs prod.rhs st) (G, false)

/-- The `while (changed)` loop of `computeFollow`. -/
def computeFollowLoop : Nat → GrammarAnalyzer → Option GrammarAnalyzer
  | 0, _ => none
  | fuel + 1, G =>
    let r := computeFollowPass G
    if r.2 then computeFollowLoop fuel r.1 else some r.1

/-- `GrammarAnalyzer::computeFollow`. -/
def computeFollow (fuel : Nat) (G : GrammarAnalyzer) : Option GrammarAnalyzer :=
  let fo := mapTouch strLt G.startSymbol [] G.followSets
  let G1 := { G with
    followSets := mapSet strLt G.startSymbol (setInsert strLt "#" (mapGet G.startSymbol [] fo)) fo }
  computeFollowLoop fuel G1

/-! ## grammar.cpp: closure, goto and the automaton -/

/-- Innermost loop of `closure`: every production with left-hand side `B`
contributes the item with the dot at the start. The pair is
`(newItems, changed)`. -/
def closureExpand (B : String) (grammar : List Production) (st : List Item × Bool) :
    List Item × Bool :=
  grammar.foldl
    (fun acc prod =>
      if prod.lhs = B then
        (if ({ prodIndex := prod.id, dotPos := 0 } : Item) ∈ acc.1 then acc
         else (setInsert Item.lt { prodIndex := prod.id, dotPos := 0 } acc.1, true))
      else acc)
    st

/-- Body of `for (const auto& item : I)` in `closure`. -/
def closureItem (G : GrammarAnalyzer) (st : List Item × Bool) (item : Item) :
    Option (List Item × Bool) :=
  match G.grammar[item.prodIndex]? with
  | none => none
  | some prod =>
    match prod.rhs[item.dotPos]? with
    | none => some st
    | some B => if B ∈ G.nonTerminals then some (closureExpand B G.grammar st) else some st

/-- One execution of the body of `while (changed)` in `closure`. -/
def closurePass (G : GrammarAnalyzer) (I : List Item) : Option (List Item × Bool) :=
  I.foldlM (closureItem G) (I, false)

/-- The `while (changed)` loop of `closure`. -/
def closureLoop (G : GrammarAnalyzer) : Nat → List Item → Option (List Item)
  | 0, _ => none
  | fuel + 1, I =>
    match closurePass G I with
    | none => none
    | some r => if r.2 then closureLoop G fuel r.1 else some r.1

/-- `GrammarAnalyzer::closure`. -/
def closure (G : GrammarAnalyzer) (fuel : Nat) (I : List Item) : Option (List Item) :=
  closureLoop G fuel I

/-- The set `J` of `gotoState`: the items of `I` with the dot before `X`, dot
moved one place to the right. -/
def gotoKernel (G : GrammarAnalyzer) (X : String) : List Item → List Item → Option (List Item)
  | [], J => some J
  | item :: rest, J =>
    match G.grammar[item.prodIndex]? with
    | none => none
    | some prod =>
      match prod.rhs[item.dotPos]? with
      | none => gotoKernel G X rest J
      | some Y =>
        if Y = X then
          gotoKernel G X rest
            (setInsert Item.lt { prodIndex := item.prodIndex, dotPos := item.dotPos + 1 } J)
        else gotoKernel G X rest J

/-- `GrammarAnalyzer::gotoState`. -/
def gotoState (G : GrammarAnalyzer) (fuel : Nat) (I : List Item) (X : String) :
    Option (List Item) :=
  match gotoKernel G X I [] with
  | none => none
  | some J => closure G fuel J

/-- The set `nextSymbols` of `buildDFA`: the symbols right after a dot. -/
def nextSymbols (G : GrammarAnalyzer) : List Item → List String → Option (List String)
  | [], acc => some acc
  | item :: rest, acc =>
    match G.grammar[item.prodIndex]? with
    | none => none
    | some prod =>
      match prod.rhs[item.dotPos]? with
      | none => nextSymbols G rest acc
      | some Y => nextSymbols G rest (setInsert strLt Y acc)

/-- The search loop of `buildDFA`: index of the first state, from position `i`
on, whose item set equals `items`. -/
def findState (items : List Item) : List State → Nat → Option Nat
  | [], _ => none
  | S :: rest, i => if S.items = items then some i else findState items rest (i + 1)

/-- `states[processed].transitions[X] = target`. -/
def setTransition (states : List State) (processed : Nat) (X : String) (target : Nat) :
    List State :=
  states.modify (fun S => { S with transitions := mapSet strLt X target S.transitions }) processed

/-- Body of `for (const auto& X : nextSymbols)` in `buildDFA`. -/
def buildDFASymbol (G : GrammarAnalyzer) (fuel : Nat) (processed : Nat) (states : List State)
    (X : String) : Option (List State) :=
  match states[processed]? with
  | none => none
  | some S =>
    match gotoState G fuel S.items X with
    | none => none
    | some nextItemSet =>
      if nextItemSet = [] then some states
      else
        match findState nextItemSet states 0 with
        | some existing => some (setTransition states processed X existing)
        | none =>
          some (setTransition
            (states ++ [{ id := states.length, items := nextItemSet, transitions := [] }])
            processed X states.length)

/-- The `while (processed < states.size())` loop of `buildDFA`. -/
def buildDFALoop (G : GrammarAnalyzer) (fuel : Nat) : Nat → Nat → List State → Option (List State)
  | 0, _, _ => none
  | n + 1, processed, states =>
    match states[processed]? with
    | none => some states
    | some S =>
      match nextSymbols G S.items [] with
      | none => none
      | some syms =>
        match syms.foldlM (buildDFASymbol G fuel processed) states with
        | none => none
        | some states1 => buildDFALoop G fuel n (processed + 1) states1

/-- `GrammarAnalyzer::buildDFA`. -/
def buildDFA (fuel : Nat) (G : GrammarAnalyzer) : Option GrammarAnalyzer :=
  match closure G fuel [{ prodIndex := 0, dotPos := 0 }] with
  | none => none
  | some startSet =>
    match buildDFALoop G fuel fuel 0
        (G.states ++ [{ id := 0, items := startSet, transitions := [] }]) with
    | none => none
    | some states => some { G with states := states }

/-! ## grammar.cpp: the SLR(1) table -/

/-- The `for` loop over `S.transitions` in `buildSLRTable` for state `i`. The
flag is `false` when the loop left the function through `return false`. -/
def tableShifts (i : Nat) : List (String × Nat) → GrammarAnalyzer → GrammarAnalyzer × Bool
  | [], G => (G, true)
  | (symbol, target) :: rest, G =>
    if G.isTerminal symbol then
      let at0 := mapTouch natLt i [] G.actionTable
      match mapFind symbol (mapGet i [] at0) with
      | some _ => ({ G with actionTable := at0 }, false)
      | none =>
        tableShifts i rest
          { G with actionTable :=
              mapSet natLt i (mapSet strLt symbol { type := 's', val := target } (mapGet i [] at0)) at0 }
    else
      let gt0 := mapTouch natLt i [] G.gotoTable
      tableShifts i rest
        { G with gotoTable := mapSet natLt i (mapSet strLt symbol target (mapGet i [] gt0)) gt0 }

/-- The `for` loop over `followSets[A]` in `buildSLRTable` for the completed
item of production `p` in state `i`. -/
def tableReduce (i : Nat) (p : Nat) : List String → GrammarAnalyzer → GrammarAnalyzer × Bool
  | [], G => (G, true)
  | a :: rest, G =>
    let at0 := mapTouch natLt i [] G.actionTable
    let row := mapGet i [] at0
    let conflict : Bool :=
      match mapFind a row with
      | some act =>
        if act.type = 's' then true
        else if act.type = 'r' ∧ act.val ≠ p then true
        else false
      | none => false
    if conflict then ({ G with actionTable := at0 }, false)
    else
      tableReduce i p rest
        { G with actionTable := mapSet natLt i (mapSet strLt a { type := 'r', val := p } row) at0 }

/-- The `for` loop over `S.items` in `buildSLRTable` for state `i`. -/
def tableItems (i : Nat) : List Item → GrammarAnalyzer → Option (GrammarAnalyzer × Bool)
  | [], G => some (G, true)
  | item :: rest, G =>
    match G.grammar[item.prodIndex]? with
    | none => none
    | some prod =>
      if item.dotPos = prod.rhs.length then
        if prod.lhs = G.startSymbol then
          let at0 := mapTouch natLt i [] G.actionTable
          tableItems i rest
            { G with actionTable :=
                mapSet natLt i (mapSet strLt "#" { type := 'a', val := 0 } (mapGet i [] at0)) at0 }
        else
          let fo := mapTouch strLt prod.lhs [] G.followSets
          let r := tableReduce i item.prodIndex (mapGet prod.lhs [] fo) { G with followSets := fo }
          if r.2 then tableItems i rest r.1 else some r
      else tableItems i rest G

/-- The outer `for` loop of `buildSLRTable`; `i` is the index of the first
state of the list. -/
def tableStates : Nat → List State → GrammarAnalyzer → Option (GrammarAnalyzer × Bool)
  | _, [], G => some (G, true)
  | i, S :: rest, G =>
    let r := tableShifts i S.transitions G
    if r.2 then
      match tableItems i S.items r.1 with
      | none => none
      | some r1 => if r1.2 then tableStates (i + 1) rest r1.1 else some r1
    else some r

/-- Column headers of the printed table: the terminals, then the
non-terminals that have a GOTO entry. -/
def tableHeaders (G : GrammarAnalyzer) : List String :=
  let gotoCols : List String :=
    G.gotoTable.foldl
      (fun acc stateRow => stateRow.2.foldl (fun acc1 entry => setInsert strLt entry.1 acc1) acc) []
  G.terminals ++ G.nonTerminals.filter (fun nt => decide (nt ∈ gotoCols))

/-- What printing the table leaves behind: `actionTable[s]` and `gotoTable[s]`
are evaluated for every state and header, which adds the missing rows. -/
def printTable (G : GrammarAnalyzer) : GrammarAnalyzer :=
  let headers := tableHeaders G
  G.states.foldl
    (fun G1 state =>
      headers.foldl
        (fun G2 h =>
          if h ∈ G2.terminals then { G2 with actionTable := mapTouch natLt state.id [] G2.actionTable }
          else { G2 with gotoTable := mapTouch natLt state.id [] G2.gotoTable })
        G1)
    G

/-- `GrammarAnalyzer::buildSLRTable`: the analyzer afterwards and the returned
value. -/
def buildSLRTable (G : GrammarAnalyzer) : Option (GrammarAnalyzer × Bool) :=
  match tableStates 0 G.states G with
  | none => none
  | some r => if r.2 then some (printTable r.1, true) else some r

/-- `GrammarAnalyzer::build`. -/
def build (fuel : Nat) (G : GrammarAnalyzer) : Option (GrammarAnalyzer × Bool) :=
  match computeFirst fuel G with
  | none => none
  | some G1 =>
    match computeFollow fuel G1 with
    | none => none
    | some G2 =>
      match buildDFA fuel G2 with
      | none => none
      | some G3 => buildSLRTable G3

/-! ## lexer.cpp -/

/-- `isdigit` in the C locale. -/
def isdigit (c : Char) : Bool := 48 ≤ c.toNat && c.toNat ≤ 57

/-- `isalpha` in the C locale. -/
def isalpha (c : Char) : Bool :=
  (65 ≤ c.toNat && c.toNat ≤ 90) || (97 ≤ c.toNat && c.toNat ≤ 122)

/-- `isalnum` in the C locale. -/
def isalnum (c : Char) : Bool := isalpha c || isdigit c

/-- The loop that reads a word: the characters read and the rest of the input. -/
def lexWord : List Char → List Char → List Char × List Char
  | [], s => (s, [])
  | c :: cs, s => if isalnum c || c = '_' then lexWord cs (s ++ [c]) else (s, c :: cs)

/-- The loop that reads the digits of a number, with at most one dot. -/
def lexNumber : List Char → List Char → Bool → List Char × List Char
  | [], s, _ => (s, [])
  | c :: cs, s, hasDot =>
    if isdigit c || c = '.' then
      if c = '.' then
        (if hasDot then (s, c :: cs) else lexNumber cs (s ++ [c]) true)
      else lexNumber cs (s ++ [c]) hasDot
    else (s, c :: cs)

/-- The keyword test on a word that has been read. -/
def wordToken (s : String) : Token :=
  if s = "while" then { type := "while", value := "while" }
  else if s = "if" then { type := "if", value := "if" }
  else if s = "else" then { type := "else", value := "else" }
  else if s = "int" then { type := "int", value := "int" }
  else if s = "float" then { type := "float", value := "float" }
  else if s = "return" then { type := "return", value := "return" }
  else { type := "id", value := s }

/-- The test whether a leading `+` or `-` is the sign of a number, from the
type of the last token. -/
def signContext (tokens : List Token) : Bool :=
  match tokens.getLast? with
  | none => true
  | some last =>
    if last.type = "id" ∨ last.type = "num" ∨ last.type = ")" ∨ last.type = "\x7d" then false
    else true

/-- The main loop of `Lexer::tokenize`; the first list is the input from
position `pos` on. Each round consumes a character, so the length of the input
plus one is enough fuel. -/
def tokenizeLoop : Nat → List Char → List Token → Option (List Token)
  | 0, _, _ => none
  | fuel + 1, input, tokens =>
    match input.dropWhile isspace with
    | [] => some tokens
    | c :: cs =>
      if isalpha c || c = '_' then
        let r := lexWord (c :: cs) []
        tokenizeLoop fuel r.2 (tokens ++ [wordToken (String.mk r.1)])
      else if isdigit c || ((c = '+' || c = '-') && (match cs with
          | [] => false
          | d :: _ => isdigit d)) then
        let isSign : Bool := if c = '+' ∨ c = '-' then signContext tokens else false
        if isSign || isdigit c then
          let r := if isSign then lexNumber cs [c] false else lexNumber (c :: cs) [] false
          tokenizeLoop fuel r.2 (tokens ++ [{ type := "num", value := String.mk r.1 }])
        else
          tokenizeLoop fuel cs (tokens ++ [{ type := String.mk [c], value := String.mk [c] }])
      else
        match cs with
        | [] => tokenizeLoop fuel [] (tokens ++ [{ type := String.mk [c], value := String.mk [c] }])
        | next :: cs1 =>
          if (c = '>' ∨ c = '<' ∨ c = '=' ∨ c = '!') ∧ next = '=' then
            tokenizeLoop fuel cs1
              (tokens ++ [{ type := String.mk [c, next], value := String.mk [c, next] }])
          else
            tokenizeLoop fuel (next :: cs1)
              (tokens ++ [{ type := String.mk [c], value := String.mk [c] }])

/-- `Lexer::tokenize` on a lexer constructed from `input`. -/
def tokenize (input : String) : Option (List Token) :=
  match tokenizeLoop (input.data.length + 1) input.data [] with
  | none => none
  | some tokens => some (tokens ++ [{ type := "#", value := "#" }])

/-! ## parser.cpp -/

/-- Data members of `Parser`; the analyzer is held by reference, so a parse
hands it back. The two `int` counters are held as natural numbers below 2^32,
the two's-complement bit patterns of their values. -/
structure Parser where
  G : GrammarAnalyzer
  tempCount : Nat
  labelCount : Nat
deriving DecidableEq, Repr

/-- `Parser::Parser`. -/
def Parser.new (G : GrammarAnalyzer) : Parser := { G := G, tempCount := 0, labelCount := 0 }

/-- The increment `++count` of an `int` counter with 32 bits: from `INT_MAX` =
2147483647 it overflows, and the result is the bit pattern of `INT_MIN`. -/
def intIncr (n : Nat) : Nat := (n + 1) % 4294967296

/-- `std::to_string` of the `int` with bit pattern `n`: a pattern from 2^31 on
stands for the negative value `n - 2^32`. -/
def intToString (n : Nat) : String :=
  if n < 2147483648 then toString n else "-" ++ toString (4294967296 - n)

/-- `Parser::newTemp`: `"T" + to_string(++tempCount)`. -/
def Parser.newTemp (P : Parser) : String × Parser :=
  ("T" ++ intToString (intIncr P.tempCount), { P with tempCount := intIncr P.tempCount })

/-- `Parser::newLabel`: `"L" + to_string(++labelCount)`. -/
def Parser.newLabel (P : Parser) : String × Parser :=
  ("L" ++ intToString (intIncr P.labelCount), { P with labelCount := intIncr P.labelCount })

/-- Local variables of `parse` that live across iterations: both stacks (top
first) and the token pointer. -/
structure Config where
  stateStack : List Nat
  symbolStack : List Attribute
  ip : Nat
deriving DecidableEq, Repr

/-- How a call of `parse` ends. -/
inductive ParseResult where
  | accept (res : Attribute) (cfg : Config)
  | error (val : String) (cfg : Config)
deriving DecidableEq, Repr

/-- One iteration of the driver loop. -/
inductive Step where
  | next (P : Parser) (cfg : Config)
  | done (P : Parser) (r : ParseResult)
deriving DecidableEq, Repr

/-- The semantic action of a reduction by `prod`; `rhsAttrs` are the popped
attributes in left-to-right order. -/
def semanticAction (P : Parser) (prod : Production) (rhsAttrs : List Attribute) :
    Option (Attribute × Parser) :=
  if prod.rhs.length = 7 ∧ prod.rhs[0]? = some "while" then
    match rhsAttrs[2]?, rhsAttrs[5]? with
    | some C, some S1 =>
      let l1 := P.newLabel
      let l2 := l1.2.newLabel
      let startLabel := l1.1
      let exitLabel := l2.1
      some ({ place := "",
              code := [{ op := "label", arg1 := "-", arg2 := "-", result := startLabel }] ++ C.code
                ++ [{ op := "jfalse", arg1 := C.place, arg2 := "-", result := exitLabel }] ++ S1.code
                ++ [{ op := "jump", arg1 := "-", arg2 := "-", result := startLabel }]
                ++ [{ op := "label", arg1 := "-", arg2 := "-", result := exitLabel }] }, l2.2)
    | _, _ => none
  else if prod.rhs.length = 3 ∧ prod.rhs[1]? = some "=" then
    match rhsAttrs[0]?, rhsAttrs[2]? with
    | some id, some E =>
      some ({ place := "",
              code := E.code ++ [{ op := "=", arg1 := E.place, arg2 := "-", result := id.place }] }, P)
    | _, _ => none
  else if prod.rhs.length = 3 ∧ prod.rhs[1]? = some ">" then
    match rhsAttrs[0]?, rhsAttrs[2]? with
    | some E1, some E2 =>
      let t := P.newTemp
      some ({ place := t.1,
              code := E1.code ++ E2.code
                ++ [{ op := ">", arg1 := E1.place, arg2 := E2.place, result := t.1 }] }, t.2)
    | _, _ => none
  else if prod.rhs.length = 3 ∧ prod.rhs[1]? = some "<" then
    match rhsAttrs[0]?, rhsAttrs[2]? with
    | some E1, some E2 =>
      let t := P.newTemp
      some ({ place := t.1,
              code := E1.code ++ E2.code
                ++ [{ op := "<", arg1 := E1.place, arg2 := E2.place, result := t.1 }] }, t.2)
    | _, _ => none
  else if prod.rhs.length = 3 ∧ prod.rhs[1]? = some "==" then
    match rhsAttrs[0]?, rhsAttrs[2]? with
    | some E1, some E2 =>
      let t := P.newTemp
      some ({ place := t.1,
              code := E1.code ++ E2.code
                ++ [{ op := "==", arg1 := E1.place, arg2 := E2.place, result := t.1 }] }, t.2)
    | _, _ => none
  else if prod.rhs.length = 3 ∧ prod.rhs[1]? = some "+" then
    match rhsAttrs[0]?, rhsAttrs[2]? with
    | some op1, some E2 =>
      let t := P.newTemp
      some ({ place := t.1,
              code := E2.code
                ++ [{ op := "+", arg1 := op1.place, arg2 := E2.place, result := t.1 }] }, t.2)
    | _, _ => none
  else if prod.rhs.length = 1 ∧ prod.rhs[0]? = some "id" then
    match rhsAttrs[0]? with
    | some a => some ({ place := a.place, code := [] }, P)
    | none => none
  else if prod.rhs.length = 1 ∧ prod.rhs[0]? = some "num" then
    match rhsAttrs[0]? with
    | some a => some ({ place := a.place, code := [] }, P)
    | none => none
  else some ({ place := "", code := [] }, P)

/-- Body of `while (true)` in `Parser::parse`. The result is `none` where the
C++ program reads past the tokens, pops an empty stack or indexes the grammar
out of range, and for an action type other than `'s'`, `'r'`, `'a'`, on which
the loop would spin without change. -/
def parseStep (tokens : List Token) (P : Parser) (cfg : Config) : Option Step :=
  match cfg.stateStack, tokens[cfg.ip]? with
  | s :: _, some tok =>
    let a := tok.type
    let val := tok.value
    let at0 := mapTouch natLt s [] P.G.actionTable
    let P0 : Parser := { P with G := { P.G with actionTable := at0 } }
    match mapFind a (mapGet s [] at0) with
    | none => some (Step.done P0 (ParseResult.error val cfg))
    | some act =>
      if act.type = 's' then
        some (Step.next P0
          { stateStack := act.val :: cfg.stateStack,
            symbolStack := { place := val, code := [] } :: cfg.symbolStack,
            ip := cfg.ip + 1 })
      else if act.type = 'r' then
        match P0.G.grammar[act.val]? with
        | none => none
        | some prod =>
          let len := prod.rhs.length
          if cfg.stateStack.length < len ∨ cfg.symbolStack.length < len then none
          else
            let rhsAttrs := (cfg.symbolStack.take len).reverse
            match cfg.stateStack.drop len with
            | [] => none
            | t :: below =>
              let gt0 := mapTouch natLt t [] P0.G.gotoTable
              let row := mapTouch strLt prod.lhs 0 (mapGet t [] gt0)
              let P1 : Parser := { P0 with G := { P0.G with gotoTable := mapSet natLt t row gt0 } }
              match semanticAction P1 prod rhsAttrs with
              | none => none
              | some r =>
                some (Step.next r.2
                  { stateStack := mapGet prod.lhs 0 row :: t :: below,
                    symbolStack := r.1 :: cfg.symbolStack.drop len,
                    ip := cfg.ip })
      else if act.type = 'a' then
        match cfg.symbolStack with
        | [] => none
        | res :: _ => some (Step.done P0 (ParseResult.accept res cfg))
      else none
  | _, _ => none

/-- The driver loop of `Parser::parse`. -/
def parseLoop (tokens : List Token) : Nat → Parser → Config → Option (Parser × ParseResult)
  | 0, _, _ => none
  | fuel + 1, P, cfg =>
    match parseStep tokens P cfg with
    | none => none
    | some (Step.done P1 r) => some (P1, r)
    | some (Step.next P1 cfg1) => parseLoop tokens fuel P1 cfg1

/-- The configuration `parse` starts from. -/
def Config.initial : Config := { stateStack := [0], symbolStack := [], ip := 0 }

/-- `Parser::parse`: the parser (with the analyzer it refers to) afterwards and
how the parse ended. -/
def parse (fuel : Nat) (P : Parser) (input : String) : Option (Parser × ParseResult) :=
  match tokenize input with
  | none => none
  | some tokens => parseLoop tokens fuel P Config.initial

/-! ## main.cpp -/

/-- How `main` ends: with status 1 before any parser exists, or with status 0
after the parse. -/
inductive MainResult where
  | notSLR (G : GrammarAnalyzer)
  | parsed (P : Parser) (r : ParseResult)
deriving DecidableEq, Repr

/-- The source line compiled into `main`. -/
def srcLine : String := "while ( a > b ) \x7b x = y \x7d"

/-- The function `main`; `testfile` holds the lines of `testfile.txt`. -/
def main (fuel : Nat) (testfile : List String) : Option MainResult :=
  let G := loadGrammar GrammarAnalyzer.fresh testfile
  match build fuel G with
  | none => none
  | some (G1, false) => some (MainResult.notSLR G1)
  | some (G1, true) =>
    match parse fuel (Parser.new G1) srcLine with
    | none => none
    | some (P, r) => some (MainResult.parsed P r)

/-! ## Reading results off a run -/

/-- What a call of `loadGrammar` can do. The function is `void` and holds no
`throw`, no exit and no status flag: every call runs to its end. -/
inductive LoadOutcome where
  | completed (G : GrammarAnalyzer)
  | loadError
deriving DecidableEq, Repr

/-- The outcome of `loadGrammar`: it always completes. -/
def loadGrammarOutcome (G : GrammarAnalyzer) (lines : List String) : LoadOutcome :=
  LoadOutcome.completed (loadGrammar G lines)

/-- The production list a grammar source denotes: one pair per non-empty line. -/
def productionsOf (lines : List String) : List (String × List String) :=
  (lines.filter (fun line => line ≠ "")).map parseLine

/-- `loadGrammar` on a fresh analyzer followed by `build`. -/
def analyze (fuel : Nat) (lines : List String) : Option (GrammarAnalyzer × Bool) :=
  build fuel (loadGrammar GrammarAnalyzer.fresh lines)

/-- A successful `analyze` followed by `parse` on a fresh parser. -/
def translate (fuel : Nat) (lines : List String) (input : String) :
    Option (Parser × ParseResult) :=
  match analyze fuel lines with
  | some (G, true) => parse fuel (Parser.new G) input
  | _ => none

/-- An item is valid: the production exists and the dot is inside or at the
end of its right-hand side. -/
def validItem (G : GrammarAnalyzer) (item : Item) : Prop :=
  ∃ prod, G.grammar[item.prodIndex]? = some prod ∧ item.dotPos ≤ prod.rhs.length

/-- The item has the dot at the end of a production whose left-hand side
satisfies `q`. -/
def completedWith (G : GrammarAnalyzer) (q : String → Bool) (item : Item) : Bool :=
  match G.grammar[item.prodIndex]? with
  | some prod => decide (item.dotPos = prod.rhs.length) && q prod.lhs
  | none => false

/-- The actions the construction rules of the SLR(1) table ask for in state
`S` on symbol `a`: the shift of a transition, the reduction of every
completed item whose left-hand side is not the start symbol and has `a` in its
Follow set, and the accept of a completed item of the start symbol on `#`. -/
def requiredActions (G : GrammarAnalyzer) (S : State) (a : String) : List Action :=
  (match mapFind a S.transitions with
    | some target => [{ type := 's', val := target }]
    | none => [])
  ++ (S.items.filter (fun item =>
        completedWith G
          (fun lhs => decide (lhs ≠ G.startSymbol) && decide (a ∈ mapGet lhs [] G.followSets))
          item)).map (fun item => ({ type := 'r', val := item.prodIndex } : Action))
  ++ (if a = "#" ∧ S.items.any (completedWith G (fun lhs => decide (lhs = G.startSymbol))) then
        [{ type := 'a', val := 0 }]
      else [])

/-- The productions `loadGrammar` stores for a production list, numbered from
`id` on. -/
def numberFrom : Nat → List (String × List String) → List Production
  | _, [] => []
  | id, pr :: rest => { id := id, lhs := pr.1, rhs := pr.2 } :: numberFrom (id + 1) rest

/-- Production ids are the positions in the production list, as `loadGrammar`
on a fresh analyzer leaves them. -/
def idsDense (G : GrammarAnalyzer) : Prop :=
  ∀ (i : Nat) (prod : Production), G.grammar[i]? = some prod → prod.id = i

/-- Every production a dot of `item` stands before is present in `J` with the
dot at the start. -/
def expandedIn (G : GrammarAnalyzer) (item : Item) (J : List Item) : Prop :=
  ∀ (prod : Production) (B : String),
    G.grammar[item.prodIndex]? = some prod → prod.rhs[item.dotPos]? = some B →
    B ∈ G.nonTerminals →
    ∀ p ∈ G.grammar, p.lhs = B → ({ prodIndex := p.id, dotPos := 0 } : Item) ∈ J

/-- The item set is closed under the closure rule. -/
def closedItems (G : GrammarAnalyzer) (J : List Item) : Prop :=
  ∀ item ∈ J, expandedIn G item J

/-- The item list is strictly increasing in `Item::operator<`, as the
elements of a `std::set<Item>` are. -/
def itemsSorted (J : List Item) : Prop :=
  J.Pairwise (fun a b => Item.lt a b = true)

/-- Number of productions whose initial item is not in `I`: the iterations of
the closure loop that can still add an item. -/
def closureSlack (G : GrammarAnalyzer) (I : List Item) : Nat :=
  G.grammar.countP (fun p => decide (({ prodIndex := p.id, dotPos := 0 } : Item) ∉ I))

/-- Invariant of the state list of `buildDFA`: the id of a state is its
position, no two states have the same item set, and every item set is a
sorted set of valid items. -/
def statesInv (G : GrammarAnalyzer) (states : List State) : Prop :=
  states.map State.id = List.range states.length ∧
  (states.map State.items).Nodup ∧
  ∀ I ∈ states.map State.items, itemsSorted I ∧ ∀ x ∈ I, validItem G x

/-- The longest right-hand side of the grammar. -/
def maxRhs (G : GrammarAnalyzer) : Nat :=
  (G.grammar.map (fun p => p.rhs.length)).foldr max 0

/-- A bound on the number of states of the automaton: the number of sets of
pairs `(p, d)` with `p` below the number of productions and `d` at most the
longest right-hand side. -/
def statesBound (G : GrammarAnalyzer) : Nat :=
  2 ^ (G.grammar.length * (maxRhs G + 1))

/-- A grammar with the additive production. -/
def plusGrammar : List String := ["S' -> S", "S -> id = E", "E -> id + E", "E -> id"]

/-- The analyzer after a successful `analyze` of `lines` with fuel 100 (the
fresh analyzer when there is none). -/
def analyzerOf (lines : List String) : GrammarAnalyzer :=
  ((analyze 100 lines).map Prod.fst).getD GrammarAnalyzer.fresh

/-- The parser a step leaves behind. -/
def Step.parser : Step → Parser
  | Step.next P _ => P
  | Step.done P _ => P

/-- The names returned by `k` calls of `newTemp` in a row, and the parser
afterwards. -/
def callTemps : Nat → Parser → List String × Parser
  | 0, P => ([], P)
  | k + 1, P => ((P.newTemp).1 :: (callTemps k (P.newTemp).2).1, (callTemps k (P.newTemp).2).2)

/-- The names returned by `k` calls of `newLabel` in a row, and the parser
afterwards. -/
def callLabels : Nat → Parser → List String × Parser
  | 0, P => ([], P)
  | k + 1, P =>
    ((P.newLabel).1 :: (callLabels k (P.newLabel).2).1, (callLabels k (P.newLabel).2).2)

/-- The parser after the evaluation of `G.actionTable[s]`. -/
def Parser.touchAction (P : Parser) (s : Nat) : Parser :=
  { P with G := { P.G with actionTable := mapTouch natLt s [] P.G.actionTable } }

/-- The parser after the evaluation of `G.gotoTable[t][lhs]`. -/
def Parser.touchGoto (P : Parser) (t : Nat) (lhs : String) : Parser :=
  let gt0 := mapTouch natLt t [] P.G.gotoTable
  let row := mapTouch strLt lhs 0 (mapGet t [] gt0)
  { P with G := { P.G with gotoTable := mapSet natLt t row gt0 } }

/-- The state `G.gotoTable[t][lhs]` evaluates to: the entry, or 0 when there
is none. -/
def gotoValue (G : GrammarAnalyzer) (t : Nat) (lhs : String) : Nat :=
  mapGet lhs 0 (mapGet t [] G.gotoTable)

/-- The closure rule for a set of items given by its membership predicate:
whenever an item of the set has its dot before a non-terminal `B`, the set
holds `(p, 0)` for every production `p` with left-hand side `B`. -/
def closedUnderRule (G : GrammarAnalyzer) (K : Item → Prop) : Prop :=
  ∀ (q d : Nat) (prod : Production) (B : String),
    K { prodIndex := q, dotPos := d } → G.grammar[q]? = some prod → prod.rhs[d]? = some B →
    B ∈ G.nonTerminals →
    ∀ (p : Nat) (pp : Production), G.grammar[p]? = some pp → pp.lhs = B →
      K { prodIndex := p, dotPos := 0 }

/-- The set read by `firstSets[A]`. -/
def firstOf (G : GrammarAnalyzer) (A : String) : List String := mapGet A [] G.firstSets

/-- The set read by `followSets[A]`. -/
def followOf (G : GrammarAnalyzer) (A : String) : List String := mapGet A [] G.followSets

/-- The part of an analyzer that `computeFirst` reads: the productions, the
terminals, the start symbol, and the value of every First set. -/
def sameFirst (G H : GrammarAnalyzer) : Prop :=
  G.grammar = H.grammar ∧ G.terminals = H.terminals ∧ G.startSymbol = H.startSymbol ∧
    ∀ A, firstOf G A = firstOf H A

/-- The part of an analyzer that `computeFirst` and `computeFollow` read: the
productions, the terminals, the start symbol, and the value of every First and
Follow set. -/
def sameSets (G H : GrammarAnalyzer) : Prop :=
  G.grammar = H.grammar ∧ G.terminals = H.terminals ∧ G.startSymbol = H.startSymbol ∧
    (∀ A, firstOf G A = firstOf H A) ∧ (∀ A, followOf G A = followOf H A)

/-- The set that the body of the inner loop of `computeFollow` assigns to
`followSets[B]` for the position holding the non-terminal `B`, `rest` being the
symbols after it and `A` the left-hand side. -/
def followTarget (G : GrammarAnalyzer) (A B : String) (rest : List String) : List String :=
  match rest with
  | beta :: _ =>
    if G.isTerminal beta then setInsert strLt beta (followOf G B)
    else setInsertAll strLt (firstOf G beta) (followOf G B)
  | [] => setInsertAll strLt (followOf G A) (followOf G B)

/-- Every Follow set is in increasing order. -/
def followSorted (G : GrammarAnalyzer) : Prop :=
  ∀ A, (followOf G A).Pairwise (fun a b => strLt a b = true)

/-- The symbol right after the dot of `item` is `X`. -/
def dotBefore (G : GrammarAnalyzer) (item : Item) (X : String) : Prop :=
  ∃ prod, G.grammar[item.prodIndex]? = some prod ∧ prod.rhs[item.dotPos]? = some X

/-- The state at position `j` has the item set `J`. -/
def itemsAt (states : List State) (j : Nat) (J : List Item) : Prop :=
  (states.map State.items)[j]? = some J

/-- Every recorded transition leads to the state holding the non-empty goto
set. -/
def transitionsSound (G : GrammarAnalyzer) (fuel : Nat) (states : List State) : Prop :=
  ∀ (i : Nat) (S : State), states[i]? = some S → ∀ (X : String) (j : Nat),
    (X, j) ∈ S.transitions →
      ∃ J, gotoState G fuel S.items X = some J ∧ J ≠ [] ∧ itemsAt states j J

/-- The state at position `i` has been processed for `X`: `gotoState` returned
when an item has the dot before `X`, and the state has a transition on `X` when
its goto set on `X` is not empty. -/
def transitionComplete (G : GrammarAnalyzer) (fuel : Nat) (states : List State) (i : Nat)
    (X : String) : Prop :=
  ∀ S : State, states[i]? = some S →
    ((∃ item ∈ S.items, dotBefore G item X) → ∃ J, gotoState G fuel S.items X = some J) ∧
    ∀ J : List Item, gotoState G fuel S.items X = some J →
      J ≠ [] → ∃ j, mapFind X S.transitions = some j ∧ itemsAt states j J

/-- Invariant of the loops of `buildDFA` while the state at position `p` is
being processed and the symbols of `done` have been handled. -/
def dfaInv (G : GrammarAnalyzer) (fuel : Nat) (p : Nat) (done : List String)
    (states : List State) : Prop :=
  transitionsSound G fuel states ∧
  (∀ i, i < p → ∀ X, transitionComplete G fuel states i X) ∧
  (∀ X ∈ done, transitionComplete G fuel states p X) ∧
  (∀ (i : Nat) (S : State), states[i]? = some S → p < i → S.transitions = [])

/-- The item `x`, which has the dot at the start, is in `items` by the closure
rule: an item of `items` has the dot before the left-hand side of its
production. -/
def justified (G : GrammarAnalyzer) (x : Item) (items : List Item) : Prop :=
  ∃ item ∈ items, ∃ pp, G.grammar[x.prodIndex]? = some pp ∧ dotBefore G item pp.lhs

/-- Shape of the states of the automaton: state 0 holds items with the dot at
the start only; the items of a transition target with the dot further right
come from the source state, the others from the closure rule; a state has a
transition on every symbol one of its items has the dot before; and every item
is valid. -/
def lrStates (G : GrammarAnalyzer) : Prop :=
  (∀ S0 : State, G.states[0]? = some S0 → ∀ x ∈ S0.items,
    x.dotPos = 0 ∧ (x.prodIndex = 0 ∨ justified G x S0.items)) ∧
  (∀ (i : Nat) (S : State) (X : String) (j : Nat), G.states[i]? = some S →
    (X, j) ∈ S.transitions →
    ∃ Sj, G.states[j]? = some Sj ∧ (∃ x ∈ Sj.items, 0 < x.dotPos) ∧
      ∀ x ∈ Sj.items,
        (0 < x.dotPos ∧ ({ prodIndex := x.prodIndex, dotPos := x.dotPos - 1 } : Item) ∈ S.items ∧
          dotBefore G { prodIndex := x.prodIndex, dotPos := x.dotPos - 1 } X) ∨
        (x.dotPos = 0 ∧ justified G x Sj.items)) ∧
  (∀ (i : Nat) (S : State) (item : Item) (X : String), G.states[i]? = some S →
    item ∈ S.items → dotBefore G item X → ∃ j, mapFind X S.transitions = some j) ∧
  (∀ (i : Nat) (S : State), G.states[i]? = some S → ∀ x ∈ S.items, validItem G x)

/-- The part of an analyzer the table construction reads: the productions, the
states, the symbol sets, the start symbol and the value of every Follow set. -/
def sameBase (G H : GrammarAnalyzer) : Prop :=
  G.grammar = H.grammar ∧ G.states = H.states ∧ G.terminals = H.terminals ∧
    G.nonTerminals = H.nonTerminals ∧ G.startSymbol = H.startSymbol ∧
    ∀ A, followOf G A = followOf H A

/-- The entry `act` of `ACTION[i][a]` is one the construction rules ask for: the
shift of a transition of state `i` on a terminal, the reduction by a production whose
completed item is in state `i`, whose left-hand side is not the start symbol and
has `a` in its Follow set, or Accept on `#` for a completed item of the start
symbol. -/
def justifiedAction (G : GrammarAnalyzer) (i : Nat) (a : String) (act : Action) : Prop :=
  ∃ S, G.states[i]? = some S ∧
    ((act.type = 's' ∧ G.isTerminal a = true ∧ (a, act.val) ∈ S.transitions) ∨
     (act.type = 'r' ∧ ∃ prod, G.grammar[act.val]? = some prod ∧
        ({ prodIndex := act.val, dotPos := prod.rhs.length } : Item) ∈ S.items ∧
        prod.lhs ≠ G.startSymbol ∧ a ∈ followOf G prod.lhs) ∨
     (act.type = 'a' ∧ a = "#" ∧ ∃ item ∈ S.items, ∃ prod,
        G.grammar[item.prodIndex]? = some prod ∧ item.dotPos = prod.rhs.length ∧
        prod.lhs = G.startSymbol))

/-- Every entry of the ACTION table `tbl` is justified. -/
def actionSound (G : GrammarAnalyzer) (tbl : List (Nat × List (String × Action))) : Prop :=
  ∀ (i : Nat) (a : String) (act : Action),
    mapFind a (mapGet i [] tbl) = some act → justifiedAction G i a act

/-- Every entry of the GOTO table `tbl` is a transition of its state on a
symbol that is no terminal. -/
def gotoSound (G : GrammarAnalyzer) (tbl : List (Nat × List (String × Nat))) : Prop :=
  ∀ (t : Nat) (A : String) (j : Nat),
    mapFind A (mapGet t [] tbl) = some j →
      ∃ S, G.states[t]? = some S ∧ (A, j) ∈ S.transitions ∧ G.isTerminal A = false

/-- The entry `GOTO[t][A]` is present. -/
def gotoDefined (tbl : List (Nat × List (String × Nat))) (t : Nat) (A : String) : Prop :=
  (mapFind A (mapGet t [] tbl)).isSome = true

/-- Every transition of state `t` on a symbol that is no terminal has its GOTO
entry. -/
def gotoCompleteAt (G : GrammarAnalyzer) (tbl : List (Nat × List (String × Nat))) (t : Nat) :
    Prop :=
  ∀ (S : State) (A : String) (j : Nat), G.states[t]? = some S → (A, j) ∈ S.transitions →
    G.isTerminal A = false → gotoDefined tbl t A

/-- The fields `computeFirst` and `computeFollow` never write. -/
def sameOutside (G H : GrammarAnalyzer) : Prop :=
  G.nonTerminals = H.nonTerminals ∧ G.states = H.states ∧ G.actionTable = H.actionTable ∧
    G.gotoTable = H.gotoTable

/-- The analyzers agree on everything a parse reads: the base data and every
row of the two tables. -/
def sameTables (G H : GrammarAnalyzer) : Prop :=
  sameBase G H ∧ (∀ s, mapGet s [] G.actionTable = mapGet s [] H.actionTable) ∧
    (∀ s, mapGet s [] G.gotoTable = mapGet s [] H.gotoTable)

/-- What a successful `build` establishes: production ids are positions, the
states have the shape `lrStates`, every table entry is justified, every
transition on a symbol that is no terminal has its GOTO entry, a terminal other
than the start symbol has an empty Follow set, and production 0 has the start
symbol on the left. -/
def builtOK (G : GrammarAnalyzer) : Prop :=
  idsDense G ∧ lrStates G ∧ actionSound G G.actionTable ∧ gotoSound G G.gotoTable ∧
    (∀ t, gotoCompleteAt G G.gotoTable t) ∧
    (∀ B, G.isTerminal B = true → B ≠ G.startSymbol → followOf G B = []) ∧
    (∀ prod, G.grammar[0]? = some prod → prod.lhs = G.startSymbol)

/-- The state stack (top first) is a path of the automaton that starts in
state 0: every state above the bottom is the target of a transition of the
state below it. -/
def stackPath (G : GrammarAnalyzer) : List Nat → Prop
  | [] => False
  | [s] => s = 0
  | s :: t :: rest =>
    (∃ S X, G.states[t]? = some S ∧ (X, s) ∈ S.transitions) ∧ stackPath G (t :: rest)

/-- Invariant of the driver loop for the tables of `G`: the analyzer of the
parser agrees with `G` on everything a parse reads, the state stack is a path
from state 0, and it is one entry higher than the attribute stack. -/
def parseInv (G : GrammarAnalyzer) (P : Parser) (cfg : Config) : Prop :=
  sameTables P.G G ∧ stackPath G cfg.stateStack ∧
    cfg.symbolStack.length + 1 = cfg.stateStack.length

/-- The parser and configuration after `n` iterations of the driver loop none
of which ended the parse. -/
def runSteps (tokens : List Token) : Nat → Parser → Config → Option (Parser × Config)
  | 0, P, cfg => some (P, cfg)
  | n + 1, P, cfg =>
    match parseStep tokens P cfg with
    | some (Step.next P1 cfg1) => runSteps tokens n P1 cfg1
    | _ => none

/-- The keys of the transition map are in increasing order, as the keys of a
`std::map` are. -/
def keysSorted (m : List (String × Nat)) : Prop :=
  m.Pairwise (fun a b => strLt a.1 b.1 = true)

/-- Some production of `A` has `Y` as the first symbol of its right-hand
side. -/
def startsWith (G : GrammarAnalyzer) (A Y : String) : Prop :=
  ∃ prod ∈ G.grammar, prod.lhs = A ∧ prod.rhs.head? = some Y

/-- The chain `A, A1, …, An` followed by `a`: every symbol of the chain has a
production whose right-hand side starts with the next one, and the last has a
production whose right-hand side starts with `a`. -/
def leadingChain (G : GrammarAnalyzer) : String → List String → String → Prop
  | A, [], a => startsWith G A a
  | A, A1 :: rest, a => startsWith G A A1 ∧ leadingChain G A1 rest a

/-- The leading-symbol rule as `computeFirst` applies it: `a` is a terminal at
the end of a chain from `A` whose symbols after `A` are not terminals (a
symbol that is a terminal is added itself, its productions are not looked
at). -/
def firstReach (G : GrammarAnalyzer) (A a : String) : Prop :=
  G.isTerminal a = true ∧
    ∃ rest, (∀ X ∈ rest, G.isTerminal X = false) ∧ leadingChain G A rest a

/-- The leading-symbol rule in the words of the specification: `a` is a
terminal at the end of a chain of non-terminals that starts with `A`. -/
def firstSpec (G : GrammarAnalyzer) (A a : String) : Prop :=
  a ∈ G.terminals ∧
    ∃ rest, (∀ X ∈ A :: rest, X ∈ G.nonTerminals) ∧ leadingChain G A rest a

/-- Every First set is in increasing order. -/
def firstSorted (G : GrammarAnalyzer) : Prop :=
  ∀ A, (firstOf G A).Pairwise (fun a b => strLt a b = true)

/-- What holds of the First sets while `computeFirst` runs on the grammar of
`G0`: productions and terminals are those of `G0`, every element of a First
set is justified by the leading-symbol rule, and the sets are ordered. -/
def firstInv (G0 G : GrammarAnalyzer) : Prop :=
  G.grammar = G0.grammar ∧ G.terminals = G0.terminals ∧
    (∀ A a, a ∈ firstOf G A → firstReach G0 A a) ∧ firstSorted G

/-- The sum of the sizes of the First sets of the left-hand sides of `prods`. -/
def firstSize (prods : List Production) (G : GrammarAnalyzer) : Nat :=
  (prods.map (fun p => (firstOf G p.lhs).length)).sum

/-- A number of passes that `computeFirst` cannot exceed. -/
def firstBound (G : GrammarAnalyzer) : Nat :=
  G.grammar.length * G.terminals.length + 1

/-- The First sets satisfy the rule of `computeFirst` for the production `p`. -/
def firstClosedAt (G : GrammarAnalyzer) (p : Production) : Prop :=
  ∀ Y, p.rhs.head? = some Y →
    (G.isTerminal Y = true → Y ∈ firstOf G p.lhs) ∧
    (G.isTerminal Y = false → ∀ a ∈ firstOf G Y, a ∈ firstOf G p.lhs)

/-- The rules of `computeFollow` for a family `F` of sets, `F B a` standing for
`a ∈ Follow(B)`: the end marker is in the set of the start symbol, and for
every production `A -> pre B rest` whose symbol `B` is not a terminal (a
position that holds a terminal is skipped), the symbol right of `B` is in the
set of `B` when it is a terminal, its First set is inside the set of `B` when
it is not, and the set of `A` is inside the set of `B` when `B` is the last
symbol. -/
def followRules (G : GrammarAnalyzer) (F : String → String → Prop) : Prop :=
  F G.startSymbol "#" ∧
  ∀ p ∈ G.grammar, ∀ (pre : List String) (B : String) (rest : List String),
    p.rhs = pre ++ B :: rest → G.isTerminal B = false →
      (∀ X rest1, rest = X :: rest1 → G.isTerminal X = true → F B X) ∧
      (∀ X rest1, rest = X :: rest1 → G.isTerminal X = false → ∀ a ∈ firstOf G X, F B a) ∧
      (rest = [] → ∀ a, F p.lhs a → F B a)

/-- The rules of `computeFollow` in the words of the specification: `B` ranges
over the non-terminals, the symbol right of it is looked at as a terminal and
as a non-terminal. -/
def followRulesSpec (G : GrammarAnalyzer) (F : String → String → Prop) : Prop :=
  F G.startSymbol "#" ∧
  ∀ p ∈ G.grammar, ∀ (pre : List String) (B : String) (rest : List String),
    p.rhs = pre ++ B :: rest → B ∈ G.nonTerminals →
      (∀ X rest1, rest = X :: rest1 → X ∈ G.terminals → F B X) ∧
      (∀ X rest1, rest = X :: rest1 → X ∈ G.nonTerminals → ∀ a ∈ firstOf G X, F B a) ∧
      (rest = [] → ∀ a, F p.lhs a → F B a)

/-- What holds of the Follow sets while `computeFollow` runs after `G1`: what
it reads of `G1` is unchanged, the sets are ordered, and every element of a
Follow set is in every family that satisfies the rules. -/
def followInv (G1 G : GrammarAnalyzer) : Prop :=
  sameFirst G G1 ∧ followSorted G ∧
    ∀ F, followRules G1 F → ∀ B a, a ∈ followOf G B → F B a

/-- The symbols of all right-hand sides, one entry for each position. -/
def rhsSymbols (G : GrammarAnalyzer) : List String :=
  (G.grammar.map Production.rhs).flatten

/-- The sum of the sizes of the Follow sets of the symbols `syms`. -/
def followSize (syms : List String) (G : GrammarAnalyzer) : Nat :=
  (syms.map (fun B => (followOf G B).length)).sum

/-- A number of passes that `computeFollow` cannot exceed. -/
def followBound (G : GrammarAnalyzer) : Nat :=
  (rhsSymbols G).length * G.terminals.length + 1

/-- The names that the calls of `newTemp` and `newLabel` in the semantic action
of a reduction by `prod` return on the parser `P`: the temporaries and the
labels, each in the order of the calls. The action for `while` calls `newLabel`
twice, the actions for `>`, `<`, `==` and `+` call `newTemp` once, the others
call neither. -/
def semanticNames (P : Parser) (prod : Production) : List String × List String :=
  if prod.rhs.length = 7 ∧ prod.rhs[0]? = some "while" then
    ([], [P.newLabel.1, P.newLabel.2.newLabel.1])
  else if prod.rhs.length = 3 ∧ prod.rhs[1]? = some "=" then ([], [])
  else if prod.rhs.length = 3 ∧ prod.rhs[1]? = some ">" then ([P.newTemp.1], [])
  else if prod.rhs.length = 3 ∧ prod.rhs[1]? = some "<" then ([P.newTemp.1], [])
  else if prod.rhs.length = 3 ∧ prod.rhs[1]? = some "==" then ([P.newTemp.1], [])
  else if prod.rhs.length = 3 ∧ prod.rhs[1]? = some "+" then ([P.newTemp.1], [])
  else ([], [])

/-- The production by which the iteration of the driver loop at `cfg` reduces,
when the action it finds is a reduction. -/
def reducedProduction (tokens : List Token) (P : Parser) (cfg : Config) : Option Production :=
  match cfg.stateStack, tokens[cfg.ip]? with
  | s :: _, some tok =>
    match mapFind tok.type (mapGet s [] P.G.actionTable) with
    | some act => if act.type = 'r' then P.G.grammar[act.val]? else none
    | none => none
  | _, _ => none

/-- The names issued by one iteration of the driver loop. -/
def stepNames (tokens : List Token) (P : Parser) (cfg : Config) : List String × List String :=
  match reducedProduction tokens P cfg with
  | some prod => semanticNames P prod
  | none => ([], [])

/-- The names issued in the course of the driver loop, in order: temporaries and
labels. -/
def parseNames (tokens : List Token) : Nat → Parser → Config → List String × List String
  | 0, _, _ => ([], [])
  | fuel + 1, P, cfg =>
    match parseStep tokens P cfg with
    | some (Step.next P1 cfg1) =>
      ((stepNames tokens P cfg).1 ++ (parseNames tokens fuel P1 cfg1).1,
        (stepNames tokens P cfg).2 ++ (parseNames tokens fuel P1 cfg1).2)
    | _ => ([], [])

/-- Successive calls of `parse` on one parser, one for each input: the parser
afterwards and the temporaries and labels issued by all the calls, in order. -/
def parseMany (fuel : Nat) : List String → Parser → Option (Parser × List String × List String)
  | [], P => some (P, [], [])
  | input :: rest, P =>
    match tokenize input with
    | none => none
    | some tokens =>
      match parseLoop tokens fuel P Config.initial with
      | none => none
      | some (P1, _) =>
        match parseMany fuel rest P1 with
        | none => none
        | some (P2, temps, labels) =>
          some (P2, (parseNames tokens fuel P Config.initial).1 ++ temps,
            (parseNames tokens fuel P Config.initial).2 ++ labels)

/-- The names `nm` were issued between the parsers `P` and `P1`: as long as a
counter stays within `int`, the names are the prefix followed by the numerals
that come after the counter of `P`, one by one, and the counter of `P1` is past
the last of them. -/
def issued (P P1 : Parser) (nm : List String × List String) : Prop :=
  (P.tempCount + nm.1.length ≤ 2147483647 →
    nm.1 = (List.range nm.1.length).map (fun i => "T" ++ toString (P.tempCount + i + 1)) ∧
    P1.tempCount = P.tempCount + nm.1.length) ∧
  (P.labelCount + nm.2.length ≤ 2147483647 →
    nm.2 = (List.range nm.2.length).map (fun i => "L" ++ toString (P.labelCount + i + 1)) ∧
    P1.labelCount = P.labelCount + nm.2.length)

/-! ## Grammars used below -/

/-- Shorthand for a quadruple. -/
def quad (op arg1 arg2 result : String) : Quad :=
  { op := op, arg1 := arg1, arg2 := arg2, result := result }

/-- The six quadruples of the translation of `while ( a > b ) { x = y }`. -/
def demoQuads : List Quad :=
  [quad "label" "-" "-" "L1", quad ">" "a" "b" "T1", quad "jfalse" "T1" "-" "L2",
   quad "=" "y" "-" "x", quad "jump" "-" "-" "L1", quad "label" "-" "-" "L2"]

/-- The five productions of the demonstration grammar. -/
def demoGrammar : List String :=
  ["S' -> S", "S -> while ( C ) \x7b S \x7d", "S -> id = E", "C -> E > E", "E -> id"]

/-- A grammar in which a state holds the completed start production together
with a completed `A -> S`. -/
def acceptReduceGrammar : List String := ["S' -> S", "S -> A", "A -> S"]

/-- The same with a production that shifts the symbol `#`. -/
def acceptShiftGrammar : List String := ["S' -> S", "S -> A", "A -> S", "A -> S # x"]

/-- A grammar with a second production of the start symbol `Z` that sits
between `A -> a` and `B -> a`. -/
def acceptBetweenGrammar : List String :=
  ["Z -> S", "A -> a", "Z -> a", "B -> a", "S -> A", "S -> B", "S -> Z"]

/-- The ambiguous expression grammar. -/
def ambiguousGrammar : List String := ["S' -> E", "E -> E + E", "E -> id"]

/-- The tokens of `x = y`, without the sentinel. -/
def assignTokens : List Token :=
  [{ type := "id", value := "x" }, { type := "=", value := "=" }, { type := "id", value := "y" }]

/-- The sentinel the lexer appends. -/
def eofToken : Token := { type := "#", value := "#" }

/-- The parser and configuration after `n` iterations of the driver loop on
`x = y` with the tables of the demonstration grammar. -/
def assignRun (n : Nat) : Parser × Config :=
  (runSteps (assignTokens ++ [eofToken]) n (Parser.new (analyzerOf demoGrammar))
    Config.initial).getD (Parser.new GrammarAnalyzer.fresh, Config.initial)

/-- The nested input of the second test line of `main`. -/
def nestedSrc : String :=
  "while ( a > b ) \x7b while ( c > d ) \x7b x = y \x7d \x7d"

/-- The eleven quadruples of the translation of `nestedSrc`. -/
def nestedQuads : List Quad :=
  [quad "label" "-" "-" "L3", quad ">" "a" "b" "T1", quad "jfalse" "T1" "-" "L4",
   quad "label" "-" "-" "L1", quad ">" "c" "d" "T2", quad "jfalse" "T2" "-" "L2",
   quad "=" "y" "-" "x", quad "jump" "-" "-" "L1", quad "label" "-" "-" "L2",
   quad "jump" "-" "-" "L3", quad "label" "-" "-" "L4"]

/-- A grammar with the cycle `S -> A`, `A -> S`: the state reached on `S` holds
the completed start production together with the completed `A -> S`. -/
def cyclicGrammar : List String := ["S' -> S", "S -> A", "A -> S", "S -> id"]

/-- The tokens of the input `a`, with the sentinel. -/
def cyclicTokens : List Token := [{ type := "id", value := "a" }, { type := "#", value := "#" }]

/-- The parser and configuration after `n` iterations of the driver loop on the
input `a` with the tables of `cyclicGrammar`. -/
def cyclicRun (n : Nat) : Parser × Config :=
  (runSteps cyclicTokens n (Parser.new (analyzerOf cyclicGrammar)) Config.initial).getD
    (Parser.new GrammarAnalyzer.fresh, Config.initial)

/-- A grammar in which the end marker `#` is also a left-hand side. -/
def hashGrammar : List String := ["S' -> S", "S -> #", "# -> a"]

/-- What `computeFirst` returns on `hashGrammar`. -/
def hashFirst : GrammarAnalyzer :=
  (computeFirst 10 (loadGrammar GrammarAnalyzer.fresh hashGrammar)).getD GrammarAnalyzer.fresh

/-- What `computeFollow` returns on `hashGrammar` after `computeFirst`. -/
def hashFollow : GrammarAnalyzer :=
  (computeFollow 10 hashFirst).getD GrammarAnalyzer.fresh

/-- The automaton `buildDFA` builds for the demonstration grammar. -/
def demoDFA : GrammarAnalyzer :=
  (buildDFA 100 (loadGrammar GrammarAnalyzer.fresh demoGrammar)).getD GrammarAnalyzer.fresh

/-- Two parses on one parser of the demonstration grammar, of the line compiled
into `main` and of the nested loops: the parser afterwards and the names
issued. -/
def twoParses : Parser × List String × List String :=
  (parseMany 100 [srcLine, nestedSrc] (Parser.new (analyzerOf demoGrammar))).getD
    (Parser.new GrammarAnalyzer.fresh, [], [])

/-! ## Ordered containers: membership and order -/

theorem mem_setInsert {α : Type} [DecidableEq α] (lt : α → α → Bool) (x a : α) (s : List α) :
    a ∈ setInsert lt x s ↔ a = x ∨ a ∈ s := by
  induction s with
  | nil => simp [setInsert]
  | cons y ys ih =>
    unfold setInsert
    split
    · simp
    · split
      · rename_i h; subst h; simp
      · simp [ih]; tauto

theorem mem_setInsertAll {α : Type} [DecidableEq α] (lt : α → α → Bool) (xs : List α) (a : α)
    (s : List α) : a ∈ setInsertAll lt xs s ↔ a ∈ xs ∨ a ∈ s := by
  unfold setInsertAll
  induction xs generalizing s with
  | nil => simp
  | cons x xs ih => simp [List.foldl_cons, ih, mem_setInsert]; tauto

theorem sorted_setInsert {α : Type} [DecidableEq α] (lt : α → α → Bool)
    (htrans : ∀ a b c, lt a b = true → lt b c = true → lt a c = true)
    (htotal : ∀ a b, lt a b = false → a ≠ b → lt b a = true)
    (x : α) (s : List α) (hs : s.Pairwise (fun a b => lt a b = true)) :
    (setInsert lt x s).Pairwise (fun a b => lt a b = true) := by
  induction s with
  | nil => simp [setInsert]
  | cons y ys ih =>
    unfold setInsert
    rw [List.pairwise_cons] at hs
    split
    · rename_i hxy
      refine List.Pairwise.cons ?_ (List.Pairwise.cons hs.1 hs.2)
      intro b hb
      rcases List.mem_cons.1 hb with rfl | hb
      · exact hxy
      · exact htrans _ _ _ hxy (hs.1 b hb)
    · split
      · exact List.Pairwise.cons hs.1 hs.2
      · rename_i hxy hne
        refine List.Pairwise.cons ?_ (ih hs.2)
        intro b hb
        rcases (mem_setInsert lt x b ys).1 hb with rfl | hb
        · exact htotal _ _ (by simpa using hxy) hne
        · exact hs.1 b hb

theorem Item.lt_trans (a b c : Item) (h1 : Item.lt a b = true) (h2 : Item.lt b c = true) :
    Item.lt a c = true := by
  unfold Item.lt at *
  split at h1 <;> split at h2 <;> split <;> simp_all <;> omega

theorem Item.lt_total (a b : Item) (h1 : Item.lt a b = false) (h2 : a ≠ b) :
    Item.lt b a = true := by
  have h3 : a.prodIndex ≠ b.prodIndex ∨ a.dotPos ≠ b.dotPos := by
    by_contra hcon
    push_neg at hcon
    exact h2 (by cases a; cases b; simp_all)
  unfold Item.lt at *
  split at h1 <;> split <;> simp_all <;> omega

theorem Item.lt_irrefl (a : Item) : Item.lt a a = false := by
  simp [Item.lt]

theorem items_eq_of_sorted (l1 l2 : List Item)
    (h1 : l1.Pairwise (fun a b => Item.lt a b = true))
    (h2 : l2.Pairwise (fun a b => Item.lt a b = true))
    (h : ∀ x, x ∈ l1 ↔ x ∈ l2) : l1 = l2 := by
  haveI : IsAntisymm Item (fun a b => Item.lt a b = true) :=
    ⟨fun a b hab hba => by
      have := Item.lt_trans a b a hab hba
      simp [Item.lt_irrefl] at this⟩
  have n1 : l1.Nodup := h1.imp (fun {a b} hab heq => by subst heq; simp [Item.lt_irrefl] at hab)
  have n2 : l2.Nodup := h2.imp (fun {a b} hab heq => by subst heq; simp [Item.lt_irrefl] at hab)
  exact List.eq_of_perm_of_sorted ((List.perm_ext_iff_of_nodup n1 n2).2 h) h1 h2

/-! ## loadGrammar -/

theorem productionsOf_cons (line : String) (rest : List String) :
    productionsOf (line :: rest) =
      if line = "" then productionsOf rest else parseLine line :: productionsOf rest := by
  unfold productionsOf
  by_cases h : line = "" <;> simp [List.filter_cons, h]

theorem loadLines_grammar (lines : List String) (id : Nat) (G : GrammarAnalyzer) :
    (loadLines lines id G).grammar = G.grammar ++ numberFrom id (productionsOf lines) := by
  induction lines generalizing id G with
  | nil => simp [loadLines, productionsOf, numberFrom]
  | cons line rest ih =>
    rw [productionsOf_cons]
    unfold loadLines
    by_cases h : line = ""
    · simp only [h, if_true]; exact ih id G
    · simp only [h, if_false]
      rw [ih]
      simp [numberFrom]
      split <;> rfl

theorem loadLines_nonTerminals (lines : List String) (id : Nat) (G : GrammarAnalyzer) (s : String) :
    s ∈ (loadLines lines id G).nonTerminals ↔
      s ∈ G.nonTerminals ∨ ∃ pr ∈ productionsOf lines, pr.1 = s := by
  induction lines generalizing id G with
  | nil => simp [loadLines, productionsOf]
  | cons line rest ih =>
    rw [productionsOf_cons]
    unfold loadLines
    by_cases h : line = ""
    · simp only [h, if_true]; exact ih id G
    · simp only [h, if_false]
      rw [ih]
      simp only [mem_setInsert, List.mem_cons, exists_eq_or_imp]
      have e : ∀ (G0 : GrammarAnalyzer) (l : String),
          (if id = 0 then { G0 with startSymbol := l } else G0).nonTerminals = G0.nonTerminals := by
        intro G0 l; split <;> rfl
      rw [e]
      constructor
      · rintro ((h1 | h1) | h1)
        · exact Or.inr (Or.inl h1.symm)
        · exact Or.inl h1
        · exact Or.inr (Or.inr h1)
      · rintro (h1 | h1 | h1)
        · exact Or.inl (Or.inr h1)
        · exact Or.inl (Or.inl h1.symm)
        · exact Or.inr h1

theorem loadLines_terminals (lines : List String) (id : Nat) (G : GrammarAnalyzer) :
    (loadLines lines id G).terminals = G.terminals := by
  induction lines generalizing id G with
  | nil => simp [loadLines]
  | cons line rest ih =>
    unfold loadLines
    by_cases h : line = ""
    · simp only [h, if_true]; exact ih id G
    · simp only [h, if_false]
      rw [ih]
      split <;> rfl

theorem loadLines_startSymbol_succ (lines : List String) (id : Nat) (G : GrammarAnalyzer) :
    (loadLines lines (id + 1) G).startSymbol = G.startSymbol := by
  induction lines generalizing id G with
  | nil => simp [loadLines]
  | cons line rest ih =>
    unfold loadLines
    by_cases h : line = ""
    · simp only [h, if_true]; exact ih id G
    · simp only [h, if_false]
      rw [ih]
      simp

theorem loadLines_startSymbol_zero (lines : List String) (G : GrammarAnalyzer) :
    (loadLines lines 0 G).startSymbol =
      match productionsOf lines with
      | [] => G.startSymbol
      | pr :: _ => pr.1 := by
  induction lines generalizing G with
  | nil => simp [loadLines, productionsOf]
  | cons line rest ih =>
    rw [productionsOf_cons]
    unfold loadLines
    by_cases h : line = ""
    · simp only [h, if_true]; exact ih G
    · simp only [h, if_false]
      rw [loadLines_startSymbol_succ]
      simp

theorem mem_collectTerminals (nts rhs ts : List String) (s : String) :
    s ∈ collectTerminals nts rhs ts ↔ s ∈ ts ∨ (s ∈ rhs ∧ s ∉ nts) := by
  unfold collectTerminals
  induction rhs generalizing ts with
  | nil => simp
  | cons sym rest ih =>
    rw [List.foldl_cons, ih]
    by_cases h : sym ∈ nts
    · simp only [h, if_true, List.mem_cons]
      constructor
      · rintro (h1 | h1)
        · exact Or.inl h1
        · exact Or.inr ⟨Or.inr h1.1, h1.2⟩
      · rintro (h1 | ⟨h1 | h1, h2⟩)
        · exact Or.inl h1
        · subst h1; exact absurd h h2
        · exact Or.inr ⟨h1, h2⟩
    · simp only [h, if_false, List.mem_cons, mem_setInsert]
      constructor
      · rintro ((h1 | h1) | h1)
        · subst h1; exact Or.inr ⟨Or.inl rfl, h⟩
        · exact Or.inl h1
        · exact Or.inr ⟨Or.inr h1.1, h1.2⟩
      · rintro (h1 | ⟨h1 | h1, h2⟩)
        · exact Or.inl (Or.inr h1)
        · exact Or.inl (Or.inl h1)
        · exact Or.inr ⟨h1, h2⟩

theorem mem_foldl_collectTerminals (nts : List String) (prods : List Production) (ts : List String)
    (s : String) :
    s ∈ prods.foldl (fun acc prod => collectTerminals nts prod.rhs acc) ts ↔
      s ∈ ts ∨ ((∃ p ∈ prods, s ∈ p.rhs) ∧ s ∉ nts) := by
  induction prods generalizing ts with
  | nil => simp
  | cons p rest ih =>
    rw [List.foldl_cons, ih, mem_collectTerminals]
    simp only [List.mem_cons, exists_eq_or_imp]
    tauto

theorem numberFrom_getElem? (id : Nat) (prs : List (String × List String)) (i : Nat) :
    (numberFrom id prs)[i]? =
      prs[i]?.map (fun pr => ({ id := id + i, lhs := pr.1, rhs := pr.2 } : Production)) := by
  induction prs generalizing id i with
  | nil => simp [numberFrom]
  | cons pr rest ih =>
    cases i with
    | zero => simp [numberFrom]
    | succ i =>
      simp only [numberFrom, List.getElem?_cons_succ, ih]
      congr 1
      funext pr
      congr 1
      omega

theorem mem_numberFrom_lhs (id : Nat) (prs : List (String × List String)) (s : String) :
    (∃ p ∈ numberFrom id prs, p.lhs = s) ↔ ∃ pr ∈ prs, pr.1 = s := by
  induction prs generalizing id with
  | nil => simp [numberFrom]
  | cons pr rest ih =>
    simp only [numberFrom, List.mem_cons, exists_eq_or_imp, ih]

theorem loadGrammar_grammar (lines : List String) :
    (loadGrammar GrammarAnalyzer.fresh lines).grammar = numberFrom 0 (productionsOf lines) := by
  simp [loadGrammar, loadLines_grammar, GrammarAnalyzer.fresh]

theorem loadGrammar_nonTerminals (lines : List String) (s : String) :
    s ∈ (loadGrammar GrammarAnalyzer.fresh lines).nonTerminals ↔
      ∃ p ∈ (loadGrammar GrammarAnalyzer.fresh lines).grammar, p.lhs = s := by
  rw [loadGrammar_grammar, mem_numberFrom_lhs]
  simp [loadGrammar, loadLines_nonTerminals, GrammarAnalyzer.fresh]

/-- C8: after `loadGrammar` on a fresh analyzer and a non-empty production
list, production `i` of the list is stored at position `i` with id `i`; the
non-terminals are exactly the left-hand sides; the terminals are exactly `#`
and the right-hand-side symbols that are no left-hand side; and the start
symbol is the left-hand side of production 0. -/
theorem loadGrammar_classification (lines : List String) (hne : productionsOf lines ≠ []) :
    (∀ i, (loadGrammar GrammarAnalyzer.fresh lines).grammar[i]? =
        (productionsOf lines)[i]?.map
          (fun pr => ({ id := i, lhs := pr.1, rhs := pr.2 } : Production))) ∧
    (∀ s, s ∈ (loadGrammar GrammarAnalyzer.fresh lines).nonTerminals ↔
        ∃ p ∈ (loadGrammar GrammarAnalyzer.fresh lines).grammar, p.lhs = s) ∧
    (∀ s, s ∈ (loadGrammar GrammarAnalyzer.fresh lines).terminals ↔
        s = "#" ∨
          ((∃ p ∈ (loadGrammar GrammarAnalyzer.fresh lines).grammar, s ∈ p.rhs) ∧
            ¬ ∃ p ∈ (loadGrammar GrammarAnalyzer.fresh lines).grammar, p.lhs = s)) ∧
    (loadGrammar GrammarAnalyzer.fresh lines).grammar[0]?.map Production.lhs =
      some (loadGrammar GrammarAnalyzer.fresh lines).startSymbol := by
  refine ⟨?_, loadGrammar_nonTerminals lines, ?_, ?_⟩
  · intro i
    rw [loadGrammar_grammar, numberFrom_getElem?]
    simp
  · intro s
    rw [← loadGrammar_nonTerminals]
    have hg : (loadGrammar GrammarAnalyzer.fresh lines).grammar =
        (loadLines lines 0 GrammarAnalyzer.fresh).grammar := rfl
    have hn : (loadGrammar GrammarAnalyzer.fresh lines).nonTerminals =
        (loadLines lines 0 GrammarAnalyzer.fresh).nonTerminals := rfl
    rw [hg, hn]
    simp only [loadGrammar, mem_setInsert, mem_foldl_collectTerminals, loadLines_terminals]
    simp [GrammarAnalyzer.fresh]
  · rw [loadGrammar_grammar]
    have hs : (loadGrammar GrammarAnalyzer.fresh lines).startSymbol =
        (loadLines lines 0 GrammarAnalyzer.fresh).startSymbol := rfl
    rw [hs, loadLines_startSymbol_zero]
    cases hp : productionsOf lines with
    | nil => exact absurd hp hne
    | cons pr rest => simp [numberFrom]

theorem loadGrammar_classification_witness :
    productionsOf demoGrammar ≠ [] ∧
    (loadGrammar GrammarAnalyzer.fresh demoGrammar).grammar[0]?.map Production.lhs =
      some (loadGrammar GrammarAnalyzer.fresh demoGrammar).startSymbol :=
  ⟨by decide, (loadGrammar_classification demoGrammar (by decide)).2.2.2⟩

/-- C7 as stated fails: on a source without any line `loadGrammar` does not
report a load error; it completes and leaves an analyzer with no production,
no non-terminal, the single terminal `#` and the empty start symbol. -/
theorem loadGrammar_empty_completes :
    loadGrammarOutcome GrammarAnalyzer.fresh [] ≠ LoadOutcome.loadError ∧
    loadGrammarOutcome GrammarAnalyzer.fresh [] =
      LoadOutcome.completed { GrammarAnalyzer.fresh with terminals := ["#"] } := by
  decide

/-- C7 amended: `loadGrammar` has no failure path. On every source it
completes, and on a source all of whose lines are empty it leaves the fresh
analyzer with `#` as its only terminal: no production, no non-terminal, the
start symbol unset. -/
theorem loadGrammar_never_fails (lines : List String) :
    loadGrammarOutcome GrammarAnalyzer.fresh lines ≠ LoadOutcome.loadError ∧
    ((∀ line ∈ lines, line = "") →
      loadGrammarOutcome GrammarAnalyzer.fresh lines =
        LoadOutcome.completed { GrammarAnalyzer.fresh with terminals := ["#"] }) := by
  refine ⟨by simp [loadGrammarOutcome], ?_⟩
  intro h
  have hl : ∀ (ls : List String) (id : Nat) (G : GrammarAnalyzer),
      (∀ line ∈ ls, line = "") → loadLines ls id G = G := by
    intro ls
    induction ls with
    | nil => intro id G _; rfl
    | cons l rest ih =>
      intro id G h
      unfold loadLines
      rw [if_pos (h l (List.mem_cons_self _ _))]
      exact ih id G (fun x hx => h x (List.mem_cons_of_mem _ hx))
  simp only [loadGrammarOutcome, loadGrammar, hl lines 0 _ h]
  rfl

theorem loadGrammar_never_fails_witness :
    (∀ line ∈ ["", ""], line = "") ∧
    loadGrammarOutcome GrammarAnalyzer.fresh ["", ""] =
      LoadOutcome.completed { GrammarAnalyzer.fresh with terminals := ["#"] } :=
  ⟨by decide, (loadGrammar_never_fails ["", ""]).2 (by decide)⟩

/-- C6 as stated fails: for the ambiguous expression grammar `build` returns
false and leaves five rows of ACTION entries and two rows of GOTO entries in
the analyzer, whose tables were empty before. -/
theorem failed_build_keeps_entries :
    (analyze 100 ambiguousGrammar).map Prod.snd = some false ∧
    (analyze 100 ambiguousGrammar).map (fun r => r.1.actionTable) =
      some [(0, [("id", { type := 's', val := 2 })]),
            (1, [("#", { type := 'a', val := 0 }), ("+", { type := 's', val := 3 })]),
            (2, [("#", { type := 'r', val := 2 }), ("+", { type := 'r', val := 2 })]),
            (3, [("id", { type := 's', val := 2 })]),
            (4, [("#", { type := 'r', val := 1 }), ("+", { type := 's', val := 3 })])] ∧
    (analyze 100 ambiguousGrammar).map (fun r => r.1.gotoTable) =
      some [(0, [("E", 1)]), (3, [("E", 4)])] ∧
    (loadGrammar GrammarAnalyzer.fresh ambiguousGrammar).actionTable = [] ∧
    (loadGrammar GrammarAnalyzer.fresh ambiguousGrammar).gotoTable = [] := by
  refine ⟨by decide, by decide, by decide, by decide, by decide⟩

/-! ## closure -/

theorem closureExpand_nil (B : String) (st : List Item × Bool) : closureExpand B [] st = st := rfl

theorem closureExpand_cons (B : String) (p : Production) (gr : List Production)
    (st : List Item × Bool) :
    closureExpand B (p :: gr) st =
      closureExpand B gr
        (if p.lhs = B then
          (if ({ prodIndex := p.id, dotPos := 0 } : Item) ∈ st.1 then st
           else (setInsert Item.lt { prodIndex := p.id, dotPos := 0 } st.1, true))
         else st) := rfl

theorem closureExpand_subset (B : String) (gr : List Production) (st : List Item × Bool)
    (x : Item) (hx : x ∈ st.1) : x ∈ (closureExpand B gr st).1 := by
  induction gr generalizing st with
  | nil => exact hx
  | cons p gr ih =>
    rw [closureExpand_cons]
    apply ih
    split
    · split
      · exact hx
      · exact (mem_setInsert _ _ _ _).2 (Or.inr hx)
    · exact hx

theorem closureExpand_mem (B : String) (gr : List Production) (st : List Item × Bool)
    (x : Item) (hx : x ∈ (closureExpand B gr st).1) :
    x ∈ st.1 ∨ ∃ p ∈ gr, p.lhs = B ∧ x = { prodIndex := p.id, dotPos := 0 } := by
  induction gr generalizing st with
  | nil => exact Or.inl hx
  | cons p gr ih =>
    rw [closureExpand_cons] at hx
    rcases ih _ hx with h | ⟨q, hq, hB, hxq⟩
    · split at h
      · split at h
        · exact Or.inl h
        · rename_i hB _
          rcases (mem_setInsert _ _ _ _).1 h with h | h
          · exact Or.inr ⟨p, List.mem_cons_self _ _, hB, h⟩
          · exact Or.inl h
      · exact Or.inl h
    · exact Or.inr ⟨q, List.mem_cons_of_mem _ hq, hB, hxq⟩

theorem closureExpand_adds (B : String) (gr : List Production) (st : List Item × Bool)
    (p : Production) (hp : p ∈ gr) (hB : p.lhs = B) :
    ({ prodIndex := p.id, dotPos := 0 } : Item) ∈ (closureExpand B gr st).1 := by
  induction gr generalizing st with
  | nil => cases hp
  | cons q gr ih =>
    rw [closureExpand_cons]
    rcases List.mem_cons.1 hp with rfl | hp
    · apply closureExpand_subset
      rw [if_pos hB]
      split
      · assumption
      · exact (mem_setInsert _ _ _ _).2 (Or.inl rfl)
    · exact ih _ hp

theorem closureExpand_flag_mono (B : String) (gr : List Production) (st : List Item × Bool)
    (h : st.2 = true) : (closureExpand B gr st).2 = true := by
  induction gr generalizing st with
  | nil => exact h
  | cons p gr ih =>
    rw [closureExpand_cons]
    apply ih
    split
    · split
      · exact h
      · rfl
    · exact h

theorem closureExpand_unchanged (B : String) (gr : List Production) (st : List Item × Bool)
    (h : ∀ p ∈ gr, p.lhs = B → ({ prodIndex := p.id, dotPos := 0 } : Item) ∈ st.1) :
    closureExpand B gr st = st := by
  induction gr generalizing st with
  | nil => rfl
  | cons p gr ih =>
    rw [closureExpand_cons]
    have e : (if p.lhs = B then
          (if ({ prodIndex := p.id, dotPos := 0 } : Item) ∈ st.1 then st
           else (setInsert Item.lt { prodIndex := p.id, dotPos := 0 } st.1, true))
         else st) = st := by
      split
      · rename_i hB
        rw [if_pos (h p (List.mem_cons_self _ _) hB)]
      · rfl
    rw [e]
    exact ih st (fun q hq => h q (List.mem_cons_of_mem _ hq))

theorem closureExpand_flag (B : String) (gr : List Production) (st : List Item × Bool)
    (h : (closureExpand B gr st).2 = true) :
    st.2 = true ∨ ∃ p ∈ gr, p.lhs = B ∧ ({ prodIndex := p.id, dotPos := 0 } : Item) ∉ st.1 := by
  by_cases hall : ∀ p ∈ gr, p.lhs = B → ({ prodIndex := p.id, dotPos := 0 } : Item) ∈ st.1
  · rw [closureExpand_unchanged B gr st hall] at h
    exact Or.inl h
  · push_neg at hall
    exact Or.inr hall

theorem closureExpand_sorted (B : String) (gr : List Production) (st : List Item × Bool)
    (h : itemsSorted st.1) : itemsSorted (closureExpand B gr st).1 := by
  induction gr generalizing st with
  | nil => exact h
  | cons p gr ih =>
    rw [closureExpand_cons]
    apply ih
    split
    · split
      · exact h
      · exact sorted_setInsert Item.lt Item.lt_trans Item.lt_total _ _ h
    · exact h

theorem closureExpand_false (B : String) (gr : List Production) (st : List Item × Bool)
    (h : (closureExpand B gr st).2 = false) : closureExpand B gr st = st := by
  induction gr generalizing st with
  | nil => rfl
  | cons p gr ih =>
    rw [closureExpand_cons] at h ⊢
    have h1 := ih _ h
    rw [h1] at h ⊢
    split at h
    · split at h
      · rename_i hB hmem
        rw [if_pos hB, if_pos hmem]
      · simp at h
    · rename_i hB
      rw [if_neg hB]

theorem closureItem_cases (G : GrammarAnalyzer) (st : List Item × Bool) (item : Item)
    (prod : Production) (hp : G.grammar[item.prodIndex]? = some prod) :
    (closureItem G st item = some st ∧
      ∀ B, prod.rhs[item.dotPos]? = some B → B ∉ G.nonTerminals) ∨
    ∃ B, prod.rhs[item.dotPos]? = some B ∧ B ∈ G.nonTerminals ∧
      closureItem G st item = some (closureExpand B G.grammar st) := by
  unfold closureItem
  simp only [hp]
  cases hB : prod.rhs[item.dotPos]? with
  | none => exact Or.inl ⟨rfl, fun B h => by cases h⟩
  | some B =>
    by_cases hn : B ∈ G.nonTerminals
    · exact Or.inr ⟨B, rfl, hn, by simp [hn]⟩
    · refine Or.inl ⟨by simp [hn], fun B1 h => ?_⟩
      cases h
      exact hn

/-- One step of the closure pass: what it returns and how the result relates
to the state before. -/
theorem closureItem_step (G : GrammarAnalyzer) (st : List Item × Bool) (item : Item)
    (prod : Production) (hp : G.grammar[item.prodIndex]? = some prod) :
    ∃ r, closureItem G st item = some r ∧
      (∀ x ∈ st.1, x ∈ r.1) ∧
      (∀ x ∈ r.1, x ∈ st.1 ∨ ∃ p ∈ G.grammar, x = { prodIndex := p.id, dotPos := 0 }) ∧
      (st.2 = true → r.2 = true) ∧
      (r.2 = true → st.2 = true ∨
        ∃ p ∈ G.grammar, ({ prodIndex := p.id, dotPos := 0 } : Item) ∈ r.1 ∧
          ({ prodIndex := p.id, dotPos := 0 } : Item) ∉ st.1) ∧
      expandedIn G item r.1 ∧
      (expandedIn G item st.1 → r = st) ∧
      (r.2 = false → r = st) ∧
      (itemsSorted st.1 → itemsSorted r.1) := by
  rcases closureItem_cases G st item prod hp with ⟨h, hno⟩ | ⟨B, hB, hn, h⟩
  · refine ⟨st, h, fun x hx => hx, fun x hx => Or.inl hx, id, fun h => Or.inl h, ?_,
      fun _ => rfl, fun _ => rfl, id⟩
    intro prod1 B1 hp1 hB1 hn1
    rw [hp] at hp1
    cases hp1
    exact absurd hn1 (hno B1 hB1)
  · refine ⟨closureExpand B G.grammar st, h, closureExpand_subset B _ st, ?_,
      closureExpand_flag_mono B _ st, ?_, ?_, ?_, closureExpand_false B _ st,
      closureExpand_sorted B _ st⟩
    · intro x hx
      rcases closureExpand_mem B _ st x hx with h1 | ⟨p, hp1, _, hx1⟩
      · exact Or.inl h1
      · exact Or.inr ⟨p, hp1, hx1⟩
    · intro hflag
      rcases closureExpand_flag B _ st hflag with h1 | ⟨p, hp1, hpB, hnot⟩
      · exact Or.inl h1
      · exact Or.inr ⟨p, hp1, closureExpand_adds B _ st p hp1 hpB, hnot⟩
    · intro prod1 B1 hp1 hB1 _ p hpg hpl
      rw [hp] at hp1
      cases hp1
      rw [hB] at hB1
      cases hB1
      exact closureExpand_adds B _ st p hpg hpl
    · intro hexp
      exact closureExpand_unchanged B _ st (fun p hpg hpl => hexp prod B hp hB hn p hpg hpl)

theorem expandedIn_mono (G : GrammarAnalyzer) (item : Item) (J K : List Item)
    (hJK : ∀ x ∈ J, x ∈ K) (h : expandedIn G item J) : expandedIn G item K :=
  fun prod B hp hB hn p hpg hpl => hJK _ (h prod B hp hB hn p hpg hpl)

/-- The fold of the closure pass over a list of items with existing
productions. -/
theorem closureFold (G : GrammarAnalyzer) (items : List Item)
    (hv : ∀ item ∈ items, validItem G item) (st : List Item × Bool) :
    ∃ r, items.foldlM (closureItem G) st = some r ∧
      (∀ x ∈ st.1, x ∈ r.1) ∧
      (∀ x ∈ r.1, x ∈ st.1 ∨ ∃ p ∈ G.grammar, x = { prodIndex := p.id, dotPos := 0 }) ∧
      (st.2 = true → r.2 = true) ∧
      (r.2 = true → st.2 = true ∨
        ∃ p ∈ G.grammar, ({ prodIndex := p.id, dotPos := 0 } : Item) ∈ r.1 ∧
          ({ prodIndex := p.id, dotPos := 0 } : Item) ∉ st.1) ∧
      (∀ item ∈ items, expandedIn G item r.1) ∧
      ((∀ item ∈ items, expandedIn G item st.1) → r = st) ∧
      (r.2 = false → r = st) ∧
      (itemsSorted st.1 → itemsSorted r.1) := by
  induction items generalizing st with
  | nil =>
    exact ⟨st, rfl, fun x hx => hx, fun x hx => Or.inl hx, id, fun h => Or.inl h,
      fun item hi => absurd hi (List.not_mem_nil _), fun _ => rfl, fun _ => rfl, id⟩
  | cons item rest ih =>
    obtain ⟨prod, hp, _⟩ := hv item (List.mem_cons_self _ _)
    obtain ⟨r1, hr1, a1, b1, c1, d1, e1, f1, g1, s1⟩ := closureItem_step G st item prod hp
    obtain ⟨r, hr, a2, b2, c2, d2, e2, f2, g2, s2⟩ :=
      ih (fun it hit => hv it (List.mem_cons_of_mem _ hit)) r1
    refine ⟨r, ?_, fun x hx => a2 x (a1 x hx), ?_, fun h => c2 (c1 h), ?_, ?_, ?_, ?_,
      fun h => s2 (s1 h)⟩
    · rw [List.foldlM_cons, hr1]
      exact hr
    · intro x hx
      rcases b2 x hx with h | h
      · exact b1 x h
      · exact Or.inr h
    · intro hflag
      rcases d2 hflag with h | ⟨p, hpg, hin, hnot⟩
      · rcases d1 h with h1 | ⟨p, hpg, hin, hnot⟩
        · exact Or.inl h1
        · exact Or.inr ⟨p, hpg, a2 _ hin, hnot⟩
      · exact Or.inr ⟨p, hpg, hin, fun hmem => hnot (a1 _ hmem)⟩
    · intro it hit
      rcases List.mem_cons.1 hit with rfl | hit
      · exact expandedIn_mono G _ _ _ a2 e1
      · exact e2 it hit
    · intro hall
      have h1 : r1 = st := f1 (hall item (List.mem_cons_self _ _))
      rw [h1] at f2
      exact f2 (fun it hit => hall it (List.mem_cons_of_mem _ hit))
    · intro hflag
      have h2 := g2 hflag
      rw [h2] at hflag
      rw [h2]
      exact g1 hflag

theorem countP_lt_of_imp {α : Type} (l : List α) (p q : α → Bool)
    (himp : ∀ x ∈ l, p x = true → q x = true) (hex : ∃ x ∈ l, q x = true ∧ p x = false) :
    l.countP p < l.countP q := by
  induction l with
  | nil => obtain ⟨x, hx, _⟩ := hex; cases hx
  | cons a l ih =>
    have hle : l.countP p ≤ l.countP q :=
      List.countP_mono_left (fun x hx h => himp x (List.mem_cons_of_mem _ hx) h)
    obtain ⟨x, hx, hq, hp⟩ := hex
    rw [List.countP_cons, List.countP_cons]
    rcases List.mem_cons.1 hx with rfl | hx
    · simp [hq, hp]; omega
    · have hlt := ih (fun y hy h => himp y (List.mem_cons_of_mem _ hy) h) ⟨x, hx, hq, hp⟩
      have ha := himp a (List.mem_cons_self _ _)
      by_cases hpa : p a = true
      · simp [hpa, ha hpa]; omega
      · have hpa' : p a = false := by simpa using hpa
        by_cases hqa : q a = true
        · simp [hpa', hqa]; omega
        · have hqa' : q a = false := by simpa using hqa
          simp [hpa', hqa']; omega

theorem validItem_initial (G : GrammarAnalyzer) (hd : idsDense G) (p : Production)
    (hp : p ∈ G.grammar) : validItem G { prodIndex := p.id, dotPos := 0 } := by
  obtain ⟨i, hi⟩ := List.getElem?_of_mem hp
  have hid := hd i p hi
  exact ⟨p, by simpa [hid] using hi, Nat.zero_le _⟩

/-- One pass of the closure loop on valid items. -/
theorem closurePass_spec (G : GrammarAnalyzer) (hd : idsDense G) (I : List Item)
    (hv : ∀ item ∈ I, validItem G item) :
    ∃ J b, closurePass G I = some (J, b) ∧
      (∀ x ∈ I, x ∈ J) ∧
      (∀ x ∈ J, validItem G x) ∧
      (∀ x ∈ J, x ∈ I ∨ ∃ p ∈ G.grammar, x = { prodIndex := p.id, dotPos := 0 }) ∧
      (b = false → J = I ∧ closedItems G I) ∧
      (b = true → closureSlack G J < closureSlack G I) ∧
      (itemsSorted I → itemsSorted J) := by
  obtain ⟨r, hr, a, b, _, d, e, _, g, s⟩ := closureFold G I hv (I, false)
  refine ⟨r.1, r.2, hr, a, ?_, b, ?_, ?_, s⟩
  · intro x hx
    rcases b x hx with h | ⟨p, hp, rfl⟩
    · exact hv x h
    · exact validItem_initial G hd p hp
  · intro hb
    have h1 := g hb
    have h2 : r.1 = I := by rw [h1]
    refine ⟨h2, ?_⟩
    intro item hitem
    have := e item hitem
    rw [h2] at this
    exact this
  · intro hb
    rcases d hb with h | ⟨p, hp, hin, hnot⟩
    · cases h
    · unfold closureSlack
      apply countP_lt_of_imp
      · intro q _ hq
        simp only [decide_eq_true_eq] at hq ⊢
        exact fun hmem => hq (a _ hmem)
      · exact ⟨p, hp, by simpa using hnot, by simpa using hin⟩

/-- With more fuel than productions missing from `I`, the closure loop ends
with a closed superset of `I`. -/
theorem closureLoop_spec (G : GrammarAnalyzer) (hd : idsDense G) (fuel : Nat) (I : List Item)
    (hv : ∀ item ∈ I, validItem G item) (hfuel : closureSlack G I < fuel) :
    ∃ J, closureLoop G fuel I = some J ∧
      (∀ x ∈ I, x ∈ J) ∧
      (∀ x ∈ J, validItem G x) ∧
      (∀ x ∈ J, x ∈ I ∨ ∃ p ∈ G.grammar, x = { prodIndex := p.id, dotPos := 0 }) ∧
      closedItems G J ∧
      (itemsSorted I → itemsSorted J) := by
  induction fuel generalizing I with
  | zero => omega
  | succ fuel ih =>
    obtain ⟨J, b, hpass, hsub, hval, hnew, hfalse, htrue, hsort⟩ := closurePass_spec G hd I hv
    unfold closureLoop
    rw [hpass]
    cases b with
    | false =>
      obtain ⟨hJ, hclosed⟩ := hfalse rfl
      subst hJ
      exact ⟨J, by simp, hsub, hval, hnew, hclosed, hsort⟩
    | true =>
      have hlt := htrue rfl
      obtain ⟨K, hK, hsubK, hvalK, hnewK, hclosedK, hsortK⟩ := ih J hval (by omega)
      refine ⟨K, by simpa using hK, fun x hx => hsubK x (hsub x hx), hvalK, ?_, hclosedK,
        fun h => hsortK (hsort h)⟩
      intro x hx
      rcases hnewK x hx with h | h
      · exact hnew x h
      · exact Or.inr h

/-- On a closed set of valid items the closure loop stops after one pass and
returns the set itself. -/
theorem closureLoop_closed (G : GrammarAnalyzer) (fuel : Nat) (J : List Item)
    (hv : ∀ item ∈ J, validItem G item) (hc : closedItems G J) :
    closureLoop G (fuel + 1) J = some J := by
  obtain ⟨r, hr, _, _, _, _, _, f, _, _⟩ := closureFold G J hv (J, false)
  have h : r = (J, false) := f hc
  unfold closureLoop closurePass
  rw [hr, h]
  simp

theorem closureSlack_le (G : GrammarAnalyzer) (I : List Item) :
    closureSlack G I ≤ G.grammar.length := List.countP_le_length _

theorem idsDense_loadGrammar (lines : List String) :
    idsDense (loadGrammar GrammarAnalyzer.fresh lines) := by
  intro i prod h
  rw [loadGrammar_grammar, numberFrom_getElem?] at h
  cases hp : (productionsOf lines)[i]? with
  | none => rw [hp] at h; cases h
  | some pr =>
    rw [hp] at h
    simp at h
    rw [← h]

/-- C9: closure is idempotent. For every loaded grammar and every set `I` of
valid items, with more fuel than the grammar has productions `closure`
returns a set `J`, and `closure` of `J` is `J` again. -/
theorem closure_idempotent (lines : List String) (I : List Item) (fuel : Nat)
    (hI : ∀ item ∈ I, validItem (loadGrammar GrammarAnalyzer.fresh lines) item)
    (hfuel : (loadGrammar GrammarAnalyzer.fresh lines).grammar.length < fuel) :
    ∃ J, closure (loadGrammar GrammarAnalyzer.fresh lines) fuel I = some J ∧
      closure (loadGrammar GrammarAnalyzer.fresh lines) fuel J = some J := by
  obtain ⟨J, hJ, _, hval, _, hclosed, _⟩ :=
    closureLoop_spec _ (idsDense_loadGrammar lines) fuel I hI
      (Nat.lt_of_le_of_lt (closureSlack_le _ I) hfuel)
  refine ⟨J, hJ, ?_⟩
  cases fuel with
  | zero => omega
  | succ fuel => exact closureLoop_closed _ fuel J hval hclosed

theorem closure_idempotent_witness :
    closure (loadGrammar GrammarAnalyzer.fresh demoGrammar) 6 [{ prodIndex := 1, dotPos := 5 }] =
      some [{ prodIndex := 1, dotPos := 0 }, { prodIndex := 1, dotPos := 5 },
        { prodIndex := 2, dotPos := 0 }] ∧
    ∃ J, closure (loadGrammar GrammarAnalyzer.fresh demoGrammar) 6
        [{ prodIndex := 1, dotPos := 5 }] = some J ∧
      closure (loadGrammar GrammarAnalyzer.fresh demoGrammar) 6 J = some J :=
  And.intro (by decide) <| closure_idempotent demoGrammar [{ prodIndex := 1, dotPos := 5 }] 6
    (by
      intro item hitem
      simp only [List.mem_singleton] at hitem
      subst hitem
      exact ⟨{ id := 1, lhs := "S", rhs := ["while", "(", "C", ")", "\x7b", "S", "\x7d"] },
        by decide, by decide⟩)
    (by decide)

/-- Whatever the closure loop returns on valid items is a closed, valid
superset, sorted when the input was. -/
theorem closureLoop_sound (G : GrammarAnalyzer) (hd : idsDense G) (fuel : Nat) (I J : List Item)
    (hv : ∀ item ∈ I, validItem G item) (h : closureLoop G fuel I = some J) :
    (∀ x ∈ I, x ∈ J) ∧
    (∀ x ∈ J, validItem G x) ∧
    (∀ x ∈ J, x ∈ I ∨ ∃ p ∈ G.grammar, x = { prodIndex := p.id, dotPos := 0 }) ∧
    closedItems G J ∧
    (itemsSorted I → itemsSorted J) := by
  induction fuel generalizing I with
  | zero => cases h
  | succ fuel ih =>
    obtain ⟨K, b, hpass, hsub, hval, hnew, hfalse, _, hsort⟩ := closurePass_spec G hd I hv
    unfold closureLoop at h
    rw [hpass] at h
    cases b with
    | false =>
      obtain ⟨hK, hclosed⟩ := hfalse rfl
      simp at h
      subst h
      subst hK
      exact ⟨hsub, hval, hnew, hclosed, hsort⟩
    | true =>
      simp at h
      obtain ⟨a1, a2, a3, a4, a5⟩ := ih K hval h
      refine ⟨fun x hx => a1 x (hsub x hx), a2, ?_, a4, fun hs => a5 (hsort hs)⟩
      intro x hx
      rcases a3 x hx with h1 | h1
      · exact hnew x h1
      · exact Or.inr h1

theorem itemsSorted_nil : itemsSorted [] := List.Pairwise.nil

theorem itemsSorted_insert (x : Item) (J : List Item) (h : itemsSorted J) :
    itemsSorted (setInsert Item.lt x J) :=
  sorted_setInsert Item.lt Item.lt_trans Item.lt_total x J h

/-- The kernel of a goto: the collected items are valid and sorted. -/
theorem gotoKernel_sound (G : GrammarAnalyzer) (X : String) (items acc J : List Item)
    (hacc : ∀ x ∈ acc, validItem G x) (hs : itemsSorted acc)
    (h : gotoKernel G X items acc = some J) :
    (∀ x ∈ J, validItem G x) ∧ itemsSorted J := by
  induction items generalizing acc with
  | nil =>
    simp [gotoKernel] at h
    subst h
    exact ⟨hacc, hs⟩
  | cons item rest ih =>
    unfold gotoKernel at h
    cases hp : G.grammar[item.prodIndex]? with
    | none => simp [hp] at h
    | some prod =>
      simp only [hp] at h
      cases hY : prod.rhs[item.dotPos]? with
      | none =>
        simp only [hY] at h
        exact ih acc hacc hs h
      | some Y =>
        simp only [hY] at h
        by_cases hX : Y = X
        · simp only [hX, if_true] at h
          refine ih _ ?_ (itemsSorted_insert _ _ hs) h
          intro x hx
          rcases (mem_setInsert _ _ _ _).1 hx with rfl | hx
          · refine ⟨prod, hp, ?_⟩
            have hlt : item.dotPos < prod.rhs.length := by
              by_contra hcon
              rw [List.getElem?_eq_none (by omega)] at hY
              cases hY
            exact hlt
          · exact hacc x hx
        · simp only [hX, if_false] at h
          exact ih acc hacc hs h

theorem gotoState_sound (G : GrammarAnalyzer) (hd : idsDense G) (fuel : Nat) (X : String)
    (I J : List Item) (h : gotoState G fuel I X = some J) :
    (∀ x ∈ J, validItem G x) ∧ itemsSorted J := by
  unfold gotoState at h
  cases hk : gotoKernel G X I [] with
  | none => simp [hk] at h
  | some K =>
    simp only [hk] at h
    obtain ⟨hv, hs⟩ := gotoKernel_sound G X I [] K (fun x hx => absurd hx (List.not_mem_nil _))
      itemsSorted_nil hk
    obtain ⟨_, a2, _, _, a5⟩ := closureLoop_sound G hd fuel K J hv h
    exact ⟨a2, a5 hs⟩

theorem map_modify_of_comp {α β : Type} (g : α → β) (f : α → α) (hgf : ∀ a, g (f a) = g a)
    (n : Nat) (l : List α) : (l.modify f n).map g = l.map g := by
  induction l generalizing n with
  | nil => simp
  | cons a l ih =>
    cases n with
    | zero => simp [hgf]
    | succ n => simp [ih]

theorem setTransition_items (states : List State) (p : Nat) (X : String) (t : Nat) :
    (setTransition states p X t).map State.items = states.map State.items := by
  unfold setTransition
  apply map_modify_of_comp
  intro a
  rfl

theorem setTransition_ids (states : List State) (p : Nat) (X : String) (t : Nat) :
    (setTransition states p X t).map State.id = states.map State.id := by
  unfold setTransition
  apply map_modify_of_comp
  intro a
  rfl

theorem setTransition_length (states : List State) (p : Nat) (X : String) (t : Nat) :
    (setTransition states p X t).length = states.length := by
  simp [setTransition]

theorem statesInv_setTransition (G : GrammarAnalyzer) (states : List State) (p : Nat)
    (X : String) (t : Nat) (h : statesInv G states) :
    statesInv G (setTransition states p X t) := by
  unfold statesInv at *
  rw [setTransition_items, setTransition_ids, setTransition_length]
  exact h

theorem findState_none (items : List Item) (states : List State) (k : Nat)
    (h : findState items states k = none) : items ∉ states.map State.items := by
  induction states generalizing k with
  | nil => simp
  | cons S rest ih =>
    unfold findState at h
    by_cases hS : S.items = items
    · simp [hS] at h
    · simp only [hS, if_false] at h
      simp only [List.map_cons, List.mem_cons, not_or]
      exact ⟨fun e => hS e.symm, ih (k + 1) h⟩

theorem statesInv_append (G : GrammarAnalyzer) (states : List State) (items : List Item)
    (h : statesInv G states) (hnew : items ∉ states.map State.items)
    (hs : itemsSorted items) (hv : ∀ x ∈ items, validItem G x) :
    statesInv G (states ++ [{ id := states.length, items := items, transitions := [] }]) := by
  obtain ⟨h1, h2, h3⟩ := h
  refine ⟨?_, ?_, ?_⟩
  · simp [List.range_succ, h1]
  · rw [List.map_append, List.nodup_append]
    refine ⟨h2, by simp, ?_⟩
    intro a ha hb
    simp only [List.map_cons, List.map_nil, List.mem_singleton] at hb
    subst hb
    exact hnew ha
  · intro I hI
    rw [List.map_append, List.mem_append] at hI
    rcases hI with hI | hI
    · exact h3 I hI
    · simp only [List.map_cons, List.map_nil, List.mem_singleton] at hI
      subst hI
      exact ⟨hs, hv⟩

/-- One symbol of the worklist step keeps the invariant and never shortens the
state list. -/
theorem buildDFASymbol_inv (G : GrammarAnalyzer) (hd : idsDense G) (fuel processed : Nat)
    (states states1 : List State) (X : String) (hinv : statesInv G states)
    (h : buildDFASymbol G fuel processed states X = some states1) :
    statesInv G states1 ∧ states.length ≤ states1.length := by
  unfold buildDFASymbol at h
  cases hS : states[processed]? with
  | none => simp [hS] at h
  | some S =>
    simp only [hS] at h
    cases hg : gotoState G fuel S.items X with
    | none => simp [hg] at h
    | some nextItemSet =>
      simp only [hg] at h
      by_cases he : nextItemSet = []
      · simp only [he, if_true, Option.some.injEq] at h
        subst h
        exact ⟨hinv, Nat.le_refl _⟩
      · simp only [he, if_false] at h
        cases hf : findState nextItemSet states 0 with
        | some existing =>
          simp only [hf, Option.some.injEq] at h
          subst h
          exact ⟨statesInv_setTransition G _ _ _ _ hinv, by rw [setTransition_length]⟩
        | none =>
          simp only [hf, Option.some.injEq] at h
          subst h
          obtain ⟨hv, hs⟩ := gotoState_sound G hd fuel X S.items nextItemSet hg
          refine ⟨statesInv_setTransition G _ _ _ _
            (statesInv_append G states nextItemSet hinv (findState_none _ _ _ hf) hs hv), ?_⟩
          rw [setTransition_length]
          simp

theorem buildDFAFold_inv (G : GrammarAnalyzer) (hd : idsDense G) (fuel processed : Nat)
    (syms : List String) (states states1 : List State) (hinv : statesInv G states)
    (h : syms.foldlM (buildDFASymbol G fuel processed) states = some states1) :
    statesInv G states1 ∧ states.length ≤ states1.length := by
  induction syms generalizing states with
  | nil =>
    simp at h
    subst h
    exact ⟨hinv, Nat.le_refl _⟩
  | cons X rest ih =>
    rw [List.foldlM_cons] at h
    cases hX : buildDFASymbol G fuel processed states X with
    | none => simp [hX] at h
    | some states2 =>
      simp only [hX, Option.bind_eq_bind, Option.some_bind] at h
      obtain ⟨i1, l1⟩ := buildDFASymbol_inv G hd fuel processed states states2 X hinv hX
      obtain ⟨i2, l2⟩ := ih states2 i1 h
      exact ⟨i2, Nat.le_trans l1 l2⟩

theorem buildDFALoop_inv (G : GrammarAnalyzer) (hd : idsDense G) (fuel n processed : Nat)
    (states states1 : List State) (hinv : statesInv G states)
    (h : buildDFALoop G fuel n processed states = some states1) :
    statesInv G states1 := by
  induction n generalizing processed states with
  | zero => cases h
  | succ n ih =>
    unfold buildDFALoop at h
    cases hS : states[processed]? with
    | none =>
      simp only [hS, Option.some.injEq] at h
      subst h
      exact hinv
    | some S =>
      simp only [hS] at h
      cases hn : nextSymbols G S.items [] with
      | none => simp [hn] at h
      | some syms =>
        simp only [hn] at h
        cases hf : syms.foldlM (buildDFASymbol G fuel processed) states with
        | none => simp [hf] at h
        | some states2 =>
          simp only [hf] at h
          exact ih (processed + 1) states2
            (buildDFAFold_inv G hd fuel processed syms states states2 hinv hf).1 h

theorem closureLoop_start_valid (G : GrammarAnalyzer) (fuel : Nat) (J : List Item)
    (h : closureLoop G fuel [{ prodIndex := 0, dotPos := 0 }] = some J) :
    validItem G { prodIndex := 0, dotPos := 0 } := by
  cases fuel with
  | zero => cases h
  | succ fuel =>
    cases hp : G.grammar[0]? with
    | none =>
      simp [closureLoop, closurePass, closureItem, hp] at h
    | some prod => exact ⟨prod, hp, Nat.zero_le _⟩

/-- The state list `buildDFA` leaves in an analyzer that had none satisfies
the invariant. -/
theorem buildDFA_inv (G G1 : GrammarAnalyzer) (hd : idsDense G) (hs : G.states = [])
    (fuel : Nat) (h : buildDFA fuel G = some G1) : statesInv G G1.states := by
  unfold buildDFA closure at h
  cases hc : closureLoop G fuel [{ prodIndex := 0, dotPos := 0 }] with
  | none => simp [hc] at h
  | some startSet =>
    simp only [hc, hs, List.nil_append] at h
    cases hl : buildDFALoop G fuel fuel 0 [{ id := 0, items := startSet, transitions := [] }] with
    | none => simp [hl] at h
    | some states =>
      simp only [hl, Option.some.injEq] at h
      subst h
      have hv0 := closureLoop_start_valid G fuel startSet hc
      obtain ⟨_, a2, _, _, a5⟩ := closureLoop_sound G hd fuel _ startSet
        (fun x hx => by
          simp only [List.mem_singleton] at hx
          subst hx
          exact hv0) hc
      refine buildDFALoop_inv G hd fuel fuel 0 _ states ?_ hl
      refine ⟨by simp [List.range_succ], by simp, ?_⟩
      intro I hI
      simp only [List.map_cons, List.map_nil, List.mem_singleton] at hI
      subst hI
      exact ⟨a5 (List.pairwise_singleton _ _), a2⟩

theorem idsDense_of_grammar_eq (G H : GrammarAnalyzer) (h : G.grammar = H.grammar)
    (hd : idsDense H) : idsDense G := by
  intro i prod hp
  rw [h] at hp
  exact hd i prod hp

theorem statesInv_id (G : GrammarAnalyzer) (states : List State) (h : statesInv G states)
    (i : Nat) (S : State) (hS : states[i]? = some S) : S.id = i := by
  have h1 := congrArg (fun l => l[i]?) h.1
  simp only [List.getElem?_map, hS, Option.map_some'] at h1
  have hi : i < states.length := by
    by_contra hcon
    rw [List.getElem?_eq_none (by omega)] at hS
    cases hS
  rw [List.getElem?_range hi] at h1
  exact Option.some.inj h1

theorem statesInv_distinct (G : GrammarAnalyzer) (states : List State) (h : statesInv G states)
    (i j : Nat) (Si Sj : State) (hi : states[i]? = some Si) (hj : states[j]? = some Sj)
    (hij : i ≠ j) : ¬ ∀ x, x ∈ Si.items ↔ x ∈ Sj.items := by
  intro hmem
  have hsi := (h.2.2 Si.items (List.mem_map.2 ⟨Si, List.getElem?_mem hi, rfl⟩)).1
  have hsj := (h.2.2 Sj.items (List.mem_map.2 ⟨Sj, List.getElem?_mem hj, rfl⟩)).1
  have heq : Si.items = Sj.items := items_eq_of_sorted _ _ hsi hsj hmem
  have hli : i < (states.map State.items).length := by
    rw [List.length_map]
    by_contra hcon
    rw [List.getElem?_eq_none (by omega)] at hi
    cases hi
  have hlj : j < (states.map State.items).length := by
    rw [List.length_map]
    by_contra hcon
    rw [List.getElem?_eq_none (by omega)] at hj
    cases hj
  have e1 : (states.map State.items)[i] = Si.items := by
    have := List.getElem?_eq_getElem hli
    rw [List.getElem?_map, hi] at this
    simpa using this.symm
  have e2 : (states.map State.items)[j] = Sj.items := by
    have := List.getElem?_eq_getElem hlj
    rw [List.getElem?_map, hj] at this
    simpa using this.symm
  exact hij ((List.Nodup.getElem_inj_iff h.2.1).1 (by rw [e1, e2, heq]))

/-! ## buildDFA returns -/

theorem nextSymbols_defined (G : GrammarAnalyzer) (items : List Item) (acc : List String)
    (hv : ∀ item ∈ items, validItem G item) : ∃ syms, nextSymbols G items acc = some syms := by
  induction items generalizing acc with
  | nil => exact ⟨acc, rfl⟩
  | cons item rest ih =>
    obtain ⟨prod, hp, _⟩ := hv item (List.mem_cons_self _ _)
    have hrest := fun it hit => hv it (List.mem_cons_of_mem _ hit)
    unfold nextSymbols
    simp only [hp]
    cases hY : prod.rhs[item.dotPos]? with
    | none => exact ih acc hrest
    | some Y => exact ih _ hrest

theorem gotoKernel_defined (G : GrammarAnalyzer) (X : String) (items acc : List Item)
    (hv : ∀ item ∈ items, validItem G item) : ∃ J, gotoKernel G X items acc = some J := by
  induction items generalizing acc with
  | nil => exact ⟨acc, rfl⟩
  | cons item rest ih =>
    obtain ⟨prod, hp, _⟩ := hv item (List.mem_cons_self _ _)
    have hrest := fun it hit => hv it (List.mem_cons_of_mem _ hit)
    unfold gotoKernel
    simp only [hp]
    cases hY : prod.rhs[item.dotPos]? with
    | none => exact ih acc hrest
    | some Y =>
      by_cases hX : Y = X
      · simp only [hX, if_true]; exact ih _ hrest
      · simp only [hX, if_false]; exact ih acc hrest

theorem gotoState_defined (G : GrammarAnalyzer) (hd : idsDense G) (fuel : Nat) (X : String)
    (I : List Item) (hv : ∀ item ∈ I, validItem G item) (hfuel : G.grammar.length < fuel) :
    ∃ J, gotoState G fuel I X = some J := by
  obtain ⟨K, hK⟩ := gotoKernel_defined G X I [] hv
  obtain ⟨hKv, _⟩ := gotoKernel_sound G X I [] K
    (fun x hx => absurd hx (List.not_mem_nil _)) itemsSorted_nil hK
  obtain ⟨J, hJ, _⟩ := closureLoop_spec G hd fuel K hKv
    (Nat.lt_of_le_of_lt (closureSlack_le G K) hfuel)
  exact ⟨J, by unfold gotoState; simp only [hK]; exact hJ⟩

theorem statesInv_valid (G : GrammarAnalyzer) (states : List State) (h : statesInv G states)
    (i : Nat) (S : State) (hS : states[i]? = some S) : ∀ x ∈ S.items, validItem G x :=
  (h.2.2 S.items (List.mem_map.2 ⟨S, List.getElem?_mem hS, rfl⟩)).2

theorem buildDFASymbol_defined (G : GrammarAnalyzer) (hd : idsDense G) (fuel processed : Nat)
    (states : List State) (X : String) (hinv : statesInv G states)
    (hp : processed < states.length) (hfuel : G.grammar.length < fuel) :
    ∃ states1, buildDFASymbol G fuel processed states X = some states1 := by
  have hS : states[processed]? = some states[processed] := List.getElem?_eq_getElem hp
  obtain ⟨J, hJ⟩ := gotoState_defined G hd fuel X states[processed].items
    (statesInv_valid G states hinv processed _ hS) hfuel
  unfold buildDFASymbol
  simp only [hS, hJ]
  by_cases he : J = []
  · exact ⟨states, by simp [he]⟩
  · simp only [he, if_false]
    cases findState J states 0 with
    | some existing => exact ⟨_, rfl⟩
    | none => exact ⟨_, rfl⟩

theorem buildDFAFold_defined (G : GrammarAnalyzer) (hd : idsDense G) (fuel processed : Nat)
    (syms : List String) (states : List State) (hinv : statesInv G states)
    (hp : processed < states.length) (hfuel : G.grammar.length < fuel) :
    ∃ states1, syms.foldlM (buildDFASymbol G fuel processed) states = some states1 := by
  induction syms generalizing states with
  | nil => exact ⟨states, rfl⟩
  | cons X rest ih =>
    obtain ⟨states2, h2⟩ := buildDFASymbol_defined G hd fuel processed states X hinv hp hfuel
    obtain ⟨i2, l2⟩ := buildDFASymbol_inv G hd fuel processed states states2 X hinv h2
    obtain ⟨states1, h1⟩ := ih states2 i2 (by omega)
    exact ⟨states1, by rw [List.foldlM_cons, h2]; exact h1⟩

theorem le_foldr_max (l : List Nat) (n : Nat) (h : n ∈ l) : n ≤ l.foldr max 0 := by
  induction l with
  | nil => cases h
  | cons m rest ih =>
    simp only [List.foldr_cons]
    rcases List.mem_cons.1 h with rfl | h
    · exact Nat.le_max_left _ _
    · exact Nat.le_trans (ih h) (Nat.le_max_right _ _)

theorem le_maxRhs (G : GrammarAnalyzer) (p : Production) (hp : p ∈ G.grammar) :
    p.rhs.length ≤ maxRhs G :=
  le_foldr_max _ _ (List.mem_map.2 ⟨p, hp, rfl⟩)

/-- No more states than sets of item positions: the item sets of the states
are pairwise different sorted sets of valid items. -/
theorem statesInv_length_le (G : GrammarAnalyzer) (states : List State)
    (h : statesInv G states) : states.length ≤ statesBound G := by
  obtain ⟨_, hnd, hsv⟩ := h
  let U : Finset (Nat × Nat) := Finset.range G.grammar.length ×ˢ Finset.range (maxRhs G + 1)
  let φ : List Item → Finset (Nat × Nat) :=
    fun I => (I.map (fun it => (it.prodIndex, it.dotPos))).toFinset
  have hinj : ∀ I1 ∈ states.map State.items, ∀ I2 ∈ states.map State.items,
      φ I1 = φ I2 → I1 = I2 := by
    intro I1 h1 I2 h2 he
    apply items_eq_of_sorted I1 I2 (hsv I1 h1).1 (hsv I2 h2).1
    intro x
    have hx : ∀ I : List Item, x ∈ I ↔ (x.prodIndex, x.dotPos) ∈ φ I := by
      intro I
      simp only [φ, List.mem_toFinset, List.mem_map, Prod.mk.injEq]
      constructor
      · intro hxI; exact ⟨x, hxI, rfl, rfl⟩
      · rintro ⟨y, hy, e1, e2⟩
        have : y = x := by cases x; cases y; simp_all
        rw [← this]; exact hy
    rw [hx I1, hx I2, he]
  have hnd2 : ((states.map State.items).map φ).Nodup := List.Nodup.map_on hinj hnd
  have hsub : ((states.map State.items).map φ).toFinset ⊆ U.powerset := by
    intro s hs
    rw [List.mem_toFinset] at hs
    obtain ⟨I, hI, rfl⟩ := List.mem_map.1 hs
    rw [Finset.mem_powerset]
    intro pr hpr
    simp only [φ, List.mem_toFinset, List.mem_map] at hpr
    obtain ⟨it, hit, rfl⟩ := hpr
    obtain ⟨prod, hprod, hdot⟩ := (hsv I hI).2 it hit
    simp only [U, Finset.mem_product, Finset.mem_range]
    have hlt : it.prodIndex < G.grammar.length := by
      by_contra hcon
      rw [List.getElem?_eq_none (by omega)] at hprod
      cases hprod
    have := le_maxRhs G prod (List.getElem?_mem hprod)
    exact ⟨hlt, by omega⟩
  have hcard := Finset.card_le_card hsub
  rw [List.toFinset_card_of_nodup hnd2, Finset.card_powerset, Finset.card_product,
    Finset.card_range, Finset.card_range] at hcard
  simpa [statesBound] using hcard

theorem buildDFALoop_defined (G : GrammarAnalyzer) (hd : idsDense G) (fuel n processed : Nat)
    (states : List State) (hinv : statesInv G states) (hp : processed ≤ states.length)
    (hfuel : G.grammar.length < fuel) (hn : statesBound G + 1 ≤ n + processed) :
    ∃ states1, buildDFALoop G fuel n processed states = some states1 := by
  induction n generalizing processed states with
  | zero =>
    have := statesInv_length_le G states hinv
    omega
  | succ n ih =>
    unfold buildDFALoop
    cases hS : states[processed]? with
    | none => exact ⟨states, rfl⟩
    | some S =>
      have hlt : processed < states.length := by
        by_contra hcon
        rw [List.getElem?_eq_none (by omega)] at hS
        cases hS
      obtain ⟨syms, hsyms⟩ := nextSymbols_defined G S.items []
        (statesInv_valid G states hinv processed S hS)
      obtain ⟨states2, h2⟩ := buildDFAFold_defined G hd fuel processed syms states hinv hlt hfuel
      obtain ⟨i2, l2⟩ := buildDFAFold_inv G hd fuel processed syms states states2 hinv h2
      obtain ⟨states1, h1⟩ := ih (processed + 1) states2 i2 (by omega) (by omega)
      exact ⟨states1, by simp only [hsyms, h2]; exact h1⟩

theorem lt_statesBound (G : GrammarAnalyzer) : G.grammar.length < statesBound G := by
  unfold statesBound
  calc G.grammar.length < 2 ^ G.grammar.length := Nat.lt_two_pow _
    _ ≤ 2 ^ (G.grammar.length * (maxRhs G + 1)) :=
      Nat.pow_le_pow_right (by decide) (Nat.le_mul_of_pos_right _ (Nat.succ_pos _))

/-- With fuel above `statesBound`, `buildDFA` on a non-empty grammar with
dense ids and no states yet returns. -/
theorem buildDFA_defined (G : GrammarAnalyzer) (hd : idsDense G) (hs : G.states = [])
    (hne : G.grammar ≠ []) (fuel : Nat) (hfuel : statesBound G < fuel) :
    ∃ G1, buildDFA fuel G = some G1 := by
  have hlen : G.grammar.length < fuel := Nat.lt_trans (lt_statesBound G) hfuel
  have hv0 : validItem G { prodIndex := 0, dotPos := 0 } := by
    cases hg : G.grammar with
    | nil => exact absurd hg hne
    | cons p rest => exact ⟨p, by simp [hg], Nat.zero_le _⟩
  have hvs : ∀ x ∈ [({ prodIndex := 0, dotPos := 0 } : Item)], validItem G x := by
    intro x hx
    simp only [List.mem_singleton] at hx
    subst hx
    exact hv0
  obtain ⟨startSet, hstart, _, hval, _, _, hsort⟩ := closureLoop_spec G hd fuel _ hvs
    (Nat.lt_of_le_of_lt (closureSlack_le G _) hlen)
  have hinv : statesInv G [{ id := 0, items := startSet, transitions := [] }] := by
    refine ⟨by simp [List.range_succ], by simp, ?_⟩
    intro I hI
    simp only [List.map_cons, List.map_nil, List.mem_singleton] at hI
    subst hI
    exact ⟨hsort (List.pairwise_singleton _ _), hval⟩
  obtain ⟨states, hstates⟩ := buildDFALoop_defined G hd fuel fuel 0 _ hinv (Nat.zero_le _) hlen
    (by omega)
  refine ⟨{ G with states := states }, ?_⟩
  unfold buildDFA closure
  simp only [hstart, hs, List.nil_append, hstates]

theorem grammar_ne_nil_of_loaded (lines : List String) (G : GrammarAnalyzer)
    (hg : G.grammar = (loadGrammar GrammarAnalyzer.fresh lines).grammar)
    (hne : productionsOf lines ≠ []) : G.grammar ≠ [] := by
  rw [hg, loadGrammar_grammar]
  cases hp : productionsOf lines with
  | nil => exact absurd hp hne
  | cons pr rest => simp [numberFrom]

/-- C10: `buildDFA` on an analyzer that holds a loaded, non-empty grammar and
no states yet returns once the fuel exceeds `statesBound`; and in the state
list it leaves, every state has its position as id and no two states at
different positions have the same set of items. -/
theorem buildDFA_states_distinct (lines : List String) (G : GrammarAnalyzer)
    (hg : G.grammar = (loadGrammar GrammarAnalyzer.fresh lines).grammar) (hs : G.states = [])
    (hne : productionsOf lines ≠ []) :
    (∀ fuel, statesBound G < fuel → ∃ G1, buildDFA fuel G = some G1) ∧
    (∀ fuel G1, buildDFA fuel G = some G1 →
      ∀ (i j : Nat) (Si Sj : State), G1.states[i]? = some Si → G1.states[j]? = some Sj →
        Si.id = i ∧ (i ≠ j → ¬ ∀ x, x ∈ Si.items ↔ x ∈ Sj.items)) := by
  have hd := idsDense_of_grammar_eq G _ hg (idsDense_loadGrammar lines)
  refine ⟨fun fuel hfuel =>
    buildDFA_defined G hd hs (grammar_ne_nil_of_loaded lines G hg hne) fuel hfuel, ?_⟩
  intro fuel G1 h i j Si Sj hi hj
  have hinv := buildDFA_inv G G1 hd hs fuel h
  exact ⟨statesInv_id G _ hinv i Si hi, statesInv_distinct G _ hinv i j Si Sj hi hj⟩

theorem buildDFA_states_distinct_witness :
    ∃ G1 S3 S12, buildDFA 100 (loadGrammar GrammarAnalyzer.fresh demoGrammar) = some G1 ∧
      G1.states.length = 16 ∧ G1.states[3]? = some S3 ∧ G1.states[12]? = some S12 ∧
      S3.id = 3 ∧ (3 ≠ 12 → ¬ ∀ x, x ∈ S3.items ↔ x ∈ S12.items) := by
  have hsome : (buildDFA 100 (loadGrammar GrammarAnalyzer.fresh demoGrammar)).isSome = true := by
    decide
  obtain ⟨G1, hG1⟩ := Option.isSome_iff_exists.1 hsome
  have hlen : (buildDFA 100 (loadGrammar GrammarAnalyzer.fresh demoGrammar)).map
      (fun G => (G.states.length, (G.states[3]?).isSome, (G.states[12]?).isSome)) =
        some (16, true, true) := by
    decide
  rw [hG1] at hlen
  simp only [Option.map_some', Option.some.injEq, Prod.mk.injEq] at hlen
  obtain ⟨h16, h3, h12⟩ := hlen
  obtain ⟨S3, hS3⟩ := Option.isSome_iff_exists.1 h3
  obtain ⟨S12, hS12⟩ := Option.isSome_iff_exists.1 h12
  exact ⟨G1, S3, S12, hG1, h16, hS3, hS12,
    (buildDFA_states_distinct demoGrammar _ rfl (by decide) (by decide)).2 100 G1 hG1
      3 12 S3 S12 hS3 hS12⟩

/-! ## More fuel never changes a result -/

theorem computeFirstLoop_mono (f f1 : Nat) (G r : GrammarAnalyzer) (hle : f ≤ f1)
    (h : computeFirstLoop f G = some r) : computeFirstLoop f1 G = some r := by
  induction f generalizing f1 G with
  | zero => cases h
  | succ f ih =>
    cases f1 with
    | zero => omega
    | succ f1 =>
      unfold computeFirstLoop at h ⊢
      by_cases hc : (computeFirstPass G).2 = true
      · simp only [hc, if_true] at h ⊢
        exact ih f1 _ (by omega) h
      · simp only [hc] at h ⊢
        exact h

theorem computeFollowLoop_mono (f f1 : Nat) (G r : GrammarAnalyzer) (hle : f ≤ f1)
    (h : computeFollowLoop f G = some r) : computeFollowLoop f1 G = some r := by
  induction f generalizing f1 G with
  | zero => cases h
  | succ f ih =>
    cases f1 with
    | zero => omega
    | succ f1 =>
      unfold computeFollowLoop at h ⊢
      by_cases hc : (computeFollowPass G).2 = true
      · simp only [hc, if_true] at h ⊢
        exact ih f1 _ (by omega) h
      · simp only [hc] at h ⊢
        exact h

theorem closureLoop_mono (G : GrammarAnalyzer) (f f1 : Nat) (I J : List Item) (hle : f ≤ f1)
    (h : closureLoop G f I = some J) : closureLoop G f1 I = some J := by
  induction f generalizing f1 I with
  | zero => cases h
  | succ f ih =>
    cases f1 with
    | zero => omega
    | succ f1 =>
      unfold closureLoop at h ⊢
      cases hp : closurePass G I with
      | none => simp [hp] at h
      | some r =>
        simp only [hp] at h ⊢
        by_cases hc : r.2 = true
        · simp only [hc, if_true] at h ⊢
          exact ih f1 _ (by omega) h
        · simp only [hc] at h ⊢
          exact h

theorem gotoState_mono (G : GrammarAnalyzer) (f f1 : Nat) (I J : List Item) (X : String)
    (hle : f ≤ f1) (h : gotoState G f I X = some J) : gotoState G f1 I X = some J := by
  unfold gotoState at h ⊢
  cases hk : gotoKernel G X I [] with
  | none => simp [hk] at h
  | some K =>
    simp only [hk] at h ⊢
    exact closureLoop_mono G f f1 K J hle h

theorem buildDFASymbol_mono (G : GrammarAnalyzer) (f f1 processed : Nat)
    (states states1 : List State) (X : String) (hle : f ≤ f1)
    (h : buildDFASymbol G f processed states X = some states1) :
    buildDFASymbol G f1 processed states X = some states1 := by
  unfold buildDFASymbol at h ⊢
  cases hS : states[processed]? with
  | none => simp [hS] at h
  | some S =>
    simp only [hS] at h ⊢
    cases hg : gotoState G f S.items X with
    | none => simp [hg] at h
    | some nextItemSet =>
      rw [gotoState_mono G f f1 S.items nextItemSet X hle hg]
      simp only [hg] at h
      exact h

theorem buildDFAFold_mono (G : GrammarAnalyzer) (f f1 processed : Nat) (syms : List String)
    (states states1 : List State) (hle : f ≤ f1)
    (h : syms.foldlM (buildDFASymbol G f processed) states = some states1) :
    syms.foldlM (buildDFASymbol G f1 processed) states = some states1 := by
  induction syms generalizing states with
  | nil => exact h
  | cons X rest ih =>
    rw [List.foldlM_cons] at h ⊢
    cases hX : buildDFASymbol G f processed states X with
    | none => simp [hX] at h
    | some states2 =>
      rw [buildDFASymbol_mono G f f1 processed states states2 X hle hX]
      simp only [hX, Option.bind_eq_bind, Option.some_bind] at h ⊢
      exact ih states2 h

theorem buildDFALoop_mono (G : GrammarAnalyzer) (f f1 n n1 processed : Nat)
    (states states1 : List State) (hle : f ≤ f1) (hn : n ≤ n1)
    (h : buildDFALoop G f n processed states = some states1) :
    buildDFALoop G f1 n1 processed states = some states1 := by
  induction n generalizing n1 processed states with
  | zero => cases h
  | succ n ih =>
    cases n1 with
    | zero => omega
    | succ n1 =>
      unfold buildDFALoop at h ⊢
      cases hS : states[processed]? with
      | none =>
        simp only [hS] at h ⊢
        exact h
      | some S =>
        simp only [hS] at h ⊢
        cases hy : nextSymbols G S.items [] with
        | none => simp [hy] at h
        | some syms =>
          simp only [hy] at h ⊢
          cases hf : syms.foldlM (buildDFASymbol G f processed) states with
          | none => simp [hf] at h
          | some states2 =>
            rw [buildDFAFold_mono G f f1 processed syms states states2 hle hf]
            simp only [hf] at h ⊢
            exact ih n1 (processed + 1) states2 (by omega) h

theorem buildDFA_mono (f f1 : Nat) (G r : GrammarAnalyzer) (hle : f ≤ f1)
    (h : buildDFA f G = some r) : buildDFA f1 G = some r := by
  unfold buildDFA closure at h ⊢
  cases hc : closureLoop G f [{ prodIndex := 0, dotPos := 0 }] with
  | none => simp [hc] at h
  | some startSet =>
    rw [closureLoop_mono G f f1 _ startSet hle hc]
    simp only [hc] at h ⊢
    cases hl : buildDFALoop G f f 0
        (G.states ++ [{ id := 0, items := startSet, transitions := [] }]) with
    | none => simp [hl] at h
    | some states =>
      rw [buildDFALoop_mono G f f1 f f1 0 _ states hle hle hl]
      simp only [hl] at h ⊢
      exact h

theorem computeFirst_mono (f f1 : Nat) (G r : GrammarAnalyzer) (hle : f ≤ f1)
    (h : computeFirst f G = some r) : computeFirst f1 G = some r :=
  computeFirstLoop_mono f f1 G r hle h

theorem computeFollow_mono (f f1 : Nat) (G r : GrammarAnalyzer) (hle : f ≤ f1)
    (h : computeFollow f G = some r) : computeFollow f1 G = some r :=
  computeFollowLoop_mono f f1 _ r hle h

/-- More fuel leaves the result of `build` as it is. -/
theorem build_mono (f f1 : Nat) (G : GrammarAnalyzer) (r : GrammarAnalyzer × Bool) (hle : f ≤ f1)
    (h : build f G = some r) : build f1 G = some r := by
  unfold build at h ⊢
  cases h1 : computeFirst f G with
  | none => simp [h1] at h
  | some G1 =>
    rw [computeFirst_mono f f1 G G1 hle h1]
    simp only [h1] at h ⊢
    cases h2 : computeFollow f G1 with
    | none => simp [h2] at h
    | some G2 =>
      rw [computeFollow_mono f f1 G1 G2 hle h2]
      simp only [h2] at h ⊢
      cases h3 : buildDFA f G2 with
      | none => simp [h3] at h
      | some G3 =>
        rw [buildDFA_mono f f1 G2 G3 hle h3]
        simp only [h3] at h ⊢
        exact h

theorem parseLoop_mono (tokens : List Token) (f f1 : Nat) (P : Parser) (cfg : Config)
    (r : Parser × ParseResult) (hle : f ≤ f1) (h : parseLoop tokens f P cfg = some r) :
    parseLoop tokens f1 P cfg = some r := by
  induction f generalizing f1 P cfg with
  | zero => cases h
  | succ f ih =>
    cases f1 with
    | zero => omega
    | succ f1 =>
      unfold parseLoop at h ⊢
      cases hs : parseStep tokens P cfg with
      | none => simp [hs] at h
      | some s =>
        cases s with
        | done P1 res =>
          simp only [hs] at h ⊢
          exact h
        | next P1 cfg1 =>
          simp only [hs] at h ⊢
          exact ih f1 P1 cfg1 (by omega) h

/-- More fuel leaves the result of `parse` as it is. -/
theorem parse_mono (f f1 : Nat) (P : Parser) (input : String) (r : Parser × ParseResult)
    (hle : f ≤ f1) (h : parse f P input = some r) : parse f1 P input = some r := by
  unfold parse at h ⊢
  cases ht : tokenize input with
  | none => simp [ht] at h
  | some tokens =>
    simp only [ht] at h ⊢
    exact parseLoop_mono tokens f f1 P Config.initial r hle h

theorem analyze_mono (f f1 : Nat) (lines : List String) (r : GrammarAnalyzer × Bool)
    (hle : f ≤ f1) (h : analyze f lines = some r) : analyze f1 lines = some r :=
  build_mono f f1 _ r hle h

theorem translate_mono (f f1 : Nat) (lines : List String) (input : String)
    (r : Parser × ParseResult) (hle : f ≤ f1) (h : translate f lines input = some r) :
    translate f1 lines input = some r := by
  unfold translate at h ⊢
  cases ha : analyze f lines with
  | none => simp [ha] at h
  | some a =>
    rw [analyze_mono f f1 lines a hle ha]
    obtain ⟨G, b⟩ := a
    cases b with
    | false => simp [ha] at h
    | true =>
      simp only [ha] at h ⊢
      exact parse_mono f f1 _ input r hle h

/-! ## Semantic actions -/

/-- The reduce branch of `parseStep`, once the action and the production are
known and both stacks are deep enough. -/
theorem parseStep_reduce (tokens : List Token) (P : Parser) (cfg : Config) (s : Nat)
    (rest : List Nat) (tok : Token) (p : Nat) (prod : Production) (t : Nat) (below : List Nat)
    (hs : cfg.stateStack = s :: rest) (htok : tokens[cfg.ip]? = some tok)
    (hact : mapFind tok.type (mapGet s [] P.G.actionTable) = some { type := 'r', val := p })
    (hprod : P.G.grammar[p]? = some prod)
    (hsym : prod.rhs.length ≤ cfg.symbolStack.length)
    (hdrop : cfg.stateStack.drop prod.rhs.length = t :: below) :
    parseStep tokens P cfg =
      (semanticAction
          { P with G := { P.G with
              actionTable := mapTouch natLt s [] P.G.actionTable
              gotoTable := mapSet natLt t
                (mapTouch strLt prod.lhs 0 (mapGet t [] (mapTouch natLt t [] P.G.gotoTable)))
                (mapTouch natLt t [] P.G.gotoTable) } }
          prod ((cfg.symbolStack.take prod.rhs.length).reverse)).map
        (fun r => Step.next r.2
          { stateStack :=
              mapGet prod.lhs 0
                (mapTouch strLt prod.lhs 0 (mapGet t [] (mapTouch natLt t [] P.G.gotoTable)))
              :: t :: below,
            symbolStack := r.1 :: cfg.symbolStack.drop prod.rhs.length,
            ip := cfg.ip }) := by
  have hfind : mapFind tok.type (mapGet s [] (mapTouch natLt s [] P.G.actionTable)) =
      some { type := 'r', val := p } := by
    unfold mapTouch mapGet
    unfold mapGet at hact
    cases hrow : mapFind s P.G.actionTable with
    | some row => simp only [hrow] at hact ⊢; exact hact
    | none => simp only [hrow] at hact; simp [mapFind] at hact
  have hlen1 : ¬ (cfg.stateStack.length < prod.rhs.length ∨
      cfg.symbolStack.length < prod.rhs.length) := by
    have := congrArg List.length hdrop
    simp only [List.length_drop, List.length_cons] at this
    omega
  unfold parseStep
  simp only [hs, htok, hfind]
  have hs' : (s :: rest) = cfg.stateStack := hs.symm
  simp only [hs', hprod, hlen1, hdrop, if_false]
  have hne : ¬ (('r' : Char) = 's') := by decide
  simp only [hne, if_false, if_true]
  cases semanticAction _ prod _ <;> rfl


/-- Below `INT_MAX` the increment of a counter adds one, and the numeral of a
value up to `INT_MAX` is the numeral of the natural number. -/
theorem intIncr_eq (n : Nat) (h : n < 2147483647) : intIncr n = n + 1 := by
  unfold intIncr
  exact Nat.mod_eq_of_lt (by omega)

theorem intToString_eq (n : Nat) (h : n < 2147483648) : intToString n = toString n := by
  unfold intToString
  rw [if_pos h]

theorem newTemp_eq (P : Parser) (h : P.tempCount < 2147483647) :
    P.newTemp = ("T" ++ toString (P.tempCount + 1), { P with tempCount := P.tempCount + 1 }) := by
  unfold Parser.newTemp
  rw [intIncr_eq _ h, intToString_eq _ (by omega)]

theorem newLabel_eq (P : Parser) (h : P.labelCount < 2147483647) :
    P.newLabel =
      ("L" ++ toString (P.labelCount + 1), { P with labelCount := P.labelCount + 1 }) := by
  unfold Parser.newLabel
  rw [intIncr_eq _ h, intToString_eq _ (by omega)]

/-- At `INT_MAX` the increment overflows: the name that `newTemp` returns is
`T-2147483648`, and so for `newLabel`. -/
theorem newTemp_overflow :
    (Parser.newTemp { G := GrammarAnalyzer.fresh, tempCount := 2147483647, labelCount := 0 }).1 =
      "T-2147483648" ∧
    (Parser.newLabel { G := GrammarAnalyzer.fresh, tempCount := 0, labelCount := 2147483647 }).1 =
      "L-2147483648" := by
  constructor <;> decide

theorem semanticAction_while (P : Parser) (prod : Production) (attrs : List Attribute)
    (C S1 : Attribute) (hlen : prod.rhs.length = 7) (hw : prod.rhs[0]? = some "while")
    (hC : attrs[2]? = some C) (hS : attrs[5]? = some S1)
    (hn : P.labelCount + 2 ≤ 2147483647) :
    semanticAction P prod attrs =
      some ({ place := "",
              code := [quad "label" "-" "-" ("L" ++ toString (P.labelCount + 1))] ++ C.code
                ++ [quad "jfalse" C.place "-" ("L" ++ toString (P.labelCount + 2))] ++ S1.code
                ++ [quad "jump" "-" "-" ("L" ++ toString (P.labelCount + 1)),
                    quad "label" "-" "-" ("L" ++ toString (P.labelCount + 2))] },
            { P with labelCount := P.labelCount + 2 }) := by
  have e1 := newLabel_eq P (by omega)
  have e2 : ({ P with labelCount := P.labelCount + 1 } : Parser).newLabel =
      ("L" ++ toString (P.labelCount + 2), { P with labelCount := P.labelCount + 2 }) :=
    newLabel_eq { P with labelCount := P.labelCount + 1 } (by show P.labelCount + 1 < _; omega)
  unfold semanticAction
  simp [hlen, hw, hC, hS, e1, e2, quad]

theorem semanticAction_relational (P : Parser) (prod : Production) (attrs : List Attribute)
    (op : String) (E1 E2 : Attribute) (hlen : prod.rhs.length = 3) (hmid : prod.rhs[1]? = some op)
    (hop : op = ">" ∨ op = "<" ∨ op = "==")
    (h1 : attrs[0]? = some E1) (h2 : attrs[2]? = some E2)
    (hn : P.tempCount + 1 ≤ 2147483647) :
    semanticAction P prod attrs =
      some ({ place := "T" ++ toString (P.tempCount + 1),
              code := E1.code ++ E2.code
                ++ [quad op E1.place E2.place ("T" ++ toString (P.tempCount + 1))] },
            { P with tempCount := P.tempCount + 1 }) := by
  have e1 := newTemp_eq P (by omega)
  unfold semanticAction
  rcases hop with rfl | rfl | rfl <;>
    simp [hlen, hmid, h1, h2, e1, quad]

theorem semanticAction_plus (P : Parser) (prod : Production) (attrs : List Attribute)
    (op1 E2 : Attribute) (hlen : prod.rhs.length = 3) (hmid : prod.rhs[1]? = some "+")
    (h1 : attrs[0]? = some op1) (h2 : attrs[2]? = some E2)
    (hn : P.tempCount + 1 ≤ 2147483647) :
    semanticAction P prod attrs =
      some ({ place := "T" ++ toString (P.tempCount + 1),
              code := E2.code
                ++ [quad "+" op1.place E2.place ("T" ++ toString (P.tempCount + 1))] },
            { P with tempCount := P.tempCount + 1 }) := by
  have e1 := newTemp_eq P (by omega)
  unfold semanticAction
  simp [hlen, hmid, h1, h2, e1, quad]

/-- C16: a reduction by a production with seven right-hand-side symbols that
starts with `while` pops the seven attributes `a0 .. a6` (`a6` on top) and
pushes an attribute with empty place whose code is label L(n+1), the code of
`a2`, jfalse on the place of `a2` to L(n+2), the code of `a5`, jump L(n+1),
label L(n+2), where `n` is the label counter before; the label counter becomes
`n + 2`, the temporary counter and the token pointer stay. The label counter is
an `int`: this holds as long as `n + 2` does not exceed `INT_MAX`, so that
neither of the two increments overflows. -/
theorem reduce_while (tokens : List Token) (P : Parser) (cfg : Config) (s : Nat)
    (rest : List Nat) (tok : Token) (p : Nat) (prod : Production) (t : Nat) (below : List Nat)
    (a0 a1 a2 a3 a4 a5 a6 : Attribute) (under : List Attribute)
    (hs : cfg.stateStack = s :: rest) (htok : tokens[cfg.ip]? = some tok)
    (hact : mapFind tok.type (mapGet s [] P.G.actionTable) = some { type := 'r', val := p })
    (hprod : P.G.grammar[p]? = some prod)
    (hlen : prod.rhs.length = 7) (hw : prod.rhs[0]? = some "while")
    (hsym : cfg.symbolStack = a6 :: a5 :: a4 :: a3 :: a2 :: a1 :: a0 :: under)
    (hdrop : cfg.stateStack.drop 7 = t :: below)
    (hn : P.labelCount + 2 ≤ 2147483647) :
    ∃ P1 cfg1, parseStep tokens P cfg = some (Step.next P1 cfg1) ∧
      cfg1.symbolStack =
        { place := "",
          code := [quad "label" "-" "-" ("L" ++ toString (P.labelCount + 1))] ++ a2.code
            ++ [quad "jfalse" a2.place "-" ("L" ++ toString (P.labelCount + 2))] ++ a5.code
            ++ [quad "jump" "-" "-" ("L" ++ toString (P.labelCount + 1)),
                quad "label" "-" "-" ("L" ++ toString (P.labelCount + 2))] } :: under ∧
      P1.labelCount = P.labelCount + 2 ∧ P1.tempCount = P.tempCount ∧ cfg1.ip = cfg.ip := by
  have hstep := parseStep_reduce tokens P cfg s rest tok p prod t below hs htok hact hprod
    (by rw [hsym, hlen]; simp) (by rw [hlen]; exact hdrop)
  rw [hstep, semanticAction_while _ prod _ a2 a5 hlen hw
    (by rw [hsym, hlen]; rfl) (by rw [hsym, hlen]; rfl) (by exact hn)]
  refine ⟨_, _, rfl, ?_, rfl, rfl, rfl⟩
  simp [hsym, hlen]

theorem reduce_while_witness :
    ∃ P1 cfg1,
      parseStep [{ type := "#", value := "#" }] (Parser.new (analyzerOf demoGrammar))
          { stateStack := [15, 14, 12, 10, 8, 5, 3, 0],
            symbolStack := [{ place := "\x7d", code := [] },
              { place := "", code := [quad "=" "y" "-" "x"] }, { place := "\x7b", code := [] },
              { place := ")", code := [] }, { place := "T1", code := [quad ">" "a" "b" "T1"] },
              { place := "(", code := [] }, { place := "while", code := [] }],
            ip := 0 } = some (Step.next P1 cfg1) ∧
      cfg1.symbolStack = [{ place := "", code := demoQuads }] ∧ P1.labelCount = 2 := by
  obtain ⟨P1, cfg1, h1, h2, h3, _, _⟩ :=
    reduce_while [{ type := "#", value := "#" }] (Parser.new (analyzerOf demoGrammar))
      { stateStack := [15, 14, 12, 10, 8, 5, 3, 0],
        symbolStack := [{ place := "\x7d", code := [] },
          { place := "", code := [quad "=" "y" "-" "x"] }, { place := "\x7b", code := [] },
          { place := ")", code := [] }, { place := "T1", code := [quad ">" "a" "b" "T1"] },
          { place := "(", code := [] }, { place := "while", code := [] }],
        ip := 0 }
      15 [14, 12, 10, 8, 5, 3, 0] { type := "#", value := "#" } 1
      { id := 1, lhs := "S", rhs := ["while", "(", "C", ")", "\x7b", "S", "\x7d"] } 0 []
      { place := "while", code := [] } { place := "(", code := [] }
      { place := "T1", code := [quad ">" "a" "b" "T1"] } { place := ")", code := [] }
      { place := "\x7b", code := [] } { place := "", code := [quad "=" "y" "-" "x"] }
      { place := "\x7d", code := [] } []
      rfl (by decide) (by decide) (by decide) (by decide) (by decide) rfl (by decide)
      (by decide)
  exact ⟨P1, cfg1, h1, by rw [h2]; decide, by rw [h3]; rfl⟩

/-- C17: a reduction by a production with three right-hand-side symbols whose
middle symbol `op` is `>`, `<` or `==` pops the attributes `a0`, `a1`, `a2`
(`a2` on top) and pushes an attribute with place T(n+1) and code
`a0.code ++ a2.code ++ [(op, a0.place, a2.place, T(n+1))]`, where `n` is the
temporary counter before; the temporary counter becomes `n + 1`, the label
counter and the token pointer stay. The temporary counter is an `int`: this
holds as long as `n + 1` does not exceed `INT_MAX`, so that the increment does
not overflow. -/
theorem reduce_relational (tokens : List Token) (P : Parser) (cfg : Config) (s : Nat)
    (rest : List Nat) (tok : Token) (p : Nat) (prod : Production) (t : Nat) (below : List Nat)
    (op : String) (a0 a1 a2 : Attribute) (under : List Attribute)
    (hs : cfg.stateStack = s :: rest) (htok : tokens[cfg.ip]? = some tok)
    (hact : mapFind tok.type (mapGet s [] P.G.actionTable) = some { type := 'r', val := p })
    (hprod : P.G.grammar[p]? = some prod)
    (hlen : prod.rhs.length = 3) (hmid : prod.rhs[1]? = some op)
    (hop : op = ">" ∨ op = "<" ∨ op = "==")
    (hsym : cfg.symbolStack = a2 :: a1 :: a0 :: under)
    (hdrop : cfg.stateStack.drop 3 = t :: below)
    (hn : P.tempCount + 1 ≤ 2147483647) :
    ∃ P1 cfg1, parseStep tokens P cfg = some (Step.next P1 cfg1) ∧
      cfg1.symbolStack =
        { place := "T" ++ toString (P.tempCount + 1),
          code := a0.code ++ a2.code
            ++ [quad op a0.place a2.place ("T" ++ toString (P.tempCount + 1))] } :: under ∧
      P1.tempCount = P.tempCount + 1 ∧ P1.labelCount = P.labelCount ∧ cfg1.ip = cfg.ip := by
  have hstep := parseStep_reduce tokens P cfg s rest tok p prod t below hs htok hact hprod
    (by rw [hsym, hlen]; simp) (by rw [hlen]; exact hdrop)
  rw [hstep, semanticAction_relational _ prod _ op a0 a2 hlen hmid hop
    (by rw [hsym, hlen]; rfl) (by rw [hsym, hlen]; rfl) (by exact hn)]
  refine ⟨_, _, rfl, ?_, rfl, rfl, rfl⟩
  simp [hsym, hlen]

theorem reduce_relational_witness :
    ∃ P1 cfg1,
      parseStep [{ type := ")", value := ")" }] (Parser.new (analyzerOf demoGrammar))
          { stateStack := [13, 11, 9, 5, 3, 0],
            symbolStack := [{ place := "b", code := [] }, { place := ">", code := [] },
              { place := "a", code := [] }, { place := "(", code := [] },
              { place := "while", code := [] }],
            ip := 0 } = some (Step.next P1 cfg1) ∧
      cfg1.symbolStack = [{ place := "T1", code := [quad ">" "a" "b" "T1"] },
        { place := "(", code := [] }, { place := "while", code := [] }] ∧
      P1.tempCount = 1 := by
  obtain ⟨P1, cfg1, h1, h2, h3, _, _⟩ :=
    reduce_relational [{ type := ")", value := ")" }] (Parser.new (analyzerOf demoGrammar))
      { stateStack := [13, 11, 9, 5, 3, 0],
        symbolStack := [{ place := "b", code := [] }, { place := ">", code := [] },
          { place := "a", code := [] }, { place := "(", code := [] },
          { place := "while", code := [] }],
        ip := 0 }
      13 [11, 9, 5, 3, 0] { type := ")", value := ")" } 3
      { id := 3, lhs := "C", rhs := ["E", ">", "E"] } 5 [3, 0] ">"
      { place := "a", code := [] } { place := ">", code := [] } { place := "b", code := [] }
      [{ place := "(", code := [] }, { place := "while", code := [] }]
      rfl (by decide) (by decide) (by decide) (by decide) (by decide) (by decide) rfl
      (by decide) (by decide)
  exact ⟨P1, cfg1, h1, by rw [h2]; decide, by rw [h3]; rfl⟩

/-- C18: a reduction by a production with three right-hand-side symbols whose
middle symbol is `+` pops the attributes `a0`, `a1`, `a2` (`a2` on top) and
pushes an attribute with place T(n+1) and code
`a2.code ++ [(+, a0.place, a2.place, T(n+1))]`, without the code of `a0`,
where `n` is the temporary counter before; the temporary counter becomes
`n + 1`. The temporary counter is an `int`: this holds as long as `n + 1` does
not exceed `INT_MAX`, so that the increment does not overflow. -/
theorem reduce_plus (tokens : List Token) (P : Parser) (cfg : Config) (s : Nat)
    (rest : List Nat) (tok : Token) (p : Nat) (prod : Production) (t : Nat) (below : List Nat)
    (a0 a1 a2 : Attribute) (under : List Attribute)
    (hs : cfg.stateStack = s :: rest) (htok : tokens[cfg.ip]? = some tok)
    (hact : mapFind tok.type (mapGet s [] P.G.actionTable) = some { type := 'r', val := p })
    (hprod : P.G.grammar[p]? = some prod)
    (hlen : prod.rhs.length = 3) (hmid : prod.rhs[1]? = some "+")
    (hsym : cfg.symbolStack = a2 :: a1 :: a0 :: under)
    (hdrop : cfg.stateStack.drop 3 = t :: below)
    (hn : P.tempCount + 1 ≤ 2147483647) :
    ∃ P1 cfg1, parseStep tokens P cfg = some (Step.next P1 cfg1) ∧
      cfg1.symbolStack =
        { place := "T" ++ toString (P.tempCount + 1),
          code := a2.code
            ++ [quad "+" a0.place a2.place ("T" ++ toString (P.tempCount + 1))] } :: under ∧
      P1.tempCount = P.tempCount + 1 ∧ P1.labelCount = P.labelCount ∧ cfg1.ip = cfg.ip := by
  have hstep := parseStep_reduce tokens P cfg s rest tok p prod t below hs htok hact hprod
    (by rw [hsym, hlen]; simp) (by rw [hlen]; exact hdrop)
  rw [hstep, semanticAction_plus _ prod _ a0 a2 hlen hmid
    (by rw [hsym, hlen]; rfl) (by rw [hsym, hlen]; rfl) (by exact hn)]
  refine ⟨_, _, rfl, ?_, rfl, rfl, rfl⟩
  simp [hsym, hlen]

theorem reduce_plus_witness :
    ∃ P1 cfg1,
      parseStep [{ type := "#", value := "#" }] (Parser.new (analyzerOf plusGrammar))
          { stateStack := [7, 6, 5, 3, 2, 0],
            symbolStack := [{ place := "b", code := [] }, { place := "+", code := [] },
              { place := "a", code := [quad "ignored" "-" "-" "-"] }, { place := "=", code := [] },
              { place := "x", code := [] }],
            ip := 0 } = some (Step.next P1 cfg1) ∧
      cfg1.symbolStack = [{ place := "T1", code := [quad "+" "a" "b" "T1"] },
        { place := "=", code := [] }, { place := "x", code := [] }] ∧
      P1.tempCount = 1 := by
  obtain ⟨P1, cfg1, h1, h2, h3, _, _⟩ :=
    reduce_plus [{ type := "#", value := "#" }] (Parser.new (analyzerOf plusGrammar))
      { stateStack := [7, 6, 5, 3, 2, 0],
        symbolStack := [{ place := "b", code := [] }, { place := "+", code := [] },
          { place := "a", code := [quad "ignored" "-" "-" "-"] }, { place := "=", code := [] },
          { place := "x", code := [] }],
        ip := 0 }
      7 [6, 5, 3, 2, 0] { type := "#", value := "#" } 2
      { id := 2, lhs := "E", rhs := ["id", "+", "E"] } 3 [2, 0]
      { place := "a", code := [quad "ignored" "-" "-" "-"] } { place := "+", code := [] }
      { place := "b", code := [] }
      [{ place := "=", code := [] }, { place := "x", code := [] }]
      rfl (by decide) (by decide) (by decide) (by decide) (by decide) rfl (by decide)
      (by decide)
  exact ⟨P1, cfg1, h1, by rw [h2]; decide, by rw [h3]; rfl⟩

/-! ## Maps: lookups after updates -/

theorem mapFind_mapSet {κ ν : Type} [DecidableEq κ] (lt : κ → κ → Bool) (k k1 : κ) (v : ν)
    (m : List (κ × ν)) :
    mapFind k1 (mapSet lt k v m) = if k1 = k then some v else mapFind k1 m := by
  induction m with
  | nil => simp [mapSet, mapFind]
  | cons kv m ih =>
    obtain ⟨k0, v0⟩ := kv
    unfold mapSet
    split
    · simp only [mapFind]
    · split
      · rename_i h
        subst h
        by_cases h1 : k1 = k <;> simp [mapFind, h1]
      · rename_i hne
        by_cases h0 : k1 = k0
        · subst h0
          have : ¬ k1 = k := fun e => hne e.symm
          simp [mapFind, this]
        · simp only [mapFind, h0, if_false, ih]

theorem mapFind_mapTouch {κ ν : Type} [DecidableEq κ] (lt : κ → κ → Bool) (k k1 : κ) (d : ν)
    (m : List (κ × ν)) :
    mapFind k1 (mapTouch lt k d m) = if k1 = k then some (mapGet k d m) else mapFind k1 m := by
  unfold mapTouch mapGet
  cases h : mapFind k m with
  | some v =>
    by_cases h1 : k1 = k
    · subst h1; simp [h]
    · simp [h1]
  | none =>
    simp only [mapFind_mapSet]

theorem mapGet_mapSet {κ ν : Type} [DecidableEq κ] (lt : κ → κ → Bool) (k k1 : κ) (v d : ν)
    (m : List (κ × ν)) :
    mapGet k1 d (mapSet lt k v m) = if k1 = k then v else mapGet k1 d m := by
  unfold mapGet
  rw [mapFind_mapSet]
  by_cases h : k1 = k <;> simp [h]

theorem mapGet_mapTouch {κ ν : Type} [DecidableEq κ] (lt : κ → κ → Bool) (k k1 : κ) (d : ν)
    (m : List (κ × ν)) : mapGet k1 d (mapTouch lt k d m) = mapGet k1 d m := by
  unfold mapGet
  rw [mapFind_mapTouch]
  by_cases h : k1 = k
  · subst h
    unfold mapGet
    cases mapFind k1 m <;> simp
  · simp [h]

theorem mapFind_some_mem {κ ν : Type} [DecidableEq κ] (k : κ) (v : ν) (m : List (κ × ν))
    (h : mapFind k m = some v) : (k, v) ∈ m := by
  induction m with
  | nil => simp [mapFind] at h
  | cons kv m ih =>
    obtain ⟨k0, v0⟩ := kv
    unfold mapFind at h
    by_cases h0 : k = k0
    · subst h0
      simp only [if_true, Option.some.injEq] at h
      subst h
      exact List.mem_cons_self _ _
    · simp only [h0, if_false] at h
      exact List.mem_cons_of_mem _ (ih h)

theorem mapFind_isSome_of_mem {κ ν : Type} [DecidableEq κ] (k : κ) (v : ν) (m : List (κ × ν))
    (h : (k, v) ∈ m) : ∃ v1, mapFind k m = some v1 := by
  induction m with
  | nil => cases h
  | cons kv m ih =>
    obtain ⟨k0, v0⟩ := kv
    unfold mapFind
    by_cases h0 : k = k0
    · exact ⟨v0, by simp [h0]⟩
    · simp only [h0, if_false]
      rcases List.mem_cons.1 h with h1 | h1
      · cases h1; exact absurd rfl h0
      · exact ih h1

theorem mem_mapSet {κ ν : Type} [DecidableEq κ] (lt : κ → κ → Bool) (k : κ) (v : ν)
    (m : List (κ × ν)) (x : κ × ν) (h : x ∈ mapSet lt k v m) : x = (k, v) ∨ x ∈ m := by
  induction m with
  | nil => simp [mapSet] at h; exact Or.inl h
  | cons kv m ih =>
    obtain ⟨k0, v0⟩ := kv
    unfold mapSet at h
    split at h
    · rcases List.mem_cons.1 h with h1 | h1
      · exact Or.inl h1
      · exact Or.inr h1
    · split at h
      · rcases List.mem_cons.1 h with h1 | h1
        · exact Or.inl h1
        · exact Or.inr (List.mem_cons_of_mem _ h1)
      · rcases List.mem_cons.1 h with h1 | h1
        · exact Or.inr (by rw [h1]; exact List.mem_cons_self _ _)
        · rcases ih h1 with h2 | h2
          · exact Or.inl h2
          · exact Or.inr (List.mem_cons_of_mem _ h2)

theorem mem_mapSet_self {κ ν : Type} [DecidableEq κ] (lt : κ → κ → Bool) (k : κ) (v : ν)
    (m : List (κ × ν)) : (k, v) ∈ mapSet lt k v m :=
  mapFind_some_mem k v _ (by rw [mapFind_mapSet]; simp)

/-! ## Names and counters -/

theorem digitChar_toNat (k : Nat) (hk : k < 10) : (Nat.digitChar k).toNat - 48 = k := by
  interval_cases k <;> rfl

theorem toDigitsCore_value (fuel n : Nat) (ds : List Char) (h : n < fuel) :
    ∃ pre, Nat.toDigitsCore 10 fuel n ds = pre ++ ds ∧
      pre.foldl (fun acc c => 10 * acc + (c.toNat - 48)) 0 = n := by
  induction fuel generalizing n ds with
  | zero => omega
  | succ fuel ih =>
    unfold Nat.toDigitsCore
    by_cases h0 : n / 10 = 0
    · simp only [h0, if_true]
      refine ⟨[Nat.digitChar (n % 10)], rfl, ?_⟩
      simp only [List.foldl_cons, List.foldl_nil]
      rw [digitChar_toNat _ (Nat.mod_lt _ (by decide))]
      omega
    · simp only [h0, if_false]
      obtain ⟨pre, hpre, hval⟩ := ih (n / 10) (Nat.digitChar (n % 10) :: ds) (by omega)
      refine ⟨pre ++ [Nat.digitChar (n % 10)], by rw [hpre]; simp, ?_⟩
      rw [List.foldl_append, hval]
      simp only [List.foldl_cons, List.foldl_nil]
      rw [digitChar_toNat _ (Nat.mod_lt _ (by decide))]
      omega

/-- The decimal numeral determines the number. -/
theorem toString_nat_injective (i j : Nat) (h : toString i = toString j) : i = j := by
  have hi := toDigitsCore_value (i + 1) i [] (Nat.lt_succ_self i)
  have hj := toDigitsCore_value (j + 1) j [] (Nat.lt_succ_self j)
  obtain ⟨pi, hpi, hvi⟩ := hi
  obtain ⟨pj, hpj, hvj⟩ := hj
  have hd : (toString i).data = (toString j).data := by rw [h]
  have e1 : (toString i).data = pi := by
    show (Nat.repr i).data = pi
    simp [Nat.repr, Nat.toDigits, hpi, List.asString]
  have e2 : (toString j).data = pj := by
    show (Nat.repr j).data = pj
    simp [Nat.repr, Nat.toDigits, hpj, List.asString]
  rw [e1, e2] at hd
  rw [← hvi, ← hvj, hd]

theorem name_injective (pre : String) (i j : Nat)
    (h : pre ++ toString i = pre ++ toString j) : i = j := by
  apply toString_nat_injective
  have hd := congrArg String.data h
  simp only [String.data_append] at hd
  exact String.ext (List.append_cancel_left hd)

/-- A semantic action leaves the analyzer alone. -/
theorem semanticAction_analyzer (P P1 : Parser) (prod : Production) (attrs : List Attribute)
    (a : Attribute) (h : semanticAction P prod attrs = some (a, P1)) : P1.G = P.G := by
  unfold semanticAction at h
  simp only [Parser.newTemp, Parser.newLabel] at h
  repeat' split at h
  all_goals first
    | (simp only [Option.some.injEq, Prod.mk.injEq] at h
       obtain ⟨_, h2⟩ := h
       subst h2
       rfl)
    | cases h

/-! ## The driver loop, case by case -/

theorem gotoValue_touch (G : GrammarAnalyzer) (t : Nat) (lhs : String) :
    mapGet lhs 0 (mapTouch strLt lhs 0 (mapGet t [] (mapTouch natLt t [] G.gotoTable))) =
      gotoValue G t lhs := by
  rw [mapGet_mapTouch, mapGet_mapTouch]
  rfl

/-- What a step of the driver loop that returns has done: report an error,
shift, reduce or accept. -/
theorem parseStep_cases (tokens : List Token) (P : Parser) (cfg : Config) (st : Step)
    (h : parseStep tokens P cfg = some st) :
    ∃ s rest tok, cfg.stateStack = s :: rest ∧ tokens[cfg.ip]? = some tok ∧
      ((mapFind tok.type (mapGet s [] P.G.actionTable) = none ∧
          st = Step.done (P.touchAction s) (ParseResult.error tok.value cfg)) ∨
       (∃ act, mapFind tok.type (mapGet s [] P.G.actionTable) = some act ∧ act.type = 's' ∧
          st = Step.next (P.touchAction s)
            { stateStack := act.val :: cfg.stateStack,
              symbolStack := { place := tok.value, code := [] } :: cfg.symbolStack,
              ip := cfg.ip + 1 }) ∨
       (∃ act prod t below r,
          mapFind tok.type (mapGet s [] P.G.actionTable) = some act ∧ act.type = 'r' ∧
          P.G.grammar[act.val]? = some prod ∧
          prod.rhs.length ≤ cfg.symbolStack.length ∧
          cfg.stateStack.drop prod.rhs.length = t :: below ∧
          semanticAction ((P.touchAction s).touchGoto t prod.lhs) prod
            ((cfg.symbolStack.take prod.rhs.length).reverse) = some r ∧
          st = Step.next r.2
            { stateStack := gotoValue P.G t prod.lhs :: t :: below,
              symbolStack := r.1 :: cfg.symbolStack.drop prod.rhs.length,
              ip := cfg.ip }) ∨
       (∃ act res under, mapFind tok.type (mapGet s [] P.G.actionTable) = some act ∧
          act.type = 'a' ∧ cfg.symbolStack = res :: under ∧
          st = Step.done (P.touchAction s) (ParseResult.accept res cfg))) := by
  unfold parseStep at h
  cases hs : cfg.stateStack with
  | nil => simp [hs] at h
  | cons s rest =>
    cases htok : tokens[cfg.ip]? with
    | none => simp [hs, htok] at h
    | some tok =>
      simp only [hs, htok] at h
      refine ⟨s, rest, tok, rfl, rfl, ?_⟩
      rw [mapGet_mapTouch] at h
      cases hact : mapFind tok.type (mapGet s [] P.G.actionTable) with
      | none =>
        simp only [hact, Option.some.injEq] at h
        exact Or.inl ⟨rfl, h.symm⟩
      | some act =>
        simp only [hact] at h
        by_cases hsft : act.type = 's'
        · simp only [hsft, if_true, Option.some.injEq] at h
          exact Or.inr (Or.inl ⟨act, rfl, hsft, h.symm⟩)
        · simp only [hsft, if_false] at h
          by_cases hred : act.type = 'r'
          · simp only [hred, if_true] at h
            cases hprod : P.G.grammar[act.val]? with
            | none => simp [hprod] at h
            | some prod =>
              simp only [hprod] at h
              by_cases hlen : (s :: rest).length < prod.rhs.length ∨
                  cfg.symbolStack.length < prod.rhs.length
              · rw [if_pos hlen] at h
                cases h
              · rw [if_neg hlen] at h
                cases hdrop : (s :: rest).drop prod.rhs.length with
                | nil => simp [hdrop] at h
                | cons t below =>
                  simp only [hdrop] at h
                  cases hsem : semanticAction ((P.touchAction s).touchGoto t prod.lhs) prod
                      ((cfg.symbolStack.take prod.rhs.length).reverse) with
                  | none =>
                    simp only [Parser.touchAction, Parser.touchGoto] at hsem
                    simp [hsem] at h
                  | some r =>
                    have hsem1 := hsem
                    simp only [Parser.touchAction, Parser.touchGoto] at hsem
                    simp only [hsem, Option.some.injEq] at h
                    rw [gotoValue_touch] at h
                    refine Or.inr (Or.inr (Or.inl ⟨act, prod, t, below, r, rfl, hred, hprod,
                      by omega, hdrop, hsem1, h.symm⟩))
          · simp only [hred, if_false] at h
            by_cases hacc : act.type = 'a'
            · simp only [hacc, if_true] at h
              cases hsym : cfg.symbolStack with
              | nil => simp [hsym] at h
              | cons res under =>
                simp only [hsym, Option.some.injEq] at h
                refine Or.inr (Or.inr (Or.inr ⟨act, res, under, rfl, hacc, rfl, ?_⟩))
                rw [← h]
                simp [Parser.touchAction, hs, hsym]
            · simp [hacc] at h

/-! ## closure is the least closed superset -/

theorem closedUnderRule_of_closedItems (G : GrammarAnalyzer) (hd : idsDense G) (J : List Item)
    (h : closedItems G J) : closedUnderRule G (fun x => x ∈ J) := by
  intro q d prod B hq hprod hB hn p pp hpp hl
  have := h _ hq prod B hprod hB hn pp (List.getElem?_mem hpp) hl
  rw [hd p pp hpp] at this
  exact this

theorem closureFold_within (G : GrammarAnalyzer) (hd : idsDense G) (K : Item → Prop)
    (hK : closedUnderRule G K) (items : List Item) (hitems : ∀ x ∈ items, K x)
    (st r : List Item × Bool) (hst : ∀ x ∈ st.1, K x)
    (h : items.foldlM (closureItem G) st = some r) : ∀ x ∈ r.1, K x := by
  induction items generalizing st with
  | nil =>
    simp at h
    subst h
    exact hst
  | cons item rest ih =>
    rw [List.foldlM_cons] at h
    cases h1 : closureItem G st item with
    | none => simp [h1] at h
    | some st1 =>
      simp only [h1, Option.bind_eq_bind, Option.some_bind] at h
      refine ih (fun x hx => hitems x (List.mem_cons_of_mem _ hx)) st1 ?_ h
      have hitem := hitems item (List.mem_cons_self _ _)
      unfold closureItem at h1
      cases hp : G.grammar[item.prodIndex]? with
      | none => simp [hp] at h1
      | some prod =>
        simp only [hp] at h1
        cases hB : prod.rhs[item.dotPos]? with
        | none =>
          simp only [hB, Option.some.injEq] at h1
          subst h1
          exact hst
        | some B =>
          simp only [hB] at h1
          by_cases hn : B ∈ G.nonTerminals
          · simp only [hn, if_true, Option.some.injEq] at h1
            subst h1
            intro x hx
            rcases closureExpand_mem B _ st x hx with h2 | ⟨p, hp1, hpl, rfl⟩
            · exact hst x h2
            · obtain ⟨i, hi⟩ := List.getElem?_of_mem hp1
              have hid := hd i p hi
              rw [hid]
              exact hK item.prodIndex item.dotPos prod B hitem hp hB hn i p hi hpl
          · simp only [hn, if_false, Option.some.injEq] at h1
            subst h1
            exact hst

theorem closureLoop_within (G : GrammarAnalyzer) (hd : idsDense G) (K : Item → Prop)
    (hK : closedUnderRule G K) (fuel : Nat) (I J : List Item) (hI : ∀ x ∈ I, K x)
    (h : closureLoop G fuel I = some J) : ∀ x ∈ J, K x := by
  induction fuel generalizing I with
  | zero => cases h
  | succ fuel ih =>
    unfold closureLoop at h
    cases hp : closurePass G I with
    | none => simp [hp] at h
    | some r =>
      simp only [hp] at h
      have hr := closureFold_within G hd K hK I hI (I, false) r hI hp
      by_cases hc : r.2 = true
      · simp only [hc, if_true] at h
        exact ih r.1 hr h
      · rw [if_neg hc] at h
        cases h
        exact hr

/-- C19: for a loaded grammar and a set `I` of valid items, `closure` returns
(with more fuel than there are productions) a set `J` that contains `I`, is
closed under the closure rule, and is contained in every set that contains `I`
and is closed under the rule; and the closure of the empty set is empty. -/
theorem closure_least (lines : List String) (I : List Item) (fuel : Nat)
    (hI : ∀ item ∈ I, validItem (loadGrammar GrammarAnalyzer.fresh lines) item)
    (hfuel : (loadGrammar GrammarAnalyzer.fresh lines).grammar.length < fuel) :
    (∃ J, closure (loadGrammar GrammarAnalyzer.fresh lines) fuel I = some J ∧
      (∀ x ∈ I, x ∈ J) ∧
      closedUnderRule (loadGrammar GrammarAnalyzer.fresh lines) (fun x => x ∈ J) ∧
      ∀ K : Item → Prop, (∀ x ∈ I, K x) →
        closedUnderRule (loadGrammar GrammarAnalyzer.fresh lines) K → ∀ x ∈ J, K x) ∧
    closure (loadGrammar GrammarAnalyzer.fresh lines) fuel [] = some [] := by
  have hd := idsDense_loadGrammar lines
  constructor
  · obtain ⟨J, hJ, hsub, _, _, hclosed, _⟩ :=
      closureLoop_spec _ hd fuel I hI (Nat.lt_of_le_of_lt (closureSlack_le _ I) hfuel)
    exact ⟨J, hJ, hsub, closedUnderRule_of_closedItems _ hd J hclosed,
      fun K hIK hK => closureLoop_within _ hd K hK fuel I J hIK hJ⟩
  · cases fuel with
    | zero => omega
    | succ fuel => rfl

theorem closure_least_witness :
    closure (loadGrammar GrammarAnalyzer.fresh demoGrammar) 6 [{ prodIndex := 1, dotPos := 2 }] =
      some [{ prodIndex := 1, dotPos := 2 }, { prodIndex := 3, dotPos := 0 },
        { prodIndex := 4, dotPos := 0 }] ∧
    closure (loadGrammar GrammarAnalyzer.fresh demoGrammar) 6 [] = some [] :=
  And.intro (by decide) <|
    (closure_least demoGrammar [{ prodIndex := 1, dotPos := 2 }] 6
      (by
        intro item hitem
        simp only [List.mem_singleton] at hitem
        subst hitem
        exact ⟨{ id := 1, lhs := "S", rhs := ["while", "(", "C", ")", "\x7b", "S", "\x7d"] },
          by decide, by decide⟩)
      (by decide)).2

/-! ## First and Follow: a second run changes nothing -/

theorem char_toNat_inj (a b : Char) (h : a.toNat = b.toNat) : a = b := by
  rw [← Char.ofNat_toNat a, ← Char.ofNat_toNat b, h]

theorem charsLt_irrefl (a : List Char) : charsLt a a = false := by
  induction a with
  | nil => rfl
  | cons c cs ih => simp [charsLt, ih]

theorem charsLt_trans (a b c : List Char) (h1 : charsLt a b = true) (h2 : charsLt b c = true) :
    charsLt a c = true := by
  induction a generalizing b c with
  | nil =>
    cases b with
    | nil => simp [charsLt] at h1
    | cons y ys =>
      cases c with
      | nil => simp [charsLt] at h2
      | cons z zs => simp [charsLt]
  | cons x xs ih =>
    cases b with
    | nil => simp [charsLt] at h1
    | cons y ys =>
      cases c with
      | nil => simp [charsLt] at h2
      | cons z zs =>
        unfold charsLt at h1 h2 ⊢
        by_cases hxy : x.toNat < y.toNat
        · by_cases hyz : y.toNat < z.toNat
          · have : x.toNat < z.toNat := by omega
            simp [this]
          · rw [if_neg hyz] at h2
            by_cases hzy : z.toNat < y.toNat
            · rw [if_pos hzy] at h2; cases h2
            · have : x.toNat < z.toNat := by omega
              simp [this]
        · rw [if_neg hxy] at h1
          by_cases hyx : y.toNat < x.toNat
          · rw [if_pos hyx] at h1; cases h1
          · rw [if_neg hyx] at h1
            by_cases hyz : y.toNat < z.toNat
            · have : x.toNat < z.toNat := by omega
              simp [this]
            · rw [if_neg hyz] at h2
              by_cases hzy : z.toNat < y.toNat
              · rw [if_pos hzy] at h2; cases h2
              · rw [if_neg hzy] at h2
                have h3 : ¬ x.toNat < z.toNat := by omega
                have h4 : ¬ z.toNat < x.toNat := by omega
                rw [if_neg h3, if_neg h4]
                exact ih ys zs h1 h2

theorem charsLt_total (a b : List Char) (h1 : charsLt a b = false) (h2 : a ≠ b) :
    charsLt b a = true := by
  induction a generalizing b with
  | nil =>
    cases b with
    | nil => exact absurd rfl h2
    | cons y ys => simp [charsLt] at h1
  | cons x xs ih =>
    cases b with
    | nil => simp [charsLt]
    | cons y ys =>
      unfold charsLt at h1 ⊢
      by_cases hxy : x.toNat < y.toNat
      · rw [if_pos hxy] at h1; cases h1
      · rw [if_neg hxy] at h1
        by_cases hyx : y.toNat < x.toNat
        · simp [hyx]
        · rw [if_neg hyx] at h1
          rw [if_neg hyx, if_neg hxy]
          have hc : x = y := char_toNat_inj x y (by omega)
          subst hc
          exact ih ys h1 (fun h => h2 (by rw [h]))

theorem strLt_irrefl (a : String) : strLt a a = false := charsLt_irrefl a.data

theorem strLt_trans (a b c : String) (h1 : strLt a b = true) (h2 : strLt b c = true) :
    strLt a c = true := charsLt_trans _ _ _ h1 h2

theorem strLt_total (a b : String) (h1 : strLt a b = false) (h2 : a ≠ b) : strLt b a = true :=
  charsLt_total _ _ h1 (fun h => h2 (String.ext h))

/-- Inserting into a set never shortens it, and a set of the same length is the
same set. -/
theorem setInsert_length {α : Type} [DecidableEq α] (lt : α → α → Bool) (x : α) (s : List α) :
    s.length ≤ (setInsert lt x s).length ∧
      ((setInsert lt x s).length ≤ s.length → setInsert lt x s = s) := by
  induction s with
  | nil => simp [setInsert]
  | cons y ys ih =>
    unfold setInsert
    by_cases h1 : lt x y = true
    · rw [if_pos h1]; simp
    · rw [if_neg h1]
      by_cases h2 : x = y
      · rw [if_pos h2]; simp
      · rw [if_neg h2]
        simp only [List.length_cons, Nat.add_le_add_iff_right]
        refine ⟨ih.1, fun h => ?_⟩
        rw [ih.2 h]

theorem setInsertAll_length {α : Type} [DecidableEq α] (lt : α → α → Bool) (xs s : List α) :
    s.length ≤ (setInsertAll lt xs s).length ∧
      ((setInsertAll lt xs s).length ≤ s.length → setInsertAll lt xs s = s) := by
  unfold setInsertAll
  induction xs generalizing s with
  | nil => simp
  | cons x xs ih =>
    simp only [List.foldl_cons]
    have h1 := setInsert_length lt x s
    have h2 := ih (setInsert lt x s)
    refine ⟨by omega, fun h => ?_⟩
    have h3 : setInsert lt x s = s := h1.2 (by omega)
    rw [h3] at h h2 ⊢
    exact h2.2 h

/-- Inserting an element that a sorted set already holds changes nothing. -/
theorem setInsert_of_mem {α : Type} [DecidableEq α] (lt : α → α → Bool)
    (hirr : ∀ a, lt a a = false)
    (htrans : ∀ a b c, lt a b = true → lt b c = true → lt a c = true)
    (x : α) (s : List α) (hs : s.Pairwise (fun a b => lt a b = true)) (hx : x ∈ s) :
    setInsert lt x s = s := by
  induction s with
  | nil => cases hx
  | cons y ys ih =>
    rw [List.pairwise_cons] at hs
    unfold setInsert
    rcases List.mem_cons.1 hx with h | h
    · subst h
      simp [hirr]
    · have hyx := hs.1 x h
      have h1 : lt x y = false := by
        cases h2 : lt x y with
        | false => rfl
        | true =>
          have := htrans x y x h2 hyx
          rw [hirr] at this; cases this
      have h3 : x ≠ y := by
        intro h4; subst h4; rw [hirr] at hyx; cases hyx
      simp [h1, h3, ih hs.2 h]

theorem setInsertAll_sorted {α : Type} [DecidableEq α] (lt : α → α → Bool)
    (htrans : ∀ a b c, lt a b = true → lt b c = true → lt a c = true)
    (htotal : ∀ a b, lt a b = false → a ≠ b → lt b a = true)
    (xs s : List α) (hs : s.Pairwise (fun a b => lt a b = true)) :
    (setInsertAll lt xs s).Pairwise (fun a b => lt a b = true) := by
  unfold setInsertAll
  induction xs generalizing s with
  | nil => exact hs
  | cons x xs ih =>
    simp only [List.foldl_cons]
    exact ih _ (sorted_setInsert lt htrans htotal x s hs)

theorem sameFirst_refl (G : GrammarAnalyzer) : sameFirst G G :=
  ⟨rfl, rfl, rfl, fun _ => rfl⟩

theorem sameFirst_symm {G H : GrammarAnalyzer} (h : sameFirst G H) : sameFirst H G :=
  ⟨h.1.symm, h.2.1.symm, h.2.2.1.symm, fun A => (h.2.2.2 A).symm⟩

theorem sameFirst_trans {G H K : GrammarAnalyzer} (h : sameFirst G H) (h1 : sameFirst H K) :
    sameFirst G K :=
  ⟨h.1.trans h1.1, h.2.1.trans h1.2.1, h.2.2.1.trans h1.2.2.1,
    fun A => (h.2.2.2 A).trans (h1.2.2.2 A)⟩

theorem sameSets_refl (G : GrammarAnalyzer) : sameSets G G :=
  ⟨rfl, rfl, rfl, fun _ => rfl, fun _ => rfl⟩

theorem sameSets_symm {G H : GrammarAnalyzer} (h : sameSets G H) : sameSets H G :=
  ⟨h.1.symm, h.2.1.symm, h.2.2.1.symm, fun A => (h.2.2.2.1 A).symm, fun A => (h.2.2.2.2 A).symm⟩

theorem sameSets_trans {G H K : GrammarAnalyzer} (h : sameSets G H) (h1 : sameSets H K) :
    sameSets G K :=
  ⟨h.1.trans h1.1, h.2.1.trans h1.2.1, h.2.2.1.trans h1.2.2.1,
    fun A => (h.2.2.2.1 A).trans (h1.2.2.2.1 A), fun A => (h.2.2.2.2 A).trans (h1.2.2.2.2 A)⟩

theorem sameSets_isTerminal {G H : GrammarAnalyzer} (h : sameSets G H) (s : String) :
    G.isTerminal s = H.isTerminal s := by
  unfold GrammarAnalyzer.isTerminal
  rw [h.2.1]

theorem sameFirst_isTerminal {G H : GrammarAnalyzer} (h : sameFirst G H) (s : String) :
    G.isTerminal s = H.isTerminal s := by
  unfold GrammarAnalyzer.isTerminal
  rw [h.2.1]

/-- What one step of `computeFirst` leaves alone. -/
theorem computeFirstStep_frame (st : GrammarAnalyzer × Bool) (prod : Production) :
    (computeFirstStep st prod).1.grammar = st.1.grammar ∧
      (computeFirstStep st prod).1.terminals = st.1.terminals ∧
      (computeFirstStep st prod).1.startSymbol = st.1.startSymbol ∧
      (computeFirstStep st prod).1.followSets = st.1.followSets := by
  unfold computeFirstStep
  cases prod.rhs <;> simp

/-- The First sets after one step of `computeFirst`, and its flag. -/
theorem computeFirstStep_nil (st : GrammarAnalyzer × Bool) (prod : Production)
    (h : prod.rhs = []) (A : String) :
    firstOf (computeFirstStep st prod).1 A = firstOf st.1 A ∧
      (computeFirstStep st prod).2 = st.2 := by
  unfold computeFirstStep firstOf
  rw [h]
  simp [mapGet_mapTouch]

theorem computeFirstStep_cons (st : GrammarAnalyzer × Bool) (prod : Production) (Y : String)
    (rest : List String) (h : prod.rhs = Y :: rest) :
    (∀ A, firstOf (computeFirstStep st prod).1 A =
      if A = prod.lhs then
        (if st.1.isTerminal Y then setInsert strLt Y (firstOf st.1 prod.lhs)
         else setInsertAll strLt (firstOf st.1 Y) (firstOf st.1 prod.lhs))
      else firstOf st.1 A) ∧
      (computeFirstStep st prod).2 =
        (if (firstOf (computeFirstStep st prod).1 prod.lhs).length >
            (firstOf st.1 prod.lhs).length then true else st.2) := by
  unfold computeFirstStep firstOf
  rw [h]
  by_cases ht : st.1.isTerminal Y = true
  · simp [ht, mapGet_mapSet, mapGet_mapTouch]
  · simp [ht, mapGet_mapSet, mapGet_mapTouch]

/-- One step of `computeFirst` reads nothing but the productions, the terminals
and the values of the First sets. -/
theorem computeFirstStep_congr (st st1 : GrammarAnalyzer × Bool) (prod : Production)
    (h : sameFirst st.1 st1.1) (hc : st.2 = st1.2) :
    sameFirst (computeFirstStep st prod).1 (computeFirstStep st1 prod).1 ∧
      (computeFirstStep st prod).2 = (computeFirstStep st1 prod).2 := by
  obtain ⟨g1, g2, g3, _⟩ := computeFirstStep_frame st prod
  obtain ⟨k1, k2, k3, _⟩ := computeFirstStep_frame st1 prod
  cases hr : prod.rhs with
  | nil =>
    have a1 := computeFirstStep_nil st prod hr
    have a2 := computeFirstStep_nil st1 prod hr
    refine ⟨⟨by rw [g1, k1, h.1], by rw [g2, k2, h.2.1], by rw [g3, k3, h.2.2.1], ?_⟩, ?_⟩
    · intro A
      rw [(a1 A).1, (a2 A).1, h.2.2.2]
    · rw [(a1 "").2, (a2 "").2, hc]
  | cons Y rest =>
    have a1 := computeFirstStep_cons st prod Y rest hr
    have a2 := computeFirstStep_cons st1 prod Y rest hr
    have hfi : ∀ A, firstOf (computeFirstStep st prod).1 A =
        firstOf (computeFirstStep st1 prod).1 A := by
      intro A
      rw [a1.1 A, a2.1 A, sameFirst_isTerminal h, h.2.2.2, h.2.2.2, h.2.2.2]
    refine ⟨⟨by rw [g1, k1, h.1], by rw [g2, k2, h.2.1], by rw [g3, k3, h.2.2.1], hfi⟩, ?_⟩
    rw [a1.2, a2.2, hfi, h.2.2.2, hc]

/-- A step of `computeFirst` that leaves the flag down has changed no First
set. -/
theorem computeFirstStep_false (st : GrammarAnalyzer × Bool) (prod : Production)
    (h : (computeFirstStep st prod).2 = false) :
    st.2 = false ∧ sameFirst (computeFirstStep st prod).1 st.1 := by
  obtain ⟨g1, g2, g3, _⟩ := computeFirstStep_frame st prod
  cases hr : prod.rhs with
  | nil =>
    have a1 := computeFirstStep_nil st prod hr
    rw [(a1 "").2] at h
    exact ⟨h, g1, g2, g3, fun A => (a1 A).1⟩
  | cons Y rest =>
    have a1 := computeFirstStep_cons st prod Y rest hr
    rw [a1.2] at h
    by_cases hlen : (firstOf (computeFirstStep st prod).1 prod.lhs).length >
        (firstOf st.1 prod.lhs).length
    · rw [if_pos hlen] at h; cases h
    · rw [if_neg hlen] at h
      refine ⟨h, g1, g2, g3, ?_⟩
      have hX : firstOf (computeFirstStep st prod).1 prod.lhs = firstOf st.1 prod.lhs := by
        rw [a1.1 prod.lhs, if_pos rfl] at hlen ⊢
        by_cases ht : st.1.isTerminal Y = true
        · rw [if_pos ht] at hlen ⊢
          exact (setInsert_length strLt _ _).2 (by omega)
        · rw [if_neg ht] at hlen ⊢
          exact (setInsertAll_length strLt _ _).2 (by omega)
      intro A
      by_cases hA : A = prod.lhs
      · rw [hA, hX]
      · rw [a1.1 A, if_neg hA]

theorem computeFirstFold_congr (prods : List Production) (st st1 : GrammarAnalyzer × Bool)
    (h : sameFirst st.1 st1.1) (hc : st.2 = st1.2) :
    sameFirst (prods.foldl computeFirstStep st).1 (prods.foldl computeFirstStep st1).1 ∧
      (prods.foldl computeFirstStep st).2 = (prods.foldl computeFirstStep st1).2 := by
  induction prods generalizing st st1 with
  | nil => exact ⟨h, hc⟩
  | cons p ps ih =>
    simp only [List.foldl_cons]
    have := computeFirstStep_congr st st1 p h hc
    exact ih _ _ this.1 this.2

theorem computeFirstFold_false (prods : List Production) (st : GrammarAnalyzer × Bool)
    (h : (prods.foldl computeFirstStep st).2 = false) :
    st.2 = false ∧ sameFirst (prods.foldl computeFirstStep st).1 st.1 := by
  induction prods generalizing st with
  | nil => exact ⟨h, sameFirst_refl _⟩
  | cons p ps ih =>
    simp only [List.foldl_cons] at h ⊢
    have h1 := ih _ h
    have h2 := computeFirstStep_false st p h1.1
    exact ⟨h2.1, sameFirst_trans h1.2 h2.2⟩

theorem computeFirstFold_frame (prods : List Production) (st : GrammarAnalyzer × Bool) :
    (prods.foldl computeFirstStep st).1.grammar = st.1.grammar ∧
      (prods.foldl computeFirstStep st).1.terminals = st.1.terminals ∧
      (prods.foldl computeFirstStep st).1.startSymbol = st.1.startSymbol ∧
      (prods.foldl computeFirstStep st).1.followSets = st.1.followSets := by
  induction prods generalizing st with
  | nil => exact ⟨rfl, rfl, rfl, rfl⟩
  | cons p ps ih1 =>
    simp only [List.foldl_cons]
    obtain ⟨a1, a2, a3, a4⟩ := ih1 (computeFirstStep st p)
    obtain ⟨b1, b2, b3, b4⟩ := computeFirstStep_frame st p
    exact ⟨a1.trans b1, a2.trans b2, a3.trans b3, a4.trans b4⟩

theorem computeFirstLoop_frame (fuel : Nat) (G G1 : GrammarAnalyzer)
    (h : computeFirstLoop fuel G = some G1) :
    G1.grammar = G.grammar ∧ G1.terminals = G.terminals ∧ G1.startSymbol = G.startSymbol ∧
      G1.followSets = G.followSets := by
  induction fuel generalizing G with
  | zero => cases h
  | succ f ih =>
    unfold computeFirstLoop at h
    simp only at h
    have hp := computeFirstFold_frame G.grammar (G, false)
    by_cases hc : (computeFirstPass G).2 = true
    · rw [if_pos hc] at h
      obtain ⟨a1, a2, a3, a4⟩ := ih _ h
      exact ⟨a1.trans hp.1, a2.trans hp.2.1, a3.trans hp.2.2.1, a4.trans hp.2.2.2⟩
    · rw [if_neg hc] at h
      cases h
      exact hp

/-- The loop of `computeFirst` returns what a pass without growth returned. -/
theorem computeFirstLoop_last (fuel : Nat) (G G1 : GrammarAnalyzer)
    (h : computeFirstLoop fuel G = some G1) :
    ∃ G0, computeFirstPass G0 = (G1, false) := by
  induction fuel generalizing G with
  | zero => cases h
  | succ f ih =>
    unfold computeFirstLoop at h
    simp only at h
    by_cases hc : (computeFirstPass G).2 = true
    · rw [if_pos hc] at h
      exact ih _ h
    · rw [if_neg hc] at h
      cases h
      refine ⟨G, ?_⟩
      have : (computeFirstPass G).2 = false := by simpa using hc
      rw [← this]

/-- A result of `computeFirst` is a fixed point of its pass, and so is every
analyzer with the same First sets. -/
theorem computeFirst_stable (fuel : Nat) (G G1 H : GrammarAnalyzer)
    (h : computeFirst fuel G = some G1) (hH : sameFirst H G1) (fuel1 : Nat) :
    ∃ H1, computeFirst (fuel1 + 1) H = some H1 ∧ sameFirst H1 H ∧
      H1.followSets = H.followSets := by
  obtain ⟨G0, hG0⟩ := computeFirstLoop_last fuel G G1 h
  have hpass : (G0.grammar.foldl computeFirstStep (G0, false)).2 = false :=
    congrArg Prod.snd hG0
  have h0 := computeFirstFold_false G0.grammar (G0, false) hpass
  have hG1 : (G0.grammar.foldl computeFirstStep (G0, false)).1 = G1 := congrArg Prod.fst hG0
  rw [hG1] at h0
  have hHG0 : sameFirst H G0 := sameFirst_trans hH h0.2
  have hc := computeFirstFold_congr G0.grammar (H, false) (G0, false) hHG0 rfl
  rw [hG1, hpass, ← hHG0.1] at hc
  refine ⟨(computeFirstPass H).1, ?_, ?_, ?_⟩
  · unfold computeFirst computeFirstLoop
    simp only
    have : (computeFirstPass H).2 = false := hc.2
    rw [this]; rfl
  · exact sameFirst_trans hc.1 (sameFirst_symm hH)
  · exact (computeFirstFold_frame H.grammar (H, false)).2.2.2

/-- One position of the inner loop of `computeFollow`: a terminal is skipped, a
non-terminal `B` gets `followTarget` and nothing else changes. -/
theorem computeFollowRhs_terminal (A B : String) (rest : List String)
    (st : GrammarAnalyzer × Bool) (h : st.1.isTerminal B = true) :
    computeFollowRhs A (B :: rest) st = computeFollowRhs A rest st := by
  rw [computeFollowRhs]
  simp [h]

theorem computeFollowRhs_nonTerminal (A B : String) (rest : List String)
    (st : GrammarAnalyzer × Bool) (h : st.1.isTerminal B = false) :
    ∃ G1 : GrammarAnalyzer,
      computeFollowRhs A (B :: rest) st =
        computeFollowRhs A rest
          (G1, if (followTarget st.1 A B rest).length > (followOf st.1 B).length then true
            else st.2) ∧
      G1.grammar = st.1.grammar ∧ G1.terminals = st.1.terminals ∧
      G1.startSymbol = st.1.startSymbol ∧ (∀ C, firstOf G1 C = firstOf st.1 C) ∧
      (∀ C, followOf G1 C = if C = B then followTarget st.1 A B rest else followOf st.1 C) := by
  rw [computeFollowRhs]
  simp only [h, Bool.false_eq_true, if_false]
  cases rest with
  | nil =>
    refine ⟨{ st.1 with
      followSets := mapSet strLt B
        (setInsertAll strLt
          (mapGet A [] (mapTouch strLt A [] (mapTouch strLt B [] st.1.followSets)))
          (mapGet B [] (mapTouch strLt A [] (mapTouch strLt B [] st.1.followSets))))
        (mapTouch strLt A [] (mapTouch strLt B [] st.1.followSets)) }, ?_, rfl, rfl, rfl,
      fun C => rfl, ?_⟩
    · simp [followTarget, followOf, mapGet_mapSet, mapGet_mapTouch]
    · intro C
      simp [followTarget, followOf, mapGet_mapSet, mapGet_mapTouch]
  | cons beta rest1 =>
    by_cases hb : st.1.isTerminal beta = true
    · refine ⟨{ st.1 with
        followSets := mapSet strLt B
          (setInsert strLt beta (mapGet B [] (mapTouch strLt B [] st.1.followSets)))
          (mapTouch strLt B [] st.1.followSets) }, ?_, rfl, rfl, rfl, fun C => rfl, ?_⟩
      · simp [followTarget, followOf, mapGet_mapSet, mapGet_mapTouch, hb]
      · intro C
        simp [followTarget, followOf, mapGet_mapSet, mapGet_mapTouch, hb]
    · refine ⟨{ st.1 with
        firstSets := mapTouch strLt beta [] st.1.firstSets
        followSets := mapSet strLt B
          (setInsertAll strLt (mapGet beta [] (mapTouch strLt beta [] st.1.firstSets))
            (mapGet B [] (mapTouch strLt B [] st.1.followSets)))
          (mapTouch strLt B [] st.1.followSets) }, ?_, rfl, rfl, rfl, ?_, ?_⟩
      · simp [followTarget, followOf, firstOf, mapGet_mapSet, mapGet_mapTouch, hb]
      · intro C; simp [firstOf, mapGet_mapTouch]
      · intro C
        simp [followTarget, followOf, firstOf, mapGet_mapSet, mapGet_mapTouch, hb]

theorem followTarget_congr (G H : GrammarAnalyzer) (h : sameSets G H) (A B : String)
    (rest : List String) : followTarget G A B rest = followTarget H A B rest := by
  unfold followTarget
  cases rest with
  | nil => simp only [h.2.2.2.2]
  | cons beta r => simp only [sameSets_isTerminal h, h.2.2.2.2, h.2.2.2.1]

theorem followTarget_length (G : GrammarAnalyzer) (A B : String) (rest : List String) :
    (followOf G B).length ≤ (followTarget G A B rest).length ∧
      ((followTarget G A B rest).length ≤ (followOf G B).length →
        followTarget G A B rest = followOf G B) := by
  unfold followTarget
  cases rest with
  | nil => exact setInsertAll_length _ _ _
  | cons beta r =>
    by_cases hb : G.isTerminal beta = true
    · simp only [hb, if_true]; exact setInsert_length _ _ _
    · simp only [hb, if_false]; exact setInsertAll_length _ _ _

theorem followTarget_mem (G : GrammarAnalyzer) (A B : String) (rest : List String) (x : String)
    (h : x ∈ followOf G B) : x ∈ followTarget G A B rest := by
  unfold followTarget
  cases rest with
  | nil => exact (mem_setInsertAll _ _ _ _).2 (Or.inr h)
  | cons beta r =>
    by_cases hb : G.isTerminal beta = true
    · simp only [hb, if_true]; exact (mem_setInsert _ _ _ _).2 (Or.inr h)
    · simp only [hb, if_false]; exact (mem_setInsertAll _ _ _ _).2 (Or.inr h)

theorem followTarget_sorted (G : GrammarAnalyzer) (A B : String) (rest : List String)
    (h : (followOf G B).Pairwise (fun a b => strLt a b = true)) :
    (followTarget G A B rest).Pairwise (fun a b => strLt a b = true) := by
  unfold followTarget
  cases rest with
  | nil => exact setInsertAll_sorted _ strLt_trans strLt_total _ _ h
  | cons beta r =>
    by_cases hb : G.isTerminal beta = true
    · simp only [hb, if_true]; exact sorted_setInsert _ strLt_trans strLt_total _ _ h
    · simp only [hb, if_false]; exact setInsertAll_sorted _ strLt_trans strLt_total _ _ h

/-- The inner loop of `computeFollow` reads nothing but the productions, the
terminals and the values of the First and Follow sets. -/
theorem computeFollowRhs_congr (A : String) (rhs : List String) (st st1 : GrammarAnalyzer × Bool)
    (h : sameSets st.1 st1.1) (hc : st.2 = st1.2) :
    sameSets (computeFollowRhs A rhs st).1 (computeFollowRhs A rhs st1).1 ∧
      (computeFollowRhs A rhs st).2 = (computeFollowRhs A rhs st1).2 := by
  induction rhs generalizing st st1 with
  | nil => simpa [computeFollowRhs] using ⟨h, hc⟩
  | cons B rest ih =>
    by_cases hB : st.1.isTerminal B = true
    · have hB1 : st1.1.isTerminal B = true := by rw [← sameSets_isTerminal h]; exact hB
      rw [computeFollowRhs_terminal A B rest st hB, computeFollowRhs_terminal A B rest st1 hB1]
      exact ih st st1 h hc
    · have hB0 : st.1.isTerminal B = false := by simpa using hB
      have hB1 : st1.1.isTerminal B = false := by rw [← sameSets_isTerminal h]; exact hB0
      obtain ⟨G1, e1, a1, a2, a3, a4, a5⟩ := computeFollowRhs_nonTerminal A B rest st hB0
      obtain ⟨H1, e2, b1, b2, b3, b4, b5⟩ := computeFollowRhs_nonTerminal A B rest st1 hB1
      rw [e1, e2]
      apply ih
      · refine ⟨by rw [a1, b1, h.1], by rw [a2, b2, h.2.1], by rw [a3, b3, h.2.2.1], ?_, ?_⟩
        · intro C; rw [a4, b4, h.2.2.2.1]
        · intro C; rw [a5, b5, followTarget_congr _ _ h, h.2.2.2.2]
      · show (if _ then true else st.2) = (if _ then true else st1.2)
        rw [followTarget_congr _ _ h, h.2.2.2.2, hc]

/-- An inner loop of `computeFollow` that leaves the flag down has changed no
set. -/
theorem computeFollowRhs_false (A : String) (rhs : List String) (st : GrammarAnalyzer × Bool)
    (h : (computeFollowRhs A rhs st).2 = false) :
    st.2 = false ∧ sameSets (computeFollowRhs A rhs st).1 st.1 := by
  induction rhs generalizing st with
  | nil => simpa [computeFollowRhs] using ⟨h, sameSets_refl _⟩
  | cons B rest ih =>
    by_cases hB : st.1.isTerminal B = true
    · rw [computeFollowRhs_terminal A B rest st hB] at h ⊢
      exact ih st h
    · have hB0 : st.1.isTerminal B = false := by simpa using hB
      obtain ⟨G1, e1, a1, a2, a3, a4, a5⟩ := computeFollowRhs_nonTerminal A B rest st hB0
      rw [e1] at h ⊢
      have h1 := ih _ h
      have h2 : (if (followTarget st.1 A B rest).length > (followOf st.1 B).length then true
          else st.2) = false := h1.1
      by_cases hlen : (followTarget st.1 A B rest).length > (followOf st.1 B).length
      · rw [if_pos hlen] at h2; cases h2
      · rw [if_neg hlen] at h2
        refine ⟨h2, sameSets_trans h1.2 ⟨a1, a2, a3, a4, ?_⟩⟩
        intro C
        rw [a5]
        by_cases hC : C = B
        · rw [if_pos hC, hC]
          exact (followTarget_length st.1 A B rest).2 (by omega)
        · rw [if_neg hC]

/-- The inner loop of `computeFollow` keeps the Follow sets sorted and only adds
to them. -/
theorem computeFollowRhs_sorted (A : String) (rhs : List String) (st : GrammarAnalyzer × Bool)
    (h : followSorted st.1) :
    followSorted (computeFollowRhs A rhs st).1 ∧
      ∀ C x, x ∈ followOf st.1 C → x ∈ followOf (computeFollowRhs A rhs st).1 C := by
  induction rhs generalizing st with
  | nil => simpa [computeFollowRhs] using h
  | cons B rest ih =>
    by_cases hB : st.1.isTerminal B = true
    · rw [computeFollowRhs_terminal A B rest st hB]
      exact ih st h
    · have hB0 : st.1.isTerminal B = false := by simpa using hB
      obtain ⟨G1, e1, a1, a2, a3, a4, a5⟩ := computeFollowRhs_nonTerminal A B rest st hB0
      rw [e1]
      have hs : followSorted G1 := by
        intro C
        rw [a5]
        by_cases hC : C = B
        · rw [if_pos hC]; exact followTarget_sorted _ _ _ _ (h B)
        · rw [if_neg hC]; exact h C
      have h1 := ih (G1, if (followTarget st.1 A B rest).length > (followOf st.1 B).length
        then true else st.2) hs
      refine ⟨h1.1, fun C x hx => h1.2 C x ?_⟩
      show x ∈ followOf G1 C
      rw [a5]
      by_cases hC : C = B
      · rw [if_pos hC]; rw [hC] at hx; exact followTarget_mem _ _ _ _ _ hx
      · rw [if_neg hC]; exact hx

theorem computeFollowRhs_frame (A : String) (rhs : List String) (st : GrammarAnalyzer × Bool) :
    (computeFollowRhs A rhs st).1.grammar = st.1.grammar ∧
      (computeFollowRhs A rhs st).1.terminals = st.1.terminals ∧
      (computeFollowRhs A rhs st).1.startSymbol = st.1.startSymbol ∧
      ∀ C, firstOf (computeFollowRhs A rhs st).1 C = firstOf st.1 C := by
  induction rhs generalizing st with
  | nil => simp [computeFollowRhs]
  | cons B rest ih =>
    by_cases hB : st.1.isTerminal B = true
    · rw [computeFollowRhs_terminal A B rest st hB]
      exact ih st
    · have hB0 : st.1.isTerminal B = false := by simpa using hB
      obtain ⟨G1, e1, a1, a2, a3, a4, _⟩ := computeFollowRhs_nonTerminal A B rest st hB0
      rw [e1]
      obtain ⟨b1, b2, b3, b4⟩ := ih (G1, if (followTarget st.1 A B rest).length >
        (followOf st.1 B).length then true else st.2)
      exact ⟨b1.trans a1, b2.trans a2, b3.trans a3, fun C => (b4 C).trans (a4 C)⟩

theorem computeFollowFold_frame (prods : List Production) (st : GrammarAnalyzer × Bool) :
    (prods.foldl (fun st prod => computeFollowRhs prod.lhs prod.rhs st) st).1.grammar =
        st.1.grammar ∧
      (prods.foldl (fun st prod => computeFollowRhs prod.lhs prod.rhs st) st).1.terminals =
        st.1.terminals ∧
      (prods.foldl (fun st prod => computeFollowRhs prod.lhs prod.rhs st) st).1.startSymbol =
        st.1.startSymbol ∧
      ∀ C, firstOf (prods.foldl (fun st prod => computeFollowRhs prod.lhs prod.rhs st) st).1 C =
        firstOf st.1 C := by
  induction prods generalizing st with
  | nil => exact ⟨rfl, rfl, rfl, fun _ => rfl⟩
  | cons p ps ih =>
    simp only [List.foldl_cons]
    obtain ⟨a1, a2, a3, a4⟩ := ih (computeFollowRhs p.lhs p.rhs st)
    obtain ⟨b1, b2, b3, b4⟩ := computeFollowRhs_frame p.lhs p.rhs st
    exact ⟨a1.trans b1, a2.trans b2, a3.trans b3, fun C => (a4 C).trans (b4 C)⟩

theorem computeFollowLoop_frame (fuel : Nat) (G G1 : GrammarAnalyzer)
    (h : computeFollowLoop fuel G = some G1) :
    G1.grammar = G.grammar ∧ G1.terminals = G.terminals ∧ G1.startSymbol = G.startSymbol ∧
      ∀ C, firstOf G1 C = firstOf G C := by
  induction fuel generalizing G with
  | zero => cases h
  | succ f ih =>
    unfold computeFollowLoop at h
    simp only at h
    have hp := computeFollowFold_frame G.grammar (G, false)
    by_cases hc : (computeFollowPass G).2 = true
    · rw [if_pos hc] at h
      obtain ⟨a1, a2, a3, a4⟩ := ih _ h
      exact ⟨a1.trans hp.1, a2.trans hp.2.1, a3.trans hp.2.2.1,
        fun C => (a4 C).trans (hp.2.2.2 C)⟩
    · rw [if_neg hc] at h
      cases h
      exact hp

theorem computeFollowFold_congr (prods : List Production) (st st1 : GrammarAnalyzer × Bool)
    (h : sameSets st.1 st1.1) (hc : st.2 = st1.2) :
    sameSets (prods.foldl (fun st prod => computeFollowRhs prod.lhs prod.rhs st) st).1
        (prods.foldl (fun st prod => computeFollowRhs prod.lhs prod.rhs st) st1).1 ∧
      (prods.foldl (fun st prod => computeFollowRhs prod.lhs prod.rhs st) st).2 =
        (prods.foldl (fun st prod => computeFollowRhs prod.lhs prod.rhs st) st1).2 := by
  induction prods generalizing st st1 with
  | nil => exact ⟨h, hc⟩
  | cons p ps ih =>
    simp only [List.foldl_cons]
    have := computeFollowRhs_congr p.lhs p.rhs st st1 h hc
    exact ih _ _ this.1 this.2

theorem computeFollowFold_false (prods : List Production) (st : GrammarAnalyzer × Bool)
    (h : (prods.foldl (fun st prod => computeFollowRhs prod.lhs prod.rhs st) st).2 = false) :
    st.2 = false ∧
      sameSets (prods.foldl (fun st prod => computeFollowRhs prod.lhs prod.rhs st) st).1 st.1 := by
  induction prods generalizing st with
  | nil => exact ⟨h, sameSets_refl _⟩
  | cons p ps ih =>
    simp only [List.foldl_cons] at h ⊢
    have h1 := ih _ h
    have h2 := computeFollowRhs_false p.lhs p.rhs st h1.1
    exact ⟨h2.1, sameSets_trans h1.2 h2.2⟩

theorem computeFollowFold_sorted (prods : List Production) (st : GrammarAnalyzer × Bool)
    (h : followSorted st.1) :
    followSorted (prods.foldl (fun st prod => computeFollowRhs prod.lhs prod.rhs st) st).1 ∧
      ∀ C x, x ∈ followOf st.1 C →
        x ∈ followOf (prods.foldl (fun st prod => computeFollowRhs prod.lhs prod.rhs st) st).1 C := by
  induction prods generalizing st with
  | nil => exact ⟨h, fun _ _ hx => hx⟩
  | cons p ps ih =>
    simp only [List.foldl_cons]
    have h1 := computeFollowRhs_sorted p.lhs p.rhs st h
    have h2 := ih _ h1.1
    exact ⟨h2.1, fun C x hx => h2.2 C x (h1.2 C x hx)⟩

/-- The loop of `computeFollow` returns what a pass without growth returned; it
keeps the Follow sets sorted and only adds to them. -/
theorem computeFollowLoop_last (fuel : Nat) (G G1 : GrammarAnalyzer)
    (h : computeFollowLoop fuel G = some G1) (hs : followSorted G) :
    (∃ G0, computeFollowPass G0 = (G1, false)) ∧ followSorted G1 ∧
      ∀ C x, x ∈ followOf G C → x ∈ followOf G1 C := by
  induction fuel generalizing G with
  | zero => cases h
  | succ f ih =>
    unfold computeFollowLoop at h
    simp only at h
    have hp := computeFollowFold_sorted G.grammar (G, false) hs
    by_cases hc : (computeFollowPass G).2 = true
    · rw [if_pos hc] at h
      obtain ⟨a1, a2, a3⟩ := ih _ h hp.1
      exact ⟨a1, a2, fun C x hx => a3 C x (hp.2 C x hx)⟩
    · rw [if_neg hc] at h
      cases h
      refine ⟨⟨G, ?_⟩, hp.1, hp.2⟩
      have : (computeFollowPass G).2 = false := by simpa using hc
      rw [← this]

theorem computeFollow_stable (fuel : Nat) (G G2 H : GrammarAnalyzer)
    (h : computeFollow fuel G = some G2) (hs : followSorted G) (hH : sameSets H G2)
    (fuel1 : Nat) :
    ∃ H1, computeFollow (fuel1 + 1) H = some H1 ∧ sameSets H1 H := by
  unfold computeFollow at h
  simp only at h
  have hs1 : followSorted { G with
      followSets := mapSet strLt G.startSymbol
        (setInsert strLt "#" (mapGet G.startSymbol [] (mapTouch strLt G.startSymbol [] G.followSets)))
        (mapTouch strLt G.startSymbol [] G.followSets) } := by
    intro A
    simp only [followOf, mapGet_mapSet, mapGet_mapTouch]
    by_cases hA : A = G.startSymbol
    · rw [if_pos hA]
      exact sorted_setInsert _ strLt_trans strLt_total _ _ (hs _)
    · rw [if_neg hA]
      exact hs A
  obtain ⟨⟨G0, hG0⟩, hsorted, hgrow⟩ := computeFollowLoop_last fuel _ G2 h hs1
  have hpass : (G0.grammar.foldl (fun st prod => computeFollowRhs prod.lhs prod.rhs st)
      (G0, false)).2 = false := congrArg Prod.snd hG0
  have hG2 : (G0.grammar.foldl (fun st prod => computeFollowRhs prod.lhs prod.rhs st)
      (G0, false)).1 = G2 := congrArg Prod.fst hG0
  have h0 := computeFollowFold_false G0.grammar (G0, false) hpass
  rw [hG2] at h0
  obtain ⟨f1, f2, f3, f4⟩ := computeFollowLoop_frame fuel _ G2 h
  have hstart : G2.startSymbol = G.startSymbol := f3
  -- the Follow set of the start symbol holds the end marker already
  have hmem : "#" ∈ followOf H H.startSymbol := by
    rw [hH.2.2.2.2, hH.2.2.1, hstart]
    apply hgrow
    simp only [followOf, mapGet_mapSet, if_pos]
    exact (mem_setInsert _ _ _ _).2 (Or.inl rfl)
  have hHs : (followOf H H.startSymbol).Pairwise (fun a b => strLt a b = true) := by
    rw [hH.2.2.2.2]
    exact hsorted _
  have hinit : sameSets { H with
      followSets := mapSet strLt H.startSymbol
        (setInsert strLt "#" (mapGet H.startSymbol [] (mapTouch strLt H.startSymbol [] H.followSets)))
        (mapTouch strLt H.startSymbol [] H.followSets) } H := by
    refine ⟨rfl, rfl, rfl, fun _ => rfl, ?_⟩
    intro A
    simp only [followOf, mapGet_mapSet, mapGet_mapTouch]
    by_cases hA : A = H.startSymbol
    · rw [if_pos hA, hA]
      exact setInsert_of_mem strLt strLt_irrefl strLt_trans _ _ hHs hmem
    · rw [if_neg hA]
  have hHG0 := sameSets_trans (sameSets_trans hinit hH) h0.2
  have hc := computeFollowFold_congr G0.grammar (_, false) (G0, false) hHG0 rfl
  rw [hG2, hpass] at hc
  have hgr : G0.grammar = H.grammar := hHG0.1.symm
  rw [hgr] at hc
  refine ⟨_, ?_, sameSets_trans hc.1 (sameSets_symm hH)⟩
  unfold computeFollow computeFollowLoop
  simp only
  unfold computeFollowPass
  rw [hc.2]
  rfl

theorem loadLines_followSets (lines : List String) (n : Nat) (G : GrammarAnalyzer) :
    (loadLines lines n G).followSets = G.followSets ∧
      (loadLines lines n G).firstSets = G.firstSets := by
  induction lines generalizing n G with
  | nil => exact ⟨rfl, rfl⟩
  | cons l ls ih =>
    unfold loadLines
    by_cases h : l = ""
    · rw [if_pos h]; exact ih n G
    · rw [if_neg h]
      simp only
      obtain ⟨a, b⟩ := ih (n + 1) _
      rw [a, b]
      by_cases h0 : n = 0 <;> simp [h0]

theorem some_getD_of_isSome {α : Type} (o : Option α) (d : α) (h : o.isSome = true) :
    o = some (o.getD d) := by
  cases o with
  | none => cases h
  | some a => rfl

/-- C11. Fixed-point stability: when `computeFirst` and then `computeFollow`
have run on a loaded grammar and returned `G2`, a second `computeFirst` returns
(whatever fuel it is given) and leaves every First set as it was, and a second
`computeFollow` after it returns and leaves every Follow set as it was; neither
touches the other family of sets. -/
theorem first_follow_stable (lines : List String) (f1 f2 : Nat) (G1 G2 : GrammarAnalyzer)
    (h1 : computeFirst f1 (loadGrammar GrammarAnalyzer.fresh lines) = some G1)
    (h2 : computeFollow f2 G1 = some G2) (fuel : Nat) :
    ∃ G3 G4, computeFirst (fuel + 1) G2 = some G3 ∧ computeFollow (fuel + 1) G3 = some G4 ∧
      (∀ A, firstOf G3 A = firstOf G2 A) ∧ (∀ A, followOf G3 A = followOf G2 A) ∧
      (∀ A, firstOf G4 A = firstOf G2 A) ∧ (∀ A, followOf G4 A = followOf G2 A) := by
  have hfo : G1.followSets = [] := by
    rw [(computeFirstLoop_frame f1 _ G1 h1).2.2.2]
    exact (loadLines_followSets lines 0 GrammarAnalyzer.fresh).1
  have hs : followSorted G1 := by
    intro A
    unfold followOf
    rw [hfo]
    exact List.Pairwise.nil
  -- `computeFollow` reads the First sets without changing their values
  have h21 : sameFirst G2 G1 := by
    have h := h2
    unfold computeFollow at h
    simp only at h
    obtain ⟨a1, a2, a3, a4⟩ := computeFollowLoop_frame f2 _ G2 h
    exact ⟨a1, a2, a3, a4⟩
  obtain ⟨G3, e3, s3, fo3⟩ := computeFirst_stable f1 _ G1 G2 h1 h21 fuel
  have h32 : sameSets G3 G2 :=
    ⟨s3.1, s3.2.1, s3.2.2.1, s3.2.2.2, fun A => by unfold followOf; rw [fo3]⟩
  obtain ⟨G4, e4, s4⟩ := computeFollow_stable f2 G1 G2 G3 h2 hs h32 fuel
  have h42 := sameSets_trans s4 h32
  exact ⟨G3, G4, e3, e4, h32.2.2.2.1, h32.2.2.2.2, h42.2.2.2.1, h42.2.2.2.2⟩

theorem first_follow_stable_witness :
    ∃ G3 G4,
      computeFirst 1
          ((computeFollow 100
            ((computeFirst 100 (loadGrammar GrammarAnalyzer.fresh demoGrammar)).getD
              GrammarAnalyzer.fresh)).getD GrammarAnalyzer.fresh) = some G3 ∧
      computeFollow 1 G3 = some G4 ∧
      (∀ A, firstOf G3 A = firstOf ((computeFollow 100
            ((computeFirst 100 (loadGrammar GrammarAnalyzer.fresh demoGrammar)).getD
              GrammarAnalyzer.fresh)).getD GrammarAnalyzer.fresh) A) ∧
      (∀ A, followOf G3 A = followOf ((computeFollow 100
            ((computeFirst 100 (loadGrammar GrammarAnalyzer.fresh demoGrammar)).getD
              GrammarAnalyzer.fresh)).getD GrammarAnalyzer.fresh) A) ∧
      (∀ A, firstOf G4 A = firstOf ((computeFollow 100
            ((computeFirst 100 (loadGrammar GrammarAnalyzer.fresh demoGrammar)).getD
              GrammarAnalyzer.fresh)).getD GrammarAnalyzer.fresh) A) ∧
      (∀ A, followOf G4 A = followOf ((computeFollow 100
            ((computeFirst 100 (loadGrammar GrammarAnalyzer.fresh demoGrammar)).getD
              GrammarAnalyzer.fresh)).getD GrammarAnalyzer.fresh) A) :=
  first_follow_stable demoGrammar 100 100 _ _
    (some_getD_of_isSome _ _ (by decide)) (some_getD_of_isSome _ _ (by decide)) 0

/-! ## The automaton is the canonical collection -/

theorem nextSymbols_mem (G : GrammarAnalyzer) (items : List Item) (acc syms : List String)
    (h : nextSymbols G items acc = some syms) (X : String) :
    X ∈ syms ↔ X ∈ acc ∨ ∃ item ∈ items, dotBefore G item X := by
  induction items generalizing acc with
  | nil =>
    simp only [nextSymbols, Option.some.injEq] at h
    subst h
    simp
  | cons item rest ih =>
    unfold nextSymbols at h
    cases hp : G.grammar[item.prodIndex]? with
    | none => simp [hp] at h
    | some prod =>
      simp only [hp] at h
      cases hY : prod.rhs[item.dotPos]? with
      | none =>
        simp only [hY] at h
        rw [ih acc h]
        constructor
        · rintro (h1 | ⟨it, hit, hd⟩)
          · exact Or.inl h1
          · exact Or.inr ⟨it, List.mem_cons_of_mem _ hit, hd⟩
        · rintro (h1 | ⟨it, hit, hd⟩)
          · exact Or.inl h1
          · rcases List.mem_cons.1 hit with e | e
            · subst e
              obtain ⟨pr, h2, h3⟩ := hd
              rw [hp] at h2
              cases h2
              rw [hY] at h3
              cases h3
            · exact Or.inr ⟨it, e, hd⟩
      | some Y =>
        simp only [hY] at h
        rw [ih _ h, mem_setInsert]
        constructor
        · rintro ((h1 | h1) | ⟨it, hit, hd⟩)
          · subst h1
            exact Or.inr ⟨item, List.mem_cons_self _ _, prod, hp, hY⟩
          · exact Or.inl h1
          · exact Or.inr ⟨it, List.mem_cons_of_mem _ hit, hd⟩
        · rintro (h1 | ⟨it, hit, hd⟩)
          · exact Or.inl (Or.inr h1)
          · rcases List.mem_cons.1 hit with e | e
            · subst e
              obtain ⟨pr, h2, h3⟩ := hd
              rw [hp] at h2
              cases h2
              rw [hY] at h3
              cases h3
              exact Or.inl (Or.inl rfl)
            · exact Or.inr ⟨it, e, hd⟩

/-- The set `J` of `gotoState` holds exactly the items of `I` with the dot
before `X`, dot moved one place to the right. -/
theorem gotoKernel_mem (G : GrammarAnalyzer) (X : String) (items acc K : List Item)
    (h : gotoKernel G X items acc = some K) (x : Item) :
    x ∈ K ↔ x ∈ acc ∨ ∃ item ∈ items, dotBefore G item X ∧
      x = { prodIndex := item.prodIndex, dotPos := item.dotPos + 1 } := by
  induction items generalizing acc with
  | nil =>
    simp only [gotoKernel, Option.some.injEq] at h
    subst h
    simp
  | cons item rest ih =>
    unfold gotoKernel at h
    cases hp : G.grammar[item.prodIndex]? with
    | none => simp [hp] at h
    | some prod =>
      simp only [hp] at h
      have hno : ∀ acc1, gotoKernel G X rest acc1 = some K → ¬ dotBefore G item X →
          (x ∈ K ↔ x ∈ acc1 ∨ ∃ it ∈ item :: rest, dotBefore G it X ∧
            x = { prodIndex := it.prodIndex, dotPos := it.dotPos + 1 }) := by
        intro acc1 h1 hnd
        rw [ih acc1 h1]
        constructor
        · rintro (h1 | ⟨it, hit, hd⟩)
          · exact Or.inl h1
          · exact Or.inr ⟨it, List.mem_cons_of_mem _ hit, hd⟩
        · rintro (h1 | ⟨it, hit, hd⟩)
          · exact Or.inl h1
          · rcases List.mem_cons.1 hit with e | e
            · subst e
              exact absurd hd.1 hnd
            · exact Or.inr ⟨it, e, hd⟩
      cases hY : prod.rhs[item.dotPos]? with
      | none =>
        simp only [hY] at h
        apply hno acc h
        rintro ⟨pr, h2, h3⟩
        rw [hp] at h2
        cases h2
        rw [hY] at h3
        cases h3
      | some Y =>
        simp only [hY] at h
        by_cases hX : Y = X
        · rw [if_pos hX] at h
          rw [ih _ h, mem_setInsert]
          constructor
          · rintro ((h1 | h1) | ⟨it, hit, hd⟩)
            · exact Or.inr ⟨item, List.mem_cons_self _ _, ⟨prod, hp, by rw [hY, hX]⟩, h1⟩
            · exact Or.inl h1
            · exact Or.inr ⟨it, List.mem_cons_of_mem _ hit, hd⟩
          · rintro (h1 | ⟨it, hit, hd⟩)
            · exact Or.inl (Or.inr h1)
            · rcases List.mem_cons.1 hit with e | e
              · subst e
                exact Or.inl (Or.inl hd.2)
              · exact Or.inr ⟨it, e, hd⟩
        · rw [if_neg hX] at h
          apply hno acc h
          rintro ⟨pr, h2, h3⟩
          rw [hp] at h2
          cases h2
          rw [hY] at h3
          cases h3
          exact hX rfl

theorem closureLoop_nil (G : GrammarAnalyzer) (fuel : Nat) (J : List Item)
    (h : closureLoop G fuel [] = some J) : J = [] := by
  cases fuel with
  | zero => cases h
  | succ f =>
    simp [closureLoop, closurePass] at h
    exact h

theorem closureLoop_nil_eq (G : GrammarAnalyzer) (fuel : Nat) :
    closureLoop G (fuel + 1) [] = some [] := by
  simp [closureLoop, closurePass]

/-- With no item that has the dot before `X`, `gotoState` yields the empty
set. -/
theorem gotoState_empty (G : GrammarAnalyzer) (fuel : Nat) (I J : List Item) (X : String)
    (h : gotoState G fuel I X = some J) (hno : ∀ item ∈ I, ¬ dotBefore G item X) : J = [] := by
  unfold gotoState at h
  cases hk : gotoKernel G X I [] with
  | none => simp [hk] at h
  | some K =>
    simp only [hk] at h
    have hK : K = [] := by
      apply List.eq_nil_iff_forall_not_mem.2
      intro x hx
      rcases (gotoKernel_mem G X I [] K hk x).1 hx with h1 | ⟨it, hit, hd, _⟩
      · cases h1
      · exact hno it hit hd
    subst hK
    exact closureLoop_nil G fuel J h

theorem findState_some (items : List Item) (states : List State) (k i : Nat)
    (h : findState items states k = some i) :
    k ≤ i ∧ (states.map State.items)[i - k]? = some items := by
  induction states generalizing k with
  | nil => cases h
  | cons S rest ih =>
    unfold findState at h
    by_cases hS : S.items = items
    · rw [if_pos hS] at h
      cases h
      simp [hS]
    · rw [if_neg hS] at h
      obtain ⟨h1, h2⟩ := ih (k + 1) h
      refine ⟨by omega, ?_⟩
      have : i - k = (i - (k + 1)) + 1 := by omega
      rw [this]
      simpa using h2

theorem setTransition_getElem? (states : List State) (p : Nat) (X : String) (t i : Nat) :
    (setTransition states p X t)[i]? =
      if i = p then
        (states[i]?).map (fun S => { S with transitions := mapSet strLt X t S.transitions })
      else states[i]? := by
  unfold setTransition
  rw [List.getElem?_modify]
  by_cases h : i = p
  · subst h; simp
  · have : ¬ p = i := fun e => h e.symm
    simp [h, this]

theorem itemsAt_setTransition (states : List State) (p : Nat) (X : String) (t j : Nat)
    (J : List Item) : itemsAt (setTransition states p X t) j J ↔ itemsAt states j J := by
  unfold itemsAt
  rw [setTransition_items]

theorem itemsAt_append (states : List State) (S : State) (j : Nat) (J : List Item)
    (h : itemsAt states j J) : itemsAt (states ++ [S]) j J := by
  unfold itemsAt at *
  rw [List.map_append]
  have hj : j < (states.map State.items).length := by
    by_contra hcon
    rw [List.getElem?_eq_none (by omega)] at h
    cases h
  rw [List.getElem?_append_left hj]
  exact h

theorem itemsAt_lt (states : List State) (j : Nat) (J : List Item) (h : itemsAt states j J) :
    j < states.length := by
  unfold itemsAt at h
  by_contra hcon
  rw [List.getElem?_eq_none (by simp; omega)] at h
  cases h

theorem itemsAt_of_getElem? (states : List State) (j : Nat) (S : State)
    (h : states[j]? = some S) : itemsAt states j S.items := by
  unfold itemsAt
  rw [List.getElem?_map, h]
  rfl

/-- What one symbol does to the state list of `buildDFA`. -/
theorem buildDFASymbol_shape (G : GrammarAnalyzer) (fuel p : Nat) (states states1 : List State)
    (X : String) (h : buildDFASymbol G fuel p states X = some states1) :
    ∃ S J, states[p]? = some S ∧ gotoState G fuel S.items X = some J ∧
      ((J = [] ∧ states1 = states) ∨
       (J ≠ [] ∧ ∃ states0 t, states1 = setTransition states0 p X t ∧ itemsAt states0 t J ∧
          (states0 = states ∨
            states0 = states ++ [{ id := states.length, items := J, transitions := [] }]))) := by
  unfold buildDFASymbol at h
  cases hS : states[p]? with
  | none => simp [hS] at h
  | some S =>
    simp only [hS] at h
    cases hg : gotoState G fuel S.items X with
    | none => simp [hg] at h
    | some J =>
      simp only [hg] at h
      refine ⟨S, J, rfl, hg, ?_⟩
      by_cases hJ : J = []
      · rw [if_pos hJ] at h
        cases h
        exact Or.inl ⟨hJ, rfl⟩
      · rw [if_neg hJ] at h
        refine Or.inr ⟨hJ, ?_⟩
        cases hf : findState J states 0 with
        | some e =>
          simp only [hf, Option.some.injEq] at h
          refine ⟨states, e, h.symm, ?_, Or.inl rfl⟩
          have := (findState_some J states 0 e hf).2
          simpa [itemsAt] using this
        | none =>
          simp only [hf, Option.some.injEq] at h
          refine ⟨_, states.length, h.symm, ?_, Or.inr rfl⟩
          unfold itemsAt
          simp

/-- Appending a state without transitions keeps the invariant. -/
theorem dfaInv_append (G : GrammarAnalyzer) (fuel p : Nat) (done : List String)
    (states : List State) (J : List Item) (hp : p < states.length)
    (h : dfaInv G fuel p done states) :
    dfaInv G fuel p done (states ++ [{ id := states.length, items := J, transitions := [] }]) := by
  obtain ⟨h1, h2, h3, h4⟩ := h
  have hget : ∀ (i : Nat) (S : State),
      (states ++ [{ id := states.length, items := J, transitions := [] }])[i]? = some S →
      states[i]? = some S ∨ (i = states.length ∧ S.transitions = []) := by
    intro i S hS
    by_cases hi : i < states.length
    · rw [List.getElem?_append_left hi] at hS
      exact Or.inl hS
    · have hlen : i < (states ++ [({ id := states.length, items := J, transitions := [] } :
          State)]).length := by
        by_contra hcon
        rw [List.getElem?_eq_none (by omega)] at hS
        cases hS
      simp only [List.length_append, List.length_singleton] at hlen
      have hi2 : i = states.length := by omega
      subst hi2
      simp at hS
      subst hS
      exact Or.inr ⟨rfl, rfl⟩
  refine ⟨?_, ?_, ?_, ?_⟩
  · intro i S hS X j hj
    rcases hget i S hS with h5 | ⟨_, h5⟩
    · obtain ⟨K, a, b, c⟩ := h1 i S h5 X j hj
      exact ⟨K, a, b, itemsAt_append _ _ _ _ c⟩
    · rw [h5] at hj
      cases hj
  · intro i hi X S hS
    rcases hget i S hS with h5 | ⟨h5, _⟩
    · refine ⟨(h2 i hi X S h5).1, fun K hK hne => ?_⟩
      obtain ⟨j, a, b⟩ := (h2 i hi X S h5).2 K hK hne
      exact ⟨j, a, itemsAt_append _ _ _ _ b⟩
    · omega
  · intro X hX S hS
    rcases hget p S hS with h5 | ⟨h5, _⟩
    · refine ⟨(h3 X hX S h5).1, fun K hK hne => ?_⟩
      obtain ⟨j, a, b⟩ := (h3 X hX S h5).2 K hK hne
      exact ⟨j, a, itemsAt_append _ _ _ _ b⟩
    · omega
  · intro i S hS hi
    rcases hget i S hS with h5 | ⟨_, h5⟩
    · exact h4 i S h5 hi
    · exact h5

/-- Recording the transition to the state that holds the goto set keeps the
invariant and handles the symbol. -/
theorem dfaInv_setTransition (G : GrammarAnalyzer) (fuel p : Nat) (done : List String)
    (states : List State) (S : State) (X : String) (t : Nat) (J : List Item)
    (hS : states[p]? = some S) (hg : gotoState G fuel S.items X = some J) (hJ : J ≠ [])
    (ht : itemsAt states t J) (h : dfaInv G fuel p done states) :
    dfaInv G fuel p (X :: done) (setTransition states p X t) := by
  obtain ⟨h1, h2, h3, h4⟩ := h
  refine ⟨?_, ?_, ?_, ?_⟩
  · intro i S1 hS1 Y j hj
    rw [setTransition_getElem?] at hS1
    by_cases hi : i = p
    · rw [if_pos hi, hi, hS] at hS1
      simp only [Option.map_some', Option.some.injEq] at hS1
      subst hS1
      simp only at hj ⊢
      rcases mem_mapSet strLt X t S.transitions (Y, j) hj with hY | hY
      · cases hY
        exact ⟨J, hg, hJ, (itemsAt_setTransition _ _ _ _ _ _).2 ht⟩
      · obtain ⟨K, a, b, c⟩ := h1 p S hS Y j hY
        exact ⟨K, a, b, (itemsAt_setTransition _ _ _ _ _ _).2 c⟩
    · rw [if_neg hi] at hS1
      obtain ⟨K, a, b, c⟩ := h1 i S1 hS1 Y j hj
      exact ⟨K, a, b, (itemsAt_setTransition _ _ _ _ _ _).2 c⟩
  · intro i hi Y S1 hS1
    rw [setTransition_getElem?, if_neg (by omega)] at hS1
    refine ⟨(h2 i hi Y S1 hS1).1, fun K hK hne => ?_⟩
    obtain ⟨j, a, b⟩ := (h2 i hi Y S1 hS1).2 K hK hne
    exact ⟨j, a, (itemsAt_setTransition _ _ _ _ _ _).2 b⟩
  · intro Y hY S1 hS1
    rw [setTransition_getElem?, if_pos rfl, hS] at hS1
    simp only [Option.map_some', Option.some.injEq] at hS1
    subst hS1
    simp only
    by_cases hYX : Y = X
    · refine ⟨fun _ => ⟨J, by rw [hYX]; exact hg⟩, fun K hK hne => ?_⟩
      rw [mapFind_mapSet, if_pos hYX]
      rw [hYX, hg] at hK
      cases hK
      exact ⟨t, rfl, (itemsAt_setTransition _ _ _ _ _ _).2 ht⟩
    · rcases List.mem_cons.1 hY with e | e
      · exact absurd e hYX
      · refine ⟨(h3 Y e S hS).1, fun K hK hne => ?_⟩
        rw [mapFind_mapSet, if_neg hYX]
        obtain ⟨j, a, b⟩ := (h3 Y e S hS).2 K hK hne
        exact ⟨j, a, (itemsAt_setTransition _ _ _ _ _ _).2 b⟩
  · intro i S1 hS1 hi
    rw [setTransition_getElem?, if_neg (by omega)] at hS1
    exact h4 i S1 hS1 hi

theorem buildDFASymbol_dfaInv (G : GrammarAnalyzer) (fuel p : Nat) (done : List String)
    (states states1 : List State) (X : String) (hinv : dfaInv G fuel p done states)
    (h : buildDFASymbol G fuel p states X = some states1) :
    dfaInv G fuel p (X :: done) states1 ∧ (∀ j J, itemsAt states j J → itemsAt states1 j J) := by
  obtain ⟨S, J, hS, hg, hcase⟩ := buildDFASymbol_shape G fuel p states states1 X h
  have hp : p < states.length := by
    by_contra hcon
    rw [List.getElem?_eq_none (by omega)] at hS
    cases hS
  rcases hcase with ⟨hJ, e⟩ | ⟨hJ, states0, t, e, ht, hst⟩
  · subst e
    refine ⟨⟨hinv.1, hinv.2.1, ?_, hinv.2.2.2⟩, fun _ _ hj => hj⟩
    intro Y hY S1 hS1
    rcases List.mem_cons.1 hY with e | e
    · rw [hS] at hS1
      cases hS1
      refine ⟨fun _ => ⟨J, by rw [e]; exact hg⟩, fun K hK hne => ?_⟩
      rw [e, hg] at hK
      cases hK
      exact absurd hJ hne
    · exact hinv.2.2.1 Y e S1 hS1
  · rcases hst with e0 | e0
    · subst e0
      subst e
      exact ⟨dfaInv_setTransition G fuel p done states0 S X t J hS hg hJ ht hinv,
        fun j K hj => (itemsAt_setTransition _ _ _ _ _ _).2 hj⟩
    · have hinv1 := dfaInv_append G fuel p done states J hp hinv
      rw [← e0] at hinv1
      have hS0 : states0[p]? = some S := by
        rw [e0, List.getElem?_append_left hp]
        exact hS
      subst e
      refine ⟨dfaInv_setTransition G fuel p done states0 S X t J hS0 hg hJ ht hinv1, ?_⟩
      intro j K hj
      rw [itemsAt_setTransition, e0]
      exact itemsAt_append _ _ _ _ hj

theorem buildDFAFold_dfaInv (G : GrammarAnalyzer) (fuel p : Nat) (syms done : List String)
    (states states1 : List State) (hinv : dfaInv G fuel p done states)
    (h : syms.foldlM (buildDFASymbol G fuel p) states = some states1) :
    (∃ done1, (∀ X ∈ syms, X ∈ done1) ∧ (∀ X ∈ done, X ∈ done1) ∧
      dfaInv G fuel p done1 states1) ∧
    (∀ j J, itemsAt states j J → itemsAt states1 j J) := by
  induction syms generalizing states done with
  | nil =>
    simp at h
    subst h
    exact ⟨⟨done, fun _ hX => absurd hX (List.not_mem_nil _), fun _ hX => hX, hinv⟩,
      fun _ _ hj => hj⟩
  | cons X rest ih =>
    rw [List.foldlM_cons] at h
    cases hX : buildDFASymbol G fuel p states X with
    | none => simp [hX] at h
    | some states2 =>
      simp only [hX, Option.bind_eq_bind, Option.some_bind] at h
      obtain ⟨hinv2, hitems2⟩ := buildDFASymbol_dfaInv G fuel p done states states2 X hinv hX
      obtain ⟨⟨done1, a, b, c⟩, d⟩ := ih (X :: done) states2 hinv2 h
      refine ⟨⟨done1, ?_, fun Y hY => b Y (List.mem_cons_of_mem _ hY), c⟩,
        fun j K hj => d j K (hitems2 j K hj)⟩
      intro Y hY
      rcases List.mem_cons.1 hY with e | e
      · rw [e]; exact b X (List.mem_cons_self _ _)
      · exact a Y e

/-- Invariant of the outer loop of `buildDFA`: the states before `processed`
have all their transitions, the others none. -/
theorem buildDFALoop_dfaInv (G : GrammarAnalyzer) (fuel n p : Nat) (states states1 : List State)
    (h1 : transitionsSound G fuel states)
    (h2 : ∀ i, i < p → ∀ X, transitionComplete G fuel states i X)
    (h3 : ∀ (i : Nat) (S : State), states[i]? = some S → p ≤ i → S.transitions = [])
    (h : buildDFALoop G fuel n p states = some states1) :
    transitionsSound G fuel states1 ∧ (∀ i X, transitionComplete G fuel states1 i X) ∧
      (∀ j J, itemsAt states j J → itemsAt states1 j J) := by
  induction n generalizing p states with
  | zero => cases h
  | succ n ih =>
    unfold buildDFALoop at h
    cases hS : states[p]? with
    | none =>
      simp only [hS, Option.some.injEq] at h
      subst h
      refine ⟨h1, ?_, fun _ _ hj => hj⟩
      intro i X
      by_cases hi : i < p
      · exact h2 i hi X
      · intro S hSi
        have hlen : states.length ≤ p := by
          by_contra hcon
          have : p < states.length := by omega
          rw [List.getElem?_eq_getElem this] at hS
          cases hS
        rw [List.getElem?_eq_none (by omega)] at hSi
        cases hSi
    | some S =>
      simp only [hS] at h
      cases hn : nextSymbols G S.items [] with
      | none => simp [hn] at h
      | some syms =>
        simp only [hn] at h
        cases hf : syms.foldlM (buildDFASymbol G fuel p) states with
        | none => simp [hf] at h
        | some states2 =>
          simp only [hf] at h
          have hinv : dfaInv G fuel p [] states :=
            ⟨h1, h2, fun _ hX => absurd hX (List.not_mem_nil _),
              fun i S1 hS1 hi => h3 i S1 hS1 (by omega)⟩
          obtain ⟨⟨done1, a, _, c1, c2, c3, c4⟩, d⟩ :=
            buildDFAFold_dfaInv G fuel p syms [] states states2 hinv hf
          have hres := ih (p + 1) states2 c1 ?_ ?_ h
          · exact ⟨hres.1, hres.2.1, fun j K hj => hres.2.2 j K (d j K hj)⟩
          · intro i hi X
            by_cases hip : i < p
            · exact c2 i hip X
            · have hip2 : i = p := by omega
              subst hip2
              by_cases hX : X ∈ syms
              · exact c3 X (a X hX)
              · intro S2 hS2
                have hit : itemsAt states2 i S.items := d i _ (itemsAt_of_getElem? _ _ _ hS)
                have hit2 := itemsAt_of_getElem? _ _ _ hS2
                unfold itemsAt at hit hit2
                rw [hit] at hit2
                have hitems : S.items = S2.items := Option.some.inj hit2
                rw [← hitems]
                have hno : ∀ item ∈ S.items, ¬ dotBefore G item X := by
                  intro item hitem hdot
                  exact hX ((nextSymbols_mem G _ [] syms hn X).2 (Or.inr ⟨item, hitem, hdot⟩))
                refine ⟨fun ⟨item, hitem, hdot⟩ => absurd hdot (hno item hitem),
                  fun K hK hne => ?_⟩
                exact absurd (gotoState_empty G fuel _ K X hK hno) hne
          · intro i S2 hS2 hi
            exact c4 i S2 hS2 (by omega)

theorem closureLoop_states (G : GrammarAnalyzer) (st : List State) (fuel : Nat) (I : List Item) :
    closureLoop { G with states := st } fuel I = closureLoop G fuel I := by
  induction fuel generalizing I with
  | zero => rfl
  | succ f ih =>
    unfold closureLoop
    have : closurePass { G with states := st } I = closurePass G I := rfl
    rw [this]
    cases closurePass G I with
    | none => rfl
    | some r =>
      simp only
      rw [ih]

theorem gotoKernel_states (G : GrammarAnalyzer) (st : List State) (X : String)
    (items acc : List Item) :
    gotoKernel { G with states := st } X items acc = gotoKernel G X items acc := by
  induction items generalizing acc with
  | nil => rfl
  | cons item rest ih =>
    unfold gotoKernel
    simp only [ih]

theorem gotoState_states (G : GrammarAnalyzer) (st : List State) (fuel : Nat) (I : List Item)
    (X : String) : gotoState { G with states := st } fuel I X = gotoState G fuel I X := by
  unfold gotoState closure
  rw [gotoKernel_states]
  cases gotoKernel G X I [] with
  | none => rfl
  | some J => exact closureLoop_states G st fuel J

/-- What `buildDFA` leaves in an analyzer that had no states. -/
theorem buildDFA_canonical_aux (G G1 : GrammarAnalyzer) (hs : G.states = []) (fuel : Nat)
    (h : buildDFA fuel G = some G1) :
    ∃ st, G1 = { G with states := st } ∧
    (∃ J, closure G fuel [{ prodIndex := 0, dotPos := 0 }] = some J ∧ itemsAt st 0 J) ∧
    transitionsSound G fuel st ∧ (∀ i X, transitionComplete G fuel st i X) := by
  unfold buildDFA at h
  cases hc : closure G fuel [{ prodIndex := 0, dotPos := 0 }] with
  | none => simp [hc] at h
  | some startSet =>
    simp only [hc, hs, List.nil_append] at h
    cases hl : buildDFALoop G fuel fuel 0 [{ id := 0, items := startSet, transitions := [] }] with
    | none => simp [hl] at h
    | some states =>
      simp only [hl, Option.some.injEq] at h
      subst h
      have hres := buildDFALoop_dfaInv G fuel fuel 0 _ states ?_ ?_ ?_ hl
      · exact ⟨states, rfl, ⟨startSet, rfl, hres.2.2 0 startSet (by simp [itemsAt])⟩,
          hres.1, hres.2.1⟩
      · intro i S hS X j hj
        cases i with
        | zero =>
          simp at hS
          subst hS
          cases hj
        | succ i => simp at hS
      · intro i hi
        omega
      · intro i S hS _
        cases i with
        | zero =>
          simp at hS
          subst hS
          rfl
        | succ i => simp at hS

theorem itemsAt_iff (states : List State) (j : Nat) (J : List Item) :
    itemsAt states j J ↔ ∃ Sj, states[j]? = some Sj ∧ Sj.items = J := by
  unfold itemsAt
  rw [List.getElem?_map]
  cases states[j]? with
  | none => simp
  | some S => simp

theorem itemsAt_inj (G : GrammarAnalyzer) (states : List State) (h : statesInv G states)
    (i j : Nat) (J : List Item) (hi : itemsAt states i J) (hj : itemsAt states j J) : i = j := by
  have hli : i < (states.map State.items).length := by
    simpa using itemsAt_lt states i J hi
  have hlj : j < (states.map State.items).length := by
    simpa using itemsAt_lt states j J hj
  unfold itemsAt at hi hj
  rw [List.getElem?_eq_getElem hli] at hi
  rw [List.getElem?_eq_getElem hlj] at hj
  exact (List.Nodup.getElem_inj_iff h.2.1).1 ((Option.some.inj hi).trans (Option.some.inj hj).symm)

/-- C20. The automaton `buildDFA` builds for a loaded grammar is the canonical
collection. `buildDFA` returns once the fuel exceeds `statesBound`; and in what
it returns: state 0 holds the closure of the item (0, 0); a state `S` has a
transition on `X` to `j` exactly when `gotoState` of the items of `S` and `X` is
a non-empty set and the state at position `j` holds exactly that set; for
every state `S` and symbol `X`, `gotoState` returns, and when the set it returns
is not empty `S` has a transition on `X` to a state that holds this set, so no
goto set is left out; every transition target is a position of the state
list; `gotoState` is the closure
of the items with the dot before `X`, each with the dot moved one place; and on
a set with no item whose dot is before `X` it yields the empty set, for which a
state records no transition. -/
theorem buildDFA_canonical (lines : List String) (G : GrammarAnalyzer)
    (hg : G.grammar = (loadGrammar GrammarAnalyzer.fresh lines).grammar) (hs : G.states = [])
    (hne : productionsOf lines ≠ []) :
    (∀ fuel, statesBound G < fuel → ∃ G1, buildDFA fuel G = some G1) ∧
    ∀ fuel G1, buildDFA fuel G = some G1 →
      (∃ S0, G1.states[0]? = some S0 ∧
        closure G1 fuel [{ prodIndex := 0, dotPos := 0 }] = some S0.items) ∧
      (∀ (i : Nat) (S : State), G1.states[i]? = some S → ∀ (X : String) (j : Nat),
        (mapFind X S.transitions = some j ↔
          ∃ J, gotoState G1 fuel S.items X = some J ∧ J ≠ [] ∧
            ∃ Sj, G1.states[j]? = some Sj ∧ Sj.items = J)) ∧
      (∀ (i : Nat) (S : State), G1.states[i]? = some S → ∀ (X : String),
        ∃ J, gotoState G1 fuel S.items X = some J ∧
          (J ≠ [] → ∃ j Sj, mapFind X S.transitions = some j ∧
            G1.states[j]? = some Sj ∧ Sj.items = J)) ∧
      (∀ (i : Nat) (S : State), G1.states[i]? = some S → ∀ (X : String) (j : Nat),
        mapFind X S.transitions = some j → j < G1.states.length) ∧
      (∀ (I J : List Item) (X : String), gotoState G1 fuel I X = some J →
        ∃ K, (∀ x, x ∈ K ↔ ∃ item ∈ I, dotBefore G1 item X ∧
            x = { prodIndex := item.prodIndex, dotPos := item.dotPos + 1 }) ∧
          closure G1 fuel K = some J) ∧
      (∀ (I : List Item) (X : String), (∀ item ∈ I, validItem G1 item) →
        (∀ item ∈ I, ¬ dotBefore G1 item X) → gotoState G1 fuel I X = some []) ∧
      (∀ (i : Nat) (S : State), G1.states[i]? = some S → ∀ X : String,
        (∀ item ∈ S.items, ¬ dotBefore G1 item X) → mapFind X S.transitions = none) := by
  have hd := idsDense_of_grammar_eq G _ hg (idsDense_loadGrammar lines)
  refine ⟨fun fuel hfuel =>
    buildDFA_defined G hd hs (grammar_ne_nil_of_loaded lines G hg hne) fuel hfuel, ?_⟩
  intro fuel G1 h
  have hinv := buildDFA_inv G G1 hd hs fuel h
  obtain ⟨st, e, ⟨J0, hJ0, hat0⟩, hsound, hcomplete⟩ := buildDFA_canonical_aux G G1 hs fuel h
  subst e
  simp only at hinv
  have hfuel : fuel ≠ 0 := by
    intro h0
    subst h0
    cases hJ0
  obtain ⟨f, rfl⟩ := Nat.exists_eq_succ_of_ne_zero hfuel
  have hgoto : ∀ I X, gotoState { G with states := st } (f + 1) I X = gotoState G (f + 1) I X :=
    fun I X => gotoState_states G st (f + 1) I X
  have hiff : ∀ (i : Nat) (S : State), st[i]? = some S → ∀ (X : String) (j : Nat),
      (mapFind X S.transitions = some j ↔
        ∃ J, gotoState G (f + 1) S.items X = some J ∧ J ≠ [] ∧
          ∃ Sj, st[j]? = some Sj ∧ Sj.items = J) := by
    intro i S hS X j
    constructor
    · intro hj
      obtain ⟨J, a, b, c⟩ := hsound i S hS X j (mapFind_some_mem _ _ _ hj)
      exact ⟨J, a, b, (itemsAt_iff _ _ _).1 c⟩
    · rintro ⟨J, a, b, c⟩
      obtain ⟨j0, a0, c0⟩ := (hcomplete i X S hS).2 J a b
      have := itemsAt_inj G st hinv j0 j J c0 ((itemsAt_iff _ _ _).2 c)
      rw [← this]
      exact a0
  have hempty : ∀ (I : List Item) (X : String), (∀ item ∈ I, validItem G item) →
      (∀ item ∈ I, ¬ dotBefore G item X) → gotoState G (f + 1) I X = some [] := by
    intro I X hv hno
    obtain ⟨K, hK⟩ := gotoKernel_defined G X I [] hv
    have hK0 : K = [] := by
      apply List.eq_nil_iff_forall_not_mem.2
      intro x hx
      rcases (gotoKernel_mem G X I [] K hK x).1 hx with h1 | ⟨it, hit, hdot, _⟩
      · cases h1
      · exact hno it hit hdot
    subst hK0
    unfold gotoState closure
    simp only [hK]
    exact closureLoop_nil_eq G f
  refine ⟨?_, ?_, ?_, ?_, ?_, ?_, ?_⟩
  · obtain ⟨S0, a, b⟩ := (itemsAt_iff _ _ _).1 hat0
    refine ⟨S0, a, ?_⟩
    rw [b]
    unfold closure
    rw [closureLoop_states]
    exact hJ0
  · intro i S hS X j
    rw [hgoto]
    exact hiff i S hS X j
  · intro i S hS X
    rw [hgoto]
    by_cases hex : ∃ item ∈ S.items, dotBefore G item X
    · obtain ⟨J, hJ⟩ := (hcomplete i X S hS).1 hex
      refine ⟨J, hJ, fun hne => ?_⟩
      obtain ⟨j, a, c⟩ := (hcomplete i X S hS).2 J hJ hne
      obtain ⟨Sj, d, e⟩ := (itemsAt_iff _ _ _).1 c
      exact ⟨j, Sj, a, d, e⟩
    · refine ⟨[], hempty S.items X (statesInv_valid G st hinv i S hS) ?_,
        fun hne => absurd rfl hne⟩
      intro item hitem hdot
      exact hex ⟨item, hitem, hdot⟩
  · intro i S hS X j hj
    obtain ⟨J, _, _, c⟩ := hsound i S hS X j (mapFind_some_mem _ _ _ hj)
    exact itemsAt_lt _ _ _ c
  · intro I J X hJ
    rw [hgoto] at hJ
    unfold gotoState at hJ
    cases hk : gotoKernel G X I [] with
    | none => simp [hk] at hJ
    | some K =>
      simp only [hk] at hJ
      refine ⟨K, ?_, ?_⟩
      · intro x
        rw [gotoKernel_mem G X I [] K hk x]
        simp only [List.not_mem_nil, false_or]
        rfl
      · unfold closure at hJ ⊢
        rw [closureLoop_states]
        exact hJ
  · intro I X hv hno
    rw [hgoto]
    exact hempty I X hv hno
  · intro i S hS X hno
    cases hm : mapFind X S.transitions with
    | none => rfl
    | some j =>
      obtain ⟨J, a, b, _⟩ := hsound i S hS X j (mapFind_some_mem _ _ _ hm)
      exact absurd (gotoState_empty G (f + 1) S.items J X a hno) b

theorem buildDFA_canonical_witness :
    demoDFA.states.length = 16 ∧
    ∃ S0, demoDFA.states[0]? = some S0 ∧
      closure demoDFA 100 [{ prodIndex := 0, dotPos := 0 }] = some S0.items ∧
      ∃ J, gotoState demoDFA 100 S0.items "while" = some J ∧ J ≠ [] ∧
        ∃ j Sj, mapFind "while" S0.transitions = some j ∧
          demoDFA.states[j]? = some Sj ∧ Sj.items = J := by
  have H := (buildDFA_canonical demoGrammar (loadGrammar GrammarAnalyzer.fresh demoGrammar) rfl
    (by decide) (by decide)).2 100 demoDFA
    (some_getD_of_isSome _ GrammarAnalyzer.fresh (by decide))
  obtain ⟨⟨S0, a, b⟩, _, c, _⟩ := H
  refine ⟨by decide, S0, a, b, ?_⟩
  obtain ⟨J, hJ, hrec⟩ := c 0 S0 a "while"
  have hne : J ≠ [] := by
    have hS0 : S0 = (demoDFA.states[0]?).getD
        ({ id := 0, items := [], transitions := [] } : State) := by
      rw [a]
      rfl
    have hg : gotoState demoDFA 100 ((demoDFA.states[0]?).getD
        ({ id := 0, items := [], transitions := [] } : State)).items "while" =
        some [{ prodIndex := 1, dotPos := 1 }] := by decide
    rw [← hS0, hJ] at hg
    rw [Option.some.inj hg]
    decide
  exact ⟨J, hJ, hne, hrec hne⟩

/-! ## Shape of the automaton -/

/-- An item of a closure is an item of the set closed or is there by the
closure rule. -/
theorem closure_justified (G : GrammarAnalyzer) (hd : idsDense G) (fuel : Nat) (I J : List Item)
    (hv : ∀ item ∈ I, validItem G item) (h : closureLoop G fuel I = some J) :
    ∀ x ∈ J, x ∈ I ∨ (x.dotPos = 0 ∧ justified G x J) := by
  obtain ⟨hsub, _, _, hclosed, _⟩ := closureLoop_sound G hd fuel I J hv h
  have hrule := closedUnderRule_of_closedItems G hd J hclosed
  have hK : closedUnderRule G (fun x => x ∈ J ∧ (x ∈ I ∨ (x.dotPos = 0 ∧ justified G x J))) := by
    intro q d prod B hq hprod hB hn p pp hpp hl
    refine ⟨hrule q d prod B hq.1 hprod hB hn p pp hpp hl, Or.inr ⟨rfl, ?_⟩⟩
    exact ⟨_, hq.1, pp, hpp, prod, hprod, by rw [hl]; exact hB⟩
  intro x hx
  exact (closureLoop_within G hd _ hK fuel I J (fun y hy => ⟨hsub y hy, Or.inl hy⟩) h x hx).2

/-- The states `buildDFA` leaves have the shape `lrStates`. -/
theorem lrStates_of_canonical (G : GrammarAnalyzer) (hd : idsDense G) (fuel : Nat)
    (st : List State) (hinv : statesInv G st)
    (h0 : ∃ J, closure G fuel [{ prodIndex := 0, dotPos := 0 }] = some J ∧ itemsAt st 0 J)
    (hsound : transitionsSound G fuel st)
    (hcomplete : ∀ i X, transitionComplete G fuel st i X) :
    lrStates { G with states := st } := by
  refine ⟨?_, ?_, ?_, ?_⟩
  · intro S0 hS0 x hx
    obtain ⟨J0, hJ0, hat⟩ := h0
    have hit := itemsAt_of_getElem? _ _ _ hS0
    unfold itemsAt at hat hit
    rw [hat] at hit
    have e : J0 = S0.items := Option.some.inj hit
    subst e
    have hv0 := closureLoop_start_valid G fuel _ hJ0
    rcases closure_justified G hd fuel _ _ (by
      intro item hitem
      simp only [List.mem_singleton] at hitem
      subst hitem
      exact hv0) hJ0 x hx with h1 | h1
    · simp only [List.mem_singleton] at h1
      subst h1
      exact ⟨rfl, Or.inl rfl⟩
    · exact ⟨h1.1, Or.inr h1.2⟩
  · intro i S X j hS hj
    obtain ⟨J, hg, hne, hat⟩ := hsound i S hS X j hj
    obtain ⟨Sj, hSj, e⟩ := (itemsAt_iff _ _ _).1 hat
    subst e
    unfold gotoState at hg
    cases hk : gotoKernel G X S.items [] with
    | none => simp [hk] at hg
    | some K =>
      simp only [hk] at hg
      have hKv := (gotoKernel_sound G X S.items [] K
        (fun x hx => absurd hx (List.not_mem_nil _)) itemsSorted_nil hk).1
      have hsub := (closureLoop_sound G hd fuel K Sj.items hKv hg).1
      have hKmem := gotoKernel_mem G X S.items [] K hk
      refine ⟨Sj, hSj, ?_, ?_⟩
      · cases hK : K with
        | nil =>
          rw [hK] at hg
          exact absurd (closureLoop_nil G fuel _ hg) hne
        | cons y ys =>
          have hy : y ∈ K := by rw [hK]; exact List.mem_cons_self _ _
          refine ⟨y, hsub y hy, ?_⟩
          rcases (hKmem y).1 hy with h1 | ⟨it, _, _, e⟩
          · cases h1
          · rw [e]; exact Nat.succ_pos _
      · intro x hx
        rcases closure_justified G hd fuel K Sj.items hKv hg x hx with h1 | h1
        · rcases (hKmem x).1 h1 with h2 | ⟨it, hit, hdot, e⟩
          · cases h2
          · refine Or.inl ?_
            rw [e]
            exact ⟨Nat.succ_pos _, hit, hdot⟩
        · exact Or.inr h1
  · intro i S item X hS hitem hdot
    obtain ⟨hdef, hcomp⟩ := hcomplete i X S hS
    obtain ⟨J, hJ⟩ := hdef ⟨item, hitem, hdot⟩
    have hne : J ≠ [] := by
      have hg := hJ
      unfold gotoState at hg
      cases hk : gotoKernel G X S.items [] with
      | none => simp [hk] at hg
      | some K =>
        simp only [hk] at hg
        have hKv := (gotoKernel_sound G X S.items [] K
          (fun x hx => absurd hx (List.not_mem_nil _)) itemsSorted_nil hk).1
        have hsub := (closureLoop_sound G hd fuel K J hKv hg).1
        have hin : ({ prodIndex := item.prodIndex, dotPos := item.dotPos + 1 } : Item) ∈ K :=
          (gotoKernel_mem G X S.items [] K hk _).2 (Or.inr ⟨item, hitem, hdot, rfl⟩)
        exact List.ne_nil_of_mem (hsub _ hin)
    obtain ⟨j, hj, _⟩ := hcomp J hJ hne
    exact ⟨j, hj⟩
  · intro i S hS x hx
    exact statesInv_valid G st hinv i S hS x hx

theorem lrStates_congr (G H : GrammarAnalyzer) (hg : H.grammar = G.grammar)
    (hs : H.states = G.states) (h : lrStates G) : lrStates H := by
  unfold lrStates justified dotBefore validItem at *
  rw [hg, hs]
  exact h

/-- The analyzer `buildDFA` returns has states of the shape `lrStates`. -/
theorem buildDFA_lrStates (G G1 : GrammarAnalyzer) (hd : idsDense G) (hs : G.states = [])
    (fuel : Nat) (h : buildDFA fuel G = some G1) : lrStates G1 ∧ G1 = { G with states := G1.states } := by
  have hinv := buildDFA_inv G G1 hd hs fuel h
  obtain ⟨st, e, h0, hsound, hcomplete⟩ := buildDFA_canonical_aux G G1 hs fuel h
  subst e
  exact ⟨lrStates_of_canonical G hd fuel st hinv h0 hsound hcomplete, rfl⟩

/-! ## What the table construction writes -/

theorem rowWrite {ν : Type} (tbl : List (Nat × List (String × ν))) (i k : Nat)
    (row : List (String × ν)) :
    mapGet k [] (mapSet natLt i row (mapTouch natLt i [] tbl)) =
      if k = i then row else mapGet k [] tbl := by
  rw [mapGet_mapSet, mapGet_mapTouch]

theorem sameBase_refl (G : GrammarAnalyzer) : sameBase G G :=
  ⟨rfl, rfl, rfl, rfl, rfl, fun _ => rfl⟩

theorem sameBase_trans {G H K : GrammarAnalyzer} (h : sameBase G H) (h1 : sameBase H K) :
    sameBase G K :=
  ⟨h.1.trans h1.1, h.2.1.trans h1.2.1, h.2.2.1.trans h1.2.2.1, h.2.2.2.1.trans h1.2.2.2.1,
    h.2.2.2.2.1.trans h1.2.2.2.2.1, fun A => (h.2.2.2.2.2 A).trans (h1.2.2.2.2.2 A)⟩

theorem sameBase_symm {G H : GrammarAnalyzer} (h : sameBase G H) : sameBase H G :=
  ⟨h.1.symm, h.2.1.symm, h.2.2.1.symm, h.2.2.2.1.symm, h.2.2.2.2.1.symm,
    fun A => (h.2.2.2.2.2 A).symm⟩

theorem sameBase_isTerminal {G H : GrammarAnalyzer} (h : sameBase G H) (s : String) :
    G.isTerminal s = H.isTerminal s := by
  unfold GrammarAnalyzer.isTerminal
  rw [h.2.2.1]

theorem justifiedAction_congr {G H : GrammarAnalyzer} (h : sameBase G H) (i : Nat) (a : String)
    (act : Action) (hj : justifiedAction G i a act) : justifiedAction H i a act := by
  unfold justifiedAction at *
  rw [← h.1, ← h.2.1, ← h.2.2.2.2.1]
  obtain ⟨S, hS, hc⟩ := hj
  refine ⟨S, hS, ?_⟩
  rcases hc with ⟨h1, h2, h3⟩ | ⟨h1, prod, h2, h3, h4, h5⟩ | h1
  · exact Or.inl ⟨h1, by rw [← sameBase_isTerminal h]; exact h2, h3⟩
  · exact Or.inr (Or.inl ⟨h1, prod, h2, h3, h4, by rw [← h.2.2.2.2.2]; exact h5⟩)
  · exact Or.inr (Or.inr h1)

theorem actionSound_write (G : GrammarAnalyzer) (tbl : List (Nat × List (String × Action)))
    (i : Nat) (a : String) (act : Action) (h : actionSound G tbl)
    (hj : justifiedAction G i a act) :
    actionSound G (mapSet natLt i (mapSet strLt a act (mapGet i [] (mapTouch natLt i [] tbl)))
      (mapTouch natLt i [] tbl)) := by
  intro k b act1 hb
  rw [rowWrite] at hb
  by_cases hk : k = i
  · rw [if_pos hk, mapFind_mapSet, mapGet_mapTouch] at hb
    by_cases hba : b = a
    · rw [if_pos hba] at hb
      cases hb
      rw [hk, hba]
      exact hj
    · rw [if_neg hba, ← hk] at hb
      exact h k b act1 hb
  · rw [if_neg hk] at hb
    exact h k b act1 hb

theorem actionSound_touch (G : GrammarAnalyzer) (tbl : List (Nat × List (String × Action)))
    (i : Nat) (h : actionSound G tbl) : actionSound G (mapTouch natLt i [] tbl) := by
  intro k b act1 hb
  rw [mapGet_mapTouch] at hb
  exact h k b act1 hb

theorem gotoSound_write (G : GrammarAnalyzer) (tbl : List (Nat × List (String × Nat)))
    (i : Nat) (A : String) (j : Nat) (S : State) (h : gotoSound G tbl)
    (hS : G.states[i]? = some S) (hj : (A, j) ∈ S.transitions)
    (hnt : G.isTerminal A = false) :
    gotoSound G (mapSet natLt i (mapSet strLt A j (mapGet i [] (mapTouch natLt i [] tbl)))
      (mapTouch natLt i [] tbl)) := by
  intro k B j1 hb
  rw [rowWrite] at hb
  by_cases hk : k = i
  · rw [if_pos hk, mapFind_mapSet, mapGet_mapTouch] at hb
    by_cases hba : B = A
    · rw [if_pos hba] at hb
      cases hb
      rw [hk, hba]
      exact ⟨S, hS, hj, hnt⟩
    · rw [if_neg hba, ← hk] at hb
      exact h k B j1 hb
  · rw [if_neg hk] at hb
    exact h k B j1 hb

theorem gotoDefined_write (tbl : List (Nat × List (String × Nat))) (i : Nat) (A : String)
    (j : Nat) :
    gotoDefined (mapSet natLt i (mapSet strLt A j (mapGet i [] (mapTouch natLt i [] tbl)))
      (mapTouch natLt i [] tbl)) i A ∧
    ∀ t B, gotoDefined tbl t B →
      gotoDefined (mapSet natLt i (mapSet strLt A j (mapGet i [] (mapTouch natLt i [] tbl)))
        (mapTouch natLt i [] tbl)) t B := by
  unfold gotoDefined
  constructor
  · rw [rowWrite, if_pos rfl, mapFind_mapSet, if_pos rfl]
    rfl
  · intro t B h
    rw [rowWrite]
    by_cases hk : t = i
    · rw [if_pos hk, mapFind_mapSet, mapGet_mapTouch]
      by_cases hba : B = A
      · rw [if_pos hba]; rfl
      · rw [if_neg hba, ← hk]; exact h
    · rw [if_neg hk]; exact h

/-- The loop over the transitions of state `i`: every entry it writes is a
transition of the state, and when it runs to its end every transition on a
symbol that is no terminal has its GOTO entry. -/
theorem tableShifts_spec (G0 : GrammarAnalyzer) (i : Nat) (S : State)
    (hS : G0.states[i]? = some S) (trans : List (String × Nat)) (G : GrammarAnalyzer)
    (hsub : ∀ x ∈ trans, x ∈ S.transitions) (hb : sameBase G G0)
    (ha : actionSound G0 G.actionTable) (hg : gotoSound G0 G.gotoTable) :
    sameBase (tableShifts i trans G).1 G0 ∧
    actionSound G0 (tableShifts i trans G).1.actionTable ∧
    gotoSound G0 (tableShifts i trans G).1.gotoTable ∧
    (∀ t B, gotoDefined G.gotoTable t B → gotoDefined (tableShifts i trans G).1.gotoTable t B) ∧
    ((tableShifts i trans G).2 = true → ∀ A j, (A, j) ∈ trans → G0.isTerminal A = false →
      gotoDefined (tableShifts i trans G).1.gotoTable i A) := by
  induction trans generalizing G with
  | nil =>
    exact ⟨hb, ha, hg, fun _ _ h => h, fun _ A j hA => absurd hA (List.not_mem_nil _)⟩
  | cons x rest ih =>
    obtain ⟨symbol, target⟩ := x
    have hx : (symbol, target) ∈ S.transitions := hsub _ (List.mem_cons_self _ _)
    have hrest : ∀ y ∈ rest, y ∈ S.transitions := fun y hy => hsub y (List.mem_cons_of_mem _ hy)
    unfold tableShifts
    by_cases ht : G.isTerminal symbol = true
    · simp only [ht, if_true]
      cases hf : mapFind symbol (mapGet i [] (mapTouch natLt i [] G.actionTable)) with
      | some e =>
        simp only
        refine ⟨hb, actionSound_touch G0 _ i ha, hg, fun _ _ h => h, fun h => ?_⟩
        cases h
      | none =>
        simp only
        have := ih
          { G with
            actionTable :=
              mapSet natLt i (mapSet strLt symbol { type := 's', val := target }
                (mapGet i [] (mapTouch natLt i [] G.actionTable)))
                (mapTouch natLt i [] G.actionTable) } hrest hb
          (actionSound_write G0 _ i symbol _ ha
            ⟨S, hS, Or.inl ⟨rfl, by rw [← sameBase_isTerminal hb]; exact ht, hx⟩⟩) hg
        refine ⟨this.1, this.2.1, this.2.2.1, this.2.2.2.1, fun h A j hA hnt => ?_⟩
        rcases List.mem_cons.1 hA with e | e
        · cases e
          rw [sameBase_isTerminal hb] at ht
          rw [ht] at hnt
          cases hnt
        · exact this.2.2.2.2 h A j e hnt
    · simp only [ht, if_false]
      have hw := gotoDefined_write G.gotoTable i symbol target
      have := ih
        { G with
          gotoTable :=
            mapSet natLt i (mapSet strLt symbol target
              (mapGet i [] (mapTouch natLt i [] G.gotoTable)))
              (mapTouch natLt i [] G.gotoTable) } hrest hb ha
        (gotoSound_write G0 _ i symbol target S hg hS hx
          (by rw [← sameBase_isTerminal hb]; simpa using ht))
      refine ⟨this.1, this.2.1, this.2.2.1, fun t B h => this.2.2.2.1 t B (hw.2 t B h),
        fun h A j hA hnt => ?_⟩
      rcases List.mem_cons.1 hA with e | e
      · cases e
        exact this.2.2.2.1 i _ hw.1
      · exact this.2.2.2.2 h A j e hnt

/-- The loop over a Follow set for the completed item of production `p`: every
entry it writes is a justified reduction; the GOTO table is left alone. -/
theorem tableReduce_spec (G0 : GrammarAnalyzer) (i p : Nat) (S : State) (prod : Production)
    (hS : G0.states[i]? = some S) (hp : G0.grammar[p]? = some prod)
    (hitem : ({ prodIndex := p, dotPos := prod.rhs.length } : Item) ∈ S.items)
    (hlhs : prod.lhs ≠ G0.startSymbol) (follow : List String) (G : GrammarAnalyzer)
    (hf : ∀ a ∈ follow, a ∈ followOf G0 prod.lhs) (hb : sameBase G G0)
    (ha : actionSound G0 G.actionTable) :
    sameBase (tableReduce i p follow G).1 G0 ∧
    actionSound G0 (tableReduce i p follow G).1.actionTable ∧
    (tableReduce i p follow G).1.gotoTable = G.gotoTable := by
  induction follow generalizing G with
  | nil => exact ⟨hb, ha, rfl⟩
  | cons a rest ih =>
    unfold tableReduce
    simp only
    split
    · exact ⟨hb, actionSound_touch G0 _ i ha, rfl⟩
    · have haf := hf a (List.mem_cons_self _ _)
      have := ih
        { G with
          actionTable :=
            mapSet natLt i (mapSet strLt a { type := 'r', val := p }
              (mapGet i [] (mapTouch natLt i [] G.actionTable)))
              (mapTouch natLt i [] G.actionTable) }
        (fun b hb1 => hf b (List.mem_cons_of_mem _ hb1)) hb
        (actionSound_write G0 _ i a _ ha
          ⟨S, hS, Or.inr (Or.inl ⟨rfl, prod, hp, hitem, hlhs, haf⟩)⟩)
      exact this

/-- The loop over the items of state `i`: every entry it writes is justified;
the GOTO table is left alone. -/
theorem tableItems_spec (G0 : GrammarAnalyzer) (i : Nat) (S : State)
    (hS : G0.states[i]? = some S) (items : List Item) (G : GrammarAnalyzer)
    (r : GrammarAnalyzer × Bool)
    (hsub : ∀ x ∈ items, x ∈ S.items) (hb : sameBase G G0)
    (ha : actionSound G0 G.actionTable) (h : tableItems i items G = some r) :
    sameBase r.1 G0 ∧ actionSound G0 r.1.actionTable ∧ r.1.gotoTable = G.gotoTable := by
  induction items generalizing G with
  | nil =>
    simp only [tableItems, Option.some.injEq] at h
    subst h
    exact ⟨hb, ha, rfl⟩
  | cons item rest ih =>
    have hitem := hsub item (List.mem_cons_self _ _)
    have hrest : ∀ x ∈ rest, x ∈ S.items := fun x hx => hsub x (List.mem_cons_of_mem _ hx)
    unfold tableItems at h
    cases hp : G.grammar[item.prodIndex]? with
    | none => simp [hp] at h
    | some prod =>
      simp only [hp] at h
      have hp0 : G0.grammar[item.prodIndex]? = some prod := by rw [← hb.1]; exact hp
      by_cases hdot : item.dotPos = prod.rhs.length
      · rw [if_pos hdot] at h
        by_cases hstart : prod.lhs = G.startSymbol
        · rw [if_pos hstart] at h
          have := ih
            { G with
              actionTable :=
                mapSet natLt i (mapSet strLt "#" { type := 'a', val := 0 }
                  (mapGet i [] (mapTouch natLt i [] G.actionTable)))
                  (mapTouch natLt i [] G.actionTable) } hrest hb
            (actionSound_write G0 _ i "#" { type := 'a', val := 0 } ha
              ⟨S, hS, Or.inr (Or.inr ⟨rfl, rfl, item, hitem, prod, hp0, hdot,
                by rw [← hb.2.2.2.2.1]; exact hstart⟩)⟩) h
          exact this
        · rw [if_neg hstart] at h
          have hb1 : sameBase { G with followSets := mapTouch strLt prod.lhs [] G.followSets } G0 := by
            refine ⟨hb.1, hb.2.1, hb.2.2.1, hb.2.2.2.1, hb.2.2.2.2.1, fun A => ?_⟩
            rw [← hb.2.2.2.2.2 A]
            unfold followOf
            exact mapGet_mapTouch _ _ _ _ _
          have hitem1 : ({ prodIndex := item.prodIndex, dotPos := prod.rhs.length } : Item) ∈
              S.items := by
            rw [← hdot]; exact hitem
          have hred := tableReduce_spec G0 i item.prodIndex S prod hS hp0 hitem1
            (by rw [← hb.2.2.2.2.1]; exact hstart)
            (mapGet prod.lhs [] (mapTouch strLt prod.lhs [] G.followSets))
            { G with followSets := mapTouch strLt prod.lhs [] G.followSets }
            (by
              intro a ha1
              rw [mapGet_mapTouch] at ha1
              rw [← hb.2.2.2.2.2]
              exact ha1) hb1 ha
          split at h
          · have := ih _ hrest hred.1 hred.2.1 h
            exact ⟨this.1, this.2.1, this.2.2.trans hred.2.2⟩
          · cases h
            exact hred
      · rw [if_neg hdot] at h
        exact ih G hrest hb ha h

theorem gotoCompleteAt_mono (G0 : GrammarAnalyzer) (tbl tbl1 : List (Nat × List (String × Nat)))
    (t : Nat) (hm : ∀ s B, gotoDefined tbl s B → gotoDefined tbl1 s B)
    (h : gotoCompleteAt G0 tbl t) : gotoCompleteAt G0 tbl1 t :=
  fun S A j hS hA hnt => hm t A (h S A j hS hA hnt)

/-- The loop over the states: every entry of both tables is justified, and
when it runs to its end every state it went through has its GOTO entries. -/
theorem tableStates_spec (G0 : GrammarAnalyzer) (i : Nat) (sts : List State)
    (G : GrammarAnalyzer) (r : GrammarAnalyzer × Bool)
    (hsts : ∀ k S, sts[k]? = some S → G0.states[i + k]? = some S) (hb : sameBase G G0)
    (ha : actionSound G0 G.actionTable) (hg : gotoSound G0 G.gotoTable)
    (hc : ∀ t, t < i → gotoCompleteAt G0 G.gotoTable t)
    (h : tableStates i sts G = some r) :
    sameBase r.1 G0 ∧ actionSound G0 r.1.actionTable ∧ gotoSound G0 r.1.gotoTable ∧
      (r.2 = true → ∀ t, t < i + sts.length → gotoCompleteAt G0 r.1.gotoTable t) := by
  induction sts generalizing i G with
  | nil =>
    simp only [tableStates, Option.some.injEq] at h
    subst h
    exact ⟨hb, ha, hg, fun _ t ht => hc t (by simpa using ht)⟩
  | cons S rest ih =>
    have hS : G0.states[i]? = some S := hsts 0 S (by simp)
    have hrest : ∀ k S1, rest[k]? = some S1 → G0.states[i + 1 + k]? = some S1 := by
      intro k S1 hk
      have := hsts (k + 1) S1 (by simpa using hk)
      rw [show i + 1 + k = i + (k + 1) by omega]
      exact this
    obtain ⟨s1, s2, s3, s4, s5⟩ := tableShifts_spec G0 i S hS S.transitions G
      (fun _ hx => hx) hb ha hg
    unfold tableStates at h
    simp only at h
    by_cases hfl : (tableShifts i S.transitions G).2 = true
    · rw [if_pos hfl] at h
      cases hit : tableItems i S.items (tableShifts i S.transitions G).1 with
      | none => simp [hit] at h
      | some r1 =>
        simp only [hit] at h
        obtain ⟨t1, t2, t3⟩ := tableItems_spec G0 i S hS S.items _ r1 (fun _ hx => hx) s1 s2 hit
        by_cases hfl1 : r1.2 = true
        · rw [if_pos hfl1] at h
          have hc1 : ∀ t, t < i + 1 → gotoCompleteAt G0 r1.1.gotoTable t := by
            intro t ht
            rw [t3]
            by_cases hti : t < i
            · exact gotoCompleteAt_mono G0 _ _ t s4 (hc t hti)
            · have e : t = i := by omega
              subst e
              intro S1 A j hS1 hA hnt
              rw [hS] at hS1
              cases hS1
              exact s5 hfl A j hA hnt
          have := ih (i + 1) r1.1 hrest t1 t2 (by rw [t3]; exact s3) hc1 h
          refine ⟨this.1, this.2.1, this.2.2.1, fun hr t ht => this.2.2.2 hr t ?_⟩
          simp only [List.length_cons] at ht
          omega
        · rw [if_neg hfl1] at h
          cases h
          refine ⟨t1, t2, by rw [t3]; exact s3, fun hr => absurd hr hfl1⟩
    · rw [if_neg hfl] at h
      cases h
      exact ⟨s1, s2, s3, fun hr => absurd hr hfl⟩

/-! ## What a successful build establishes -/

theorem sameOutside_trans {G H K : GrammarAnalyzer} (h : sameOutside G H) (h1 : sameOutside H K) :
    sameOutside G K :=
  ⟨h.1.trans h1.1, h.2.1.trans h1.2.1, h.2.2.1.trans h1.2.2.1, h.2.2.2.trans h1.2.2.2⟩

theorem computeFirstStep_outside (st : GrammarAnalyzer × Bool) (prod : Production) :
    sameOutside (computeFirstStep st prod).1 st.1 := by
  unfold computeFirstStep sameOutside
  cases prod.rhs <;> simp

theorem computeFirstFold_outside (prods : List Production) (st : GrammarAnalyzer × Bool) :
    sameOutside (prods.foldl computeFirstStep st).1 st.1 := by
  induction prods generalizing st with
  | nil => exact ⟨rfl, rfl, rfl, rfl⟩
  | cons p ps ih =>
    simp only [List.foldl_cons]
    exact sameOutside_trans (ih _) (computeFirstStep_outside st p)

theorem computeFirstLoop_outside (fuel : Nat) (G G1 : GrammarAnalyzer)
    (h : computeFirstLoop fuel G = some G1) : sameOutside G1 G := by
  induction fuel generalizing G with
  | zero => cases h
  | succ f ih =>
    unfold computeFirstLoop at h
    simp only at h
    have hp : sameOutside (computeFirstPass G).1 G := computeFirstFold_outside G.grammar (G, false)
    by_cases hc : (computeFirstPass G).2 = true
    · rw [if_pos hc] at h
      exact sameOutside_trans (ih _ h) hp
    · rw [if_neg hc] at h
      cases h
      exact hp

theorem computeFollowRhs_outside (A : String) (rhs : List String) (st : GrammarAnalyzer × Bool) :
    sameOutside (computeFollowRhs A rhs st).1 st.1 := by
  induction rhs generalizing st with
  | nil => exact ⟨rfl, rfl, rfl, rfl⟩
  | cons B rest ih =>
    rw [computeFollowRhs]
    simp only
    split
    · exact ih st
    · refine sameOutside_trans (ih _) ?_
      simp only
      cases rest with
      | nil => exact ⟨rfl, rfl, rfl, rfl⟩
      | cons beta r =>
        simp only
        split <;> exact ⟨rfl, rfl, rfl, rfl⟩

theorem computeFollowFold_outside (prods : List Production) (st : GrammarAnalyzer × Bool) :
    sameOutside (prods.foldl (fun st prod => computeFollowRhs prod.lhs prod.rhs st) st).1 st.1 := by
  induction prods generalizing st with
  | nil => exact ⟨rfl, rfl, rfl, rfl⟩
  | cons p ps ih =>
    simp only [List.foldl_cons]
    exact sameOutside_trans (ih _) (computeFollowRhs_outside p.lhs p.rhs st)

theorem computeFollowLoop_outside (fuel : Nat) (G G1 : GrammarAnalyzer)
    (h : computeFollowLoop fuel G = some G1) : sameOutside G1 G := by
  induction fuel generalizing G with
  | zero => cases h
  | succ f ih =>
    unfold computeFollowLoop at h
    simp only at h
    have hp : sameOutside (computeFollowPass G).1 G :=
      computeFollowFold_outside G.grammar (G, false)
    by_cases hc : (computeFollowPass G).2 = true
    · rw [if_pos hc] at h
      exact sameOutside_trans (ih _ h) hp
    · rw [if_neg hc] at h
      cases h
      exact hp

/-- The Follow set of a terminal is never written by the loops of
`computeFollow`. -/
theorem computeFollowRhs_terminalFollow (A : String) (rhs : List String)
    (st : GrammarAnalyzer × Bool) (B : String) (hB : st.1.isTerminal B = true) :
    followOf (computeFollowRhs A rhs st).1 B = followOf st.1 B := by
  induction rhs generalizing st with
  | nil => simp [computeFollowRhs]
  | cons C rest ih =>
    by_cases hC : st.1.isTerminal C = true
    · rw [computeFollowRhs_terminal A C rest st hC]
      exact ih st hB
    · have hC0 : st.1.isTerminal C = false := by simpa using hC
      obtain ⟨G1, e1, a1, a2, a3, a4, a5⟩ := computeFollowRhs_nonTerminal A C rest st hC0
      rw [e1]
      have hB1 : G1.isTerminal B = true := by
        unfold GrammarAnalyzer.isTerminal at hB ⊢
        rw [a2]; exact hB
      rw [ih (G1, if (followTarget st.1 A C rest).length > (followOf st.1 C).length then true
        else st.2) hB1]
      show followOf G1 B = _
      rw [a5, if_neg]
      intro e
      rw [e, hC0] at hB
      cases hB

theorem computeFollowFold_terminalFollow (prods : List Production) (st : GrammarAnalyzer × Bool)
    (B : String) (hB : st.1.isTerminal B = true) :
    followOf (prods.foldl (fun st prod => computeFollowRhs prod.lhs prod.rhs st) st).1 B =
      followOf st.1 B := by
  induction prods generalizing st with
  | nil => rfl
  | cons p ps ih =>
    simp only [List.foldl_cons]
    have hB1 : (computeFollowRhs p.lhs p.rhs st).1.isTerminal B = true := by
      unfold GrammarAnalyzer.isTerminal at hB ⊢
      rw [(computeFollowRhs_frame p.lhs p.rhs st).2.1]; exact hB
    rw [ih _ hB1, computeFollowRhs_terminalFollow p.lhs p.rhs st B hB]

theorem computeFollowLoop_terminalFollow (fuel : Nat) (G G1 : GrammarAnalyzer) (B : String)
    (hB : G.isTerminal B = true) (h : computeFollowLoop fuel G = some G1) :
    followOf G1 B = followOf G B := by
  induction fuel generalizing G with
  | zero => cases h
  | succ f ih =>
    unfold computeFollowLoop at h
    simp only at h
    have hp := computeFollowFold_terminalFollow G.grammar (G, false) B hB
    have hB1 : (computeFollowPass G).1.isTerminal B = true := by
      unfold GrammarAnalyzer.isTerminal at hB ⊢
      rw [show (computeFollowPass G).1.terminals = G.terminals from
        (computeFollowFold_frame G.grammar (G, false)).2.1]
      exact hB
    by_cases hc : (computeFollowPass G).2 = true
    · rw [if_pos hc] at h
      rw [ih _ hB1 h]
      exact hp
    · rw [if_neg hc] at h
      cases h
      exact hp

theorem computeFollow_terminalFollow (fuel : Nat) (G G1 : GrammarAnalyzer) (B : String)
    (hB : G.isTerminal B = true) (hs : B ≠ G.startSymbol) (h : computeFollow fuel G = some G1) :
    followOf G1 B = followOf G B := by
  unfold computeFollow at h
  simp only at h
  have key : ∀ G0 : GrammarAnalyzer, computeFollowLoop fuel G0 = some G1 →
      G0.isTerminal B = true → followOf G1 B = followOf G0 B :=
    fun G0 h1 h0 => computeFollowLoop_terminalFollow fuel G0 G1 B h0 h1
  rw [key _ h hB]
  unfold followOf
  simp only
  rw [mapGet_mapSet, if_neg hs, mapGet_mapTouch]

theorem foldl_rel {α β : Type} (R : α → α → Prop) (hrefl : ∀ a, R a a)
    (htrans : ∀ a b c, R a b → R b c → R a c) (f : α → β → α) (hf : ∀ a x, R (f a x) a)
    (l : List β) (a : α) : R (l.foldl f a) a := by
  induction l generalizing a with
  | nil => exact hrefl a
  | cons x xs ih =>
    simp only [List.foldl_cons]
    exact htrans _ _ _ (ih (f a x)) (hf a x)

theorem sameTables_refl (G : GrammarAnalyzer) : sameTables G G :=
  ⟨sameBase_refl G, fun _ => rfl, fun _ => rfl⟩

theorem sameTables_trans {G H K : GrammarAnalyzer} (h : sameTables G H) (h1 : sameTables H K) :
    sameTables G K :=
  ⟨sameBase_trans h.1 h1.1, fun s => (h.2.1 s).trans (h1.2.1 s),
    fun s => (h.2.2 s).trans (h1.2.2 s)⟩

theorem sameTables_symm {G H : GrammarAnalyzer} (h : sameTables G H) : sameTables H G :=
  ⟨sameBase_symm h.1, fun s => (h.2.1 s).symm, fun s => (h.2.2 s).symm⟩

/-- Printing the table adds rows and changes no entry. -/
theorem printTable_sameTables (G : GrammarAnalyzer) : sameTables (printTable G) G := by
  unfold printTable
  simp only
  apply foldl_rel sameTables sameTables_refl (fun _ _ _ => sameTables_trans)
  intro G1 state
  apply foldl_rel sameTables sameTables_refl (fun _ _ _ => sameTables_trans)
  intro G2 h
  by_cases hh : h ∈ G2.terminals
  · rw [if_pos hh]
    exact ⟨sameBase_refl G2, fun s => mapGet_mapTouch _ _ _ _ _, fun _ => rfl⟩
  · rw [if_neg hh]
    exact ⟨sameBase_refl G2, fun _ => rfl, fun s => mapGet_mapTouch _ _ _ _ _⟩

theorem actionSound_rows (G : GrammarAnalyzer) (tbl tbl1 : List (Nat × List (String × Action)))
    (hrows : ∀ s, mapGet s [] tbl1 = mapGet s [] tbl) (h : actionSound G tbl) :
    actionSound G tbl1 := by
  intro i a act ha
  rw [hrows] at ha
  exact h i a act ha

theorem gotoSound_rows (G : GrammarAnalyzer) (tbl tbl1 : List (Nat × List (String × Nat)))
    (hrows : ∀ s, mapGet s [] tbl1 = mapGet s [] tbl) (h : gotoSound G tbl) :
    gotoSound G tbl1 := by
  intro i a act ha
  rw [hrows] at ha
  exact h i a act ha

theorem gotoCompleteAt_rows (G : GrammarAnalyzer) (tbl tbl1 : List (Nat × List (String × Nat)))
    (hrows : ∀ s, mapGet s [] tbl1 = mapGet s [] tbl) (t : Nat) (h : gotoCompleteAt G tbl t) :
    gotoCompleteAt G tbl1 t := by
  intro S A j hS hA hnt
  have := h S A j hS hA hnt
  unfold gotoDefined at *
  rw [hrows]
  exact this

theorem actionSound_congr {G H : GrammarAnalyzer} (h : sameBase G H)
    (tbl : List (Nat × List (String × Action))) (ha : actionSound G tbl) : actionSound H tbl :=
  fun i a act hf => justifiedAction_congr h i a act (ha i a act hf)

theorem gotoSound_congr {G H : GrammarAnalyzer} (h : sameBase G H)
    (tbl : List (Nat × List (String × Nat))) (ha : gotoSound G tbl) : gotoSound H tbl := by
  intro t A j hf
  rw [← h.2.1, ← sameBase_isTerminal h]
  exact ha t A j hf

theorem gotoCompleteAt_congr {G H : GrammarAnalyzer} (h : sameBase G H)
    (tbl : List (Nat × List (String × Nat))) (t : Nat) (ha : gotoCompleteAt G tbl t) :
    gotoCompleteAt H tbl t := by
  intro S A j hS hA hnt
  rw [← h.2.1] at hS
  rw [← sameBase_isTerminal h] at hnt
  exact ha S A j hS hA hnt

/-- The tables of a successful `buildSLRTable` that started from empty tables:
every entry is justified and every GOTO entry is there. -/
theorem buildSLRTable_spec (G G1 : GrammarAnalyzer) (ha : G.actionTable = [])
    (hg : G.gotoTable = []) (h : buildSLRTable G = some (G1, true)) :
    sameBase G1 G ∧ actionSound G1 G1.actionTable ∧ gotoSound G1 G1.gotoTable ∧
      ∀ t, gotoCompleteAt G1 G1.gotoTable t := by
  unfold buildSLRTable at h
  cases ht : tableStates 0 G.states G with
  | none => simp [ht] at h
  | some r =>
    simp only [ht] at h
    by_cases hr : r.2 = true
    · rw [if_pos hr] at h
      simp only [Option.some.injEq, Prod.mk.injEq, and_true] at h
      subst h
      obtain ⟨b1, b2, b3, b4⟩ := tableStates_spec G 0 G.states G r
        (fun k S hk => by rw [Nat.zero_add]; exact hk) (sameBase_refl G)
        (by rw [ha]; intro i a act hf; simp [mapGet, mapFind] at hf)
        (by rw [hg]; intro i a act hf; simp [mapGet, mapFind] at hf)
        (fun t ht => absurd ht (Nat.not_lt_zero _)) ht
      obtain ⟨p1, p2, p3⟩ := printTable_sameTables r.1
      have hb : sameBase (printTable r.1) G := sameBase_trans p1 b1
      have hb' := sameBase_symm hb
      refine ⟨hb, actionSound_congr hb' _ (actionSound_rows G _ _ p2 b2),
        gotoSound_congr hb' _ (gotoSound_rows G _ _ p3 b3), ?_⟩
      intro t
      apply gotoCompleteAt_congr hb'
      apply gotoCompleteAt_rows G _ _ p3
      by_cases hlt : t < 0 + G.states.length
      · exact b4 hr t hlt
      · intro S A j hS
        rw [List.getElem?_eq_none (by omega)] at hS
        cases hS
    · rw [if_neg hr] at h
      simp only [Option.some.injEq] at h
      rw [h] at hr
      exact absurd rfl hr

theorem computeFollow_frame (fuel : Nat) (G G1 : GrammarAnalyzer)
    (h : computeFollow fuel G = some G1) :
    G1.grammar = G.grammar ∧ G1.terminals = G.terminals ∧ G1.startSymbol = G.startSymbol ∧
      sameOutside G1 G := by
  unfold computeFollow at h
  simp only at h
  obtain ⟨a1, a2, a3, _⟩ := computeFollowLoop_frame fuel _ G1 h
  have ho := computeFollowLoop_outside fuel _ G1 h
  exact ⟨a1, a2, a3, ho⟩

theorem idsDense_congr (G H : GrammarAnalyzer) (hg : H.grammar = G.grammar) (h : idsDense G) :
    idsDense H := by
  unfold idsDense at *
  rw [hg]
  exact h

/-- A successful `build` on an analyzer without states, tables and Follow sets
establishes `builtOK` and leaves the productions and symbol sets alone. -/
theorem build_builtOK (G0 G : GrammarAnalyzer) (fuel : Nat) (hd : idsDense G0)
    (hstates : G0.states = []) (hat : G0.actionTable = []) (hgt : G0.gotoTable = [])
    (hfo : G0.followSets = [])
    (hstart : ∀ prod, G0.grammar[0]? = some prod → prod.lhs = G0.startSymbol)
    (h : build fuel G0 = some (G, true)) :
    builtOK G ∧ G.grammar = G0.grammar ∧ G.terminals = G0.terminals ∧
      G.startSymbol = G0.startSymbol ∧ G.nonTerminals = G0.nonTerminals := by
  unfold build at h
  cases h1 : computeFirst fuel G0 with
  | none => simp [h1] at h
  | some G1 =>
    simp only [h1] at h
    cases h2 : computeFollow fuel G1 with
    | none => simp [h2] at h
    | some G2 =>
      simp only [h2] at h
      cases h3 : buildDFA fuel G2 with
      | none => simp [h3] at h
      | some G3 =>
        simp only [h3] at h
        obtain ⟨a1, a2, a3, a4⟩ := computeFirstLoop_frame fuel G0 G1 h1
        obtain ⟨a5, a6, a7, a8⟩ := computeFirstLoop_outside fuel G0 G1 h1
        obtain ⟨b1, b2, b3, b5, b6, b7, b8⟩ := computeFollow_frame fuel G1 G2 h2
        have hd2 : idsDense G2 := idsDense_congr G0 G2 (b1.trans a1) hd
        have hs2 : G2.states = [] := by rw [b6, a6, hstates]
        obtain ⟨hlr, e3⟩ := buildDFA_lrStates G2 G3 hd2 hs2 fuel h3
        have hat3 : G3.actionTable = [] := by rw [e3]; simp only; rw [b7, a7, hat]
        have hgt3 : G3.gotoTable = [] := by rw [e3]; simp only; rw [b8, a8, hgt]
        obtain ⟨c1, c2, c3, c4⟩ := buildSLRTable_spec G3 G hat3 hgt3 h
        have g3 : G3.grammar = G2.grammar := by rw [e3]
        have t3 : G3.terminals = G2.terminals := by rw [e3]
        have s3 : G3.startSymbol = G2.startSymbol := by rw [e3]
        have n3 : G3.nonTerminals = G2.nonTerminals := by rw [e3]
        have f3 : G3.followSets = G2.followSets := by rw [e3]
        have hg : G.grammar = G0.grammar := c1.1.trans (g3.trans (b1.trans a1))
        have ht : G.terminals = G0.terminals := c1.2.2.1.trans (t3.trans (b2.trans a2))
        have hs : G.startSymbol = G0.startSymbol := c1.2.2.2.2.1.trans (s3.trans (b3.trans a3))
        have hn : G.nonTerminals = G0.nonTerminals := c1.2.2.2.1.trans (n3.trans (b5.trans a5))
        refine ⟨⟨idsDense_congr G0 G hg hd, lrStates_congr G3 G c1.1 c1.2.1 hlr, c2, c3, c4,
          ?_, ?_⟩, hg, ht, hs, hn⟩
        · intro B hB hne
          rw [c1.2.2.2.2.2 B]
          unfold followOf
          rw [f3]
          have hB1 : G1.isTerminal B = true := by
            unfold GrammarAnalyzer.isTerminal at hB ⊢
            rw [a2, ← ht]; exact hB
          have hne1 : B ≠ G1.startSymbol := by rw [a3, ← hs]; exact hne
          have := computeFollow_terminalFollow fuel G1 G2 B hB1 hne1 h2
          unfold followOf at this
          rw [this, a4, hfo]
          rfl
        · intro prod hp
          rw [hg] at hp
          rw [hs]
          exact hstart prod hp

theorem loadLines_tables (lines : List String) (n : Nat) (G : GrammarAnalyzer) :
    (loadLines lines n G).states = G.states ∧
      (loadLines lines n G).actionTable = G.actionTable ∧
      (loadLines lines n G).gotoTable = G.gotoTable := by
  induction lines generalizing n G with
  | nil => exact ⟨rfl, rfl, rfl⟩
  | cons l ls ih =>
    unfold loadLines
    by_cases h : l = ""
    · rw [if_pos h]; exact ih n G
    · rw [if_neg h]
      simp only
      obtain ⟨a, b, c⟩ := ih (n + 1) _
      rw [a, b, c]
      by_cases h0 : n = 0 <;> simp [h0]

theorem loadGrammar_startSymbol (lines : List String) (prod : Production)
    (h : (loadGrammar GrammarAnalyzer.fresh lines).grammar[0]? = some prod) :
    prod.lhs = (loadGrammar GrammarAnalyzer.fresh lines).startSymbol := by
  rw [loadGrammar_grammar] at h
  have hs : (loadGrammar GrammarAnalyzer.fresh lines).startSymbol =
      (loadLines lines 0 GrammarAnalyzer.fresh).startSymbol := rfl
  rw [hs, loadLines_startSymbol_zero]
  cases hp : productionsOf lines with
  | nil => rw [hp] at h; simp [numberFrom] at h
  | cons pr rest =>
    rw [hp] at h
    simp [numberFrom] at h
    rw [← h]

/-- A successful analysis of a grammar file establishes `builtOK`; the
productions are those of the file. -/
theorem analyze_builtOK (fuel : Nat) (lines : List String) (G : GrammarAnalyzer)
    (h : analyze fuel lines = some (G, true)) :
    builtOK G ∧ G.grammar = (loadGrammar GrammarAnalyzer.fresh lines).grammar ∧
      G.terminals = (loadGrammar GrammarAnalyzer.fresh lines).terminals ∧
      G.startSymbol = (loadGrammar GrammarAnalyzer.fresh lines).startSymbol ∧
      G.nonTerminals = (loadGrammar GrammarAnalyzer.fresh lines).nonTerminals := by
  unfold analyze at h
  have ht := loadLines_tables lines 0 GrammarAnalyzer.fresh
  exact build_builtOK _ G fuel (idsDense_loadGrammar lines) ht.1 ht.2.1 ht.2.2
    (loadLines_followSets lines 0 GrammarAnalyzer.fresh).1
    (loadGrammar_startSymbol lines) h

/-! ## The driver loop on the tables of a successful build -/

/-- Following the state stack down from a state that holds the item `(p, d)`:
the stack has `d` more entries, and the state `d` entries down holds `(p, 0)`. -/
theorem stackPath_trace (G : GrammarAnalyzer) (hlr : lrStates G) (p d : Nat) :
    ∀ (s : Nat) (rest : List Nat) (S : State), stackPath G (s :: rest) →
      G.states[s]? = some S → ({ prodIndex := p, dotPos := d } : Item) ∈ S.items →
      d ≤ rest.length ∧ ∃ t below St, (s :: rest).drop d = t :: below ∧ G.states[t]? = some St ∧
        ({ prodIndex := p, dotPos := 0 } : Item) ∈ St.items ∧ stackPath G (t :: below) := by
  induction d with
  | zero =>
    intro s rest S hpath hS hitem
    exact ⟨Nat.zero_le _, s, rest, S, rfl, hS, hitem, hpath⟩
  | succ d ih =>
    intro s rest S hpath hS hitem
    cases rest with
    | nil =>
      have hs0 : s = 0 := hpath
      subst hs0
      have := (hlr.1 S hS _ hitem).1
      simp at this
    | cons t1 rest1 =>
      obtain ⟨⟨S1, X, hS1, hX⟩, hpath1⟩ := hpath
      obtain ⟨Sj, hSj, _, hall⟩ := hlr.2.1 t1 S1 X s hS1 hX
      rw [hS] at hSj
      cases hSj
      rcases hall _ hitem with ⟨_, h2, _⟩ | ⟨h1, _⟩
      · simp only [Nat.add_sub_cancel] at h2
        obtain ⟨a, t, below, St, b, c, e, f⟩ := ih t1 rest1 S1 hpath1 hS1 h2
        refine ⟨by simp only [List.length_cons]; omega, t, below, St, ?_, c, e, f⟩
        simpa using b
      · simp at h1

theorem stackPath_top (G : GrammarAnalyzer) (s t : Nat) (rest : List Nat)
    (h : stackPath G (s :: t :: rest)) :
    ∃ S X, G.states[t]? = some S ∧ (X, s) ∈ S.transitions := h.1

/-- An item `(p, 0)` of a state on the stack is there by the closure rule,
unless `p` is production 0. -/
theorem stackPath_justified (G : GrammarAnalyzer) (hlr : lrStates G) (t : Nat)
    (below : List Nat) (St : State) (p : Nat) (hpath : stackPath G (t :: below))
    (hSt : G.states[t]? = some St)
    (hitem : ({ prodIndex := p, dotPos := 0 } : Item) ∈ St.items) :
    (p = 0 ∧ below = []) ∨ justified G { prodIndex := p, dotPos := 0 } St.items := by
  cases below with
  | nil =>
    have ht0 : t = 0 := hpath
    subst ht0
    rcases (hlr.1 St hSt _ hitem).2 with h | h
    · exact Or.inl ⟨h, rfl⟩
    · exact Or.inr h
  | cons t1 rest1 =>
    obtain ⟨⟨S1, X, hS1, hX⟩, _⟩ := hpath
    obtain ⟨Sj, hSj, _, hall⟩ := hlr.2.1 t1 S1 X t hS1 hX
    rw [hSt] at hSj
    cases hSj
    rcases hall _ hitem with ⟨h1, _⟩ | ⟨_, h2⟩
    · simp at h1
    · exact Or.inr h2

/-- A reduction the table asks for never underflows the stack and finds its
GOTO entry, whose value continues the path. -/
theorem reduce_safe (G : GrammarAnalyzer) (hok : builtOK G) (s : Nat) (rest : List Nat)
    (a : String) (act : Action) (hpath : stackPath G (s :: rest))
    (hact : mapFind a (mapGet s [] G.actionTable) = some act) (hr : act.type = 'r') :
    ∃ prod t below j, G.grammar[act.val]? = some prod ∧ prod.rhs.length ≤ rest.length ∧
      (s :: rest).drop prod.rhs.length = t :: below ∧
      mapFind prod.lhs (mapGet t [] G.gotoTable) = some j ∧ stackPath G (j :: t :: below) := by
  obtain ⟨hd, hlr, hsound, hgs, hgc, hfol, hstart⟩ := hok
  obtain ⟨S, hS, hc⟩ := hsound s a act hact
  have hprod : ∃ prod, G.grammar[act.val]? = some prod ∧
      ({ prodIndex := act.val, dotPos := prod.rhs.length } : Item) ∈ S.items ∧
      prod.lhs ≠ G.startSymbol ∧ a ∈ followOf G prod.lhs := by
    rcases hc with ⟨h1, _⟩ | ⟨_, h2⟩ | ⟨h1, _⟩
    · rw [hr] at h1; exact absurd h1 (by decide)
    · exact h2
    · rw [hr] at h1; exact absurd h1 (by decide)
  obtain ⟨prod, hp, hitem, hlhs, hfollow⟩ := hprod
  obtain ⟨hlen, t, below, St, hdrop, hSt, hitem0, hpath0⟩ :=
    stackPath_trace G hlr act.val prod.rhs.length s rest S hpath hS hitem
  have hjust : justified G { prodIndex := act.val, dotPos := 0 } St.items := by
    rcases stackPath_justified G hlr t below St act.val hpath0 hSt hitem0 with ⟨h0, _⟩ | h
    · rw [h0] at hp
      exact absurd (hstart prod hp) hlhs
    · exact h
  obtain ⟨item, hitem1, pp, hpp, hdot⟩ := hjust
  simp only at hpp
  rw [hp] at hpp
  cases hpp
  obtain ⟨j0, hj0⟩ := hlr.2.2.1 t St item prod.lhs hSt hitem1 hdot
  have hnt : G.isTerminal prod.lhs = false := by
    cases hterm : G.isTerminal prod.lhs with
    | false => rfl
    | true =>
      rw [hfol prod.lhs hterm hlhs] at hfollow
      cases hfollow
  have hdef := hgc t St prod.lhs j0 hSt (mapFind_some_mem _ _ _ hj0) hnt
  unfold gotoDefined at hdef
  obtain ⟨j, hj⟩ := Option.isSome_iff_exists.1 hdef
  obtain ⟨St1, hSt1, hmem, _⟩ := hgs t prod.lhs j hj
  exact ⟨prod, t, below, j, hp, hlen, hdrop, hj, ⟨St1, prod.lhs, hSt1, hmem⟩, hpath0⟩

theorem sameTables_touchAction (P : Parser) (s : Nat) : sameTables (P.touchAction s).G P.G :=
  ⟨sameBase_refl _, fun _ => mapGet_mapTouch _ _ _ _ _, fun _ => rfl⟩

/-- Evaluating `G.gotoTable[t][lhs]` for an entry that is there changes no
entry. -/
theorem sameTables_touchGoto (P : Parser) (t : Nat) (lhs : String) (j : Nat)
    (h : mapFind lhs (mapGet t [] P.G.gotoTable) = some j) :
    sameTables (P.touchGoto t lhs).G P.G ∧ gotoValue P.G t lhs = j := by
  refine ⟨⟨sameBase_refl _, fun _ => rfl, fun k => ?_⟩, ?_⟩
  · show mapGet k [] (mapSet natLt t
      (mapTouch strLt lhs 0 (mapGet t [] (mapTouch natLt t [] P.G.gotoTable)))
      (mapTouch natLt t [] P.G.gotoTable)) = mapGet k [] P.G.gotoTable
    rw [rowWrite]
    by_cases hk : k = t
    · rw [if_pos hk, mapGet_mapTouch, hk]
      unfold mapTouch
      rw [h]
    · rw [if_neg hk]
  · unfold gotoValue
    generalize mapGet t [] P.G.gotoTable = row at h
    unfold mapGet
    rw [h]

/-- One iteration of the driver loop on the tables of a successful build keeps
the invariant; a shift consumes a token whose type labels a transition, a
reduction does not move the token pointer. -/
theorem parseStep_inv (G : GrammarAnalyzer) (hok : builtOK G) (tokens : List Token) (P : Parser)
    (cfg : Config) (st : Step) (hinv : parseInv G P cfg)
    (h : parseStep tokens P cfg = some st) :
    sameTables st.parser.G G ∧
    ∀ P1 cfg1, st = Step.next P1 cfg1 →
      parseInv G P1 cfg1 ∧
      (cfg1.ip = cfg.ip ∨
        (cfg1.ip = cfg.ip + 1 ∧ ∃ (tok : Token) (S : State) (j s : Nat), tokens[cfg.ip]? = some tok ∧
          G.states[s]? = some S ∧ (tok.type, j) ∈ S.transitions)) := by
  obtain ⟨hsame, hpath, hlen⟩ := hinv
  obtain ⟨s, rest, tok, hs, htok, hc⟩ := parseStep_cases tokens P cfg st h
  rw [hs] at hpath
  have hta : sameTables (P.touchAction s).G G := sameTables_trans (sameTables_touchAction P s) hsame
  rcases hc with ⟨_, e⟩ | ⟨act, hact, hty, e⟩ | ⟨act, prod, t, below, r, hact, hty, hp, hsym, hdrop,
      hsem, e⟩ | ⟨act, res, under, _, _, _, e⟩
  · subst e
    exact ⟨hta, fun P1 cfg1 h1 => by cases h1⟩
  · subst e
    refine ⟨hta, fun P1 cfg1 h1 => ?_⟩
    cases h1
    rw [hsame.2.1 s] at hact
    obtain ⟨S, hS, hcase⟩ := hok.2.2.1 s tok.type act hact
    have hmem : (tok.type, act.val) ∈ S.transitions := by
      rcases hcase with ⟨_, _, h2⟩ | ⟨h1, _⟩ | ⟨h1, _⟩
      · exact h2
      · rw [hty] at h1; exact absurd h1 (by decide)
      · rw [hty] at h1; exact absurd h1 (by decide)
    refine ⟨⟨hta, ?_, ?_⟩, Or.inr ⟨rfl, tok, S, act.val, s, htok, hS, hmem⟩⟩
    · show stackPath G (act.val :: cfg.stateStack)
      rw [hs]
      exact ⟨⟨S, tok.type, hS, hmem⟩, hpath⟩
    · show (_ :: cfg.symbolStack).length + 1 = (act.val :: cfg.stateStack).length
      simp only [List.length_cons]
      omega
  · subst e
    rw [hsame.2.1 s] at hact
    obtain ⟨prod1, t1, below1, j, hp1, hlen1, hdrop1, hj, hpath1⟩ :=
      reduce_safe G hok s rest tok.type act hpath hact hty
    rw [hsame.1.1] at hp
    rw [hp1] at hp
    cases hp
    rw [hs, hdrop1] at hdrop
    cases hdrop
    have hjP : mapFind prod.lhs (mapGet t [] (P.touchAction s).G.gotoTable) = some j := by
      show mapFind prod.lhs (mapGet t [] P.G.gotoTable) = some j
      rw [hsame.2.2 t]
      exact hj
    obtain ⟨htg, _⟩ := sameTables_touchGoto (P.touchAction s) t prod.lhs j hjP
    have hval : gotoValue P.G t prod.lhs = j := by
      unfold gotoValue
      rw [hsame.2.2 t]
      generalize mapGet t [] G.gotoTable = row at hj
      unfold mapGet
      rw [hj]
    have hG : r.2.G = ((P.touchAction s).touchGoto t prod.lhs).G :=
      semanticAction_analyzer _ r.2 prod _ r.1 hsem
    have hsame1 : sameTables r.2.G G := by
      rw [hG]
      exact sameTables_trans htg hta
    refine ⟨hsame1, fun P1 cfg1 h1 => ?_⟩
    cases h1
    refine ⟨⟨hsame1, ?_, ?_⟩, Or.inl rfl⟩
    · show stackPath G (gotoValue P.G t prod.lhs :: t :: below)
      rw [hval]
      exact hpath1
    · show (r.1 :: cfg.symbolStack.drop prod.rhs.length).length + 1 =
        (gotoValue P.G t prod.lhs :: t :: below).length
      have := congrArg List.length hdrop1
      simp only [List.length_drop, List.length_cons] at this ⊢
      rw [hs] at hlen
      simp only [List.length_cons] at hlen
      omega
  · subst e
    exact ⟨hta, fun P1 cfg1 h1 => by cases h1⟩

theorem parseInv_initial (G : GrammarAnalyzer) (P : Parser) (h : sameTables P.G G) :
    parseInv G P Config.initial :=
  ⟨h, rfl, rfl⟩

/-- Every configuration the driver loop reaches satisfies the invariant. -/
theorem runSteps_inv (G : GrammarAnalyzer) (hok : builtOK G) (tokens : List Token) (n : Nat)
    (P P1 : Parser) (cfg cfg1 : Config) (hinv : parseInv G P cfg)
    (h : runSteps tokens n P cfg = some (P1, cfg1)) : parseInv G P1 cfg1 := by
  induction n generalizing P cfg with
  | zero =>
    simp only [runSteps, Option.some.injEq, Prod.mk.injEq] at h
    rw [← h.1, ← h.2]
    exact hinv
  | succ n ih =>
    unfold runSteps at h
    cases hs : parseStep tokens P cfg with
    | none => simp [hs] at h
    | some st =>
      cases st with
      | done P2 r => simp [hs] at h
      | next P2 cfg2 =>
        simp only [hs] at h
        exact ih P2 cfg2 ((parseStep_inv G hok tokens P cfg _ hinv hs).2 P2 cfg2 rfl).1 h

/-- A parse that returns leaves an analyzer that agrees with the built one on
everything a parse reads. -/
theorem parseLoop_sameTables (G : GrammarAnalyzer) (hok : builtOK G) (tokens : List Token)
    (fuel : Nat) (P P1 : Parser) (cfg : Config) (r : ParseResult) (hinv : parseInv G P cfg)
    (h : parseLoop tokens fuel P cfg = some (P1, r)) : sameTables P1.G G := by
  induction fuel generalizing P cfg with
  | zero => cases h
  | succ fuel ih =>
    unfold parseLoop at h
    cases hs : parseStep tokens P cfg with
    | none => simp [hs] at h
    | some st =>
      have hstep := parseStep_inv G hok tokens P cfg st hinv hs
      cases st with
      | done P2 r2 =>
        simp only [hs, Option.some.injEq, Prod.mk.injEq] at h
        rw [← h.1]
        exact hstep.1
      | next P2 cfg2 =>
        simp only [hs] at h
        exact ih P2 cfg2 (hstep.2 P2 cfg2 rfl).1 h

/-- C13. Parsing does not mutate the tables. For the analyzer `G` of a
successful build, a parser whose analyzer agrees with `G` on everything a parse
reads (a fresh parser on `G`, or one that has parsed before), and every token
sequence: when the driver loop returns, with Accept or with an error, the
production list and the states are what they were, every `ACTION[s][a]` and
every `GOTO[s][A]` is present or absent as before with the value it had, and the
analyzer still agrees with `G`, so that the next parse starts from the same
tables. -/
theorem parse_keeps_tables (fuel : Nat) (lines : List String) (G : GrammarAnalyzer)
    (hbuild : analyze fuel lines = some (G, true)) (P0 : Parser) (hP0 : sameTables P0.G G)
    (tokens : List Token) (fuel1 : Nat) (P : Parser) (r : ParseResult)
    (hrun : parseLoop tokens fuel1 P0 Config.initial = some (P, r)) :
    P.G.grammar = P0.G.grammar ∧ P.G.states = P0.G.states ∧
    (∀ (s : Nat) (a : String), mapFind a (mapGet s [] P.G.actionTable) =
      mapFind a (mapGet s [] P0.G.actionTable)) ∧
    (∀ (s : Nat) (A : String), mapFind A (mapGet s [] P.G.gotoTable) =
      mapFind A (mapGet s [] P0.G.gotoTable)) ∧
    sameTables P.G G := by
  have hok := (analyze_builtOK fuel lines G hbuild).1
  have h1 := parseLoop_sameTables G hok tokens fuel1 P0 P Config.initial r
    (parseInv_initial G P0 hP0) hrun
  have h2 := sameTables_trans h1 (sameTables_symm hP0)
  exact ⟨h2.1.1, h2.1.2.1, fun s a => by rw [h2.2.1 s], fun s A => by rw [h2.2.2 s], h1⟩

theorem parse_keeps_tables_witness :
    ((parseLoop ((tokenize srcLine).getD []) 100 (Parser.new (analyzerOf demoGrammar))
        Config.initial).getD (Parser.new GrammarAnalyzer.fresh,
          ParseResult.error "" Config.initial)).1.G.grammar =
      (Parser.new (analyzerOf demoGrammar)).G.grammar ∧
    ((parseLoop ((tokenize srcLine).getD []) 100 (Parser.new (analyzerOf demoGrammar))
        Config.initial).getD (Parser.new GrammarAnalyzer.fresh,
          ParseResult.error "" Config.initial)).1.G.states =
      (Parser.new (analyzerOf demoGrammar)).G.states ∧
    (∀ (s : Nat) (a : String),
      mapFind a (mapGet s [] ((parseLoop ((tokenize srcLine).getD []) 100
        (Parser.new (analyzerOf demoGrammar)) Config.initial).getD
          (Parser.new GrammarAnalyzer.fresh,
            ParseResult.error "" Config.initial)).1.G.actionTable) =
      mapFind a (mapGet s [] (Parser.new (analyzerOf demoGrammar)).G.actionTable)) ∧
    (∀ (s : Nat) (A : String),
      mapFind A (mapGet s [] ((parseLoop ((tokenize srcLine).getD []) 100
        (Parser.new (analyzerOf demoGrammar)) Config.initial).getD
          (Parser.new GrammarAnalyzer.fresh,
            ParseResult.error "" Config.initial)).1.G.gotoTable) =
      mapFind A (mapGet s [] (Parser.new (analyzerOf demoGrammar)).G.gotoTable)) :=
  have h := parse_keeps_tables 100 demoGrammar (analyzerOf demoGrammar) (by decide)
    (Parser.new (analyzerOf demoGrammar)) (sameTables_refl _) ((tokenize srcLine).getD []) 100
    _ _ (some_getD_of_isSome _ (Parser.new GrammarAnalyzer.fresh,
      ParseResult.error "" Config.initial) (by decide))
  ⟨h.1, h.2.1, h.2.2.1, h.2.2.2.1⟩

theorem mem_numberFrom (id : Nat) (prs : List (String × List String)) (p : Production)
    (h : p ∈ numberFrom id prs) : ∃ pr ∈ prs, p.lhs = pr.1 ∧ p.rhs = pr.2 := by
  induction prs generalizing id with
  | nil => simp [numberFrom] at h
  | cons pr rest ih =>
    simp only [numberFrom, List.mem_cons] at h
    rcases h with h | h
    · subst h
      exact ⟨pr, List.mem_cons_self _ _, rfl, rfl⟩
    · obtain ⟨pr1, h1, h2⟩ := ih _ h
      exact ⟨pr1, List.mem_cons_of_mem _ h1, h2⟩

/-- The symbol of a transition occurs in a right-hand side. -/
theorem transition_symbol_rhs (G : GrammarAnalyzer) (hlr : lrStates G) (i : Nat) (S : State)
    (X : String) (j : Nat) (hS : G.states[i]? = some S) (hX : (X, j) ∈ S.transitions) :
    ∃ prod ∈ G.grammar, X ∈ prod.rhs := by
  obtain ⟨Sj, _, ⟨x, hx, hpos⟩, hall⟩ := hlr.2.1 i S X j hS hX
  rcases hall x hx with ⟨_, _, prod, hp, hr⟩ | ⟨h0, _⟩
  · exact ⟨prod, List.getElem?_mem hp, List.getElem?_mem hr⟩
  · omega

/-- With no `#` in a right-hand side the token pointer never passes the
sentinel. -/
theorem runSteps_ip (G : GrammarAnalyzer) (hok : builtOK G)
    (hhash : ∀ prod ∈ G.grammar, "#" ∉ prod.rhs) (body : List Token) (eof : Token)
    (heof : eof.type = "#") (n : Nat) (P P1 : Parser) (cfg cfg1 : Config)
    (hinv : parseInv G P cfg) (hip : cfg.ip < (body ++ [eof]).length)
    (h : runSteps (body ++ [eof]) n P cfg = some (P1, cfg1)) :
    cfg1.ip < (body ++ [eof]).length := by
  induction n generalizing P cfg with
  | zero =>
    simp only [runSteps, Option.some.injEq, Prod.mk.injEq] at h
    rw [← h.2]
    exact hip
  | succ n ih =>
    unfold runSteps at h
    cases hs : parseStep (body ++ [eof]) P cfg with
    | none => simp [hs] at h
    | some st =>
      cases st with
      | done P2 r => simp [hs] at h
      | next P2 cfg2 =>
        simp only [hs] at h
        obtain ⟨hinv2, hcase⟩ := (parseStep_inv G hok _ P cfg _ hinv hs).2 P2 cfg2 rfl
        refine ih P2 cfg2 hinv2 ?_ h
        rcases hcase with e | ⟨e, tok, S, j, s, htok, hS, hmem⟩
        · rw [e]; exact hip
        · rw [e]
          obtain ⟨prod, hprod, hin⟩ := transition_symbol_rhs G hok.2.1 s S tok.type j hS hmem
          have hne : tok.type ≠ "#" := fun e1 => hhash prod hprod (e1 ▸ hin)
          simp only [List.length_append, List.length_singleton] at hip ⊢
          by_contra hcon
          have hlast : cfg.ip = body.length := by omega
          rw [hlast] at htok
          simp at htok
          rw [htok] at heof
          exact hne heof

theorem semanticAction_defined (P : Parser) (prod : Production) (attrs : List Attribute)
    (h : attrs.length = prod.rhs.length) : ∃ r, semanticAction P prod attrs = some r := by
  have get : ∀ k, k < attrs.length → ∃ a, attrs[k]? = some a := by
    intro k hk
    exact ⟨attrs[k], List.getElem?_eq_getElem hk⟩
  unfold semanticAction
  split
  · rename_i hc
    obtain ⟨a, ha⟩ := get 2 (by omega)
    obtain ⟨b, hb⟩ := get 5 (by omega)
    simp [ha, hb]
  · split
    · rename_i hc
      obtain ⟨a, ha⟩ := get 0 (by omega)
      obtain ⟨b, hb⟩ := get 2 (by omega)
      simp [ha, hb]
    · split
      · rename_i hc
        obtain ⟨a, ha⟩ := get 0 (by omega)
        obtain ⟨b, hb⟩ := get 2 (by omega)
        simp [ha, hb]
      · split
        · rename_i hc
          obtain ⟨a, ha⟩ := get 0 (by omega)
          obtain ⟨b, hb⟩ := get 2 (by omega)
          simp [ha, hb]
        · split
          · rename_i hc
            obtain ⟨a, ha⟩ := get 0 (by omega)
            obtain ⟨b, hb⟩ := get 2 (by omega)
            simp [ha, hb]
          · split
            · rename_i hc
              obtain ⟨a, ha⟩ := get 0 (by omega)
              obtain ⟨b, hb⟩ := get 2 (by omega)
              simp [ha, hb]
            · split
              · rename_i hc
                obtain ⟨a, ha⟩ := get 0 (by omega)
                simp [ha]
              · split
                · rename_i hc
                  obtain ⟨a, ha⟩ := get 0 (by omega)
                  simp [ha]
                · exact ⟨_, rfl⟩

/-- C14. An ACTION miss is the only runtime failure path. For the analyzer of
a successful build of a grammar without `#` in any production and a token
sequence that ends with the `#` sentinel: in every configuration the driver
loop reaches from the initial one the token pointer is inside the token
sequence; and whenever the ACTION entry for the state on top and the current
token is a reduction by `p`, production `p` exists, the state stack holds more
than `|rhs(p)|` entries, the attribute stack at least `|rhs(p)|`, the entry
`GOTO[t][lhs(p)]` for the state `t` exposed by the pops is present, and the
iteration completes with a new configuration. -/
theorem reduce_never_underflows (fuel : Nat) (lines : List String) (G : GrammarAnalyzer)
    (hbuild : analyze fuel lines = some (G, true))
    (hhash : ∀ pr ∈ productionsOf lines, pr.1 ≠ "#" ∧ "#" ∉ pr.2)
    (body : List Token) (eof : Token) (heof : eof.type = "#")
    (P0 : Parser) (hP0 : sameTables P0.G G) (n : Nat) (P : Parser) (cfg : Config)
    (hreach : runSteps (body ++ [eof]) n P0 Config.initial = some (P, cfg)) :
    cfg.ip < (body ++ [eof]).length ∧
    ∀ (s : Nat) (rest : List Nat) (tok : Token) (act : Action), cfg.stateStack = s :: rest →
      (body ++ [eof])[cfg.ip]? = some tok →
      mapFind tok.type (mapGet s [] P.G.actionTable) = some act → act.type = 'r' →
      ∃ prod t below, P.G.grammar[act.val]? = some prod ∧
        prod.rhs.length < cfg.stateStack.length ∧ prod.rhs.length ≤ cfg.symbolStack.length ∧
        cfg.stateStack.drop prod.rhs.length = t :: below ∧
        (mapFind prod.lhs (mapGet t [] P.G.gotoTable)).isSome = true ∧
        ∃ P1 cfg1, parseStep (body ++ [eof]) P cfg = some (Step.next P1 cfg1) := by
  obtain ⟨hok, hg, _⟩ := analyze_builtOK fuel lines G hbuild
  have hinv0 := parseInv_initial G P0 hP0
  have hhashG : ∀ prod ∈ G.grammar, "#" ∉ prod.rhs := by
    intro prod hprod
    rw [hg, loadGrammar_grammar] at hprod
    obtain ⟨pr, hpr, _, e⟩ := mem_numberFrom 0 _ prod hprod
    rw [e]
    exact (hhash pr hpr).2
  have hip := runSteps_ip G hok hhashG body eof heof n P0 P Config.initial cfg hinv0
    (by simp [Config.initial]) hreach
  obtain ⟨hsame, hpath, hlen⟩ := runSteps_inv G hok _ n P0 P Config.initial cfg hinv0 hreach
  refine ⟨hip, ?_⟩
  intro s rest tok act hs htok hact hty
  have hactG := hact
  rw [hsame.2.1 s] at hactG
  rw [hs] at hpath
  obtain ⟨prod, t, below, j, hp, hlen1, hdrop, hj, _⟩ :=
    reduce_safe G hok s rest tok.type act hpath hactG hty
  have hpP : P.G.grammar[act.val]? = some prod := by rw [hsame.1.1]; exact hp
  have hsym : prod.rhs.length ≤ cfg.symbolStack.length := by
    rw [hs] at hlen
    simp only [List.length_cons] at hlen
    omega
  have hdropc : cfg.stateStack.drop prod.rhs.length = t :: below := by rw [hs]; exact hdrop
  refine ⟨prod, t, below, hpP, ?_, hsym, hdropc, ?_, ?_⟩
  · rw [hs]
    simp only [List.length_cons]
    omega
  · rw [hsame.2.2 t, hj]
    rfl
  · have hact1 : mapFind tok.type (mapGet s [] P.G.actionTable) =
        some { type := 'r', val := act.val } := by
      rw [hact, ← hty]
    rw [parseStep_reduce (body ++ [eof]) P cfg s rest tok act.val prod t below hs htok hact1 hpP
      hsym hdropc]
    obtain ⟨r, hr⟩ := semanticAction_defined
      { P with G := { P.G with
          actionTable := mapTouch natLt s [] P.G.actionTable
          gotoTable := mapSet natLt t
            (mapTouch strLt prod.lhs 0 (mapGet t [] (mapTouch natLt t [] P.G.gotoTable)))
            (mapTouch natLt t [] P.G.gotoTable) } }
      prod ((cfg.symbolStack.take prod.rhs.length).reverse)
      (by simp only [List.length_reverse, List.length_take]; omega)
    rw [hr]
    exact ⟨_, _, rfl⟩

/-- The accept branch of `parseStep`. -/
theorem parseStep_accept (tokens : List Token) (P : Parser) (cfg : Config) (s : Nat)
    (rest : List Nat) (tok : Token) (act : Action) (res : Attribute) (under : List Attribute)
    (hs : cfg.stateStack = s :: rest) (htok : tokens[cfg.ip]? = some tok)
    (hact : mapFind tok.type (mapGet s [] P.G.actionTable) = some act) (hty : act.type = 'a')
    (hsym : cfg.symbolStack = res :: under) :
    parseStep tokens P cfg = some (Step.done (P.touchAction s) (ParseResult.accept res cfg)) := by
  have hfind : mapFind tok.type (mapGet s [] (mapTouch natLt s [] P.G.actionTable)) =
      some act := by
    rw [mapGet_mapTouch]; exact hact
  have h1 : ¬ act.type = 's' := by rw [hty]; decide
  have h2 : ¬ act.type = 'r' := by rw [hty]; decide
  unfold parseStep
  simp only [hs, htok, hfind, h1, h2, hty, if_false, if_true]
  have hs' : (s :: rest) = cfg.stateStack := hs.symm
  simp only [hs', hsym]
  rfl

/-- Iterations that did not end the parse are a prefix of the driver loop. -/
theorem runSteps_parseLoop (tokens : List Token) (n m : Nat) (P P1 : Parser) (cfg cfg1 : Config)
    (h : runSteps tokens n P cfg = some (P1, cfg1)) :
    parseLoop tokens (n + m) P cfg = parseLoop tokens m P1 cfg1 := by
  induction n generalizing P cfg with
  | zero =>
    simp only [runSteps, Option.some.injEq, Prod.mk.injEq] at h
    rw [h.1, h.2, Nat.zero_add]
  | succ n ih =>
    unfold runSteps at h
    cases hs : parseStep tokens P cfg with
    | none => simp [hs] at h
    | some st =>
      cases st with
      | done P2 r => simp [hs] at h
      | next P2 cfg2 =>
        simp only [hs] at h
        rw [show n + 1 + m = (n + m) + 1 by omega]
        rw [← ih P2 cfg2 h]
        conv => lhs; unfold parseLoop
        simp only [hs]

/-- C15. At Accept the attribute stack holds exactly one attribute. For a
grammar whose production 0 is `S' -> S`, with `S'` in no other production and in
no right-hand side, and the analyzer of its successful build: whenever the
driver loop reaches a configuration whose ACTION entry is Accept, the state
stack is `s` on top of state 0 and nothing else, the attribute stack is a single
attribute, this iteration ends the parse with that attribute as its result, and
so does the parse as a whole. -/
theorem accept_single_attribute (fuel : Nat) (lines : List String) (G : GrammarAnalyzer)
    (hbuild : analyze fuel lines = some (G, true))
    (S0 S1 : String) (others : List (String × List String))
    (hprods : productionsOf lines = (S0, [S1]) :: others) (hS : S0 ≠ S1)
    (hothers : ∀ pr ∈ others, pr.1 ≠ S0 ∧ S0 ∉ pr.2)
    (tokens : List Token) (P0 : Parser) (hP0 : sameTables P0.G G) (n : Nat) (P : Parser)
    (cfg : Config) (hreach : runSteps tokens n P0 Config.initial = some (P, cfg))
    (s : Nat) (rest : List Nat) (tok : Token) (act : Action)
    (hs : cfg.stateStack = s :: rest) (htok : tokens[cfg.ip]? = some tok)
    (hact : mapFind tok.type (mapGet s [] P.G.actionTable) = some act) (hty : act.type = 'a') :
    ∃ res, cfg.stateStack = [s, 0] ∧ cfg.symbolStack = [res] ∧
      parseStep tokens P cfg =
        some (Step.done (P.touchAction s) (ParseResult.accept res cfg)) ∧
      ∀ k, parseLoop tokens (n + (k + 1)) P0 Config.initial =
        some (P.touchAction s, ParseResult.accept res cfg) := by
  obtain ⟨hok, hg, _, hstartG, _⟩ := analyze_builtOK fuel lines G hbuild
  have hgr : G.grammar = numberFrom 0 ((S0, [S1]) :: others) := by
    rw [hg, loadGrammar_grammar, hprods]
  have hp0 : G.grammar[0]? = some { id := 0, lhs := S0, rhs := [S1] } := by
    rw [hgr]; simp [numberFrom]
  have hstart : G.startSymbol = S0 := (hok.2.2.2.2.2.2 _ hp0).symm
  -- `S0` is the left-hand side of production 0 only and occurs in no right-hand side
  have hlhs : ∀ (i : Nat) (prod : Production), G.grammar[i]? = some prod → prod.lhs = S0 →
      i = 0 := by
    intro i prod hi hl
    cases i with
    | zero => rfl
    | succ i =>
      rw [hgr] at hi
      simp only [numberFrom, List.getElem?_cons_succ] at hi
      obtain ⟨pr, hpr, e, _⟩ := mem_numberFrom _ _ prod (List.getElem?_mem hi)
      exact absurd (e ▸ hl) (hothers pr hpr).1
  have hrhs : ∀ prod ∈ G.grammar, S0 ∉ prod.rhs := by
    intro prod hprod
    rw [hgr] at hprod
    obtain ⟨pr, hpr, _, e⟩ := mem_numberFrom _ _ prod hprod
    rw [e]
    rcases List.mem_cons.1 hpr with h1 | h1
    · subst h1
      simp only [List.mem_singleton]
      exact hS
    · exact (hothers pr h1).2
  obtain ⟨hsame, hpath, hlen⟩ := runSteps_inv G hok tokens n P0 P Config.initial cfg
    (parseInv_initial G P0 hP0) hreach
  rw [hs] at hpath
  have hactG := hact
  rw [hsame.2.1 s] at hactG
  obtain ⟨S, hSs, hc⟩ := hok.2.2.1 s tok.type act hactG
  have hacc : ∃ item ∈ S.items, ∃ prod, G.grammar[item.prodIndex]? = some prod ∧
      item.dotPos = prod.rhs.length ∧ prod.lhs = G.startSymbol := by
    rcases hc with ⟨h1, _⟩ | ⟨h1, _⟩ | ⟨_, _, h2⟩
    · rw [hty] at h1; exact absurd h1 (by decide)
    · rw [hty] at h1; exact absurd h1 (by decide)
    · exact h2
  obtain ⟨item, hitem, prod, hprod, hdot, hl⟩ := hacc
  have hi0 : item.prodIndex = 0 := hlhs _ prod hprod (hl.trans hstart)
  rw [hi0, hp0] at hprod
  cases hprod
  have hitem1 : ({ prodIndex := 0, dotPos := 1 } : Item) ∈ S.items := by
    have e : item = { prodIndex := 0, dotPos := 1 } := by
      cases item
      simp only at hi0 hdot
      simp [hi0, hdot]
    rw [← e]; exact hitem
  obtain ⟨hl1, t, below, St, hdrop, hSt, hitem0, hpath0⟩ :=
    stackPath_trace G hok.2.1 0 1 s rest S hpath hSs hitem1
  have hbelow : below = [] := by
    rcases stackPath_justified G hok.2.1 t below St 0 hpath0 hSt hitem0 with ⟨_, h⟩ | h
    · exact h
    · obtain ⟨it, _, pp, hpp, pr, hpr, hX⟩ := h
      simp only at hpp
      rw [hp0] at hpp
      cases hpp
      exact absurd (List.getElem?_mem hX) (hrhs pr (List.getElem?_mem hpr))
  subst hbelow
  have ht0 : t = 0 := hpath0
  subst ht0
  have hrest : rest = [0] := by simpa using hdrop
  subst hrest
  have hsym : ∃ res, cfg.symbolStack = [res] := by
    rw [hs] at hlen
    simp only [List.length_cons, List.length_nil] at hlen
    cases hsy : cfg.symbolStack with
    | nil => rw [hsy] at hlen; simp at hlen
    | cons res under =>
      rw [hsy] at hlen
      cases under with
      | nil => exact ⟨res, rfl⟩
      | cons u us => simp at hlen
  obtain ⟨res, hres⟩ := hsym
  have hstep := parseStep_accept tokens P cfg s [0] tok act res [] hs htok hact hty hres
  refine ⟨res, hs, hres, hstep, fun k => ?_⟩
  rw [runSteps_parseLoop tokens n (k + 1) P0 P Config.initial cfg hreach]
  unfold parseLoop
  simp only [hstep]

theorem reduce_never_underflows_witness :
    (assignRun 3).2.ip < (assignTokens ++ [eofToken]).length ∧
    ∃ prod t below, (assignRun 3).1.G.grammar[4]? = some prod ∧
      prod.rhs.length < (assignRun 3).2.stateStack.length ∧
      prod.rhs.length ≤ (assignRun 3).2.symbolStack.length ∧
      (assignRun 3).2.stateStack.drop prod.rhs.length = t :: below ∧
      (mapFind prod.lhs (mapGet t [] (assignRun 3).1.G.gotoTable)).isSome = true ∧
      ∃ P1 cfg1, parseStep (assignTokens ++ [eofToken]) (assignRun 3).1 (assignRun 3).2 =
        some (Step.next P1 cfg1) :=
  have h := reduce_never_underflows 100 demoGrammar (analyzerOf demoGrammar) (by decide)
    (by decide) assignTokens eofToken rfl (Parser.new (analyzerOf demoGrammar))
    (sameTables_refl _) 3 (assignRun 3).1 (assignRun 3).2
    (some_getD_of_isSome _ (Parser.new GrammarAnalyzer.fresh, Config.initial) (by decide))
  ⟨h.1, h.2 7 [4, 2, 0] eofToken { type := 'r', val := 4 } (by decide) (by decide) (by decide)
    rfl⟩

theorem accept_single_attribute_witness :
    ∃ res, (assignRun 5).2.stateStack = [1, 0] ∧ (assignRun 5).2.symbolStack = [res] ∧
      parseStep (assignTokens ++ [eofToken]) (assignRun 5).1 (assignRun 5).2 =
        some (Step.done ((assignRun 5).1.touchAction 1)
          (ParseResult.accept res (assignRun 5).2)) ∧
      ∀ k, parseLoop (assignTokens ++ [eofToken]) (5 + (k + 1))
          (Parser.new (analyzerOf demoGrammar)) Config.initial =
        some ((assignRun 5).1.touchAction 1, ParseResult.accept res (assignRun 5).2) :=
  accept_single_attribute 100 demoGrammar (analyzerOf demoGrammar) (by decide)
    "S'" "S" [("S", ["while", "(", "C", ")", "\x7b", "S", "\x7d"]), ("S", ["id", "=", "E"]),
      ("C", ["E", ">", "E"]), ("E", ["id"])]
    (by decide) (by decide) (by decide)
    (assignTokens ++ [eofToken]) (Parser.new (analyzerOf demoGrammar)) (sameTables_refl _) 5
    (assignRun 5).1 (assignRun 5).2
    (some_getD_of_isSome _ (Parser.new GrammarAnalyzer.fresh, Config.initial) (by decide))
    1 [0] eofToken { type := 'a', val := 0 } (by decide) (by decide) (by decide) rfl

/-! ## Nested loops, and a reduction loop that never ends -/

theorem option_map_stable {α β : Type} (F : Nat → Option α)
    (hmono : ∀ f f1 r, f ≤ f1 → F f = some r → F f1 = some r) (g : α → β) (v : β) (n : Nat)
    (h : (F n).map g = some v) (fuel : Nat) (hfuel : n ≤ fuel) : (F fuel).map g = some v := by
  cases hn : F n with
  | none => rw [hn] at h; cases h
  | some r =>
    rw [hmono n fuel r hfuel hn]
    rw [hn] at h
    exact h

/-- C26. For the five-production grammar and the nested input
`while ( a > b ) { while ( c > d ) { x = y } }` a fresh parser accepts with
exactly the eleven quadruples (label,-,-,L3), (>,a,b,T1), (jfalse,T1,-,L4),
(label,-,-,L1), (>,c,d,T2), (jfalse,T2,-,L2), (=,y,-,x), (jump,-,-,L1),
(label,-,-,L2), (jump,-,-,L3), (label,-,-,L4): the inner loop, reduced first,
has the labels L1 and L2 and the outer loop L3 and L4, the outer condition,
reduced first, has T1 and the inner condition T2; two temporaries and four
labels have been handed out. Fuel 100 lets every loop run to its end, and so
does any larger fuel. -/
theorem nested_loops_names (fuel : Nat) (hfuel : 100 ≤ fuel) :
    (analyze fuel demoGrammar).map Prod.snd = some true ∧
    (translate fuel demoGrammar nestedSrc).map Prod.snd =
      some (ParseResult.accept { place := "", code := nestedQuads }
        { stateStack := [1, 0], symbolStack := [{ place := "", code := nestedQuads }],
          ip := 19 }) ∧
    (translate fuel demoGrammar nestedSrc).map (fun r => (r.1.tempCount, r.1.labelCount)) =
      some (2, 4) ∧
    nestedQuads.map (fun q => [q.op, q.arg1, q.arg2, q.result]) =
      [["label", "-", "-", "L3"], [">", "a", "b", "T1"], ["jfalse", "T1", "-", "L4"],
       ["label", "-", "-", "L1"], [">", "c", "d", "T2"], ["jfalse", "T2", "-", "L2"],
       ["=", "y", "-", "x"], ["jump", "-", "-", "L1"], ["label", "-", "-", "L2"],
       ["jump", "-", "-", "L3"], ["label", "-", "-", "L4"]] := by
  refine ⟨?_, ?_, ?_, by decide⟩
  · exact option_map_stable (fun f => analyze f demoGrammar)
      (fun f f1 r hle h => analyze_mono f f1 demoGrammar r hle h) Prod.snd true 100
      (by decide) fuel hfuel
  · exact option_map_stable (fun f => translate f demoGrammar nestedSrc)
      (fun f f1 r hle h => translate_mono f f1 demoGrammar _ r hle h) Prod.snd _ 100
      (by decide) fuel hfuel
  · exact option_map_stable (fun f => translate f demoGrammar nestedSrc)
      (fun f f1 r hle h => translate_mono f f1 demoGrammar _ r hle h)
      (fun r => (r.1.tempCount, r.1.labelCount)) _ 100 (by decide) fuel hfuel

theorem nested_loops_names_witness :
    (translate 100 demoGrammar nestedSrc).map Prod.snd =
      some (ParseResult.accept { place := "", code := nestedQuads }
        { stateStack := [1, 0], symbolStack := [{ place := "", code := nestedQuads }],
          ip := 19 }) :=
  (nested_loops_names 100 (Nat.le_refl 100)).2.1

theorem runSteps_add (tokens : List Token) (a b : Nat) (P : Parser) (cfg : Config) :
    runSteps tokens (a + b) P cfg =
      (runSteps tokens a P cfg).bind (fun r => runSteps tokens b r.1 r.2) := by
  induction a generalizing P cfg with
  | zero => simp [runSteps]
  | succ a ih =>
    rw [show a + 1 + b = (a + b) + 1 by omega, runSteps, runSteps]
    cases hs : parseStep tokens P cfg with
    | none => rfl
    | some st =>
      cases st with
      | done P2 r => rfl
      | next P2 cfg2 => exact ih P2 cfg2

theorem runSteps_succ (tokens : List Token) (n : Nat) (P P1 P2 : Parser) (cfg cfg1 cfg2 : Config)
    (h : runSteps tokens n P cfg = some (P1, cfg1))
    (hs : parseStep tokens P1 cfg1 = some (Step.next P2 cfg2)) :
    runSteps tokens (n + 1) P cfg = some (P2, cfg2) := by
  rw [runSteps_add, h]
  simp only [Option.some_bind, runSteps, hs]

theorem runSteps_prefix (tokens : List Token) (a b : Nat) (P : Parser) (cfg : Config)
    (X : Parser × Config) (h : runSteps tokens (a + b) P cfg = some X) :
    ∃ Y, runSteps tokens a P cfg = some Y := by
  rw [runSteps_add] at h
  cases ha : runSteps tokens a P cfg with
  | none => rw [ha] at h; cases h
  | some Y => exact ⟨Y, rfl⟩

/-- A reduction whose table entries are known: the iteration completes with the
state `GOTO[t][lhs]` pushed, and the tables read the same afterwards. -/
theorem parseStep_reduce_tables (G : GrammarAnalyzer) (tokens : List Token) (P : Parser)
    (cfg : Config) (s : Nat) (rest : List Nat) (tok : Token) (act : Action) (prod : Production)
    (t : Nat) (below : List Nat) (j : Nat) (hsame : sameTables P.G G)
    (hs : cfg.stateStack = s :: rest) (htok : tokens[cfg.ip]? = some tok)
    (hact : mapFind tok.type (mapGet s [] G.actionTable) = some act) (hty : act.type = 'r')
    (hp : G.grammar[act.val]? = some prod) (hsym : prod.rhs.length ≤ cfg.symbolStack.length)
    (hdrop : cfg.stateStack.drop prod.rhs.length = t :: below)
    (hj : mapFind prod.lhs (mapGet t [] G.gotoTable) = some j) :
    ∃ P1 a, parseStep tokens P cfg =
        some (Step.next P1 { stateStack := j :: t :: below,
                             symbolStack := a :: cfg.symbolStack.drop prod.rhs.length,
                             ip := cfg.ip }) ∧
      sameTables P1.G G := by
  have hactP : mapFind tok.type (mapGet s [] P.G.actionTable) =
      some { type := 'r', val := act.val } := by
    rw [hsame.2.1 s, hact, ← hty]
  have hpP : P.G.grammar[act.val]? = some prod := by rw [hsame.1.1]; exact hp
  have hjP : mapFind prod.lhs (mapGet t [] (P.touchAction s).G.gotoTable) = some j := by
    show mapFind prod.lhs (mapGet t [] P.G.gotoTable) = some j
    rw [hsame.2.2 t]
    exact hj
  obtain ⟨htg, hval⟩ := sameTables_touchGoto (P.touchAction s) t prod.lhs j hjP
  obtain ⟨r, hr⟩ := semanticAction_defined ((P.touchAction s).touchGoto t prod.lhs) prod
    ((cfg.symbolStack.take prod.rhs.length).reverse)
    (by simp only [List.length_reverse, List.length_take]; omega)
  have hG : r.2.G = ((P.touchAction s).touchGoto t prod.lhs).G :=
    semanticAction_analyzer _ r.2 prod _ r.1 hr
  refine ⟨r.2, r.1, ?_, ?_⟩
  · rw [parseStep_reduce tokens P cfg s rest tok act.val prod t below hs htok hactP hpP hsym
      hdrop]
    have hr1 : semanticAction
        { P with G := { P.G with
            actionTable := mapTouch natLt s [] P.G.actionTable
            gotoTable := mapSet natLt t
              (mapTouch strLt prod.lhs 0 (mapGet t [] (mapTouch natLt t [] P.G.gotoTable)))
              (mapTouch natLt t [] P.G.gotoTable) } }
        prod ((cfg.symbolStack.take prod.rhs.length).reverse) = some r := hr
    rw [hr1, gotoValue_touch]
    have hv : gotoValue P.G t prod.lhs = j := hval
    rw [hv]
    rfl
  · rw [hG]
    exact sameTables_trans htg (sameTables_trans (sameTables_touchAction P s) hsame)

/-- C27. The driver loop does not halt on every grammar that builds. For the
grammar `S' -> S`, `S -> A`, `A -> S`, `S -> id`, `build` returns true, and
`ACTION[2][#]` is the reduction by `A -> S`, not Accept. On the input `a` the
loop shifts `a`, reduces by `S -> id`, and then reduces by `A -> S` and
`S -> A` in turn without end: from the second iteration on the state stack is
2 on 0 or 1 on 0 with the token pointer at the sentinel; the loop completes `n`
iterations for every `n` without reaching Accept or an ACTION miss; and `parse`
returns for no fuel. -/
theorem reduce_loop_never_ends :
    (analyze 100 cyclicGrammar).map Prod.snd = some true ∧
    tokenize "a" = some cyclicTokens ∧
    mapFind "#" (mapGet 2 [] (analyzerOf cyclicGrammar).actionTable) =
      some { type := 'r', val := 2 } ∧
    mapFind "#" (mapGet 1 [] (analyzerOf cyclicGrammar).actionTable) =
      some { type := 'r', val := 1 } ∧
    (∀ n, ∃ P cfg, runSteps cyclicTokens (2 + n) (Parser.new (analyzerOf cyclicGrammar))
        Config.initial = some (P, cfg) ∧ cfg.ip = 1 ∧
        (cfg.stateStack = [2, 0] ∨ cfg.stateStack = [1, 0])) ∧
    (∀ n, ∃ X, runSteps cyclicTokens n (Parser.new (analyzerOf cyclicGrammar))
      Config.initial = some X) ∧
    (∀ fuel, parse fuel (Parser.new (analyzerOf cyclicGrammar)) "a" = none) := by
  have ht : tokenize "a" = some cyclicTokens := by decide
  have hb : (analyze 100 cyclicGrammar).map Prod.snd = some true := by decide
  have hbuild : analyze 100 cyclicGrammar = some (analyzerOf cyclicGrammar, true) := by decide
  have hok := (analyze_builtOK 100 cyclicGrammar _ hbuild).1
  have hr2 : mapFind "#" (mapGet 2 [] (analyzerOf cyclicGrammar).actionTable) =
      some { type := 'r', val := 2 } := by decide
  have hr1 : mapFind "#" (mapGet 1 [] (analyzerOf cyclicGrammar).actionTable) =
      some { type := 'r', val := 1 } := by decide
  have hp2 : (analyzerOf cyclicGrammar).grammar[2]? =
      some { id := 2, lhs := "A", rhs := ["S"] } := by decide
  have hp1 : (analyzerOf cyclicGrammar).grammar[1]? =
      some { id := 1, lhs := "S", rhs := ["A"] } := by decide
  have hgA : mapFind "A" (mapGet 0 [] (analyzerOf cyclicGrammar).gotoTable) = some 1 := by decide
  have hgS : mapFind "S" (mapGet 0 [] (analyzerOf cyclicGrammar).gotoTable) = some 2 := by decide
  have h2 : runSteps cyclicTokens 2 (Parser.new (analyzerOf cyclicGrammar)) Config.initial =
      some (cyclicRun 2) :=
    some_getD_of_isSome
      (runSteps cyclicTokens 2 (Parser.new (analyzerOf cyclicGrammar)) Config.initial)
      (Parser.new GrammarAnalyzer.fresh, Config.initial) (by decide)
  have hc2 : (cyclicRun 2).2 =
      { stateStack := [2, 0], symbolStack := [{ place := "a", code := [] }], ip := 1 } := by
    decide
  have hloop : ∀ n, ∃ P cfg, runSteps cyclicTokens (2 + n) (Parser.new (analyzerOf cyclicGrammar))
      Config.initial = some (P, cfg) ∧ sameTables P.G (analyzerOf cyclicGrammar) ∧
      cfg.symbolStack.length = 1 ∧ cfg.ip = 1 ∧
      (cfg.stateStack = [2, 0] ∨ cfg.stateStack = [1, 0]) := by
    intro n
    induction n with
    | zero =>
      refine ⟨(cyclicRun 2).1, (cyclicRun 2).2, h2, ?_, ?_, ?_, ?_⟩
      · exact (runSteps_inv _ hok cyclicTokens 2 _ _ Config.initial _
          (parseInv_initial _ _ (sameTables_refl _)) h2).1
      · rw [hc2]; rfl
      · rw [hc2]
      · rw [hc2]; exact Or.inl rfl
    | succ n ih =>
      obtain ⟨P, cfg, hrun, hsame, hlen, hip, hst⟩ := ih
      have htok : cyclicTokens[cfg.ip]? = some { type := "#", value := "#" } := by
        rw [hip]; rfl
      rcases hst with hst | hst
      · obtain ⟨P1, a, hstep, hsame1⟩ := parseStep_reduce_tables _ cyclicTokens P cfg 2 [0]
          { type := "#", value := "#" } { type := 'r', val := 2 }
          { id := 2, lhs := "A", rhs := ["S"] } 0 [] 1 hsame hst htok hr2 rfl hp2
          (by rw [hlen]; exact Nat.le_refl 1) (by rw [hst]; rfl) hgA
        exact ⟨P1, _, runSteps_succ cyclicTokens (2 + n) _ P P1 _ cfg _ hrun hstep, hsame1,
          by simp [hlen], hip, Or.inr rfl⟩
      · obtain ⟨P1, a, hstep, hsame1⟩ := parseStep_reduce_tables _ cyclicTokens P cfg 1 [0]
          { type := "#", value := "#" } { type := 'r', val := 1 }
          { id := 1, lhs := "S", rhs := ["A"] } 0 [] 2 hsame hst htok hr1 rfl hp1
          (by rw [hlen]; exact Nat.le_refl 1) (by rw [hst]; rfl) hgS
        exact ⟨P1, _, runSteps_succ cyclicTokens (2 + n) _ P P1 _ cfg _ hrun hstep, hsame1,
          by simp [hlen], hip, Or.inl rfl⟩
  have hall : ∀ n, ∃ X, runSteps cyclicTokens n (Parser.new (analyzerOf cyclicGrammar))
      Config.initial = some X := by
    intro n
    obtain ⟨P, cfg, hrun, _⟩ := hloop n
    rw [show 2 + n = n + 2 by omega] at hrun
    exact runSteps_prefix cyclicTokens n 2 _ _ _ hrun
  refine ⟨hb, ht, hr2, hr1, ?_, hall, ?_⟩
  · intro n
    obtain ⟨P, cfg, hrun, _, _, hip, hst⟩ := hloop n
    exact ⟨P, cfg, hrun, hip, hst⟩
  · intro fuel
    unfold parse
    rw [ht]
    simp only
    obtain ⟨X, hX⟩ := hall fuel
    have := runSteps_parseLoop cyclicTokens fuel 0 _ X.1 _ X.2 hX
    rw [Nat.add_zero] at this
    rw [this]
    rfl

/-! ## The automaton construction ends, on valid non-empty item sets -/

/-- C21. Automaton construction terminates. For an analyzer that holds a
loaded, non-empty grammar and no states: `closure` returns on every set of
valid items once the fuel exceeds the number of productions; `buildDFA` returns
once the fuel exceeds `statesBound`, the number of subsets of the universe of
pairs `(p, d)`, and more fuel gives the same result; and in what `buildDFA`
returns every item lies in that universe (`p` below the number of productions,
`d` at most the longest right-hand side), no item set occurs twice, and there
are at most `statesBound` states. -/
theorem buildDFA_terminates (lines : List String) (G : GrammarAnalyzer)
    (hg : G.grammar = (loadGrammar GrammarAnalyzer.fresh lines).grammar) (hs : G.states = [])
    (hne : productionsOf lines ≠ []) :
    (∀ (I : List Item) (fuel : Nat), (∀ x ∈ I, validItem G x) → G.grammar.length < fuel →
      ∃ J, closure G fuel I = some J) ∧
    (∀ fuel, statesBound G < fuel →
      ∃ G1, buildDFA fuel G = some G1 ∧ ∀ fuel1, fuel ≤ fuel1 → buildDFA fuel1 G = some G1) ∧
    (∀ fuel G1, buildDFA fuel G = some G1 →
      (∀ (i : Nat) (S : State), G1.states[i]? = some S → ∀ x ∈ S.items,
        x.prodIndex < G.grammar.length ∧ x.dotPos ≤ maxRhs G) ∧
      (G1.states.map State.items).Nodup ∧ G1.states.length ≤ statesBound G) := by
  have hd := idsDense_of_grammar_eq G _ hg (idsDense_loadGrammar lines)
  refine ⟨?_, ?_, ?_⟩
  · intro I fuel hv hfuel
    obtain ⟨J, hJ, _⟩ := closureLoop_spec G hd fuel I hv
      (Nat.lt_of_le_of_lt (closureSlack_le G I) hfuel)
    exact ⟨J, hJ⟩
  · intro fuel hfuel
    obtain ⟨G1, h1⟩ := buildDFA_defined G hd hs (grammar_ne_nil_of_loaded lines G hg hne) fuel
      hfuel
    exact ⟨G1, h1, fun fuel1 hle => buildDFA_mono fuel fuel1 G G1 hle h1⟩
  · intro fuel G1 h
    have hinv := buildDFA_inv G G1 hd hs fuel h
    refine ⟨?_, hinv.2.1, statesInv_length_le G _ hinv⟩
    intro i S hS x hx
    obtain ⟨prod, hp, hdot⟩ := statesInv_valid G _ hinv i S hS x hx
    have hlt : x.prodIndex < G.grammar.length := by
      by_contra hcon
      rw [List.getElem?_eq_none (by omega)] at hp
      cases hp
    exact ⟨hlt, Nat.le_trans hdot (le_maxRhs G prod (List.getElem?_mem hp))⟩

theorem buildDFA_terminates_witness :
    ∃ G1, buildDFA (statesBound (loadGrammar GrammarAnalyzer.fresh demoGrammar) + 1)
        (loadGrammar GrammarAnalyzer.fresh demoGrammar) = some G1 ∧
      ∀ fuel1, statesBound (loadGrammar GrammarAnalyzer.fresh demoGrammar) + 1 ≤ fuel1 →
        buildDFA fuel1 (loadGrammar GrammarAnalyzer.fresh demoGrammar) = some G1 :=
  (buildDFA_terminates demoGrammar (loadGrammar GrammarAnalyzer.fresh demoGrammar) rfl
    (by decide) (by decide)).2.1 _ (Nat.lt_succ_self _)

/-! ## Items are valid and states are not empty -/

theorem buildDFASymbol_nonempty (G : GrammarAnalyzer) (fuel p : Nat) (states states1 : List State)
    (X : String) (hne : ∀ I ∈ states.map State.items, I ≠ [])
    (h : buildDFASymbol G fuel p states X = some states1) :
    ∀ I ∈ states1.map State.items, I ≠ [] := by
  obtain ⟨S, J, _, _, hcase⟩ := buildDFASymbol_shape G fuel p states states1 X h
  rcases hcase with ⟨_, e⟩ | ⟨hJ, states0, t, e, _, hst⟩
  · rw [e]; exact hne
  · rw [e, setTransition_items]
    rcases hst with e0 | e0
    · rw [e0]; exact hne
    · rw [e0]
      intro I hI
      simp only [List.map_append, List.map_cons, List.map_nil, List.mem_append,
        List.mem_singleton] at hI
      rcases hI with h1 | h1
      · exact hne I h1
      · rw [h1]; exact hJ

theorem buildDFAFold_nonempty (G : GrammarAnalyzer) (fuel p : Nat) (syms : List String)
    (states states1 : List State) (hne : ∀ I ∈ states.map State.items, I ≠ [])
    (h : syms.foldlM (buildDFASymbol G fuel p) states = some states1) :
    ∀ I ∈ states1.map State.items, I ≠ [] := by
  induction syms generalizing states with
  | nil =>
    simp at h
    subst h
    exact hne
  | cons X rest ih =>
    rw [List.foldlM_cons] at h
    cases hX : buildDFASymbol G fuel p states X with
    | none => simp [hX] at h
    | some states2 =>
      simp only [hX, Option.bind_eq_bind, Option.some_bind] at h
      exact ih states2 (buildDFASymbol_nonempty G fuel p states states2 X hne hX) h

theorem buildDFALoop_nonempty (G : GrammarAnalyzer) (fuel n p : Nat) (states states1 : List State)
    (hne : ∀ I ∈ states.map State.items, I ≠ [])
    (h : buildDFALoop G fuel n p states = some states1) :
    ∀ I ∈ states1.map State.items, I ≠ [] := by
  induction n generalizing p states with
  | zero => cases h
  | succ n ih =>
    unfold buildDFALoop at h
    cases hS : states[p]? with
    | none =>
      simp only [hS, Option.some.injEq] at h
      subst h
      exact hne
    | some S =>
      simp only [hS] at h
      cases hn : nextSymbols G S.items [] with
      | none => simp [hn] at h
      | some syms =>
        simp only [hn] at h
        cases hf : syms.foldlM (buildDFASymbol G fuel p) states with
        | none => simp [hf] at h
        | some states2 =>
          simp only [hf] at h
          exact ih (p + 1) states2 (buildDFAFold_nonempty G fuel p syms states states2 hne hf) h

/-- No state `buildDFA` builds is empty. -/
theorem buildDFA_nonempty (G G1 : GrammarAnalyzer) (hd : idsDense G) (hs : G.states = [])
    (fuel : Nat) (h : buildDFA fuel G = some G1) :
    ∀ I ∈ G1.states.map State.items, I ≠ [] := by
  unfold buildDFA closure at h
  cases hc : closureLoop G fuel [{ prodIndex := 0, dotPos := 0 }] with
  | none => simp [hc] at h
  | some startSet =>
    simp only [hc, hs, List.nil_append] at h
    cases hl : buildDFALoop G fuel fuel 0 [{ id := 0, items := startSet, transitions := [] }] with
    | none => simp [hl] at h
    | some states =>
      simp only [hl, Option.some.injEq] at h
      subst h
      apply buildDFALoop_nonempty G fuel fuel 0 _ states ?_ hl
      intro I hI
      simp only [List.map_cons, List.map_nil, List.mem_singleton] at hI
      subst hI
      have hv0 := closureLoop_start_valid G fuel _ hc
      have hsub := (closureLoop_sound G hd fuel _ _ (by
        intro item hitem
        simp only [List.mem_singleton] at hitem
        subst hitem
        exact hv0) hc).1
      exact List.ne_nil_of_mem (hsub _ (List.mem_singleton.2 rfl))

theorem tableShifts_grammar (i : Nat) (trans : List (String × Nat)) (G : GrammarAnalyzer) :
    (tableShifts i trans G).1.grammar = G.grammar := by
  induction trans generalizing G with
  | nil => rfl
  | cons x rest ih =>
    obtain ⟨symbol, target⟩ := x
    unfold tableShifts
    split
    · simp only
      split
      · rfl
      · rw [ih]
    · simp only
      rw [ih]

theorem tableReduce_grammar (i p : Nat) (follow : List String) (G : GrammarAnalyzer) :
    (tableReduce i p follow G).1.grammar = G.grammar := by
  induction follow generalizing G with
  | nil => rfl
  | cons a rest ih =>
    unfold tableReduce
    simp only
    split
    · rfl
    · rw [ih]

/-- The loop over the items of a state returns when every item names a
production; it keeps the production list. -/
theorem tableItems_defined (i : Nat) (items : List Item) (G : GrammarAnalyzer)
    (hv : ∀ x ∈ items, ∃ prod, G.grammar[x.prodIndex]? = some prod) :
    ∃ r, tableItems i items G = some r ∧ r.1.grammar = G.grammar := by
  induction items generalizing G with
  | nil => exact ⟨(G, true), rfl, rfl⟩
  | cons item rest ih =>
    obtain ⟨prod, hp⟩ := hv item (List.mem_cons_self _ _)
    have hrest : ∀ G1 : GrammarAnalyzer, G1.grammar = G.grammar →
        ∀ x ∈ rest, ∃ prod, G1.grammar[x.prodIndex]? = some prod := by
      intro G1 e x hx
      rw [e]
      exact hv x (List.mem_cons_of_mem _ hx)
    unfold tableItems
    simp only [hp]
    by_cases hdot : item.dotPos = prod.rhs.length
    · rw [if_pos hdot]
      by_cases hstart : prod.lhs = G.startSymbol
      · rw [if_pos hstart]
        obtain ⟨r, hr, e⟩ := ih
          { G with
            actionTable :=
              mapSet natLt i (mapSet strLt "#" { type := 'a', val := 0 }
                (mapGet i [] (mapTouch natLt i [] G.actionTable)))
                (mapTouch natLt i [] G.actionTable) } (hrest _ rfl)
        exact ⟨r, hr, e⟩
      · rw [if_neg hstart]
        have hg := tableReduce_grammar i item.prodIndex
          (mapGet prod.lhs [] (mapTouch strLt prod.lhs [] G.followSets))
          { G with followSets := mapTouch strLt prod.lhs [] G.followSets }
        split
        · obtain ⟨r, hr, e⟩ := ih _ (hrest _ hg)
          exact ⟨r, hr, e.trans hg⟩
        · exact ⟨_, rfl, hg⟩
    · rw [if_neg hdot]
      exact ih G (hrest G rfl)

/-- The loop over the states returns when every item names a production. -/
theorem tableStates_defined (i : Nat) (sts : List State) (G : GrammarAnalyzer)
    (hv : ∀ S ∈ sts, ∀ x ∈ S.items, ∃ prod, G.grammar[x.prodIndex]? = some prod) :
    ∃ r, tableStates i sts G = some r := by
  induction sts generalizing i G with
  | nil => exact ⟨(G, true), rfl⟩
  | cons S rest ih =>
    unfold tableStates
    simp only
    split
    · have hg := tableShifts_grammar i S.transitions G
      obtain ⟨r1, hr1, e1⟩ := tableItems_defined i S.items (tableShifts i S.transitions G).1 (by
        intro x hx
        rw [hg]
        exact hv S (List.mem_cons_self _ _) x hx)
      simp only [hr1]
      split
      · apply ih
        intro S1 hS1 x hx
        rw [e1, hg]
        exact hv S1 (List.mem_cons_of_mem _ hS1) x hx
      · exact ⟨_, rfl⟩
    · exact ⟨_, rfl⟩

theorem buildSLRTable_defined (G : GrammarAnalyzer)
    (hv : ∀ S ∈ G.states, ∀ x ∈ S.items, ∃ prod, G.grammar[x.prodIndex]? = some prod) :
    ∃ r, buildSLRTable G = some r := by
  obtain ⟨r, hr⟩ := tableStates_defined 0 G.states G hv
  unfold buildSLRTable
  simp only [hr]
  split
  · exact ⟨_, rfl⟩
  · exact ⟨_, rfl⟩

/-- C22. Item validity. For an analyzer that holds a loaded, non-empty grammar
and no states, `buildDFA` returns once the fuel exceeds `statesBound`, and in
what it returns: no state is empty, and every item `(p, d)` of every state has
`p` below the number of productions and `d` at most the length of the
right-hand side of production `p`; hence the functions that index
`grammar[p].rhs[d]` for these items never leave the bounds: on the item set of
every state `closure`, `gotoState` (for every symbol) and the collection of the
next symbols return, and so does `buildSLRTable`. -/
theorem items_valid (lines : List String) (G : GrammarAnalyzer)
    (hg : G.grammar = (loadGrammar GrammarAnalyzer.fresh lines).grammar) (hs : G.states = [])
    (hne : productionsOf lines ≠ []) :
    (∀ fuel, statesBound G < fuel → ∃ G1, buildDFA fuel G = some G1) ∧
    ∀ fuel G1, buildDFA fuel G = some G1 →
      (∀ (i : Nat) (S : State), G1.states[i]? = some S →
        S.items ≠ [] ∧
        ∀ x ∈ S.items, x.prodIndex < G1.grammar.length ∧
          ∃ prod, G1.grammar[x.prodIndex]? = some prod ∧ x.dotPos ≤ prod.rhs.length) ∧
      (∀ (i : Nat) (S : State), G1.states[i]? = some S →
        ∀ fuel1, G1.grammar.length < fuel1 →
          (∃ J, closure G1 fuel1 S.items = some J) ∧
          (∀ X, ∃ J, gotoState G1 fuel1 S.items X = some J) ∧
          ∃ syms, nextSymbols G1 S.items [] = some syms) ∧
      ∃ r, buildSLRTable G1 = some r := by
  have hd := idsDense_of_grammar_eq G _ hg (idsDense_loadGrammar lines)
  refine ⟨fun fuel hfuel =>
    buildDFA_defined G hd hs (grammar_ne_nil_of_loaded lines G hg hne) fuel hfuel, ?_⟩
  intro fuel G1 h
  have hinv := buildDFA_inv G G1 hd hs fuel h
  have hnonempty := buildDFA_nonempty G G1 hd hs fuel h
  obtain ⟨st, e, _⟩ := buildDFA_canonical_aux G G1 hs fuel h
  subst e
  have hd1 : idsDense { G with states := st } := hd
  have hvalid : ∀ (i : Nat) (S : State), st[i]? = some S → ∀ x ∈ S.items,
      validItem { G with states := st } x :=
    fun i S hS x hx => statesInv_valid G st hinv i S hS x hx
  refine ⟨?_, ?_, ?_⟩
  · intro i S hS
    refine ⟨hnonempty S.items (List.mem_map.2 ⟨S, List.getElem?_mem hS, rfl⟩), ?_⟩
    intro x hx
    obtain ⟨prod, hp, hdot⟩ := hvalid i S hS x hx
    refine ⟨?_, prod, hp, hdot⟩
    by_contra hcon
    rw [List.getElem?_eq_none (by omega)] at hp
    cases hp
  · intro i S hS fuel1 hfuel1
    have hv := hvalid i S hS
    refine ⟨?_, ?_, nextSymbols_defined _ S.items [] hv⟩
    · obtain ⟨J, hJ, _⟩ := closureLoop_spec _ hd1 fuel1 S.items hv
        (Nat.lt_of_le_of_lt (closureSlack_le _ S.items) hfuel1)
      exact ⟨J, hJ⟩
    · intro X
      exact gotoState_defined _ hd1 fuel1 X S.items hv hfuel1
  · apply buildSLRTable_defined
    intro S hS x hx
    obtain ⟨i, hi⟩ := List.getElem?_of_mem hS
    obtain ⟨prod, hp, _⟩ := hvalid i S hi x hx
    exact ⟨prod, hp⟩

theorem items_valid_witness :
    ∃ S3, ((buildDFA 100 (loadGrammar GrammarAnalyzer.fresh demoGrammar)).getD
        GrammarAnalyzer.fresh).states[3]? = some S3 ∧
      S3.items ≠ [] ∧
      (∀ x ∈ S3.items,
        x.prodIndex < ((buildDFA 100 (loadGrammar GrammarAnalyzer.fresh demoGrammar)).getD
          GrammarAnalyzer.fresh).grammar.length ∧
        ∃ prod, ((buildDFA 100 (loadGrammar GrammarAnalyzer.fresh demoGrammar)).getD
          GrammarAnalyzer.fresh).grammar[x.prodIndex]? = some prod ∧
          x.dotPos ≤ prod.rhs.length) ∧
      ∃ r, buildSLRTable ((buildDFA 100 (loadGrammar GrammarAnalyzer.fresh demoGrammar)).getD
        GrammarAnalyzer.fresh) = some r := by
  obtain ⟨a, _, c⟩ :=
    (items_valid demoGrammar (loadGrammar GrammarAnalyzer.fresh demoGrammar) rfl
      (by decide) (by decide)).2 100 _ (some_getD_of_isSome _ GrammarAnalyzer.fresh (by decide))
  have h3 : (((buildDFA 100 (loadGrammar GrammarAnalyzer.fresh demoGrammar)).getD
      GrammarAnalyzer.fresh).states[3]?).isSome = true := by decide
  obtain ⟨S3, hS3⟩ := Option.isSome_iff_exists.1 h3
  exact ⟨S3, hS3, (a 3 S3 hS3).1, (a 3 S3 hS3).2, c⟩

/-! ## Every table entry is justified -/

theorem mapSet_keysSorted (k : String) (v : Nat) (m : List (String × Nat))
    (h : keysSorted m) : keysSorted (mapSet strLt k v m) := by
  unfold keysSorted at *
  induction m with
  | nil => simp [mapSet]
  | cons kv rest ih =>
    obtain ⟨k0, v0⟩ := kv
    rw [List.pairwise_cons] at h
    unfold mapSet
    by_cases h1 : strLt k k0 = true
    · rw [if_pos h1]
      refine List.Pairwise.cons ?_ (List.Pairwise.cons h.1 h.2)
      intro b hb
      rcases List.mem_cons.1 hb with e | e
      · rw [e]; exact h1
      · exact strLt_trans _ _ _ h1 (h.1 b e)
    · rw [if_neg h1]
      by_cases h2 : k = k0
      · rw [if_pos h2]
        refine List.Pairwise.cons ?_ h.2
        intro b hb
        rw [h2]
        exact h.1 b hb
      · rw [if_neg h2]
        refine List.Pairwise.cons ?_ (ih h.2)
        intro b hb
        rcases mem_mapSet strLt k v rest b hb with e | e
        · rw [e]
          exact strLt_total _ _ (by simpa using h1) h2
        · exact h.1 b e

/-- In a map with increasing keys a pair that is in the list is what `find`
returns for its key. -/
theorem mapFind_of_mem_sorted (m : List (String × Nat)) (h : keysSorted m) (k : String) (v : Nat)
    (hm : (k, v) ∈ m) : mapFind k m = some v := by
  unfold keysSorted at h
  induction m with
  | nil => cases hm
  | cons kv rest ih =>
    obtain ⟨k0, v0⟩ := kv
    rw [List.pairwise_cons] at h
    unfold mapFind
    by_cases hk : k = k0
    · rw [if_pos hk]
      rcases List.mem_cons.1 hm with e | e
      · cases e; rfl
      · have := h.1 (k, v) e
        rw [hk, strLt_irrefl] at this
        cases this
    · rw [if_neg hk]
      rcases List.mem_cons.1 hm with e | e
      · cases e; exact absurd rfl hk
      · exact ih h.2 e

theorem setTransition_keysSorted (states : List State) (p : Nat) (X : String) (t : Nat)
    (h : ∀ S ∈ states, keysSorted S.transitions) :
    ∀ S ∈ setTransition states p X t, keysSorted S.transitions := by
  intro S hS
  obtain ⟨i, hi⟩ := List.getElem?_of_mem hS
  rw [setTransition_getElem?] at hi
  by_cases hip : i = p
  · rw [if_pos hip] at hi
    cases h0 : states[i]? with
    | none => rw [h0] at hi; cases hi
    | some S0 =>
      rw [h0] at hi
      simp only [Option.map_some', Option.some.injEq] at hi
      rw [← hi]
      exact mapSet_keysSorted X t _ (h S0 (List.getElem?_mem h0))
  · rw [if_neg hip] at hi
    exact h S (List.getElem?_mem hi)

theorem buildDFASymbol_keysSorted (G : GrammarAnalyzer) (fuel p : Nat)
    (states states1 : List State) (X : String) (hs : ∀ S ∈ states, keysSorted S.transitions)
    (h : buildDFASymbol G fuel p states X = some states1) :
    ∀ S ∈ states1, keysSorted S.transitions := by
  obtain ⟨S, J, _, _, hcase⟩ := buildDFASymbol_shape G fuel p states states1 X h
  rcases hcase with ⟨_, e⟩ | ⟨_, states0, t, e, _, hst⟩
  · rw [e]; exact hs
  · rw [e]
    apply setTransition_keysSorted
    rcases hst with e0 | e0
    · rw [e0]; exact hs
    · rw [e0]
      intro S1 hS1
      rcases List.mem_append.1 hS1 with h1 | h1
      · exact hs S1 h1
      · simp only [List.mem_singleton] at h1
        rw [h1]
        exact List.Pairwise.nil

theorem buildDFAFold_keysSorted (G : GrammarAnalyzer) (fuel p : Nat) (syms : List String)
    (states states1 : List State) (hs : ∀ S ∈ states, keysSorted S.transitions)
    (h : syms.foldlM (buildDFASymbol G fuel p) states = some states1) :
    ∀ S ∈ states1, keysSorted S.transitions := by
  induction syms generalizing states with
  | nil =>
    simp at h
    subst h
    exact hs
  | cons X rest ih =>
    rw [List.foldlM_cons] at h
    cases hX : buildDFASymbol G fuel p states X with
    | none => simp [hX] at h
    | some states2 =>
      simp only [hX, Option.bind_eq_bind, Option.some_bind] at h
      exact ih states2 (buildDFASymbol_keysSorted G fuel p states states2 X hs hX) h

theorem buildDFALoop_keysSorted (G : GrammarAnalyzer) (fuel n p : Nat)
    (states states1 : List State) (hs : ∀ S ∈ states, keysSorted S.transitions)
    (h : buildDFALoop G fuel n p states = some states1) :
    ∀ S ∈ states1, keysSorted S.transitions := by
  induction n generalizing p states with
  | zero => cases h
  | succ n ih =>
    unfold buildDFALoop at h
    cases hS : states[p]? with
    | none =>
      simp only [hS, Option.some.injEq] at h
      subst h
      exact hs
    | some S =>
      simp only [hS] at h
      cases hn : nextSymbols G S.items [] with
      | none => simp [hn] at h
      | some syms =>
        simp only [hn] at h
        cases hf : syms.foldlM (buildDFASymbol G fuel p) states with
        | none => simp [hf] at h
        | some states2 =>
          simp only [hf] at h
          exact ih (p + 1) states2 (buildDFAFold_keysSorted G fuel p syms states states2 hs hf) h

/-- The transition maps `buildDFA` builds have increasing keys. -/
theorem buildDFA_keysSorted (G G1 : GrammarAnalyzer) (hs : G.states = []) (fuel : Nat)
    (h : buildDFA fuel G = some G1) : ∀ S ∈ G1.states, keysSorted S.transitions := by
  unfold buildDFA at h
  cases hc : closure G fuel [{ prodIndex := 0, dotPos := 0 }] with
  | none => simp [hc] at h
  | some startSet =>
    simp only [hc, hs, List.nil_append] at h
    cases hl : buildDFALoop G fuel fuel 0 [{ id := 0, items := startSet, transitions := [] }] with
    | none => simp [hl] at h
    | some states =>
      simp only [hl, Option.some.injEq] at h
      subst h
      apply buildDFALoop_keysSorted G fuel fuel 0 _ states ?_ hl
      intro S hS
      simp only [List.mem_singleton] at hS
      rw [hS]
      exact List.Pairwise.nil

/-- The states of a successful `build` are those `buildDFA` built. -/
theorem build_keysSorted (G0 G : GrammarAnalyzer) (fuel : Nat) (hstates : G0.states = [])
    (hat : G0.actionTable = []) (hgt : G0.gotoTable = [])
    (h : build fuel G0 = some (G, true)) : ∀ S ∈ G.states, keysSorted S.transitions := by
  unfold build at h
  cases h1 : computeFirst fuel G0 with
  | none => simp [h1] at h
  | some G1 =>
    simp only [h1] at h
    cases h2 : computeFollow fuel G1 with
    | none => simp [h2] at h
    | some G2 =>
      simp only [h2] at h
      cases h3 : buildDFA fuel G2 with
      | none => simp [h3] at h
      | some G3 =>
        simp only [h3] at h
        obtain ⟨_, a6, a7, a8⟩ := computeFirstLoop_outside fuel G0 G1 h1
        obtain ⟨_, _, _, _, b6, b7, b8⟩ := computeFollow_frame fuel G1 G2 h2
        have hs2 : G2.states = [] := by rw [b6, a6, hstates]
        obtain ⟨st, e3, _⟩ := buildDFA_canonical_aux G2 G3 hs2 fuel h3
        have hat3 : G3.actionTable = [] := by rw [e3]; simp only; rw [b7, a7, hat]
        have hgt3 : G3.gotoTable = [] := by rw [e3]; simp only; rw [b8, a8, hgt]
        obtain ⟨c1, _⟩ := buildSLRTable_spec G3 G hat3 hgt3 h
        rw [c1.2.1]
        exact buildDFA_keysSorted G2 G3 hs2 fuel h3

/-- C25. Every table entry is justified by a construction rule. When `build` on
a freshly loaded analyzer returns true, then in its tables: an entry
`ACTION[i][a]` exists only in the row of a state `S`, and it is a shift to `j`
only if `a` is a terminal and `S` has the transition on `a` to `j`, a reduction
by `p` only if `S` holds the completed item of production `p`, the left-hand
side of `p` is not the start symbol and `a` is in its Follow set, and Accept
only if `a` is `#` and `S` holds a completed item of a production whose
left-hand side is the start symbol; and `GOTO[i][A]` is `j` exactly when `A` is
no terminal and `S` has the transition on `A` to `j`. -/
theorem table_entries_justified (fuel : Nat) (lines : List String) (G : GrammarAnalyzer)
    (h : analyze fuel lines = some (G, true)) :
    (∀ (i : Nat) (a : String) (act : Action),
      mapFind a (mapGet i [] G.actionTable) = some act →
      ∃ S, G.states[i]? = some S ∧
        ((act.type = 's' ∧ G.isTerminal a = true ∧ mapFind a S.transitions = some act.val) ∨
         (act.type = 'r' ∧ ∃ prod, G.grammar[act.val]? = some prod ∧
            ({ prodIndex := act.val, dotPos := prod.rhs.length } : Item) ∈ S.items ∧
            prod.lhs ≠ G.startSymbol ∧ a ∈ followOf G prod.lhs) ∨
         (act.type = 'a' ∧ a = "#" ∧ ∃ item ∈ S.items, ∃ prod,
            G.grammar[item.prodIndex]? = some prod ∧ item.dotPos = prod.rhs.length ∧
            prod.lhs = G.startSymbol))) ∧
    (∀ (i : Nat) (A : String) (j : Nat), mapFind A (mapGet i [] G.gotoTable) = some j →
      ∃ S, G.states[i]? = some S) ∧
    (∀ (i : Nat) (S : State), G.states[i]? = some S → ∀ (A : String) (j : Nat),
      (mapFind A (mapGet i [] G.gotoTable) = some j ↔
        G.isTerminal A = false ∧ mapFind A S.transitions = some j)) := by
  obtain ⟨⟨_, _, hsound, hgs, hgc, _, _⟩, _⟩ := analyze_builtOK fuel lines G h
  have ht := loadLines_tables lines 0 GrammarAnalyzer.fresh
  have hsorted : ∀ S ∈ G.states, keysSorted S.transitions := by
    unfold analyze at h
    exact build_keysSorted (loadGrammar GrammarAnalyzer.fresh lines) G fuel ht.1 ht.2.1 ht.2.2 h
  refine ⟨?_, ?_, ?_⟩
  · intro i a act hact
    obtain ⟨S, hS, hc⟩ := hsound i a act hact
    refine ⟨S, hS, ?_⟩
    rcases hc with ⟨h1, h2, h3⟩ | h1 | h1
    · exact Or.inl ⟨h1, h2,
        mapFind_of_mem_sorted _ (hsorted S (List.getElem?_mem hS)) _ _ h3⟩
    · exact Or.inr (Or.inl h1)
    · exact Or.inr (Or.inr h1)
  · intro i A j hj
    obtain ⟨S, hS, _⟩ := hgs i A j hj
    exact ⟨S, hS⟩
  · intro i S hS A j
    have hsS := hsorted S (List.getElem?_mem hS)
    constructor
    · intro hj
      obtain ⟨S1, hS1, hmem, hnt⟩ := hgs i A j hj
      rw [hS] at hS1
      cases hS1
      exact ⟨hnt, mapFind_of_mem_sorted _ hsS _ _ hmem⟩
    · rintro ⟨hnt, hj⟩
      have hdef := hgc i S A j hS (mapFind_some_mem _ _ _ hj) hnt
      unfold gotoDefined at hdef
      obtain ⟨j1, hj1⟩ := Option.isSome_iff_exists.1 hdef
      obtain ⟨S1, hS1, hmem, _⟩ := hgs i A j1 hj1
      rw [hS] at hS1
      cases hS1
      have := mapFind_of_mem_sorted _ hsS _ _ hmem
      rw [hj] at this
      cases this
      exact hj1

theorem table_entries_justified_witness :
    (∃ S, (analyzerOf demoGrammar).states[7]? = some S ∧
      (({ type := 'r', val := 4 } : Action).type = 's' ∧
          (analyzerOf demoGrammar).isTerminal "#" = true ∧ mapFind "#" S.transitions = some 4 ∨
        (({ type := 'r', val := 4 } : Action).type = 'r' ∧
          ∃ prod, (analyzerOf demoGrammar).grammar[4]? = some prod ∧
            ({ prodIndex := 4, dotPos := prod.rhs.length } : Item) ∈ S.items ∧
            prod.lhs ≠ (analyzerOf demoGrammar).startSymbol ∧
            "#" ∈ followOf (analyzerOf demoGrammar) prod.lhs) ∨
        (({ type := 'r', val := 4 } : Action).type = 'a' ∧ "#" = "#" ∧
          ∃ item ∈ S.items, ∃ prod,
            (analyzerOf demoGrammar).grammar[item.prodIndex]? = some prod ∧
            item.dotPos = prod.rhs.length ∧
            prod.lhs = (analyzerOf demoGrammar).startSymbol))) ∧
    ∃ S0, (analyzerOf demoGrammar).states[0]? = some S0 ∧
      (mapFind "S" (mapGet 0 [] (analyzerOf demoGrammar).gotoTable) = some 1 ↔
        (analyzerOf demoGrammar).isTerminal "S" = false ∧ mapFind "S" S0.transitions = some 1) := by
  have H := table_entries_justified 100 demoGrammar (analyzerOf demoGrammar) (by decide)
  have h0 : ((analyzerOf demoGrammar).states[0]?).isSome = true := by decide
  obtain ⟨S0, hS0⟩ := Option.isSome_iff_exists.1 h0
  exact ⟨H.1 7 "#" { type := 'r', val := 4 } (by decide), S0, hS0, H.2.2 0 S0 hS0 "S" 1⟩

/-! ## computeFirst returns the least fixed point -/

theorem computeFirstStep_inv (G0 : GrammarAnalyzer) (st : GrammarAnalyzer × Bool) (p : Production)
    (hp : p ∈ G0.grammar) (h : firstInv G0 st.1) : firstInv G0 (computeFirstStep st p).1 := by
  obtain ⟨h1, h2, h3, h4⟩ := h
  obtain ⟨g1, g2, _, _⟩ := computeFirstStep_frame st p
  have hT : ∀ s, st.1.isTerminal s = G0.isTerminal s := by
    intro s; unfold GrammarAnalyzer.isTerminal; rw [h2]
  cases hr : p.rhs with
  | nil =>
    have a1 := computeFirstStep_nil st p hr
    refine ⟨g1.trans h1, g2.trans h2, ?_, ?_⟩
    · intro A a ha
      rw [(a1 A).1] at ha
      exact h3 A a ha
    · intro A
      rw [(a1 A).1]
      exact h4 A
  | cons Y rest =>
    have a1 := (computeFirstStep_cons st p Y rest hr).1
    refine ⟨g1.trans h1, g2.trans h2, ?_, ?_⟩
    · intro A a ha
      rw [a1 A] at ha
      by_cases hA : A = p.lhs
      · rw [if_pos hA] at ha
        have hsw : startsWith G0 A Y := ⟨p, hp, hA.symm, by rw [hr]; rfl⟩
        by_cases ht : st.1.isTerminal Y = true
        · rw [if_pos ht] at ha
          rcases (mem_setInsert _ _ _ _).1 ha with e | e
          · rw [e]
            exact ⟨by rw [← hT]; exact ht, [], by simp, hsw⟩
          · rw [← hA] at e
            exact h3 A a e
        · rw [if_neg ht] at ha
          rcases (mem_setInsertAll _ _ _ _).1 ha with e | e
          · obtain ⟨ta, rest1, hr1, hc⟩ := h3 Y a e
            refine ⟨ta, Y :: rest1, ?_, hsw, hc⟩
            intro X hX
            rcases List.mem_cons.1 hX with e1 | e1
            · rw [e1, ← hT]
              simpa using ht
            · exact hr1 X e1
          · rw [← hA] at e
            exact h3 A a e
      · rw [if_neg hA] at ha
        exact h3 A a ha
    · intro A
      rw [a1 A]
      by_cases hA : A = p.lhs
      · rw [if_pos hA]
        by_cases ht : st.1.isTerminal Y = true
        · rw [if_pos ht]
          exact sorted_setInsert strLt strLt_trans strLt_total _ _ (h4 _)
        · rw [if_neg ht]
          exact setInsertAll_sorted strLt strLt_trans strLt_total _ _ (h4 _)
      · rw [if_neg hA]
        exact h4 A

theorem computeFirstFold_inv (G0 : GrammarAnalyzer) (prods : List Production)
    (st : GrammarAnalyzer × Bool) (hp : ∀ p ∈ prods, p ∈ G0.grammar) (h : firstInv G0 st.1) :
    firstInv G0 (prods.foldl computeFirstStep st).1 := by
  induction prods generalizing st with
  | nil => exact h
  | cons p ps ih =>
    simp only [List.foldl_cons]
    exact ih _ (fun q hq => hp q (List.mem_cons_of_mem _ hq))
      (computeFirstStep_inv G0 st p (hp p (List.mem_cons_self _ _)) h)

/-- No step of `computeFirst` makes a First set smaller. -/
theorem computeFirstStep_length (st : GrammarAnalyzer × Bool) (p : Production) (A : String) :
    (firstOf st.1 A).length ≤ (firstOf (computeFirstStep st p).1 A).length := by
  cases hr : p.rhs with
  | nil => rw [((computeFirstStep_nil st p hr) A).1]
  | cons Y rest =>
    rw [(computeFirstStep_cons st p Y rest hr).1 A]
    by_cases hA : A = p.lhs
    · rw [if_pos hA, hA]
      by_cases ht : st.1.isTerminal Y = true
      · rw [if_pos ht]
        exact (setInsert_length strLt _ _).1
      · rw [if_neg ht]
        exact (setInsertAll_length strLt _ _).1
    · rw [if_neg hA]

/-- A step of `computeFirst` that raises the flag has made the First set of its
left-hand side larger. -/
theorem computeFirstStep_flag (st : GrammarAnalyzer × Bool) (p : Production)
    (hf : st.2 = false) (ht : (computeFirstStep st p).2 = true) :
    (firstOf st.1 p.lhs).length < (firstOf (computeFirstStep st p).1 p.lhs).length := by
  cases hr : p.rhs with
  | nil =>
    rw [((computeFirstStep_nil st p hr) "").2, hf] at ht
    cases ht
  | cons Y rest =>
    rw [(computeFirstStep_cons st p Y rest hr).2] at ht
    by_cases hlen : (firstOf (computeFirstStep st p).1 p.lhs).length >
        (firstOf st.1 p.lhs).length
    · exact hlen
    · rw [if_neg hlen, hf] at ht
      cases ht

theorem computeFirstFold_size (ps prods : List Production) (st : GrammarAnalyzer × Bool)
    (hsub : ∀ p ∈ prods, p ∈ ps) :
    firstSize ps st.1 ≤ firstSize ps (prods.foldl computeFirstStep st).1 ∧
      (st.2 = false → (prods.foldl computeFirstStep st).2 = true →
        firstSize ps st.1 < firstSize ps (prods.foldl computeFirstStep st).1) := by
  induction prods generalizing st with
  | nil =>
    refine ⟨le_refl _, fun h1 h2 => ?_⟩
    simp only [List.foldl_nil] at h2
    rw [h1] at h2
    cases h2
  | cons p rest ih =>
    simp only [List.foldl_cons]
    have ih1 := ih (computeFirstStep st p) (fun q hq => hsub q (List.mem_cons_of_mem _ hq))
    have hle : firstSize ps st.1 ≤ firstSize ps (computeFirstStep st p).1 :=
      List.sum_le_sum (fun q _ => computeFirstStep_length st p q.lhs)
    refine ⟨le_trans hle ih1.1, fun h1 h2 => ?_⟩
    cases hflag : (computeFirstStep st p).2 with
    | true =>
      have hlt : firstSize ps st.1 < firstSize ps (computeFirstStep st p).1 :=
        List.sum_lt_sum _ _ (fun q _ => computeFirstStep_length st p q.lhs)
          ⟨p, hsub p (List.mem_cons_self _ _), computeFirstStep_flag st p h1 hflag⟩
      exact lt_of_lt_of_le hlt ih1.1
    | false => exact lt_of_le_of_lt hle (ih1.2 hflag h2)

/-- While `computeFirst` runs, no First set holds more elements than there are
terminals. -/
theorem firstInv_size (G0 G : GrammarAnalyzer) (h : firstInv G0 G) :
    firstSize G0.grammar G ≤ G0.grammar.length * G0.terminals.length := by
  have hA : ∀ A, (firstOf G A).length ≤ G0.terminals.length := by
    intro A
    have hnd : (firstOf G A).Nodup := by
      refine List.Pairwise.imp ?_ (h.2.2.2 A)
      intro a b hab e
      rw [e, strLt_irrefl] at hab
      cases hab
    have hsub : firstOf G A ⊆ G0.terminals := by
      intro a ha
      have := (h.2.2.1 A a ha).1
      unfold GrammarAnalyzer.isTerminal at this
      simpa using this
    exact (List.subperm_of_subset hnd hsub).length_le
  unfold firstSize
  have := List.sum_le_card_nsmul (G0.grammar.map (fun p => (firstOf G p.lhs).length))
    G0.terminals.length (by
      intro x hx
      obtain ⟨p, _, e⟩ := List.mem_map.1 hx
      rw [← e]
      exact hA p.lhs)
  simpa using this

/-- The loop of `computeFirst` ends: every pass but the last enlarges a First
set, and the sets hold terminals only. -/
theorem computeFirstLoop_defined (G0 : GrammarAnalyzer) (fuel : Nat) (G : GrammarAnalyzer)
    (h : firstInv G0 G)
    (hf : G0.grammar.length * G0.terminals.length < firstSize G0.grammar G + fuel) :
    ∃ G1, computeFirstLoop fuel G = some G1 ∧ firstInv G0 G1 := by
  induction fuel generalizing G with
  | zero =>
    have := firstInv_size G0 G h
    omega
  | succ f ih =>
    unfold computeFirstLoop
    simp only
    have hinv : firstInv G0 (computeFirstPass G).1 := by
      unfold computeFirstPass
      exact computeFirstFold_inv G0 G.grammar (G, false) (by rw [h.1]; exact fun p hp => hp) h
    have hsz := computeFirstFold_size G0.grammar G.grammar (G, false)
      (by rw [h.1]; exact fun p hp => hp)
    by_cases hc : (computeFirstPass G).2 = true
    · rw [if_pos hc]
      have hlt := hsz.2 rfl hc
      have hlt1 : firstSize G0.grammar G < firstSize G0.grammar (computeFirstPass G).1 := hlt
      exact ih _ hinv (by omega)
    · rw [if_neg hc]
      exact ⟨_, rfl, hinv⟩

theorem firstClosedAt_congr (G H : GrammarAnalyzer) (h : sameFirst G H) (p : Production)
    (hc : firstClosedAt G p) : firstClosedAt H p := by
  intro Y hY
  obtain ⟨c1, c2⟩ := hc Y hY
  refine ⟨fun ht => ?_, fun ht a ha => ?_⟩
  · rw [← h.2.2.2]
    exact c1 (by rw [sameFirst_isTerminal h]; exact ht)
  · rw [← h.2.2.2] at ha
    rw [← h.2.2.2]
    exact c2 (by rw [sameFirst_isTerminal h]; exact ht) a ha

/-- After a pass of `computeFirst` that left the flag down the First sets
satisfy the rule for every production of the pass. -/
theorem computeFirstFold_closed (prods : List Production) (st : GrammarAnalyzer × Bool)
    (h : (prods.foldl computeFirstStep st).2 = false) :
    ∀ p ∈ prods, firstClosedAt (prods.foldl computeFirstStep st).1 p := by
  induction prods generalizing st with
  | nil => intro p hp; cases hp
  | cons q rest ih =>
    simp only [List.foldl_cons] at h ⊢
    intro p hp
    rcases List.mem_cons.1 hp with e | e
    · subst e
      have h1 := computeFirstFold_false rest _ h
      have h2 := computeFirstStep_false st p h1.1
      refine firstClosedAt_congr _ _ (sameFirst_symm h1.2) p ?_
      intro Y hY
      cases hr : p.rhs with
      | nil => rw [hr] at hY; cases hY
      | cons Y1 rest1 =>
        rw [hr] at hY
        simp only [List.head?_cons, Option.some.injEq] at hY
        subst hY
        have a1 := (computeFirstStep_cons st p Y1 rest1 hr).1
        rw [sameFirst_isTerminal h2.2]
        constructor
        · intro ht
          rw [a1 p.lhs, if_pos rfl, if_pos ht]
          exact (mem_setInsert _ _ _ _).2 (Or.inl rfl)
        · intro ht a ha
          rw [h2.2.2.2.2 Y1] at ha
          rw [a1 p.lhs, if_pos rfl, if_neg (by simp [ht])]
          exact (mem_setInsertAll _ _ _ _).2 (Or.inl ha)
    · exact ih _ h p e

/-- What `computeFirst` returns satisfies its rule for every production. -/
theorem computeFirstLoop_closed (fuel : Nat) (G G1 : GrammarAnalyzer)
    (h : computeFirstLoop fuel G = some G1) : ∀ p ∈ G1.grammar, firstClosedAt G1 p := by
  obtain ⟨G0, hG0⟩ := computeFirstLoop_last fuel G G1 h
  have hpass : (G0.grammar.foldl computeFirstStep (G0, false)).2 = false :=
    congrArg Prod.snd hG0
  have hG1 : (G0.grammar.foldl computeFirstStep (G0, false)).1 = G1 := congrArg Prod.fst hG0
  have hc := computeFirstFold_closed G0.grammar (G0, false) hpass
  rw [hG1] at hc
  have hg := (computeFirstFold_frame G0.grammar (G0, false)).1
  rw [hG1] at hg
  rw [hg]
  exact hc

/-- Sets that satisfy the rule of `computeFirst` hold every terminal the
leading-symbol rule gives. -/
theorem firstReach_closed (G0 G1 : GrammarAnalyzer) (hg : G1.grammar = G0.grammar)
    (ht : G1.terminals = G0.terminals) (hc : ∀ p ∈ G1.grammar, firstClosedAt G1 p)
    (A a : String) (h : firstReach G0 A a) : a ∈ firstOf G1 A := by
  have hT : ∀ s, G1.isTerminal s = G0.isTerminal s := by
    intro s; unfold GrammarAnalyzer.isTerminal; rw [ht]
  obtain ⟨hta, rest, hrest, hchain⟩ := h
  induction rest generalizing A with
  | nil =>
    obtain ⟨p, hp, hl, hh⟩ := hchain
    rw [← hl]
    exact ((hc p (by rw [hg]; exact hp)) a hh).1 (by rw [hT]; exact hta)
  | cons A1 rest1 ih =>
    obtain ⟨⟨p, hp, hl, hh⟩, hch1⟩ := hchain
    have h1 := ih A1 (fun X hX => hrest X (List.mem_cons_of_mem _ hX)) hch1
    rw [← hl]
    exact ((hc p (by rw [hg]; exact hp)) A1 hh).2
      (by rw [hT]; exact hrest A1 (List.mem_cons_self _ _)) a h1

theorem loadGrammar_firstInv (lines : List String) :
    firstInv (loadGrammar GrammarAnalyzer.fresh lines) (loadGrammar GrammarAnalyzer.fresh lines) := by
  have hfs : (loadGrammar GrammarAnalyzer.fresh lines).firstSets = [] :=
    (loadLines_followSets lines 0 GrammarAnalyzer.fresh).2
  have hfo : ∀ A, firstOf (loadGrammar GrammarAnalyzer.fresh lines) A = [] := by
    intro A
    unfold firstOf
    rw [hfs]
    rfl
  refine ⟨rfl, rfl, ?_, ?_⟩
  · intro A a ha
    rw [hfo] at ha
    cases ha
  · intro A
    rw [hfo]
    exact List.Pairwise.nil

/-- What `computeFirst` does on a loaded grammar: it returns, and a First set
holds exactly the terminals that the leading-symbol rule gives. -/
theorem computeFirst_spec (lines : List String) (fuel : Nat)
    (hfuel : firstBound (loadGrammar GrammarAnalyzer.fresh lines) ≤ fuel) :
    ∃ G1, computeFirst fuel (loadGrammar GrammarAnalyzer.fresh lines) = some G1 ∧
      sameOutside G1 (loadGrammar GrammarAnalyzer.fresh lines) ∧
      G1.grammar = (loadGrammar GrammarAnalyzer.fresh lines).grammar ∧
      G1.terminals = (loadGrammar GrammarAnalyzer.fresh lines).terminals ∧
      G1.startSymbol = (loadGrammar GrammarAnalyzer.fresh lines).startSymbol ∧
      G1.followSets = [] ∧
      firstSorted G1 ∧
      ∀ A a, a ∈ firstOf G1 A ↔ firstReach (loadGrammar GrammarAnalyzer.fresh lines) A a := by
  unfold firstBound at hfuel
  obtain ⟨G1, hG1, hinv⟩ := computeFirstLoop_defined (loadGrammar GrammarAnalyzer.fresh lines)
    fuel _ (loadGrammar_firstInv lines) (by omega)
  have hfr := computeFirstLoop_frame fuel _ G1 hG1
  refine ⟨G1, hG1, computeFirstLoop_outside fuel _ G1 hG1, hinv.1, hinv.2.1, hfr.2.2.1, ?_,
    hinv.2.2.2, fun A a => ⟨hinv.2.2.1 A a, ?_⟩⟩
  · rw [hfr.2.2.2]
    exact (loadLines_followSets lines 0 GrammarAnalyzer.fresh).1
  · exact firstReach_closed _ G1 hinv.1 hinv.2.1 (computeFirstLoop_closed fuel _ G1 hG1) A a

theorem loadGrammar_terminals (lines : List String) (s : String) :
    s ∈ (loadGrammar GrammarAnalyzer.fresh lines).terminals ↔
      s = "#" ∨ ((∃ p ∈ (loadGrammar GrammarAnalyzer.fresh lines).grammar, s ∈ p.rhs) ∧
        s ∉ (loadGrammar GrammarAnalyzer.fresh lines).nonTerminals) := by
  have hg : (loadGrammar GrammarAnalyzer.fresh lines).grammar =
      (loadLines lines 0 GrammarAnalyzer.fresh).grammar := rfl
  have hn : (loadGrammar GrammarAnalyzer.fresh lines).nonTerminals =
      (loadLines lines 0 GrammarAnalyzer.fresh).nonTerminals := rfl
  rw [hg, hn]
  simp only [loadGrammar, mem_setInsert, mem_foldl_collectTerminals, loadLines_terminals]
  simp [GrammarAnalyzer.fresh]

/-- Every symbol of a chain has a production. -/
theorem leadingChain_lhs (G : GrammarAnalyzer) (A : String) (rest : List String) (a : String)
    (h : leadingChain G A rest a) : ∀ X ∈ A :: rest, ∃ p ∈ G.grammar, p.lhs = X := by
  induction rest generalizing A with
  | nil =>
    intro X hX
    simp only [List.mem_singleton] at hX
    obtain ⟨p, hp, hl, _⟩ := h
    exact ⟨p, hp, by rw [hl, hX]⟩
  | cons A1 rest1 ih =>
    intro X hX
    obtain ⟨⟨p, hp, hl, _⟩, h1⟩ := h
    rcases List.mem_cons.1 hX with e | e
    · exact ⟨p, hp, by rw [hl, e]⟩
    · exact ih A1 h1 X e

/-- When `#` is no left-hand side, the rule of `computeFirst` and the rule in
the words of the specification give the same terminals. -/
theorem firstReach_iff_firstSpec (lines : List String)
    (hh : "#" ∉ (loadGrammar GrammarAnalyzer.fresh lines).nonTerminals) (A a : String) :
    firstReach (loadGrammar GrammarAnalyzer.fresh lines) A a ↔
      firstSpec (loadGrammar GrammarAnalyzer.fresh lines) A a := by
  constructor
  · rintro ⟨ha, rest, _, hc⟩
    refine ⟨by unfold GrammarAnalyzer.isTerminal at ha; simpa using ha, rest, ?_, hc⟩
    intro X hX
    exact (loadGrammar_nonTerminals lines X).2 (leadingChain_lhs _ A rest a hc X hX)
  · rintro ⟨ha, rest, hr, hc⟩
    refine ⟨by unfold GrammarAnalyzer.isTerminal; simpa using ha, rest, ?_, hc⟩
    intro X hX
    have hnt := hr X (List.mem_cons_of_mem _ hX)
    unfold GrammarAnalyzer.isTerminal
    simp only [decide_eq_false_iff_not]
    intro hterm
    rcases (loadGrammar_terminals lines X).1 hterm with e | e
    · rw [e] at hnt
      exact hh hnt
    · exact e.2 hnt

/-- C23 as stated fails when `#` is a left-hand side. In the grammar
`S' -> S`, `S -> #`, `# -> a` the symbols `S` and `#` are non-terminals, `S`
has a production that starts with `#`, `#` has a production that starts with
the terminal `a`, so the chain `S`, `#` puts `a` into First(S); `computeFirst`
returns First(S) = {`#`}, because it takes `#` for a terminal and never looks
at its productions. -/
theorem first_stops_at_end_marker :
    computeFirst 10 (loadGrammar GrammarAnalyzer.fresh hashGrammar) = some hashFirst ∧
      firstSpec (loadGrammar GrammarAnalyzer.fresh hashGrammar) "S" "a" ∧
      firstOf hashFirst "S" = ["#"] ∧ "a" ∉ firstOf hashFirst "S" := by
  refine ⟨by decide, ⟨by decide, ["#"], by decide, ?_, ?_⟩, by decide, by decide⟩
  · exact ⟨{ id := 1, lhs := "S", rhs := ["#"] }, by decide, rfl, rfl⟩
  · exact ⟨{ id := 2, lhs := "#", rhs := ["a"] }, by decide, rfl, rfl⟩

/-- C23, amended. On every loaded grammar `computeFirst` returns once the fuel
reaches `firstBound`, and then for every symbol `A` the set First(A) holds
exactly the terminals `a` that end a chain `A = A0, A1, …, An` in which each
`Ai` has a production whose right-hand side starts with `A(i+1)`, `An` has a
production whose right-hand side starts with `a`, and none of `A1, …, An` is a
terminal; every First set holds terminals only; and when `#` is no left-hand
side this is the chain of non-terminals of the specification. -/
theorem computeFirst_least (lines : List String) (fuel : Nat)
    (hfuel : firstBound (loadGrammar GrammarAnalyzer.fresh lines) ≤ fuel) :
    ∃ G1, computeFirst fuel (loadGrammar GrammarAnalyzer.fresh lines) = some G1 ∧
      (∀ A a, a ∈ firstOf G1 A ↔ firstReach (loadGrammar GrammarAnalyzer.fresh lines) A a) ∧
      (∀ A a, a ∈ firstOf G1 A → a ∈ G1.terminals) ∧
      ("#" ∉ (loadGrammar GrammarAnalyzer.fresh lines).nonTerminals →
        ∀ A a, a ∈ firstOf G1 A ↔ firstSpec (loadGrammar GrammarAnalyzer.fresh lines) A a) := by
  obtain ⟨G1, hG1, _, _, ht, _, _, _, hchar⟩ := computeFirst_spec lines fuel hfuel
  refine ⟨G1, hG1, hchar, ?_, ?_⟩
  · intro A a ha
    have := ((hchar A a).1 ha).1
    rw [ht]
    unfold GrammarAnalyzer.isTerminal at this
    simpa using this
  · intro hh A a
    rw [hchar, firstReach_iff_firstSpec lines hh]

theorem computeFirst_least_witness :
    firstBound (loadGrammar GrammarAnalyzer.fresh demoGrammar) ≤ 100 ∧
    ∃ G1, computeFirst 100 (loadGrammar GrammarAnalyzer.fresh demoGrammar) = some G1 ∧
      (∀ A a, a ∈ firstOf G1 A ↔ firstReach (loadGrammar GrammarAnalyzer.fresh demoGrammar) A a) ∧
      (∀ A a, a ∈ firstOf G1 A → a ∈ G1.terminals) ∧
      ("#" ∉ (loadGrammar GrammarAnalyzer.fresh demoGrammar).nonTerminals →
        ∀ A a, a ∈ firstOf G1 A ↔
          firstSpec (loadGrammar GrammarAnalyzer.fresh demoGrammar) A a) :=
  ⟨by decide, computeFirst_least demoGrammar 100 (by decide)⟩

/-! ## computeFollow returns the least family that satisfies its rules -/

/-- What the body of the inner loop of `computeFollow` puts into Follow(B) is
in every family that satisfies the rules. -/
theorem followTarget_min (G1 G : GrammarAnalyzer) (h : followInv G1 G) (p : Production)
    (hp : p ∈ G1.grammar) (pre : List String) (B : String) (rest : List String)
    (hr : p.rhs = pre ++ B :: rest) (hB : G.isTerminal B = false)
    (F : String → String → Prop) (hF : followRules G1 F) (a : String)
    (ha : a ∈ followTarget G p.lhs B rest) : F B a := by
  obtain ⟨hsf, _, hmin⟩ := h
  have hT : ∀ s, G.isTerminal s = G1.isTerminal s := sameFirst_isTerminal hsf
  obtain ⟨r1, r2, r3⟩ := hF.2 p hp pre B rest hr (by rw [← hT]; exact hB)
  unfold followTarget at ha
  cases rest with
  | nil =>
    simp only at ha
    rcases (mem_setInsertAll _ _ _ _).1 ha with e | e
    · exact r3 rfl a (hmin F hF _ a e)
    · exact hmin F hF _ a e
  | cons X rest1 =>
    simp only at ha
    by_cases hX : G.isTerminal X = true
    · rw [if_pos hX] at ha
      rcases (mem_setInsert _ _ _ _).1 ha with e | e
      · rw [e]
        exact r1 X rest1 rfl (by rw [← hT]; exact hX)
      · exact hmin F hF _ a e
    · rw [if_neg hX] at ha
      rcases (mem_setInsertAll _ _ _ _).1 ha with e | e
      · rw [hsf.2.2.2] at e
        exact r2 X rest1 rfl (by rw [← hT]; simpa using hX) a e
      · exact hmin F hF _ a e

theorem computeFollowRhs_inv (G1 : GrammarAnalyzer) (p : Production) (hp : p ∈ G1.grammar)
    (rhs pre : List String) (st : GrammarAnalyzer × Bool) (hr : p.rhs = pre ++ rhs)
    (h : followInv G1 st.1) : followInv G1 (computeFollowRhs p.lhs rhs st).1 := by
  induction rhs generalizing pre st with
  | nil => simpa [computeFollowRhs] using h
  | cons B rest ih =>
    have hr1 : p.rhs = (pre ++ [B]) ++ rest := by rw [hr]; simp
    by_cases hB : st.1.isTerminal B = true
    · rw [computeFollowRhs_terminal p.lhs B rest st hB]
      exact ih (pre ++ [B]) st hr1 h
    · have hB0 : st.1.isTerminal B = false := by simpa using hB
      obtain ⟨G2, e1, a1, a2, a3, a4, a5⟩ := computeFollowRhs_nonTerminal p.lhs B rest st hB0
      rw [e1]
      apply ih (pre ++ [B]) _ hr1
      show followInv G1 G2
      refine ⟨⟨a1.trans h.1.1, a2.trans h.1.2.1, a3.trans h.1.2.2.1,
        fun C => (a4 C).trans (h.1.2.2.2 C)⟩, ?_, ?_⟩
      · intro C
        rw [a5]
        by_cases hC : C = B
        · rw [if_pos hC]; exact followTarget_sorted _ _ _ _ (h.2.1 B)
        · rw [if_neg hC]; exact h.2.1 C
      · intro F hF C a ha
        rw [a5] at ha
        by_cases hC : C = B
        · rw [if_pos hC] at ha
          rw [hC]
          exact followTarget_min G1 st.1 h p hp pre B rest hr hB0 F hF a ha
        · rw [if_neg hC] at ha
          exact h.2.2 F hF C a ha

theorem computeFollowFold_inv (G1 : GrammarAnalyzer) (prods : List Production)
    (st : GrammarAnalyzer × Bool) (hp : ∀ p ∈ prods, p ∈ G1.grammar) (h : followInv G1 st.1) :
    followInv G1 (prods.foldl (fun st prod => computeFollowRhs prod.lhs prod.rhs st) st).1 := by
  induction prods generalizing st with
  | nil => exact h
  | cons p ps ih =>
    simp only [List.foldl_cons]
    exact ih _ (fun q hq => hp q (List.mem_cons_of_mem _ hq))
      (computeFollowRhs_inv G1 p (hp p (List.mem_cons_self _ _)) p.rhs [] st rfl h)

/-- The inner loop of `computeFollow` makes no Follow set smaller, and when it
raises the flag it has made one of them larger. -/
theorem computeFollowRhs_size (syms : List String) (A : String) (rhs : List String)
    (st : GrammarAnalyzer × Bool) (hsub : ∀ B ∈ rhs, B ∈ syms) :
    followSize syms st.1 ≤ followSize syms (computeFollowRhs A rhs st).1 ∧
      (st.2 = false → (computeFollowRhs A rhs st).2 = true →
        followSize syms st.1 < followSize syms (computeFollowRhs A rhs st).1) := by
  induction rhs generalizing st with
  | nil =>
    refine ⟨by simp [computeFollowRhs], fun h1 h2 => ?_⟩
    simp only [computeFollowRhs] at h2
    rw [h1] at h2
    cases h2
  | cons B rest ih =>
    have hsub1 : ∀ C ∈ rest, C ∈ syms := fun C hC => hsub C (List.mem_cons_of_mem _ hC)
    by_cases hB : st.1.isTerminal B = true
    · rw [computeFollowRhs_terminal A B rest st hB]
      exact ih st hsub1
    · have hB0 : st.1.isTerminal B = false := by simpa using hB
      obtain ⟨G2, e1, _, _, _, _, a5⟩ := computeFollowRhs_nonTerminal A B rest st hB0
      rw [e1]
      have ih1 := ih (G2, if (followTarget st.1 A B rest).length > (followOf st.1 B).length
        then true else st.2) hsub1
      have hlen : ∀ C, (followOf st.1 C).length ≤ (followOf G2 C).length := by
        intro C
        rw [a5]
        by_cases hC : C = B
        · rw [if_pos hC, hC]; exact (followTarget_length st.1 A B rest).1
        · rw [if_neg hC]
      have hle : followSize syms st.1 ≤ followSize syms G2 :=
        List.sum_le_sum (fun C _ => hlen C)
      refine ⟨le_trans hle ih1.1, fun h1 h2 => ?_⟩
      by_cases hgt : (followTarget st.1 A B rest).length > (followOf st.1 B).length
      · have hlt : followSize syms st.1 < followSize syms G2 :=
          List.sum_lt_sum _ _ (fun C _ => hlen C)
            ⟨B, hsub B (List.mem_cons_self _ _), by
              show (followOf st.1 B).length < (followOf G2 B).length
              rw [a5, if_pos rfl]; exact hgt⟩
        exact lt_of_lt_of_le hlt ih1.1
      · rw [if_neg hgt] at ih1 h2 ⊢
        exact lt_of_le_of_lt hle (ih1.2 h1 h2)

theorem computeFollowFold_size (syms : List String) (prods : List Production)
    (st : GrammarAnalyzer × Bool) (hsub : ∀ p ∈ prods, ∀ B ∈ p.rhs, B ∈ syms) :
    followSize syms st.1 ≤
        followSize syms (prods.foldl (fun st prod => computeFollowRhs prod.lhs prod.rhs st) st).1 ∧
      (st.2 = false →
        (prods.foldl (fun st prod => computeFollowRhs prod.lhs prod.rhs st) st).2 = true →
        followSize syms st.1 <
          followSize syms
            (prods.foldl (fun st prod => computeFollowRhs prod.lhs prod.rhs st) st).1) := by
  induction prods generalizing st with
  | nil =>
    refine ⟨le_refl _, fun h1 h2 => ?_⟩
    simp only [List.foldl_nil] at h2
    rw [h1] at h2
    cases h2
  | cons p rest ih =>
    simp only [List.foldl_cons]
    have ih1 := ih (computeFollowRhs p.lhs p.rhs st)
      (fun q hq => hsub q (List.mem_cons_of_mem _ hq))
    have h0 := computeFollowRhs_size syms p.lhs p.rhs st (hsub p (List.mem_cons_self _ _))
    refine ⟨le_trans h0.1 ih1.1, fun h1 h2 => ?_⟩
    cases hflag : (computeFollowRhs p.lhs p.rhs st).2 with
    | true => exact lt_of_lt_of_le (h0.2 h1 hflag) ih1.1
    | false => exact lt_of_le_of_lt h0.1 (ih1.2 hflag h2)

/-- While `computeFollow` runs, no Follow set holds more elements than there
are terminals. -/
theorem followInv_size (G1 G : GrammarAnalyzer) (h : followInv G1 G)
    (hterm : followRules G1 (fun _ a => a ∈ G1.terminals)) (syms : List String) :
    followSize syms G ≤ syms.length * G1.terminals.length := by
  have hA : ∀ A, (followOf G A).length ≤ G1.terminals.length := by
    intro A
    have hnd : (followOf G A).Nodup := by
      refine List.Pairwise.imp ?_ (h.2.1 A)
      intro a b hab e
      rw [e, strLt_irrefl] at hab
      cases hab
    have hsub : followOf G A ⊆ G1.terminals := fun a ha => h.2.2 _ hterm A a ha
    exact (List.subperm_of_subset hnd hsub).length_le
  unfold followSize
  have := List.sum_le_card_nsmul (syms.map (fun B => (followOf G B).length))
    G1.terminals.length (by
      intro x hx
      obtain ⟨B, _, e⟩ := List.mem_map.1 hx
      rw [← e]
      exact hA B)
  simpa using this

theorem mem_rhsSymbols (G : GrammarAnalyzer) (p : Production) (hp : p ∈ G.grammar) (B : String)
    (hB : B ∈ p.rhs) : B ∈ rhsSymbols G := by
  unfold rhsSymbols
  exact List.mem_flatten.2 ⟨p.rhs, List.mem_map.2 ⟨p, hp, rfl⟩, hB⟩

/-- The loop of `computeFollow` ends: every pass but the last enlarges a Follow
set, and the sets hold terminals only. -/
theorem computeFollowLoop_defined (G1 : GrammarAnalyzer)
    (hterm : followRules G1 (fun _ a => a ∈ G1.terminals)) (fuel : Nat) (G : GrammarAnalyzer)
    (h : followInv G1 G)
    (hf : (rhsSymbols G1).length * G1.terminals.length <
      followSize (rhsSymbols G1) G + fuel) :
    ∃ G2, computeFollowLoop fuel G = some G2 ∧ followInv G1 G2 := by
  induction fuel generalizing G with
  | zero =>
    have := followInv_size G1 G h hterm (rhsSymbols G1)
    omega
  | succ f ih =>
    unfold computeFollowLoop
    simp only
    have hinv : followInv G1 (computeFollowPass G).1 := by
      unfold computeFollowPass
      exact computeFollowFold_inv G1 G.grammar (G, false) (by rw [h.1.1]; exact fun p hp => hp) h
    have hsz := computeFollowFold_size (rhsSymbols G1) G.grammar (G, false)
      (by rw [h.1.1]; exact fun p hp B hB => mem_rhsSymbols G1 p hp B hB)
    by_cases hc : (computeFollowPass G).2 = true
    · rw [if_pos hc]
      have hlt : followSize (rhsSymbols G1) G <
          followSize (rhsSymbols G1) (computeFollowPass G).1 := hsz.2 rfl hc
      exact ih _ hinv (by omega)
    · rw [if_neg hc]
      exact ⟨_, rfl, hinv⟩

/-- After an inner loop of `computeFollow` that left the flag down, the set it
would assign at any position of the right-hand side is the set that is there. -/
theorem computeFollowRhs_closed (A : String) (rhs : List String) (st : GrammarAnalyzer × Bool)
    (h : (computeFollowRhs A rhs st).2 = false) :
    ∀ (pre : List String) (B : String) (rest : List String), rhs = pre ++ B :: rest →
      st.1.isTerminal B = false →
      followTarget st.1 A B rest = followOf st.1 B := by
  induction rhs generalizing st with
  | nil =>
    intro pre B rest e
    simp at e
  | cons B0 rest0 ih =>
    intro pre B rest e hB
    cases pre with
    | nil =>
      simp only [List.nil_append, List.cons.injEq] at e
      obtain ⟨e1, e2⟩ := e
      subst e1
      subst e2
      obtain ⟨G2, e3, _⟩ := computeFollowRhs_nonTerminal A B0 rest0 st hB
      rw [e3] at h
      have h1 := (computeFollowRhs_false A rest0 _ h).1
      have h2 : (if (followTarget st.1 A B0 rest0).length > (followOf st.1 B0).length then true
          else st.2) = false := h1
      by_cases hlen : (followTarget st.1 A B0 rest0).length > (followOf st.1 B0).length
      · rw [if_pos hlen] at h2; cases h2
      · exact (followTarget_length st.1 A B0 rest0).2 (by omega)
    | cons q pre1 =>
      simp only [List.cons_append, List.cons.injEq] at e
      obtain ⟨e1, e2⟩ := e
      subst e1
      by_cases hq : st.1.isTerminal B0 = true
      · rw [computeFollowRhs_terminal A B0 rest0 st hq] at h
        exact ih st h pre1 B rest e2 hB
      · have hq0 : st.1.isTerminal B0 = false := by simpa using hq
        obtain ⟨G2, e3, a1, a2, a3, a4, a5⟩ := computeFollowRhs_nonTerminal A B0 rest0 st hq0
        rw [e3] at h
        have h1 := computeFollowRhs_false A rest0 _ h
        have h2 : (if (followTarget st.1 A B0 rest0).length > (followOf st.1 B0).length then true
            else st.2) = false := h1.1
        have hsame : sameSets G2 st.1 := by
          by_cases hlen : (followTarget st.1 A B0 rest0).length > (followOf st.1 B0).length
          · rw [if_pos hlen] at h2; cases h2
          · refine ⟨a1, a2, a3, a4, ?_⟩
            intro C
            rw [a5]
            by_cases hC : C = B0
            · rw [if_pos hC, hC]
              exact (followTarget_length st.1 A B0 rest0).2 (by omega)
            · rw [if_neg hC]
        have := ih _ h pre1 B rest e2 (by
          show G2.isTerminal B = false
          rw [sameSets_isTerminal hsame]; exact hB)
        rw [followTarget_congr _ _ hsame, hsame.2.2.2.2] at this
        exact this

theorem computeFollowFold_closed (prods : List Production) (st : GrammarAnalyzer × Bool)
    (h : (prods.foldl (fun st prod => computeFollowRhs prod.lhs prod.rhs st) st).2 = false) :
    ∀ p ∈ prods, ∀ (pre : List String) (B : String) (rest : List String),
      p.rhs = pre ++ B :: rest → st.1.isTerminal B = false →
      followTarget st.1 p.lhs B rest = followOf st.1 B := by
  induction prods generalizing st with
  | nil => intro p hp; cases hp
  | cons q ps ih =>
    simp only [List.foldl_cons] at h
    intro p hp pre B rest e hB
    have h1 := computeFollowFold_false ps _ h
    rcases List.mem_cons.1 hp with e1 | e1
    · subst e1
      exact computeFollowRhs_closed p.lhs p.rhs st h1.1 pre B rest e hB
    · have h2 := computeFollowRhs_false q.lhs q.rhs st h1.1
      have := ih _ h p e1 pre B rest e (by rw [sameSets_isTerminal h2.2]; exact hB)
      rw [followTarget_congr _ _ h2.2, h2.2.2.2.2.2] at this
      exact this

/-- The rules hold of sets that no position of any production changes. -/
theorem followRules_of_closed (G : GrammarAnalyzer) (hstart : "#" ∈ followOf G G.startSymbol)
    (hc : ∀ p ∈ G.grammar, ∀ (pre : List String) (B : String) (rest : List String),
      p.rhs = pre ++ B :: rest → G.isTerminal B = false →
      followTarget G p.lhs B rest = followOf G B) :
    followRules G (fun B a => a ∈ followOf G B) := by
  refine ⟨hstart, ?_⟩
  intro p hp pre B rest e hB
  have ht := hc p hp pre B rest e hB
  refine ⟨?_, ?_, ?_⟩
  · intro X rest1 e1 hX
    rw [← ht, e1]
    unfold followTarget
    simp only [hX, if_true]
    exact (mem_setInsert _ _ _ _).2 (Or.inl rfl)
  · intro X rest1 e1 hX a ha
    show a ∈ followOf G B
    rw [← ht, e1]
    unfold followTarget
    simp only [hX, Bool.false_eq_true, if_false]
    exact (mem_setInsertAll _ _ _ _).2 (Or.inl ha)
  · intro e1 a ha
    show a ∈ followOf G B
    rw [← ht, e1]
    unfold followTarget
    exact (mem_setInsertAll _ _ _ _).2 (Or.inl ha)

theorem followRules_congr (G H : GrammarAnalyzer) (h : sameFirst G H)
    (F : String → String → Prop) (hF : followRules G F) : followRules H F := by
  refine ⟨by rw [← h.2.2.1]; exact hF.1, ?_⟩
  intro p hp pre B rest e hB
  obtain ⟨r1, r2, r3⟩ := hF.2 p (by rw [h.1]; exact hp) pre B rest e
    (by rw [sameFirst_isTerminal h]; exact hB)
  refine ⟨fun X rest1 e1 hX => r1 X rest1 e1 (by rw [sameFirst_isTerminal h]; exact hX),
    fun X rest1 e1 hX a ha => r2 X rest1 e1 (by rw [sameFirst_isTerminal h]; exact hX) a
      (by rw [h.2.2.2]; exact ha), r3⟩

/-- What `computeFirst` followed by `computeFollow` does on a loaded grammar:
both return, and the Follow sets satisfy the rules of `computeFollow` and lie
inside every family that satisfies them. -/
theorem computeFollow_spec (lines : List String) (fuel : Nat)
    (hfirst : firstBound (loadGrammar GrammarAnalyzer.fresh lines) ≤ fuel)
    (hfollow : followBound (loadGrammar GrammarAnalyzer.fresh lines) ≤ fuel) :
    ∃ G1 G2, computeFirst fuel (loadGrammar GrammarAnalyzer.fresh lines) = some G1 ∧
      computeFollow fuel G1 = some G2 ∧
      G2.grammar = (loadGrammar GrammarAnalyzer.fresh lines).grammar ∧
      G2.terminals = (loadGrammar GrammarAnalyzer.fresh lines).terminals ∧
      G2.nonTerminals = (loadGrammar GrammarAnalyzer.fresh lines).nonTerminals ∧
      sameFirst G2 G1 ∧
      followRules G2 (fun B a => a ∈ followOf G2 B) ∧
      (∀ F, followRules G2 F → ∀ B a, a ∈ followOf G2 B → F B a) ∧
      (∀ B a, a ∈ followOf G2 B → a ∈ G2.terminals) := by
  obtain ⟨G1, hG1, hout, hg, ht, hs, hfo, _, hchar⟩ := computeFirst_spec lines fuel hfirst
  have hfo0 : ∀ A, followOf G1 A = [] := by
    intro A
    unfold followOf
    rw [hfo]
    rfl
  -- the family of all terminals satisfies the rules
  have hterm : followRules G1 (fun _ a => a ∈ G1.terminals) := by
    refine ⟨?_, ?_⟩
    · show "#" ∈ G1.terminals
      rw [ht]
      exact (loadGrammar_terminals lines "#").2 (Or.inl rfl)
    · intro p _ pre B rest _ _
      refine ⟨?_, ?_, fun _ a ha => ha⟩
      · intro X _ _ hX
        unfold GrammarAnalyzer.isTerminal at hX
        simpa using hX
      · intro X _ _ _ a ha
        have := ((hchar X a).1 ha).1
        unfold GrammarAnalyzer.isTerminal at this
        rw [ht]
        simpa using this
  have hfoi : ∀ A, followOf { G1 with
      followSets := mapSet strLt G1.startSymbol
        (setInsert strLt "#"
          (mapGet G1.startSymbol [] (mapTouch strLt G1.startSymbol [] G1.followSets)))
        (mapTouch strLt G1.startSymbol [] G1.followSets) } A =
      if A = G1.startSymbol then ["#"] else [] := by
    intro A
    simp only [followOf, mapGet_mapSet, mapGet_mapTouch]
    have h1 := hfo0 G1.startSymbol
    have h2 := hfo0 A
    unfold followOf at h1 h2
    rw [h1, h2]
    rfl
  have hinit : followInv G1 { G1 with
      followSets := mapSet strLt G1.startSymbol
        (setInsert strLt "#"
          (mapGet G1.startSymbol [] (mapTouch strLt G1.startSymbol [] G1.followSets)))
        (mapTouch strLt G1.startSymbol [] G1.followSets) } := by
    refine ⟨⟨rfl, rfl, rfl, fun _ => rfl⟩, ?_, ?_⟩
    · intro A
      rw [hfoi]
      by_cases hA : A = G1.startSymbol
      · rw [if_pos hA]; exact List.pairwise_singleton _ _
      · rw [if_neg hA]; exact List.Pairwise.nil
    · intro F hF B a ha
      rw [hfoi] at ha
      by_cases hB : B = G1.startSymbol
      · rw [if_pos hB] at ha
        simp only [List.mem_singleton] at ha
        rw [ha, hB]
        exact hF.1
      · rw [if_neg hB] at ha
        cases ha
  have hbound : (rhsSymbols G1).length * G1.terminals.length < fuel := by
    unfold followBound at hfollow
    have : rhsSymbols G1 = rhsSymbols (loadGrammar GrammarAnalyzer.fresh lines) := by
      unfold rhsSymbols
      rw [hg]
    rw [this, ht]
    omega
  obtain ⟨G2, hG2, hinv⟩ := computeFollowLoop_defined G1 hterm fuel _ hinit (by omega)
  have hcf : computeFollow fuel G1 = some G2 := hG2
  obtain ⟨f1, f2, _, fo⟩ := computeFollow_frame fuel G1 G2 hcf
  obtain ⟨⟨G3, hG3⟩, _, hgrow⟩ := computeFollowLoop_last fuel _ G2 hG2 hinit.2.1
  have hpass : (G3.grammar.foldl (fun st prod => computeFollowRhs prod.lhs prod.rhs st)
      (G3, false)).2 = false := congrArg Prod.snd hG3
  have hres : (G3.grammar.foldl (fun st prod => computeFollowRhs prod.lhs prod.rhs st)
      (G3, false)).1 = G2 := congrArg Prod.fst hG3
  have hsame := (computeFollowFold_false G3.grammar (G3, false) hpass).2
  rw [hres] at hsame
  have hclosed := computeFollowFold_closed G3.grammar (G3, false) hpass
  have hrules : followRules G2 (fun B a => a ∈ followOf G2 B) := by
    apply followRules_of_closed
    · apply hgrow
      rw [hinv.1.2.2.1, hfoi, if_pos rfl]
      exact List.mem_singleton.2 rfl
    · intro p hp pre B rest e hB
      have := hclosed p (by rw [← hsame.1]; exact hp) pre B rest e
        (by show G3.isTerminal B = false; rw [← sameSets_isTerminal hsame]; exact hB)
      rw [followTarget_congr _ _ hsame, hsame.2.2.2.2]
      exact this
  refine ⟨G1, G2, hG1, hcf, f1.trans hg, f2.trans ht, fo.1.trans hout.1, hinv.1, hrules, ?_, ?_⟩
  · intro F hF
    exact hinv.2.2 F (followRules_congr G2 G1 hinv.1 F hF)
  · intro B a ha
    rw [f2]
    exact hinv.2.2 _ hterm B a ha

/-- When `#` is no left-hand side, the rules of `computeFollow` and the rules in
the words of the specification say the same of every family. -/
theorem followRules_iff_spec (lines : List String)
    (hh : "#" ∉ (loadGrammar GrammarAnalyzer.fresh lines).nonTerminals) (G2 : GrammarAnalyzer)
    (hg : G2.grammar = (loadGrammar GrammarAnalyzer.fresh lines).grammar)
    (ht : G2.terminals = (loadGrammar GrammarAnalyzer.fresh lines).terminals)
    (hn : G2.nonTerminals = (loadGrammar GrammarAnalyzer.fresh lines).nonTerminals)
    (F : String → String → Prop) : followRules G2 F ↔ followRulesSpec G2 F := by
  have h1 : ∀ X, X ∈ G2.nonTerminals → G2.isTerminal X = false := by
    intro X hX
    unfold GrammarAnalyzer.isTerminal
    simp only [decide_eq_false_iff_not]
    intro hterm
    rw [ht] at hterm
    rw [hn] at hX
    rcases (loadGrammar_terminals lines X).1 hterm with e | e
    · rw [e] at hX
      exact hh hX
    · exact e.2 hX
  have h2 : ∀ p ∈ G2.grammar, ∀ X ∈ p.rhs, G2.isTerminal X = false → X ∈ G2.nonTerminals := by
    intro p hp X hX hnt
    by_contra hc
    have : X ∈ G2.terminals := by
      rw [ht]
      exact (loadGrammar_terminals lines X).2
        (Or.inr ⟨⟨p, by rw [← hg]; exact hp, hX⟩, by rw [← hn]; exact hc⟩)
    unfold GrammarAnalyzer.isTerminal at hnt
    simp only [decide_eq_false_iff_not] at hnt
    exact hnt this
  have h3 : ∀ X, G2.isTerminal X = true ↔ X ∈ G2.terminals := by
    intro X
    unfold GrammarAnalyzer.isTerminal
    simp
  constructor
  · rintro ⟨hs, hr⟩
    refine ⟨hs, ?_⟩
    intro p hp pre B rest e hB
    obtain ⟨r1, r2, r3⟩ := hr p hp pre B rest e (h1 B hB)
    exact ⟨fun X rest1 e1 hX => r1 X rest1 e1 ((h3 X).2 hX),
      fun X rest1 e1 hX => r2 X rest1 e1 (h1 X hX), r3⟩
  · rintro ⟨hs, hr⟩
    refine ⟨hs, ?_⟩
    intro p hp pre B rest e hB
    obtain ⟨r1, r2, r3⟩ := hr p hp pre B rest e (h2 p hp B (by rw [e]; simp) hB)
    exact ⟨fun X rest1 e1 hX => r1 X rest1 e1 ((h3 X).1 hX),
      fun X rest1 e1 hX => r2 X rest1 e1 (h2 p hp X (by rw [e, e1]; simp) hX), r3⟩

/-- C24 as stated fails when `#` is a left-hand side. In the grammar
`S' -> S`, `S -> #`, `# -> a` the symbol `#` is a non-terminal and the last
symbol of `S -> #`, so the rules put Follow(S) = {`#`} inside Follow(`#`);
`computeFollow` skips the position, because it takes `#` for a terminal, and
leaves Follow(`#`) empty: its sets do not satisfy the rules as stated. -/
theorem follow_skips_end_marker :
    computeFollow 10 hashFirst = some hashFollow ∧
      "#" ∈ hashFollow.nonTerminals ∧
      followOf hashFollow "S" = ["#"] ∧ followOf hashFollow "#" = [] ∧
      ¬ followRulesSpec hashFollow (fun B a => a ∈ followOf hashFollow B) := by
  refine ⟨by decide, by decide, by decide, by decide, ?_⟩
  intro h
  have h1 := (h.2 { id := 1, lhs := "S", rhs := ["#"] } (by decide) [] "#" [] rfl
    (by decide)).2.2 rfl "#" (by decide)
  revert h1
  decide

/-- C24, amended. On every loaded grammar `computeFirst` and then
`computeFollow` return once the fuel reaches `firstBound` and `followBound`,
and the Follow sets are then the least family with `#` in Follow(start symbol)
and, for every production `A -> pre B rest` whose `B` is not a terminal: the
symbol right of `B` is in Follow(B) when it is a terminal, its First set is
inside Follow(B) when it is not a terminal, and Follow(A) is inside Follow(B)
when `B` is the last symbol. The sets satisfy these rules and lie inside every
family that satisfies them; every Follow set holds terminals only; and when
`#` is no left-hand side these are the rules of the specification, with `B`
and the symbol right of it ranging over the non-terminals. -/
theorem computeFollow_least (lines : List String) (fuel : Nat)
    (hfirst : firstBound (loadGrammar GrammarAnalyzer.fresh lines) ≤ fuel)
    (hfollow : followBound (loadGrammar GrammarAnalyzer.fresh lines) ≤ fuel) :
    ∃ G1 G2, computeFirst fuel (loadGrammar GrammarAnalyzer.fresh lines) = some G1 ∧
      computeFollow fuel G1 = some G2 ∧
      (∀ A, firstOf G2 A = firstOf G1 A) ∧
      followRules G2 (fun B a => a ∈ followOf G2 B) ∧
      (∀ F, followRules G2 F → ∀ B a, a ∈ followOf G2 B → F B a) ∧
      (∀ B a, a ∈ followOf G2 B → a ∈ G2.terminals) ∧
      ("#" ∉ (loadGrammar GrammarAnalyzer.fresh lines).nonTerminals →
        followRulesSpec G2 (fun B a => a ∈ followOf G2 B) ∧
        ∀ F, followRulesSpec G2 F → ∀ B a, a ∈ followOf G2 B → F B a) := by
  obtain ⟨G1, G2, hG1, hG2, hg, ht, hn, hsf, hrules, hmin, hterm⟩ :=
    computeFollow_spec lines fuel hfirst hfollow
  refine ⟨G1, G2, hG1, hG2, hsf.2.2.2, hrules, hmin, hterm, ?_⟩
  intro hh
  refine ⟨(followRules_iff_spec lines hh G2 hg ht hn _).1 hrules, ?_⟩
  intro F hF
  exact hmin F ((followRules_iff_spec lines hh G2 hg ht hn F).2 hF)

theorem computeFollow_least_witness :
    firstBound (loadGrammar GrammarAnalyzer.fresh demoGrammar) ≤ 400 ∧
    followBound (loadGrammar GrammarAnalyzer.fresh demoGrammar) ≤ 400 ∧
    ∃ G1 G2, computeFirst 400 (loadGrammar GrammarAnalyzer.fresh demoGrammar) = some G1 ∧
      computeFollow 400 G1 = some G2 ∧
      (∀ A, firstOf G2 A = firstOf G1 A) ∧
      followRules G2 (fun B a => a ∈ followOf G2 B) ∧
      (∀ F, followRules G2 F → ∀ B a, a ∈ followOf G2 B → F B a) ∧
      (∀ B a, a ∈ followOf G2 B → a ∈ G2.terminals) ∧
      ("#" ∉ (loadGrammar GrammarAnalyzer.fresh demoGrammar).nonTerminals →
        followRulesSpec G2 (fun B a => a ∈ followOf G2 B) ∧
        ∀ F, followRulesSpec G2 F → ∀ B a, a ∈ followOf G2 B → F B a) :=
  ⟨by decide, by decide, computeFollow_least demoGrammar 400 (by decide) (by decide)⟩

/-! ## A failed build is not rolled back -/

theorem tableShifts_conflict (i : Nat) (ts : List (String × Nat)) (G G1 : GrammarAnalyzer)
    (h : tableShifts i ts G = (G1, false)) :
    ∃ a act, mapFind a (mapGet i [] G1.actionTable) = some act := by
  induction ts generalizing G with
  | nil => cases h
  | cons tr rest ih =>
    obtain ⟨symbol, target⟩ := tr
    unfold tableShifts at h
    by_cases ht : G.isTerminal symbol = true
    · simp only [ht, if_true] at h
      cases hf : mapFind symbol (mapGet i [] (mapTouch natLt i [] G.actionTable)) with
      | some act =>
        simp only [hf, Prod.mk.injEq, and_true] at h
        subst h
        exact ⟨symbol, act, hf⟩
      | none =>
        simp only [hf] at h
        exact ih _ h
    · simp only [ht, Bool.false_eq_true, if_false] at h
      exact ih _ h

theorem tableReduce_conflict (i p : Nat) (fo : List String) (G G1 : GrammarAnalyzer)
    (h : tableReduce i p fo G = (G1, false)) :
    ∃ a act, mapFind a (mapGet i [] G1.actionTable) = some act := by
  induction fo generalizing G with
  | nil => cases h
  | cons a rest ih =>
    unfold tableReduce at h
    simp only at h
    cases hf : mapFind a (mapGet i [] (mapTouch natLt i [] G.actionTable)) with
    | none =>
      simp only [hf, Bool.false_eq_true, if_false] at h
      exact ih _ h
    | some act =>
      simp only [hf] at h
      by_cases hc : (if act.type = 's' then true
          else if act.type = 'r' ∧ act.val ≠ p then true else false) = true
      · rw [if_pos hc] at h
        simp only [Prod.mk.injEq, and_true] at h
        subst h
        exact ⟨a, act, hf⟩
      · rw [if_neg hc] at h
        exact ih _ h

theorem tableItems_conflict (i : Nat) (items : List Item) (G G1 : GrammarAnalyzer)
    (h : tableItems i items G = some (G1, false)) :
    ∃ a act, mapFind a (mapGet i [] G1.actionTable) = some act := by
  induction items generalizing G with
  | nil => cases h
  | cons item rest ih =>
    unfold tableItems at h
    cases hp : G.grammar[item.prodIndex]? with
    | none => simp [hp] at h
    | some prod =>
      simp only [hp] at h
      by_cases hd : item.dotPos = prod.rhs.length
      · simp only [hd, if_true] at h
        by_cases hl : prod.lhs = G.startSymbol
        · simp only [hl, if_true] at h
          exact ih _ h
        · simp only [hl, if_false] at h
          split at h
          · exact ih _ h
          · rename_i hr
            simp only [Option.some.injEq] at h
            exact tableReduce_conflict i item.prodIndex _ _ G1 h
      · simp only [hd, if_false] at h
        exact ih _ h

theorem tableStates_conflict (i : Nat) (sts : List State) (G G1 : GrammarAnalyzer)
    (h : tableStates i sts G = some (G1, false)) :
    ∃ j a act, mapFind a (mapGet j [] G1.actionTable) = some act := by
  induction sts generalizing i G with
  | nil => cases h
  | cons S rest ih =>
    unfold tableStates at h
    simp only at h
    split at h
    · cases hi : tableItems i S.items (tableShifts i S.transitions G).1 with
      | none => simp [hi] at h
      | some r1 =>
        simp only [hi] at h
        split at h
        · exact ih _ _ h
        · simp only [Option.some.injEq] at h
          subst h
          exact ⟨i, tableItems_conflict i S.items _ G1 hi⟩
    · simp only [Option.some.injEq] at h
      exact ⟨i, tableShifts_conflict i S.transitions G G1 h⟩

/-- A build that returns false leaves an ACTION entry behind: the one that the
refused write ran into. -/
theorem build_conflict (fuel : Nat) (G G1 : GrammarAnalyzer)
    (h : build fuel G = some (G1, false)) :
    ∃ j a act, mapFind a (mapGet j [] G1.actionTable) = some act := by
  unfold build at h
  cases h1 : computeFirst fuel G with
  | none => simp [h1] at h
  | some Ga =>
    simp only [h1] at h
    cases h2 : computeFollow fuel Ga with
    | none => simp [h2] at h
    | some Gb =>
      simp only [h2] at h
      cases h3 : buildDFA fuel Gb with
      | none => simp [h3] at h
      | some Gc =>
        simp only [h3] at h
        unfold buildSLRTable at h
        cases h4 : tableStates 0 Gc.states Gc with
        | none => simp [h4] at h
        | some r =>
          simp only [h4] at h
          split at h
          · simp at h
          · simp only [Option.some.injEq] at h
            subst h
            exact tableStates_conflict 0 Gc.states Gc G1 h4

/-- C6 amended: a failed build is not rolled back, it only keeps the table from
being used. Whenever `build` returns false on a freshly loaded analyzer, whose
ACTION table was empty, the ACTION table it leaves is not empty: it holds at
least the entry that the refused write ran into. And `main` ends there, with
the analyzer as `build` left it: no parser is constructed and no parse is
run. -/
theorem failed_build_not_rolled_back (fuel : Nat) (testfile : List String) (G : GrammarAnalyzer)
    (h : build fuel (loadGrammar GrammarAnalyzer.fresh testfile) = some (G, false)) :
    (loadGrammar GrammarAnalyzer.fresh testfile).actionTable = [] ∧
    (∃ j a act, mapFind a (mapGet j [] G.actionTable) = some act) ∧
    G.actionTable ≠ [] ∧
    main fuel testfile = some (MainResult.notSLR G) := by
  have hc := build_conflict fuel _ G h
  refine ⟨(loadLines_tables testfile 0 GrammarAnalyzer.fresh).2.1, hc, ?_, by simp [main, h]⟩
  intro he
  obtain ⟨j, a, act, hact⟩ := hc
  rw [he] at hact
  cases hact

theorem failed_build_not_rolled_back_witness :
    build 100 (loadGrammar GrammarAnalyzer.fresh ambiguousGrammar) =
      some ((build 100 (loadGrammar GrammarAnalyzer.fresh ambiguousGrammar)).getD
        (GrammarAnalyzer.fresh, true)) ∧
    ((build 100 (loadGrammar GrammarAnalyzer.fresh ambiguousGrammar)).getD
        (GrammarAnalyzer.fresh, true)).2 = false ∧
    ((build 100 (loadGrammar GrammarAnalyzer.fresh ambiguousGrammar)).getD
        (GrammarAnalyzer.fresh, true)).1.actionTable ≠ [] ∧
    main 100 ambiguousGrammar =
      some (MainResult.notSLR ((build 100 (loadGrammar GrammarAnalyzer.fresh ambiguousGrammar)).getD
        (GrammarAnalyzer.fresh, true)).1) := by
  have hb : build 100 (loadGrammar GrammarAnalyzer.fresh ambiguousGrammar) =
      some (((build 100 (loadGrammar GrammarAnalyzer.fresh ambiguousGrammar)).getD
        (GrammarAnalyzer.fresh, true)).1, false) := by
    decide
  have H := failed_build_not_rolled_back 100 ambiguousGrammar _ hb
  exact ⟨some_getD_of_isSome _ _ (by decide), by decide, H.2.2.1, H.2.2.2⟩

/-! ## The names one parser issues -/

theorem names_nodup (pre : String) (n k : Nat) :
    ((List.range k).map (fun i => pre ++ toString (n + i + 1))).Nodup := by
  apply List.Nodup.map_on _ (List.nodup_range k)
  intro i _ j _ h
  have := name_injective pre _ _ h
  omega

theorem callTemps_spec (k : Nat) (P : Parser) (h : P.tempCount + k ≤ 2147483647) :
    (callTemps k P).1 = (List.range k).map (fun i => "T" ++ toString (P.tempCount + i + 1)) ∧
    (callTemps k P).2.tempCount = P.tempCount + k ∧
    (callTemps k P).2.labelCount = P.labelCount := by
  induction k generalizing P with
  | zero => simp [callTemps]
  | succ k ih =>
    have e := newTemp_eq P (by omega)
    obtain ⟨h1, h2, h3⟩ := ih (P.newTemp).2 (by rw [e]; show P.tempCount + 1 + k ≤ _; omega)
    refine ⟨?_, ?_, ?_⟩
    · simp only [callTemps, h1, List.range_succ_eq_map, List.map_cons, List.map_map]
      rw [e]
      simp only [Nat.add_zero]
      congr 1
      apply List.map_congr_left
      intro i _
      simp only [Function.comp]
      congr 2
      omega
    · show (callTemps k (P.newTemp).2).2.tempCount = _
      rw [h2, e]
      show P.tempCount + 1 + k = _
      omega
    · show (callTemps k (P.newTemp).2).2.labelCount = _
      rw [h3, e]

theorem callLabels_spec (k : Nat) (P : Parser) (h : P.labelCount + k ≤ 2147483647) :
    (callLabels k P).1 = (List.range k).map (fun i => "L" ++ toString (P.labelCount + i + 1)) ∧
    (callLabels k P).2.labelCount = P.labelCount + k ∧
    (callLabels k P).2.tempCount = P.tempCount := by
  induction k generalizing P with
  | zero => simp [callLabels]
  | succ k ih =>
    have e := newLabel_eq P (by omega)
    obtain ⟨h1, h2, h3⟩ := ih (P.newLabel).2 (by rw [e]; show P.labelCount + 1 + k ≤ _; omega)
    refine ⟨?_, ?_, ?_⟩
    · simp only [callLabels, h1, List.range_succ_eq_map, List.map_cons, List.map_map]
      rw [e]
      simp only [Nat.add_zero]
      congr 1
      apply List.map_congr_left
      intro i _
      simp only [Function.comp]
      congr 2
      omega
    · show (callLabels k (P.newLabel).2).2.labelCount = _
      rw [h2, e]
      show P.labelCount + 1 + k = _
      omega
    · show (callLabels k (P.newLabel).2).2.tempCount = _
      rw [h3, e]

/-- The calls a semantic action makes: two of `newLabel`, one of `newTemp`, or
none; `semanticNames` lists what they return and the parser afterwards is the
parser after these calls. -/
theorem semanticAction_calls (P P1 : Parser) (prod : Production) (attrs : List Attribute)
    (a : Attribute) (h : semanticAction P prod attrs = some (a, P1)) :
    (semanticNames P prod = ([], [P.newLabel.1, P.newLabel.2.newLabel.1]) ∧
        P1 = P.newLabel.2.newLabel.2) ∨
      (semanticNames P prod = ([P.newTemp.1], []) ∧ P1 = P.newTemp.2) ∨
      (semanticNames P prod = ([], []) ∧ P1 = P) := by
  unfold semanticAction at h
  unfold semanticNames
  by_cases c1 : prod.rhs.length = 7 ∧ prod.rhs[0]? = some "while"
  · rw [if_pos c1] at h ⊢
    left
    split at h
    · simp only [Option.some.injEq, Prod.mk.injEq] at h
      exact ⟨rfl, h.2.symm⟩
    · cases h
  · rw [if_neg c1] at h ⊢
    by_cases c2 : prod.rhs.length = 3 ∧ prod.rhs[1]? = some "="
    · rw [if_pos c2] at h ⊢
      right; right
      split at h
      · simp only [Option.some.injEq, Prod.mk.injEq] at h
        exact ⟨rfl, h.2.symm⟩
      · cases h
    · rw [if_neg c2] at h ⊢
      by_cases c3 : prod.rhs.length = 3 ∧ prod.rhs[1]? = some ">"
      · rw [if_pos c3] at h ⊢
        right; left
        split at h
        · simp only [Option.some.injEq, Prod.mk.injEq] at h
          exact ⟨rfl, h.2.symm⟩
        · cases h
      · rw [if_neg c3] at h ⊢
        by_cases c4 : prod.rhs.length = 3 ∧ prod.rhs[1]? = some "<"
        · rw [if_pos c4] at h ⊢
          right; left
          split at h
          · simp only [Option.some.injEq, Prod.mk.injEq] at h
            exact ⟨rfl, h.2.symm⟩
          · cases h
        · rw [if_neg c4] at h ⊢
          by_cases c5 : prod.rhs.length = 3 ∧ prod.rhs[1]? = some "=="
          · rw [if_pos c5] at h ⊢
            right; left
            split at h
            · simp only [Option.some.injEq, Prod.mk.injEq] at h
              exact ⟨rfl, h.2.symm⟩
            · cases h
          · rw [if_neg c5] at h ⊢
            by_cases c6 : prod.rhs.length = 3 ∧ prod.rhs[1]? = some "+"
            · rw [if_pos c6] at h ⊢
              right; left
              split at h
              · simp only [Option.some.injEq, Prod.mk.injEq] at h
                exact ⟨rfl, h.2.symm⟩
              · cases h
            · rw [if_neg c6] at h ⊢
              right; right
              refine ⟨rfl, ?_⟩
              by_cases c7 : prod.rhs.length = 1 ∧ prod.rhs[0]? = some "id"
              · rw [if_pos c7] at h
                split at h
                · simp only [Option.some.injEq, Prod.mk.injEq] at h
                  exact h.2.symm
                · cases h
              · rw [if_neg c7] at h
                by_cases c8 : prod.rhs.length = 1 ∧ prod.rhs[0]? = some "num"
                · rw [if_pos c8] at h
                  split at h
                  · simp only [Option.some.injEq, Prod.mk.injEq] at h
                    exact h.2.symm
                  · cases h
                · rw [if_neg c8] at h
                  simp only [Option.some.injEq, Prod.mk.injEq] at h
                  exact h.2.symm

theorem issued_same (P P1 : Parser) (ht : P1.tempCount = P.tempCount)
    (hl : P1.labelCount = P.labelCount) : issued P P1 ([], []) := by
  constructor
  · intro _
    exact ⟨rfl, by simp [ht]⟩
  · intro _
    exact ⟨rfl, by simp [hl]⟩

theorem range_names_append (pre : String) (n a b : Nat) :
    (List.range (a + b)).map (fun i => pre ++ toString (n + i + 1)) =
      (List.range a).map (fun i => pre ++ toString (n + i + 1)) ++
        (List.range b).map (fun i => pre ++ toString (n + a + i + 1)) := by
  rw [List.range_add, List.map_append, List.map_map]
  congr 1
  apply List.map_congr_left
  intro i _
  simp only [Function.comp]
  congr 2
  omega

theorem issued_trans (P P1 P2 : Parser) (nm nm1 : List String × List String)
    (h : issued P P1 nm) (h1 : issued P1 P2 nm1) :
    issued P P2 (nm.1 ++ nm1.1, nm.2 ++ nm1.2) := by
  constructor
  · intro hb
    simp only [List.length_append] at hb ⊢
    obtain ⟨a1, a2⟩ := h.1 (by omega)
    obtain ⟨b1, b2⟩ := h1.1 (by rw [a2]; omega)
    refine ⟨?_, by rw [b2, a2]; omega⟩
    rw [range_names_append, ← a1, ← a2, ← b1]
  · intro hb
    simp only [List.length_append] at hb ⊢
    obtain ⟨a1, a2⟩ := h.2 (by omega)
    obtain ⟨b1, b2⟩ := h1.2 (by rw [a2]; omega)
    refine ⟨?_, by rw [b2, a2]; omega⟩
    rw [range_names_append, ← a1, ← a2, ← b1]

theorem issued_congr (P Q P1 : Parser) (nm : List String × List String)
    (ht : Q.tempCount = P.tempCount) (hl : Q.labelCount = P.labelCount) (h : issued Q P1 nm) :
    issued P P1 nm := by
  unfold issued at *
  rw [ht, hl] at h
  exact h

theorem semanticNames_congr (P Q : Parser) (prod : Production) (ht : Q.tempCount = P.tempCount)
    (hl : Q.labelCount = P.labelCount) : semanticNames Q prod = semanticNames P prod := by
  unfold semanticNames Parser.newTemp Parser.newLabel
  simp only [ht, hl]

/-- The names a semantic action issues are the next numerals of its counters. -/
theorem semanticAction_issued (P P1 : Parser) (prod : Production) (attrs : List Attribute)
    (a : Attribute) (h : semanticAction P prod attrs = some (a, P1)) :
    issued P P1 (semanticNames P prod) := by
  rcases semanticAction_calls P P1 prod attrs a h with ⟨e, rfl⟩ | ⟨e, rfl⟩ | ⟨e, rfl⟩
  · rw [e]
    refine ⟨fun _ => ⟨rfl, rfl⟩, fun hb => ?_⟩
    simp only [List.length_cons, List.length_nil] at hb ⊢
    have e1 := newLabel_eq P (by omega)
    have e2 : ({ P with labelCount := P.labelCount + 1 } : Parser).newLabel =
        ("L" ++ toString (P.labelCount + 2), { P with labelCount := P.labelCount + 2 }) :=
      newLabel_eq { P with labelCount := P.labelCount + 1 } (by show P.labelCount + 1 < _; omega)
    rw [e1]
    simp only
    rw [e2]
    exact ⟨by simp [List.range_succ], rfl⟩
  · rw [e]
    refine ⟨fun hb => ?_, fun _ => ⟨rfl, rfl⟩⟩
    simp only [List.length_cons, List.length_nil] at hb ⊢
    rw [newTemp_eq P (by omega)]
    exact ⟨by simp [List.range_succ], rfl⟩
  · rw [e]
    exact issued_same _ _ rfl rfl

/-- The names one iteration of the driver loop issues are the next numerals of
the counters; an iteration that ends the parse issues none. -/
theorem parseStep_issued (tokens : List Token) (P : Parser) (cfg : Config) (st : Step)
    (h : parseStep tokens P cfg = some st) :
    (∀ P1 cfg1, st = Step.next P1 cfg1 → issued P P1 (stepNames tokens P cfg)) ∧
    (∀ P1 r, st = Step.done P1 r →
      P1.tempCount = P.tempCount ∧ P1.labelCount = P.labelCount) := by
  obtain ⟨s, rest, tok, hs, htok, hc⟩ := parseStep_cases tokens P cfg st h
  rcases hc with ⟨_, rfl⟩ | ⟨act, hact, hty, rfl⟩ |
    ⟨act, prod, t, below, r, hact, hty, hprod, _, _, hsem, rfl⟩ | ⟨act, res, under, _, _, _, rfl⟩
  · refine ⟨fun P1 cfg1 e => (by cases e), fun P1 r e => ?_⟩
    cases e
    exact ⟨rfl, rfl⟩
  · refine ⟨fun P1 cfg1 e => ?_, fun P1 r e => (by cases e)⟩
    cases e
    have hn : stepNames tokens P cfg = ([], []) := by
      unfold stepNames reducedProduction
      rw [hs, htok]
      simp only [hact, hty]
      have : ¬ (('s' : Char) = 'r') := by decide
      simp [this]
    rw [hn]
    exact issued_same _ _ rfl rfl
  · refine ⟨fun P1 cfg1 e => ?_, fun P1 r e => (by cases e)⟩
    cases e
    have hn : stepNames tokens P cfg = semanticNames P prod := by
      unfold stepNames reducedProduction
      rw [hs, htok]
      simp only [hact, hty, if_true, hprod]
    rw [hn]
    have := semanticAction_issued _ r.2 prod _ r.1 hsem
    rw [semanticNames_congr P ((P.touchAction s).touchGoto t prod.lhs) prod rfl rfl] at this
    exact issued_congr P _ r.2 _ rfl rfl this
  · refine ⟨fun P1 cfg1 e => (by cases e), fun P1 r e => ?_⟩
    cases e
    exact ⟨rfl, rfl⟩

theorem parseLoop_issued (tokens : List Token) (fuel : Nat) (P P1 : Parser) (cfg : Config)
    (r : ParseResult) (h : parseLoop tokens fuel P cfg = some (P1, r)) :
    issued P P1 (parseNames tokens fuel P cfg) := by
  induction fuel generalizing P cfg with
  | zero => cases h
  | succ fuel ih =>
    unfold parseLoop at h
    unfold parseNames
    cases hs : parseStep tokens P cfg with
    | none => simp [hs] at h
    | some st =>
      have hst := parseStep_issued tokens P cfg st hs
      cases st with
      | done P2 r2 =>
        simp only [hs, Option.some.injEq, Prod.mk.injEq] at h
        obtain ⟨e, _⟩ := h
        subst e
        obtain ⟨c1, c2⟩ := hst.2 P2 r2 rfl
        exact issued_same P P2 c1 c2
      | next P2 cfg2 =>
        simp only [hs] at h
        exact issued_trans P P2 P1 _ _ (hst.1 P2 cfg2 rfl) (ih P2 cfg2 h)

theorem parseMany_issued (fuel : Nat) (inputs : List String) (P P1 : Parser)
    (temps labels : List String) (h : parseMany fuel inputs P = some (P1, temps, labels)) :
    issued P P1 (temps, labels) := by
  induction inputs generalizing P temps labels with
  | nil =>
    simp only [parseMany, Option.some.injEq, Prod.mk.injEq] at h
    obtain ⟨e1, e2, e3⟩ := h
    subst e1 e2 e3
    exact issued_same P P rfl rfl
  | cons input rest ih =>
    unfold parseMany at h
    cases ht : tokenize input with
    | none => simp [ht] at h
    | some tokens =>
      simp only [ht] at h
      cases hp : parseLoop tokens fuel P Config.initial with
      | none => simp [hp] at h
      | some pr =>
        obtain ⟨P2, r⟩ := pr
        simp only [hp] at h
        cases hm : parseMany fuel rest P2 with
        | none => simp [hm] at h
        | some res =>
          obtain ⟨P3, temps1, labels1⟩ := res
          simp only [hm, Option.some.injEq, Prod.mk.injEq] at h
          obtain ⟨e1, e2, e3⟩ := h
          subst e1 e2 e3
          exact issued_trans P P2 P3 _ (temps1, labels1)
            (parseLoop_issued tokens fuel P P2 Config.initial r hp) (ih P2 temps1 labels1 hm)

/-- C12. The names one parser issues never repeat, as long as its `int`
counters do not overflow. When successive calls of `parse` on one parser `P`
return and issue the temporaries `temps` and the labels `labels`, and the
counters stay within `INT_MAX`, then the temporaries are, in order, T(n+1),
T(n+2), … for the temporary counter `n` of `P`, the labels are L(m+1), L(m+2),
… for its label counter `m`, the counters afterwards are `n` and `m` plus the
number of names issued (no call of `parse` resets them), and the temporaries
are pairwise distinct and so are the labels, within one parse and across the
parses. On a fresh parser, `k` calls of `newTemp` in a row return T1 .. Tk and
`k` calls of `newLabel` return L1 .. Lk, for every `k` up to `INT_MAX`. -/
theorem name_counters (fuel : Nat) (inputs : List String) (P P1 : Parser)
    (temps labels : List String) (h : parseMany fuel inputs P = some (P1, temps, labels))
    (ht : P.tempCount + temps.length ≤ 2147483647)
    (hl : P.labelCount + labels.length ≤ 2147483647) :
    temps = (List.range temps.length).map (fun i => "T" ++ toString (P.tempCount + i + 1)) ∧
    labels = (List.range labels.length).map (fun i => "L" ++ toString (P.labelCount + i + 1)) ∧
    P1.tempCount = P.tempCount + temps.length ∧
    P1.labelCount = P.labelCount + labels.length ∧
    temps.Nodup ∧ labels.Nodup ∧
    (∀ (G : GrammarAnalyzer) (k : Nat), k ≤ 2147483647 →
      (callTemps k (Parser.new G)).1 = (List.range k).map (fun i => "T" ++ toString (i + 1)) ∧
      (callLabels k (Parser.new G)).1 = (List.range k).map (fun i => "L" ++ toString (i + 1))) := by
  obtain ⟨a, b⟩ := parseMany_issued fuel inputs P P1 temps labels h
  obtain ⟨a1, a2⟩ : temps = (List.range temps.length).map
      (fun i => "T" ++ toString (P.tempCount + i + 1)) ∧
      P1.tempCount = P.tempCount + temps.length := a ht
  obtain ⟨b1, b2⟩ : labels = (List.range labels.length).map
      (fun i => "L" ++ toString (P.labelCount + i + 1)) ∧
      P1.labelCount = P.labelCount + labels.length := b hl
  refine ⟨a1, b1, a2, b2, ?_, ?_, ?_⟩
  · rw [a1]
    exact names_nodup "T" _ _
  · rw [b1]
    exact names_nodup "L" _ _
  · intro G k hk
    constructor
    · rw [(callTemps_spec k (Parser.new G) (by show 0 + k ≤ _; omega)).1]
      simp [Parser.new]
    · rw [(callLabels_spec k (Parser.new G) (by show 0 + k ≤ _; omega)).1]
      simp [Parser.new]

theorem name_counters_witness :
    parseMany 100 [srcLine, nestedSrc] (Parser.new (analyzerOf demoGrammar)) = some twoParses ∧
    twoParses.2.1 = ["T1", "T2", "T3"] ∧
    twoParses.2.2 = ["L1", "L2", "L3", "L4", "L5", "L6"] ∧
    twoParses.1.tempCount = 3 ∧ twoParses.1.labelCount = 6 ∧
    twoParses.2.1.Nodup ∧ twoParses.2.2.Nodup := by
  have h : parseMany 100 [srcLine, nestedSrc] (Parser.new (analyzerOf demoGrammar)) =
      some twoParses := some_getD_of_isSome _ _ (by decide)
  have e1 : twoParses.2.1 = ["T1", "T2", "T3"] := by decide
  have e2 : twoParses.2.2 = ["L1", "L2", "L3", "L4", "L5", "L6"] := by decide
  have H := name_counters 100 [srcLine, nestedSrc] (Parser.new (analyzerOf demoGrammar))
    twoParses.1 twoParses.2.1 twoParses.2.2 h (by rw [e1]; decide) (by rw [e2]; decide)
  refine ⟨h, e1, e2, ?_, ?_, H.2.2.2.2.1, H.2.2.2.2.2.1⟩
  · rw [H.2.2.1, e1]
    rfl
  · rw [H.2.2.2.1, e2]
    rfl

/-! ## The demonstration grammar, end to end -/

/-- C1: for the five-production grammar `build` on a fresh analyzer returns
true, and a fresh parser on `while ( a > b ) { x = y }` reaches Accept with
exactly the six quadruples (label,-,-,L1), (>,a,b,T1), (jfalse,T1,-,L2),
(=,y,-,x), (jump,-,-,L1), (label,-,-,L2) as the code of the result. Fuel 100
lets every loop run to its end, and so does any larger fuel. -/
theorem demo_end_to_end (fuel : Nat) (hfuel : 100 ≤ fuel) :
    (analyze fuel demoGrammar).map Prod.snd = some true ∧
    (translate fuel demoGrammar "while ( a > b ) \x7b x = y \x7d").map Prod.snd =
      some (ParseResult.accept { place := "", code := demoQuads }
        { stateStack := [1, 0], symbolStack := [{ place := "", code := demoQuads }], ip := 11 }) ∧
    demoQuads.map (fun q => [q.op, q.arg1, q.arg2, q.result]) =
      [["label", "-", "-", "L1"], [">", "a", "b", "T1"], ["jfalse", "T1", "-", "L2"],
       ["=", "y", "-", "x"], ["jump", "-", "-", "L1"], ["label", "-", "-", "L2"]] := by
  refine ⟨?_, ?_, by decide⟩
  · exact option_map_stable (fun f => analyze f demoGrammar)
      (fun f f1 r hle h => analyze_mono f f1 demoGrammar r hle h) Prod.snd true 100
      (by decide) fuel hfuel
  · exact option_map_stable
      (fun f => translate f demoGrammar "while ( a > b ) \x7b x = y \x7d")
      (fun f f1 r hle h => translate_mono f f1 demoGrammar _ r hle h) Prod.snd _ 100
      (by decide) fuel hfuel

theorem demo_end_to_end_witness :
    (analyze 100 demoGrammar).map Prod.snd = some true ∧
    (translate 100 demoGrammar "while ( a > b ) \x7b x = y \x7d").map Prod.snd =
      some (ParseResult.accept { place := "", code := demoQuads }
        { stateStack := [1, 0], symbolStack := [{ place := "", code := demoQuads }], ip := 11 }) :=
  ⟨(demo_end_to_end 100 (Nat.le_refl 100)).1, (demo_end_to_end 100 (Nat.le_refl 100)).2.1⟩

/-- C2: on `while a > b ) { x = y }` the parse ends in a parse error and not in
Accept; the token pointer is at token 1, the identifier `a`, whose value is the
one reported; the state stack is `[3, 0]` where 3 is the target of the shift of
`while` from state 0, and row 3 of ACTION has the single entry on `(`. Fuel
100 lets every loop run to its end, and so does any larger fuel. -/
theorem demo_missing_paren (fuel : Nat) (hfuel : 100 ≤ fuel) :
    (translate fuel demoGrammar "while a > b ) \x7b x = y \x7d").map Prod.snd =
      some (ParseResult.error "a"
        { stateStack := [3, 0], symbolStack := [{ place := "while", code := [] }], ip := 1 }) ∧
    (tokenize "while a > b ) \x7b x = y \x7d").map (fun tokens => tokens[1]?) =
      some (some { type := "id", value := "a" }) ∧
    (analyze fuel demoGrammar).map (fun r => mapFind "while" (mapGet 0 [] r.1.actionTable)) =
      some (some { type := 's', val := 3 }) ∧
    (analyze fuel demoGrammar).map (fun r => mapFind 3 r.1.actionTable) =
      some (some [("(", { type := 's', val := 5 })]) := by
  refine ⟨?_, by decide, ?_, ?_⟩
  · exact option_map_stable
      (fun f => translate f demoGrammar "while a > b ) \x7b x = y \x7d")
      (fun f f1 r hle h => translate_mono f f1 demoGrammar _ r hle h) Prod.snd _ 100
      (by decide) fuel hfuel
  · exact option_map_stable (fun f => analyze f demoGrammar)
      (fun f f1 r hle h => analyze_mono f f1 demoGrammar r hle h)
      (fun r => mapFind "while" (mapGet 0 [] r.1.actionTable)) _ 100 (by decide) fuel hfuel
  · exact option_map_stable (fun f => analyze f demoGrammar)
      (fun f f1 r hle h => analyze_mono f f1 demoGrammar r hle h)
      (fun r => mapFind 3 r.1.actionTable) _ 100 (by decide) fuel hfuel

theorem demo_missing_paren_witness :
    (translate 100 demoGrammar "while a > b ) \x7b x = y \x7d").map Prod.snd =
      some (ParseResult.error "a"
        { stateStack := [3, 0], symbolStack := [{ place := "while", code := [] }], ip := 1 }) :=
  (demo_missing_paren 100 (Nat.le_refl 100)).1

/-! ## Accept entries are written without a conflict check -/

/-- C3: for `S' -> S; S -> A; A -> S` the build returns true although state 2,
whose items are `S' -> S .` and `A -> S .`, asks on `#` both for the reduction
by production 2 and for Accept; the table keeps only the reduction. -/
theorem accept_overwritten_by_reduce :
    (analyze 100 acceptReduceGrammar).map Prod.snd = some true ∧
    (analyze 100 acceptReduceGrammar).map (fun r => r.1.states[2]?.map State.items) =
      some (some [{ prodIndex := 0, dotPos := 1 }, { prodIndex := 2, dotPos := 1 }]) ∧
    (analyze 100 acceptReduceGrammar).map
        (fun r => r.1.states[2]?.map (fun S => requiredActions r.1 S "#")) =
      some (some [{ type := 'r', val := 2 }, { type := 'a', val := 0 }]) ∧
    (analyze 100 acceptReduceGrammar).map (fun r => mapFind "#" (mapGet 2 [] r.1.actionTable)) =
      some (some { type := 'r', val := 2 }) := by
  decide

/-- C4: for `S' -> S; S -> A; A -> S; A -> S # x` the build returns true
although state 2 has a transition on the terminal `#` and holds the completed
item of `A -> S` with `#` in Follow(A): the Accept written for `S' -> S .`
replaced the shift before the reduction was entered. -/
theorem shift_reduce_hidden_by_accept :
    (analyze 100 acceptShiftGrammar).map Prod.snd = some true ∧
    (analyze 100 acceptShiftGrammar).map (fun r => r.1.isTerminal "#") = some true ∧
    (analyze 100 acceptShiftGrammar).map (fun r => mapGet "A" [] r.1.followSets) = some ["#"] ∧
    (analyze 100 acceptShiftGrammar).map (fun r => r.1.states[2]?.map State.transitions) =
      some (some [("#", 3)]) ∧
    (analyze 100 acceptShiftGrammar).map (fun r => r.1.states[2]?.map State.items) =
      some (some [{ prodIndex := 0, dotPos := 1 }, { prodIndex := 2, dotPos := 1 },
        { prodIndex := 3, dotPos := 1 }]) ∧
    (analyze 100 acceptShiftGrammar).map
        (fun r => r.1.states[2]?.map (fun S => requiredActions r.1 S "#")) =
      some (some [{ type := 's', val := 3 }, { type := 'r', val := 2 }, { type := 'a', val := 0 }]) ∧
    (analyze 100 acceptShiftGrammar).map (fun r => mapFind "#" (mapGet 2 [] r.1.actionTable)) =
      some (some { type := 'r', val := 2 }) := by
  decide

/-- C5: for `Z -> S; A -> a; Z -> a; B -> a; S -> A; S -> B; S -> Z` the build
returns true although state 5 holds the completed items of `A -> a` and
`B -> a` with `#` in Follow(A) and in Follow(B): the Accept written for
`Z -> a .` between them replaced the first reduction. -/
theorem reduce_reduce_hidden_by_accept :
    (analyze 100 acceptBetweenGrammar).map Prod.snd = some true ∧
    (analyze 100 acceptBetweenGrammar).map (fun r => r.1.startSymbol) = some "Z" ∧
    (analyze 100 acceptBetweenGrammar).map (fun r => mapGet "A" [] r.1.followSets) = some ["#"] ∧
    (analyze 100 acceptBetweenGrammar).map (fun r => mapGet "B" [] r.1.followSets) = some ["#"] ∧
    (analyze 100 acceptBetweenGrammar).map (fun r => r.1.states[5]?.map State.items) =
      some (some [{ prodIndex := 1, dotPos := 1 }, { prodIndex := 2, dotPos := 1 },
        { prodIndex := 3, dotPos := 1 }]) ∧
    (analyze 100 acceptBetweenGrammar).map
        (fun r => r.1.states[5]?.map (fun S => requiredActions r.1 S "#")) =
      some (some [{ type := 'r', val := 1 }, { type := 'r', val := 3 }, { type := 'a', val := 0 }]) ∧
    (analyze 100 acceptBetweenGrammar).map (fun r => mapFind "#" (mapGet 5 [] r.1.actionTable)) =
      some (some { type := 'r', val := 3 }) := by
  decide

end SLR
